import Mathlib

/-!
# Symbol-model extraction of `src/worker.js`

A shallow embedding of the include resolver (`getPathInfo`), the content cache
(`getContent`) and the declaration scanner (`getDocs`) of `src/worker.js`,
followed by the properties established about them.

JavaScript strings are modelled as lists of characters.  Objects that the
scanner mutates in place (declaration records and tag arrays) live in explicit
heaps and are addressed by reference, so that aliasing in the source is kept.
-/

namespace RPGLE

/-! ## JavaScript string primitives -/

/-- A JavaScript string, as the list of its characters. -/
abbrev Str := List Char

/-- Characters removed by `String.prototype.trim`: the ECMAScript `WhiteSpace`
and `LineTerminator` code points. -/
def isWhiteSpace (c : Char) : Bool :=
  let n := c.toNat
  n == 9 || n == 10 || n == 11 || n == 12 || n == 13 || n == 32 || n == 160 ||
  n == 5760 || (8192 ≤ n && n ≤ 8202) || n == 8232 || n == 8233 || n == 8239 ||
  n == 8287 || n == 12288 || n == 65279

/-- `s.trim()`. -/
def trim (s : Str) : Str :=
  ((s.dropWhile isWhiteSpace).reverse.dropWhile isWhiteSpace).reverse

/-- Upper-casing of an ASCII character: the letters `a`..`z` are mapped to
`A`..`Z`, every other character to itself. -/
def asciiUpperChar (c : Char) : Char :=
  if 97 ≤ c.toNat ∧ c.toNat ≤ 122 then Char.ofNat (c.toNat - 32) else c

/-- `s.split(sep)` for a one-character separator: always at least one piece. -/
def splitOn (sep : Char) : Str → List Str
  | [] => [[]]
  | c :: cs =>
    if c = sep then [] :: splitOn sep cs
    else
      match splitOn sep cs with
      | [] => [[c]]
      | p :: ps => (c :: p) :: ps

/-- `xs.join(sep)` on an array whose elements may be `undefined` (rendered as
the empty string). -/
def joinWith (sep : Str) : List (Option Str) → Str
  | [] => []
  | [x] => x.getD []
  | x :: y :: rest => x.getD [] ++ sep ++ joinWith sep (y :: rest)

/-- `s.split(" ").filter(piece => piece !== "")`. -/
def tokens (s : Str) : List Str :=
  (splitOn ' ' s).filter (fun piece => piece ≠ [])

/-- `s.startsWith(p)`. -/
def startsWith : Str → Str → Bool
  | _, [] => true
  | [], _ :: _ => false
  | c :: cs, d :: ds => c == d && startsWith cs ds

/-- `s.endsWith(p)`. -/
def endsWith (s p : Str) : Bool := startsWith s.reverse p.reverse

/-- `s.lastIndexOf(c)` for a one-character needle; `none` stands for `-1`. -/
def lastIndexOf (c : Char) : Str → Option Nat
  | [] => none
  | x :: xs =>
    match lastIndexOf c xs with
    | some i => some (i + 1)
    | none => if x = c then some 0 else none

/-- `content.replace(new RegExp("\\\r", "g"), "").split("\n")`. -/
def toLines (content : Str) : List Str :=
  splitOn '\n' (content.filter (fun c => c ≠ '\r'))

/-- The exception a JavaScript operation raises; the scanner only ever raises
a `TypeError` (a method called on `undefined`). -/
inductive JSError where
  | typeError
deriving DecidableEq, Repr

/-! ## Collaborators -/

/-- A `vscode.Uri` as far as the source reads it. -/
structure Uri where
  scheme : Str
  path : Str
deriving DecidableEq, Repr

/-- What the source takes from its surroundings: the connection configuration,
`path.posix.join`, the two download functions of the content API (`none` is a
failed download), the table `oneLineTriggers["DCL-DS"]`, and the upper-case
mapping of one character that `String.prototype.toUpperCase` applies. -/
structure Env where
  homeDirectory : Str
  posixJoin : Str → Str → Str
  downloadMemberContent : Option Str → Option Str → Option Str → Option Str → Option Str
  downloadStreamfile : Str → Option Str
  dsTriggers : List Str
  upperChar : Char → Str

/-- `s.toUpperCase()`: every character is replaced by its upper-case mapping. -/
def toUpperCase (env : Env) : Str → Str
  | [] => []
  | c :: cs => env.upperChar c ++ toUpperCase env cs

/-! ## getPathInfo -/

/-- The `type` field of the object returned by `getPathInfo`. -/
inductive PathType where
  | streamfile
  | member
deriving DecidableEq, Repr

/-- The object returned by `getPathInfo`. -/
structure PathInfo where
  type : PathType
  memberPath : Option (List (Option Str))
  finishedPath : Str
deriving DecidableEq, Repr

/-- The body of `getPathInfo(workingUri, getPath)`; `getPath` is `none` when the
caller passes `undefined`. -/
def getPathInfo (env : Env) (workingUri : Uri) (getPath : Option Str) :
    Except JSError PathInfo :=
  if workingUri.scheme = "streamfile".toList then
    match getPath with
    | none => .error .typeError
    | some g0 =>
      let g1 := if startsWith g0 [Char.ofNat 39] then g0.drop 1 else g0
      let g2 := if endsWith g1 [Char.ofNat 39] then g1.take (g1.length - 1) else g1
      let finishedPath :=
        if startsWith g2 ['/'] then g2 else env.posixJoin env.homeDirectory g2
      .ok { type := .streamfile, memberPath := none
            finishedPath := toUpperCase env finishedPath }
  else
    match getPath with
    | none => .error .typeError
    | some g =>
      let getLib := splitOn '/' g
      let getMember := splitOn ',' (getLib.getLast?.getD [])
      let workingPath := splitOn '/' workingUri.path
      let mp0 : List (Option Str) := [none, none, some "QRPGLEREF".toList, none]
      let mp1 :=
        if workingPath.length = 4 then
          (mp0.set 1 workingPath[1]?).set 2 workingPath[2]?
        else
          ((mp0.set 0 workingPath[1]?).set 1 workingPath[2]?).set 2 workingPath[3]?
      let mp2 :=
        if getMember.length = 1 then mp1.set 3 getMember[0]?
        else if getMember.length = 2 then (mp1.set 2 getMember[0]?).set 3 getMember[1]?
        else mp1
      let mp3 := if getLib.length = 2 then mp2.set 1 getLib[0]? else mp2
      match mp3[3]?.join with
      | none => .error .typeError
      | some m =>
        let mp4 :=
          if m.contains '.' then mp3.set 3 (some (m.take ((lastIndexOf '.' m).getD 0)))
          else mp3
        let joined := joinWith ['/'] mp4
        let finishedPath := if workingPath.length = 5 then '/' :: joined else joined
        .ok { type := .member, memberPath := some mp4
              finishedPath := toUpperCase env finishedPath }

/-! ## getContent -/

/-- The object `this.copyBooks`: canonical path to line sequence. -/
abbrev CopyBooks := List (Str × List Str)

/-- Property read `obj[key]` on an object used as a map. -/
def lookupKey {α : Type} (key : Str) : List (Str × α) → Option α
  | [] => none
  | (k, v) :: rest => if k = key then some v else lookupKey key rest

/-- Property write `obj[key] = v` on an object used as a map: an existing
property keeps its place, a new one goes last. -/
def setKey {α : Type} (key : Str) (v : α) : List (Str × α) → List (Str × α)
  | [] => [(key, v)]
  | (k, w) :: rest => if k = key then (k, v) :: rest else (k, w) :: setKey key v rest

/-- The body of `getContent(workingUri, getPath)`, passing `this.copyBooks`
explicitly.  `getPathInfo` runs outside the `try`, so its exception escapes; a
failed download is caught and gives no lines. -/
def getContent (env : Env) (workingUri : Uri) (copyBooks : CopyBooks)
    (getPath : Option Str) : Except JSError (List Str × CopyBooks) :=
  match getPathInfo env workingUri getPath with
  | .error e => .error e
  | .ok info =>
    match lookupKey info.finishedPath copyBooks with
    | some lines => .ok (lines, copyBooks)
    | none =>
      let downloaded :=
        match info.type with
        | .member =>
          let mp := info.memberPath.getD []
          env.downloadMemberContent mp[0]?.join mp[1]?.join mp[2]?.join mp[3]?.join
        | .streamfile => env.downloadStreamfile info.finishedPath
      match downloaded with
      | none => .ok ([], copyBooks)
      | some content =>
        let lines := toLines content
        .ok (lines, setKey info.finishedPath lines copyBooks)

/-! ## Declaration records -/

/-- The `type` argument of `new Declaration(type)`. -/
inductive DeclType where
  | constant
  | variable
  | struct
  | procedure
  | subroutine
  | subitem
deriving DecidableEq, Repr

/-- One entry of a tag array: `{tag, content}`. -/
structure Tag where
  tag : Str
  content : Str
deriving DecidableEq, Repr

/-- The `position` object of a record. -/
structure Position where
  path : Str
  line : Nat
deriving DecidableEq, Repr

/-- A parameter record, `new Declaration("subitem")`: the scanner writes its
name, its keywords and (when a `param` tag exists) its description, and leaves
its other fields as constructed. -/
structure SubItem where
  name : Option Str
  keywords : List Str
  description : Str
deriving DecidableEq, Repr

/-- The `tags` field of a record while scanning: the array made by the
constructor (never written to afterwards), or a reference to a tag array that
the scanner also holds as `currentTags`. -/
inductive TagsRef where
  | own
  | shared (ref : Nat)
deriving DecidableEq, Repr

/-- A declaration object on the heap.  `name` is `none` when the source assigns
`undefined` to it. -/
structure DeclObj where
  type : DeclType
  name : Option Str
  keywords : List Str
  description : Str
  tags : TagsRef
  position : Option Position
  subItems : List SubItem
  readParms : Bool
deriving DecidableEq, Repr

/-- Modelled from the spec: the constructor of `models/declaration.js`, which is
not among the sources.  A new record has the given type, an empty name, no
keywords, an empty description, no tags, no position, no subitems, and
parameter reading off. -/
def newDeclaration (type : DeclType) : DeclObj :=
  { type := type, name := some [], keywords := [], description := [], tags := .own
    position := none, subItems := [], readParms := false }

/-- A finished record, with its tag array read out of the heap. -/
structure Declaration where
  type : DeclType
  name : Option Str
  keywords : List Str
  description : Str
  tags : List Tag
  position : Option Position
  subItems : List SubItem
  readParms : Bool
deriving DecidableEq, Repr

/-- Modelled from the spec: the object built by `new Cache(...)` of
`models/cache.js`, which is not among the sources: the five collections it is
given (`vars` is the source's `variables`, a word Lean reserves). -/
structure Cache where
  procedures : List Declaration
  structs : List Declaration
  subroutines : List Declaration
  vars : List Declaration
  constants : List Declaration
deriving DecidableEq, Repr

/-! ## Scanner state -/

/-- The local variables of `getDocs` during the second loop.  Collections and
`currentItem` hold references into `heap`; `currentTags` is a reference into
`tagHeap`. -/
structure ScanState where
  tagHeap : List (List Tag)
  heap : List DeclObj
  currentTitle : Option Str
  currentDescription : List Str
  currentTags : Nat
  currentItem : Option Nat
  docs : Bool
  constants : List Nat
  vars : List Nat
  structs : List Nat
  procedures : List Nat
  subroutines : List Nat
deriving DecidableEq, Repr

/-- The locals as `getDocs` initialises them. -/
def initState : ScanState :=
  { tagHeap := [[]], heap := [], currentTitle := none, currentDescription := []
    currentTags := 0, currentItem := none, docs := false
    constants := [], vars := [], structs := [], procedures := [], subroutines := [] }

/-- The object a reference points to. -/
def deref (heap : List DeclObj) (r : Nat) : DeclObj :=
  heap.getD r (newDeclaration .subitem)

/-- The tag array a reference points to. -/
def tagsAt (tagHeap : List (List Tag)) (r : Nat) : List Tag :=
  tagHeap.getD r []

/-- `xs.join(sep)` on an array of strings. -/
def joinStr (sep : Str) (xs : List Str) : Str :=
  joinWith sep (xs.map some)

/-- `new Declaration(...)` followed by field writes: the object is placed on the
heap and becomes `currentItem`. -/
def allocCurrent (st : ScanState) (obj : DeclObj) : ScanState :=
  { st with heap := st.heap ++ [obj], currentItem := some st.heap.length }

/-- In-place update of the object behind a reference. -/
def updateObj (st : ScanState) (r : Nat) (f : DeclObj → DeclObj) : ScanState :=
  { st with heap := st.heap.set r (f (deref st.heap r)) }

/-- `coll.find(d => d.name.toUpperCase() === target)`: the first matching
reference; reaching a record whose name is `undefined` raises. -/
def findByName (env : Env) (heap : List DeclObj) :
    List Nat → Option Str → Except JSError (Option Nat)
  | [], _ => .ok none
  | r :: rs, target =>
    match (deref heap r).name with
    | none => .error .typeError
    | some n =>
      if some (toUpperCase env n) = target then .ok (some r) else findByName env heap rs target

/-- The `currentItem && currentItem.type === t` test. -/
def currentIs (st : ScanState) (t : DeclType) : Option Nat :=
  match st.currentItem with
  | none => none
  | some r => if (deref st.heap r).type = t then some r else none

/-- The `if (resetDefinition)` block at the end of the loop body. -/
def resetDefinition (st : ScanState) : ScanState :=
  { st with currentItem := none, currentTitle := none, currentDescription := []
            tagHeap := st.tagHeap ++ [[]], currentTags := st.tagHeap.length }

/-! ## The `switch (parts[0])` of the second loop

Each case returns the new state together with the value of the flag
`resetDefinition` it leaves behind. -/

/-- The position object written by every declaration case. -/
def posAt (file : Str) (lineNumber : Nat) : Option Position :=
  some { path := file, line := lineNumber }

/-- The case `DCL-C`. -/
def caseDclC (file : Str) (lineNumber : Nat) (parts partsLower : List Str)
    (st : ScanState) : ScanState × Bool :=
  match st.currentItem with
  | some _ => (st, false)
  | none =>
    let obj : DeclObj :=
      { newDeclaration .constant with
        name := partsLower[1]?
        keywords := parts.drop 2
        description := joinStr [' '] st.currentDescription
        position := posAt file lineNumber }
    let st1 := allocCurrent st obj
    ({ st1 with constants := st1.constants ++ [st.heap.length] }, true)

/-- The case `DCL-S`. -/
def caseDclS (file : Str) (lineNumber : Nat) (parts partsLower : List Str)
    (st : ScanState) : ScanState × Bool :=
  match st.currentItem with
  | some _ => (st, false)
  | none =>
    if parts.contains "TEMPLATE".toList then (st, false)
    else
      let obj : DeclObj :=
        { newDeclaration .variable with
          name := partsLower[1]?
          keywords := parts.drop 2
          description := joinStr [' '] st.currentDescription
          tags := .shared st.currentTags
          position := posAt file lineNumber }
      let st1 := allocCurrent st obj
      ({ st1 with vars := st1.vars ++ [st.heap.length] }, true)

/-- The test `keywords.some(keyword => triggers.some(trigger =>
keyword.startsWith(trigger)))` of the case `DCL-DS`. -/
def isOneLine (env : Env) (keywords : List Str) : Bool :=
  keywords.any (fun keyword => env.dsTriggers.any (fun trigger => startsWith keyword trigger))

/-- The case `DCL-DS`. -/
def caseDclDs (env : Env) (file : Str) (lineNumber : Nat) (parts partsLower : List Str)
    (st : ScanState) : ScanState × Bool :=
  match st.currentItem with
  | some _ => (st, false)
  | none =>
    if parts.contains "TEMPLATE".toList then (st, false)
    else
      let obj : DeclObj :=
        { newDeclaration .struct with
          name := partsLower[1]?
          keywords := parts.drop 2
          description := joinStr [' '] st.currentDescription
          tags := .shared st.currentTags
          position := posAt file lineNumber }
      let st1 := allocCurrent st obj
      if isOneLine env obj.keywords then
        ({ st1 with structs := st1.structs ++ [st.heap.length], currentDescription := [] }, true)
      else
        ({ st1 with currentDescription := [] }, false)

/-- The case `END-DS`. -/
def caseEndDs (st : ScanState) : ScanState × Bool :=
  match currentIs st .struct with
  | some r => ({ st with structs := st.structs ++ [r] }, true)
  | none => (st, false)

/-- The case `DCL-PR`. -/
def caseDclPr (env : Env) (file : Str) (lineNumber : Nat) (parts partsLower : List Str)
    (st : ScanState) : Except JSError (ScanState × Bool) :=
  match st.currentItem with
  | some _ => .ok (st, false)
  | none =>
    match findByName env st.heap st.procedures parts[1]? with
    | .error e => .error e
    | .ok (some _) => .ok (st, false)
    | .ok none =>
      let obj : DeclObj :=
        { newDeclaration .procedure with
          name := partsLower[1]?
          keywords := parts.drop 2
          description := joinStr [' '] st.currentDescription
          tags := .shared st.currentTags
          position := posAt file lineNumber
          readParms := true }
      let st1 := allocCurrent st obj
      .ok ({ st1 with currentDescription := [] }, false)

/-- The cases `END-PR` and `END-PROC`, which have the same body. -/
def caseEndProc (st : ScanState) : ScanState × Bool :=
  match currentIs st .procedure with
  | some r => ({ st with procedures := st.procedures ++ [r] }, true)
  | none => (st, false)

/-- The case `DCL-PROC`: the record found in `procedures`, or else a new one,
becomes `currentItem` and is overwritten in place. -/
def caseDclProc (env : Env) (file : Str) (lineNumber : Nat) (parts partsLower : List Str)
    (st : ScanState) : Except JSError (ScanState × Bool) :=
  match findByName env st.heap st.procedures parts[1]? with
  | .error e => .error e
  | .ok found =>
    let st1 :=
      match found with
      | some r => { st with currentItem := some r }
      | none => allocCurrent st (newDeclaration .procedure)
    let r := found.getD st.heap.length
    let st2 := updateObj st1 r (fun o =>
      { o with
        name := partsLower[1]?
        keywords := parts.drop 2
        description := joinStr [' '] st.currentDescription
        tags := .shared st.currentTags
        position := posAt file lineNumber
        readParms := false })
    .ok ({ st2 with currentDescription := [] }, false)

/-- The case `DCL-PI`. -/
def caseDclPi (parts : List Str) (st : ScanState) : ScanState × Bool :=
  match st.currentItem with
  | none => (st, false)
  | some r =>
    let st1 := updateObj st r (fun o => { o with keywords := parts.drop 2, readParms := true })
    ({ st1 with currentDescription := [] }, false)

/-- The case `END-PI`. -/
def caseEndPi (st : ScanState) : ScanState × Bool :=
  match currentIs st .procedure with
  | some r => (updateObj st r (fun o => { o with readParms := false }), false)
  | none => (st, false)

/-- The case `BEGSR`. -/
def caseBegsr (env : Env) (file : Str) (lineNumber : Nat) (parts partsLower : List Str)
    (st : ScanState) : Except JSError (ScanState × Bool) :=
  match findByName env st.heap st.subroutines parts[1]? with
  | .error e => .error e
  | .ok (some _) => .ok (st, false)
  | .ok none =>
    let obj : DeclObj :=
      { newDeclaration .subroutine with
        name := partsLower[1]?
        description := joinStr [' '] st.currentDescription
        position := posAt file lineNumber }
    let st1 := allocCurrent st obj
    .ok ({ st1 with currentDescription := [] }, false)

/-- The case `ENDSR`. -/
def caseEndsr (st : ScanState) : ScanState × Bool :=
  match currentIs st .subroutine with
  | some r => ({ st with subroutines := st.subroutines ++ [r] }, true)
  | none => (st, false)

/-- The case of a line whose first token is three slashes: toggle `docs`, and
on entering reset the title, the description and the tag array. -/
def caseDocToggle (st : ScanState) : ScanState × Bool :=
  if st.docs then ({ st with docs := false }, false)
  else
    ({ st with docs := true, currentTitle := none, currentDescription := []
               tagHeap := st.tagHeap ++ [[]], currentTags := st.tagHeap.length }, false)

/-- `currentTags[currentTags.length - 1].content += " " + content`. -/
def appendToLastTag (content : Str) : List Tag → List Tag
  | [] => []
  | [t] => [{ t with content := t.content ++ ' ' :: content }]
  | t :: u :: rest => t :: appendToLastTag content (u :: rest)

/-- The `default` case for a line that starts with two slashes. -/
def caseComment (line : Str) (st : ScanState) : ScanState × Bool :=
  if st.docs then
    let content := trim (line.drop 2)
    if content.length > 0 then
      if startsWith content ['@'] then
        let lineData := splitOn ' ' (content.drop 1)
        let entry : Tag :=
          { tag := lineData.headD [], content := joinStr [' '] (lineData.drop 1) }
        let pushed := tagsAt st.tagHeap st.currentTags ++ [entry]
        ({ st with tagHeap := st.tagHeap.set st.currentTags pushed }, false)
      else if (tagsAt st.tagHeap st.currentTags).length > 0 then
        let extended := appendToLastTag content (tagsAt st.tagHeap st.currentTags)
        ({ st with tagHeap := st.tagHeap.set st.currentTags extended }, false)
      else
        match st.currentTitle with
        | none => ({ st with currentTitle := some content }, false)
        | some _ => ({ st with currentDescription := st.currentDescription ++ [content] }, false)
    else (st, false)
  else (st, false)

/-- The `default` case for a line that does not start with two slashes: a
parameter line when a procedure is open and reading parameters.  The source
evaluates `parts.slice(1)` for a leading `DCL` token and discards the result. -/
def caseParameter (parts partsLower : List Str) (st : ScanState) :
    Except JSError (ScanState × Bool) :=
  match currentIs st .procedure with
  | none => .ok (st, false)
  | some r =>
    let item := deref st.heap r
    if item.readParms then
      match parts[0]? with
      | none => .error .typeError
      | some p0 =>
        let name : Option Str :=
          if p0 = "*N".toList then
            some ("parm".toList ++ Nat.toDigits 10 (item.subItems.length + 1))
          else partsLower[0]?
        let paramTags :=
          (tagsAt st.tagHeap st.currentTags).filter (fun t => t.tag = "param".toList)
        let description : Str :=
          if paramTags.length > item.subItems.length then
            match paramTags[item.subItems.length]? with
            | some paramTag => paramTag.content
            | none => []
          else []
        let sub : SubItem :=
          { name := name, keywords := parts.drop 1, description := description }
        .ok (updateObj st r (fun o => { o with subItems := o.subItems ++ [sub] }), false)
    else .ok (st, false)

/-- The `switch (parts[0])` statement. -/
def dispatch (env : Env) (file : Str) (lineNumber : Nat) (line : Str)
    (parts partsLower : List Str) (st : ScanState) : Except JSError (ScanState × Bool) :=
  if parts[0]? = some "DCL-C".toList then .ok (caseDclC file lineNumber parts partsLower st)
  else if parts[0]? = some "DCL-S".toList then .ok (caseDclS file lineNumber parts partsLower st)
  else if parts[0]? = some "DCL-DS".toList then
    .ok (caseDclDs env file lineNumber parts partsLower st)
  else if parts[0]? = some "END-DS".toList then .ok (caseEndDs st)
  else if parts[0]? = some "DCL-PR".toList then caseDclPr env file lineNumber parts partsLower st
  else if parts[0]? = some "END-PR".toList then .ok (caseEndProc st)
  else if parts[0]? = some "DCL-PROC".toList then caseDclProc env file lineNumber parts partsLower st
  else if parts[0]? = some "DCL-PI".toList then .ok (caseDclPi parts st)
  else if parts[0]? = some "END-PI".toList then .ok (caseEndPi st)
  else if parts[0]? = some "END-PROC".toList then .ok (caseEndProc st)
  else if parts[0]? = some "BEGSR".toList then caseBegsr env file lineNumber parts partsLower st
  else if parts[0]? = some "ENDSR".toList then .ok (caseEndsr st)
  else if parts[0]? = some "///".toList then .ok (caseDocToggle st)
  else if startsWith line "//".toList then .ok (caseComment line st)
  else caseParameter parts partsLower st

/-- The text before the first semicolon: `line.split(";")[0]`. -/
def beforeSemicolon (line : Str) : Str :=
  (splitOn ';' line).headD []

/-- One iteration of the inner loop of the second pass, for the raw line at
index `lineNumber` of `file`. -/
def processLine (env : Env) (file : Str) (lineNumber : Nat) (st : ScanState)
    (rawLine : Str) : Except JSError ScanState :=
  let line := trim rawLine
  if line = [] then .ok st
  else
    let piece := beforeSemicolon line
    let parts := tokens (toUpperCase env piece)
    let partsLower := tokens piece
    match dispatch env file lineNumber line parts partsLower st with
    | .error e => .error e
    | .ok (st1, reset) => .ok (if reset then resetDefinition st1 else st1)

/-- The inner loop over the lines of one file, from index `lineNumber` on. -/
def processLines (env : Env) (file : Str) : Nat → List Str → ScanState → Except JSError ScanState
  | _, [], st => .ok st
  | lineNumber, rawLine :: rest, st =>
    match processLine env file lineNumber st rawLine with
    | .error e => .error e
    | .ok st1 => processLines env file (lineNumber + 1) rest st1

/-- The outer loop `for (const file in files)`, over the enumerated files. -/
def processFiles (env : Env) : List (Str × List Str) → ScanState → Except JSError ScanState
  | [], st => .ok st
  | (file, lines) :: rest, st =>
    match processLines env file 0 lines st with
    | .error e => .error e
    | .ok st1 => processFiles env rest st1

/-! ## The `files` object -/

/-- The object `files` of `getDocs`: its own properties in insertion order, and
the array installed as its prototype by an assignment to the key `__proto__`
(`none` while the prototype is still `Object.prototype`). -/
structure FilesObj where
  own : List (Str × List Str)
  proto : Option (List Str)
deriving DecidableEq, Repr

/-- The literal `{}`. -/
def emptyFiles : FilesObj := { own := [], proto := none }

/-- The assignment `files[key] = lines`. -/
def setProp (files : FilesObj) (key : Str) (lines : List Str) : FilesObj :=
  if key = "__proto__".toList then { files with proto := some lines }
  else { files with own := setKey key lines files.own }

/-- The numeric value of a property key that is an array index: a canonical
decimal numeral not above `2^32 - 2`. -/
def arrayIndex? (key : Str) : Option Nat :=
  if key = [] then none
  else if key.all (fun c => decide (48 ≤ c.toNat ∧ c.toNat ≤ 57)) then
    let v := key.foldl (fun acc c => 10 * acc + (c.toNat - 48)) 0
    if Nat.toDigits 10 v = key ∧ v ≤ 4294967294 then some v else none
  else none

/-- Insertion of an indexed property into a list ordered by index. -/
def insertByIndex {α : Type} (e : Nat × α) : List (Nat × α) → List (Nat × α)
  | [] => [e]
  | x :: xs => if e.1 ≤ x.1 then e :: x :: xs else x :: insertByIndex e xs

/-- Own properties whose key is an array index, in ascending index order. -/
def indexProps (own : List (Str × List Str)) : List (Str × List Str) :=
  ((own.filterMap (fun kv => (arrayIndex? kv.1).map (fun i => (i, kv)))).foldr
    insertByIndex []).map Prod.snd

/-- The enumerable properties `files` inherits from a prototype array: its
indices that no own property shadows.  The value read back is a string, and
`for (let line of ...)` then visits it character by character. -/
def inheritedProps (files : FilesObj) : List (Str × List Str) :=
  match files.proto with
  | none => []
  | some arr =>
    (List.range arr.length).filterMap (fun i =>
      let key := Nat.toDigits 10 i
      match lookupKey key files.own with
      | some _ => none
      | none => some (key, (arr.getD i []).map (fun c => [c])))

/-- The pairs `(file, files[file])` in the order `for (const file in files)`
visits them: array-index keys ascending, then the other own keys in insertion
order, then the inherited ones. -/
def forIn (files : FilesObj) : List (Str × List Str) :=
  indexProps files.own ++ files.own.filter (fun kv => (arrayIndex? kv.1).isNone) ++
    inheritedProps files

/-! ## getDocs -/

/-- The two caches held by the worker object. -/
structure World where
  copyBooks : CopyBooks
  parsedCache : List (Str × Option Cache)
deriving DecidableEq, Repr

/-- One iteration of the first loop (include discovery). -/
def includeStep (env : Env) (workingUri : Uri) (acc : FilesObj × CopyBooks)
    (rawLine : Str) : Except JSError (FilesObj × CopyBooks) :=
  let line := trim rawLine
  if line = [] then .ok acc
  else
    let pieces := tokens line
    match pieces[0]? with
    | none => .error .typeError
    | some p0 =>
      if toUpperCase env p0 = "/COPY".toList ∨ toUpperCase env p0 = "/INCLUDE".toList then
        match getContent env workingUri acc.2 pieces[1]? with
        | .error e => .error e
        | .ok (lines, copyBooks) =>
          .ok (setProp acc.1 (pieces[1]?.getD "undefined".toList) lines, copyBooks)
      else .ok acc

/-- The first loop, given the lines in the order it visits them (last first). -/
def discoverIncludes (env : Env) (workingUri : Uri) :
    List Str → FilesObj × CopyBooks → Except JSError (FilesObj × CopyBooks)
  | [], acc => .ok acc
  | rawLine :: rest, acc =>
    match includeStep env workingUri acc rawLine with
    | .error e => .error e
    | .ok acc1 => discoverIncludes env workingUri rest acc1

/-- A record as it stands in the returned model. -/
def resolveDecl (st : ScanState) (r : Nat) : Declaration :=
  let o := deref st.heap r
  { type := o.type, name := o.name, keywords := o.keywords, description := o.description
    tags := match o.tags with
      | .own => []
      | .shared t => tagsAt st.tagHeap t
    position := o.position, subItems := o.subItems, readParms := o.readParms }

/-- The object `parsedData`. -/
def buildCache (st : ScanState) : Cache :=
  { procedures := st.procedures.map (resolveDecl st)
    structs := st.structs.map (resolveDecl st)
    subroutines := st.subroutines.map (resolveDecl st)
    vars := st.vars.map (resolveDecl st)
    constants := st.constants.map (resolveDecl st) }

/-- The first part of `getDocs` after the cache test: the `files` object once
the document's own lines and (with `withIncludes`) the lines of its includes
have been stored in it, together with the updated `copyBooks`. -/
def discoverFiles (env : Env) (workingUri : Uri) (copyBooks : CopyBooks) (content : Str)
    (withIncludes : Bool) : Except JSError (FilesObj × CopyBooks) :=
  let baseLines := toLines content
  let files0 := setProp emptyFiles workingUri.path baseLines
  if withIncludes then discoverIncludes env workingUri baseLines.reverse (files0, copyBooks)
  else .ok (files0, copyBooks)

/-- The body of `getDocs(workingUri, content, withIncludes)`, passing the two
caches explicitly; `content` is `none` for `undefined`, and the result `none`
is `null`.  The document path is taken not to name a member of
`Object.prototype`, so that `this.parsedCache[path]` reads own properties
only. -/
def getDocs (env : Env) (workingUri : Uri) (world : World) (content : Option Str)
    (withIncludes : Bool) : Except JSError (Option Cache × World) :=
  match (lookupKey workingUri.path world.parsedCache).join with
  | some cached => .ok (some cached, world)
  | none =>
    match content with
    | none => .ok (none, world)
    | some [] => .ok (none, world)
    | some (c :: cs) =>
      match discoverFiles env workingUri world.copyBooks (c :: cs) withIncludes with
      | .error e => .error e
      | .ok (files, copyBooks) =>
        match processFiles env (forIn files) initState with
        | .error e => .error e
        | .ok st =>
          let parsedData := buildCache st
          .ok (some parsedData,
            { copyBooks := copyBooks
              parsedCache := setKey workingUri.path (some parsedData) world.parsedCache })

/-- The statement `this.parsedCache[document.uri.path] = undefined` with which
the edit handler and `updateCopybookCache` clear the model of a document. -/
def invalidate (workingUri : Uri) (world : World) : World :=
  { world with parsedCache := setKey workingUri.path none world.parsedCache }

/-! ## Fixtures for concrete runs -/

/-- An environment in which every download fails, with the join of two path
segments by a slash, the three inline-terminating keywords of `DCL-DS`, and
the upper-casing of the ASCII letters (every other character is mapped to
itself; the concrete runs use ASCII text only). -/
def sampleEnv : Env :=
  { homeDirectory := "/home/dev".toList
    posixJoin := fun a b => a ++ '/' :: b
    downloadMemberContent := fun _ _ _ _ => none
    downloadStreamfile := fun _ => none
    dsTriggers := ["LIKEDS".toList, "LIKEREC".toList, "END-DS".toList]
    upperChar := fun c => [asciiUpperChar c] }

/-- A source member opened in the editor. -/
def memberUri : Uri :=
  { scheme := "member".toList, path := "/MYLIB/QRPGLESRC/ORDERS.rpgle".toList }

/-- A source member of an independent storage group opened in the editor. -/
def aspUri : Uri :=
  { scheme := "member".toList, path := "/IASP1/MYLIB/QRPGLESRC/ORDERS.rpgle".toList }

/-- A stream file opened in the editor. -/
def streamUri : Uri :=
  { scheme := "streamfile".toList, path := "/home/dev/src/orders.rpgle".toList }

/-- Both caches empty. -/
def emptyWorld : World := { copyBooks := [], parsedCache := [] }

/-- The model `getDocs` returns for a document text on a fresh worker. -/
def modelOf (text : String) : Except JSError (Option Cache) :=
  (getDocs sampleEnv memberUri emptyWorld (some text.toList) true).map Prod.fst

/-- The text of the member `ORDERS_H` of `QCPYSRC` in `MYLIB`. -/
def ordersHeader : Str := "\nDCL-C MAX_ORDERS 100;\nDCL-S orderId INT(10);".toList

/-- The content served under a canonical path by `libraryEnv`. -/
def libraryContent (canonical : Str) : Option Str :=
  if canonical = "/MYLIB/QCPYSRC/ORDERS_H".toList then some ordersHeader else none

/-- An environment like `sampleEnv` in which the member `ORDERS_H` of `QCPYSRC`
in `MYLIB` can be downloaded, under its name in any letter case. -/
def libraryEnv : Env :=
  { sampleEnv with
    downloadMemberContent := fun a l f m =>
      libraryContent ((joinWith ['/'] [a, l, f, m]).map asciiUpperChar)
    downloadStreamfile := libraryContent }

/-! ## Notions used by the properties -/

/-- The array `parts` the loop body computes for a raw line: the upper-cased
tokens before the first semicolon. -/
def partsOf (env : Env) (raw : Str) : List Str :=
  tokens (toUpperCase env (beforeSemicolon (trim raw)))

/-- The array `partsLower` the loop body computes for a raw line: the tokens
before the first semicolon as written. -/
def partsLowerOf (raw : Str) : List Str :=
  tokens (beforeSemicolon (trim raw))

/-- What is assumed of `String.prototype.toUpperCase` where a property depends
on it.  An ASCII character is mapped to one character: a letter `a`..`z` to
`A`..`Z`, any other to itself.  The mapping of a character outside ASCII has
one to three characters, none of them a space or a slash. -/
def UpperCaseOK (env : Env) : Prop :=
  (∀ c : Char, c.toNat < 128 → env.upperChar c = [asciiUpperChar c]) ∧
  ∀ c : Char, 128 ≤ c.toNat →
    env.upperChar c ≠ [] ∧ (env.upperChar c).length ≤ 3 ∧
    ∀ d ∈ env.upperChar c, d ≠ ' ' ∧ d ≠ '/'

/-- The line that declares a record of the given type and name: its first
token spells the opening keyword and its second token is the name; a variable
or structure line has no `TEMPLATE` token. -/
def declaredBy (env : Env) (type : DeclType) (name : Option Str) (raw : Str) : Prop :=
  trim raw ≠ [] ∧ name = (partsLowerOf raw)[1]? ∧
  match type with
  | .constant => (partsOf env raw)[0]? = some "DCL-C".toList
  | .variable =>
    (partsOf env raw)[0]? = some "DCL-S".toList ∧
      (partsOf env raw).contains "TEMPLATE".toList = false
  | .struct =>
    (partsOf env raw)[0]? = some "DCL-DS".toList ∧
      (partsOf env raw).contains "TEMPLATE".toList = false
  | .procedure =>
    (partsOf env raw)[0]? = some "DCL-PR".toList ∨ (partsOf env raw)[0]? = some "DCL-PROC".toList
  | .subroutine => (partsOf env raw)[0]? = some "BEGSR".toList
  | .subitem => False

/-- A record's type, name and position agree with a line of the scanned files. -/
def SigOK (env : Env) (fl : List (Str × List Str)) (type : DeclType) (name : Option Str)
    (position : Option Position) : Prop :=
  ∃ file lineNumber lines raw, position = some { path := file, line := lineNumber } ∧
    (file, lines) ∈ fl ∧ lines[lineNumber]? = some raw ∧ declaredBy env type name raw

/-- The invariant of the second loop. -/
structure Inv (env : Env) (fl : List (Str × List Str)) (st : ScanState) : Prop where
  heapOK : ∀ o ∈ st.heap, SigOK env fl o.type o.name o.position
  cur : ∀ r, st.currentItem = some r → r < st.heap.length
  consts : ∀ r ∈ st.constants, r < st.heap.length ∧ (deref st.heap r).type = .constant
  vars : ∀ r ∈ st.vars, r < st.heap.length ∧ (deref st.heap r).type = .variable
  structs : ∀ r ∈ st.structs, r < st.heap.length ∧ (deref st.heap r).type = .struct
  procs : ∀ r ∈ st.procedures, r < st.heap.length ∧ (deref st.heap r).type = .procedure
  subs : ∀ r ∈ st.subroutines, r < st.heap.length ∧ (deref st.heap r).type = .subroutine


/-- The number a decimal numeral denotes. -/
def decimalValue (ds : List Char) : Nat :=
  ds.foldl (fun acc c => 10 * acc + (c.toNat - 48)) 0

/-- The line a position points at: line `pos.line` of the file `pos.path` of
the scanned mapping. -/
def sourceLine (files : FilesObj) (pos : Position) : Option Str :=
  (lookupKey pos.path (forIn files)).bind (fun lines => lines[pos.line]?)

/-- The case labels of the `switch`. -/
def switchLabels : List Str :=
  ["DCL-C".toList, "DCL-S".toList, "DCL-DS".toList, "END-DS".toList, "DCL-PR".toList,
   "END-PR".toList, "DCL-PROC".toList, "DCL-PI".toList, "END-PI".toList, "END-PROC".toList,
   "BEGSR".toList, "ENDSR".toList, "///".toList]

/-- While a structure is open: it is the open record, it is not yet in
`structs`, and it still carries the type, name and position written by the
`DCL-DS` line. -/
def StructOpen (st0 st : ScanState) (r : Nat) (file : Str) (n : Nat) (name : Option Str) : Prop :=
  st.currentItem = some r ∧ r < st.heap.length ∧ (deref st.heap r).type = .struct ∧
  (deref st.heap r).name = name ∧ (deref st.heap r).position = posAt file n ∧
  st.structs = st0.structs

/-- All records of a model. -/
def Cache.records (c : Cache) : List Declaration :=
  c.constants ++ c.vars ++ c.structs ++ c.procedures ++ c.subroutines

/-- The test of the first loop: the first token of the trimmed line is `/COPY`
or `/INCLUDE` in any letter case. -/
def isDirective (env : Env) (raw : Str) : Bool :=
  match (tokens (trim raw))[0]? with
  | some p0 => toUpperCase env p0 = "/COPY".toList ∨ toUpperCase env p0 = "/INCLUDE".toList
  | none => false

/-- The download `getContent` would start for a resolved path fails. -/
def downloadFails (env : Env) (info : PathInfo) : Prop :=
  match info.type with
  | .member =>
    env.downloadMemberContent (info.memberPath.getD [])[0]?.join (info.memberPath.getD [])[1]?.join
      (info.memberPath.getD [])[2]?.join (info.memberPath.getD [])[3]?.join = none
  | .streamfile => env.downloadStreamfile info.finishedPath = none

/-- The fetch for an include target fails: the target resolves, nothing is
cached under its canonical path, and the download fails. -/
def FetchFails (env : Env) (uri : Uri) (copyBooks : CopyBooks) (target : Str) : Prop :=
  ∃ info, getPathInfo env uri (some target) = .ok info ∧
    lookupKey info.finishedPath copyBooks = none ∧ downloadFails env info

/-- What the first loop keeps true of `files` when every fetch fails: the
document's own lines stay under its path, every other own property holds no
lines, and a prototype, if installed, is an empty array. -/
def OnlyOwnLines (path : Str) (baseLines : List Str) (files : FilesObj) : Prop :=
  (path, baseLines) ∈ files.own ∧ (∀ e ∈ files.own, e.1 ≠ path → e.2 = []) ∧
  (files.proto = none ∨ files.proto = some []) ∧ (files.own.map Prod.fst).Nodup

/-- A string that is non-empty and does not end in white space. -/
def EndsClean (s : Str) : Prop :=
  ∃ x, s.getLast? = some x ∧ isWhiteSpace x = false

/-- The entry a tag line `// @param text` adds to the tag array. -/
def paramTag (text : Str) : Tag := { tag := "param".toList, content := text }

/-- A line of a prototype or procedure interface that declares a parameter: its
first token is no case label of the `switch` and it does not start with two
slashes. -/
def IsParameterLine (env : Env) (raw : Str) : Prop :=
  (∃ p0, (partsOf env raw)[0]? = some p0 ∧ p0 ∉ switchLabels) ∧
  startsWith (trim raw) "//".toList = false

/-- The state inside a documentation block opened from `st`, with the tag array
of the block holding `ts`. -/
def docState (st : ScanState) (ts : List Tag) : ScanState :=
  { st with docs := true, currentTitle := none, currentDescription := []
            tagHeap := st.tagHeap ++ [ts], currentTags := st.tagHeap.length }

/-- A documentation block made of `param` tag lines with the given texts. -/
def docBlock (contents : List Str) : List Str :=
  "///".toList :: (contents.map (fun c => "// @param ".toList ++ c) ++ ["///".toList])

/-- The state after that block is closed, with its tag array holding `ts`. -/
def afterBlock (st : ScanState) (ts : List Tag) : ScanState :=
  { st with docs := false, currentTitle := none, currentDescription := []
            tagHeap := st.tagHeap ++ [ts], currentTags := st.tagHeap.length }

/-- The state while the procedure record `o`, allocated after that block, is
the open declaration. -/
def openProcState (st : ScanState) (ts : List Tag) (o : DeclObj) : ScanState :=
  { afterBlock st ts with heap := st.heap ++ [o], currentItem := some st.heap.length }

/-- The procedure record opened after that block by the `DCL-PR` or `DCL-PROC`
line `raw` at index `n` of `file`, with the keywords, the reading flag and the
subitems it has at some later point. -/
def openedProc (st : ScanState) (file : Str) (n : Nat) (raw : Str) (keywords : List Str)
    (readParms : Bool) (subs : List SubItem) : DeclObj :=
  { type := .procedure, name := (partsLowerOf raw)[1]?, keywords := keywords, description := []
    tags := .shared st.tagHeap.length, position := posAt file n, subItems := subs
    readParms := readParms }

/-- The description a parameter line gives its subitem: the content of the
`param` tag at the position of the subitem, if there is one. -/
def paramDescription (ts : List Tag) (i : Nat) : Str :=
  ((ts.filter (fun t => t.tag = "param".toList))[i]?.map (fun t => t.content)).getD []

/-- The download `getContent` starts for a resolved path: the member download
with the four components of `memberPath`, or the stream-file download with the
canonical path. -/
def fetch (env : Env) (info : PathInfo) : Option Str :=
  match info.type with
  | .member =>
    env.downloadMemberContent (info.memberPath.getD [])[0]?.join (info.memberPath.getD [])[1]?.join
      (info.memberPath.getD [])[2]?.join (info.memberPath.getD [])[3]?.join
  | .streamfile => env.downloadStreamfile info.finishedPath

/-- A character that upper-casing leaves alone and produces from no other
character. -/
def StableChar (env : Env) (q : Char) : Prop :=
  env.upperChar q = [q] ∧ ∀ c, c ≠ q → q ∉ env.upperChar c

/-- What is assumed of `String.prototype.toUpperCase` where canonical paths are
compared: no character is mapped to the empty string; the slash, the comma,
the dot and the single quote are mapped to themselves and occur in the mapping
of no other character; and mapping twice is the same as mapping once. -/
def PathCaseOK (env : Env) : Prop :=
  (∀ c, env.upperChar c ≠ []) ∧ StableChar env '/' ∧ StableChar env ',' ∧
  StableChar env '.' ∧ StableChar env (Char.ofNat 39) ∧
  ∀ c, toUpperCase env (env.upperChar c) = env.upperChar c

/-- What is assumed of `path.posix.join` where canonical paths are compared:
second arguments that differ only in letter case give joins that differ only
in letter case. -/
def JoinRespectsCase (env : Env) : Prop :=
  ∀ a b b1 : Str, toUpperCase env b = toUpperCase env b1 →
    toUpperCase env (env.posixJoin a b) = toUpperCase env (env.posixJoin a b1)

/-- The fetch collaborator serves contents by canonical path: the download
`getContent` starts for a target of the document gives the content recorded
for the canonical path of the target. -/
def FetchByPath (env : Env) (uri : Uri) (contentOf : Str → Option Str) : Prop :=
  ∀ t info, getPathInfo env uri t = .ok info → fetch env info = contentOf info.finishedPath

/-- The content cache `cb1` reads like `cb`, except under paths that `cb` does
not hold, where it may hold the lines of the content recorded for the path. -/
def CacheGrows (contentOf : Str → Option Str) (cb cb1 : CopyBooks) : Prop :=
  ∀ k, lookupKey k cb1 = lookupKey k cb ∨
    (lookupKey k cb = none ∧ ∃ c, contentOf k = some c ∧ lookupKey k cb1 = some (toLines c))

/-- The content of a comment line: the text behind the two slashes, trimmed
(`line.substring(2).trim()`). -/
def commentText (raw : Str) : Str :=
  trim ((trim raw).drop 2)

/-- A line that the loop body treats as a comment: it starts with two slashes
and its first token is no case label of the `switch` (so it is not a line of
three slashes). -/
def IsCommentLine (env : Env) (raw : Str) : Prop :=
  startsWith (trim raw) "//".toList = true ∧
  ∀ k ∈ switchLabels, (partsOf env raw)[0]? ≠ some k

/-- Reference for one comment line of a documentation block, after the words
of the specification: an empty content changes nothing; a content that starts
with `@` appends an entry whose tag is the text between the `@` and the first
space and whose content is the rest behind that space; any other content, when
an entry exists, is appended to the content of the last entry behind one
space. -/
def refTagStep (ts : List Tag) (content : Str) : List Tag :=
  if content = [] then ts
  else if content.head? = some '@' then
    ts ++ [{ tag := (content.drop 1).takeWhile (fun c => c ≠ ' ')
             content := ((content.drop 1).dropWhile (fun c => c ≠ ' ')).drop 1 }]
  else
    match ts.getLast? with
    | none => ts
    | some t => ts.dropLast ++ [{ t with content := t.content ++ ' ' :: content }]

/-- Reference for the tag accumulator over the contents of a run of comment
lines, in source order. -/
def refTags (ts : List Tag) (contents : List Str) : List Tag :=
  contents.foldl refTagStep ts

/-- A line that opens a record in the given state: a `DCL-C`, a `DCL-S` or
`DCL-DS` without `TEMPLATE` token, or a `DCL-PR` for a name not yet in
`procedures`, each read while no declaration is open; a `DCL-PROC`, whose name
lookup returns and finds, if anything, a record of the heap; or a `BEGSR` for
a name not yet in `subroutines`. -/
def OpensRecord (env : Env) (st : ScanState) (raw : Str) : Prop :=
  ((partsOf env raw)[0]? = some "DCL-C".toList ∧ st.currentItem = none) ∨
  ((partsOf env raw)[0]? = some "DCL-S".toList ∧ st.currentItem = none ∧
    (partsOf env raw).contains "TEMPLATE".toList = false) ∨
  ((partsOf env raw)[0]? = some "DCL-DS".toList ∧ st.currentItem = none ∧
    (partsOf env raw).contains "TEMPLATE".toList = false) ∨
  ((partsOf env raw)[0]? = some "DCL-PR".toList ∧ st.currentItem = none ∧
    findByName env st.heap st.procedures (partsOf env raw)[1]? = .ok none) ∨
  ((partsOf env raw)[0]? = some "DCL-PROC".toList ∧
    ∃ found, findByName env st.heap st.procedures (partsOf env raw)[1]? = .ok found ∧
      ∀ r, found = some r → r < st.heap.length) ∨
  ((partsOf env raw)[0]? = some "BEGSR".toList ∧
    findByName env st.heap st.subroutines (partsOf env raw)[1]? = .ok none)

/-- The subitem a parameter line gives while the open procedure has `k`
subitems and the tag array holds `ts`: it is named `parm` with the number
`k + 1` when the first token is the marker `*N`, else by the first token as
written; its keywords are the upper-cased tokens after the first; its
description is the content of the `param` tag at index `k`, if there is one. -/
def paramSub (env : Env) (ts : List Tag) (k : Nat) (raw : Str) : SubItem :=
  { name :=
      if (partsOf env raw)[0]? = some "*N".toList then
        some ("parm".toList ++ Nat.toDigits 10 (k + 1))
      else (partsLowerOf raw)[0]?
    keywords := (partsOf env raw).drop 1
    description := paramDescription ts k }

/-- The subitems a run of parameter lines gives, the first of them read while
the open procedure has `k` subitems. -/
def paramSubs (env : Env) (ts : List Tag) : Nat → List Str → List SubItem
  | _, [] => []
  | k, raw :: rest => paramSub env ts k raw :: paramSubs env ts (k + 1) rest

/-- The procedure record `r` is the open declaration and has the given
position, keywords, reading flag and subitems, while the tag array holds `ts`
and `procedures` is `procs`. -/
structure ProcCur (st : ScanState) (r : Nat) (pos : Option Position) (kws : List Str)
    (b : Bool) (subs : List SubItem) (ts : List Tag) (procs : List Nat) : Prop where
  cur : st.currentItem = some r
  lt : r < st.heap.length
  type : (deref st.heap r).type = .procedure
  position : (deref st.heap r).position = pos
  keywords : (deref st.heap r).keywords = kws
  readParms : (deref st.heap r).readParms = b
  subItems : (deref st.heap r).subItems = subs
  tags : tagsAt st.tagHeap st.currentTags = ts
  procs : st.procedures = procs

/-- A line of a procedure body that is no comment and whose first token is no
case label of the `switch` (a blank line is one). -/
def IsBodyLine (env : Env) (raw : Str) : Prop :=
  (∀ k ∈ switchLabels, (partsOf env raw)[0]? ≠ some k) ∧
  startsWith (trim raw) "//".toList = false

/-- The state an iteration of the loop body ends in, given what the `switch`
left: the `if (resetDefinition)` block runs when the flag is set. -/
def finish (x : ScanState × Bool) : ScanState :=
  if x.2 then resetDefinition x.1 else x.1

/-- A collection over one iteration of the loop body: it is unchanged, or it is
longer by one reference, to the record that was open or to a record the
iteration allocated, and no record is open afterwards. -/
def Pushed (st st1 : ScanState) (old new : List Nat) : Prop :=
  new = old ∨ ∃ c, new = old ++ [c] ∧ st1.currentItem = none ∧
    (st.currentItem = some c ∨ (c = st.heap.length ∧ st1.heap.length = st.heap.length + 1))

/-- What one iteration of the loop body, for line `n` of `file` with the token
arrays `parts` and `partsLower`, does to the heap, to the open record and to
the collections other than `procedures`. -/
structure Step (env : Env) (file : Str) (n : Nat) (parts partsLower : List Str)
    (st st1 : ScanState) : Prop where
  oldType : ∀ r, r < st.heap.length → (deref st1.heap r).type = (deref st.heap r).type
  oldSig : ∀ r, r < st.heap.length → (deref st.heap r).type ≠ .procedure →
    (deref st1.heap r).name = (deref st.heap r).name ∧
      (deref st1.heap r).position = (deref st.heap r).position
  fresh : st1.heap.length = st.heap.length + 1 →
    (deref st1.heap st.heap.length).position = posAt file n ∧
      (deref st1.heap st.heap.length).name = partsLower[1]? ∧
      ((deref st1.heap st.heap.length).type = .subroutine →
        findByName env st.heap st.subroutines parts[1]? = .ok none)
  cur : ∀ c, st1.currentItem = some c →
    st.currentItem = some c ∨ (c = st.heap.length ∧ st1.heap.length = st.heap.length + 1) ∨
      (deref st1.heap c).type = .procedure
  consts : Pushed st st1 st.constants st1.constants
  vars : Pushed st st1 st.vars st1.vars
  structs : Pushed st st1 st.structs st1.structs
  subs : Pushed st st1 st.subroutines st1.subroutines

/-- The name of a record as the name lookups compare it: in upper case. -/
def upperName (env : Env) (o : DeclObj) : Option Str :=
  o.name.map (toUpperCase env)

/-- The upper-cased names of the records a list of references points to. -/
def upperNames (env : Env) (heap : List DeclObj) (refs : List Nat) : List (Option Str) :=
  refs.map (fun r => upperName env (deref heap r))

/-- The invariant behind the distinct subroutine names: the records of
`subroutines` have pairwise different upper-cased names, and an open subroutine
has an upper-cased name that none of them has. -/
structure SubsDistinct (env : Env) (st : ScanState) : Prop where
  nodup : (upperNames env st.heap st.subroutines).Nodup
  cur : ∀ c, st.currentItem = some c → (deref st.heap c).type = .subroutine →
    upperName env (deref st.heap c) ∉ upperNames env st.heap st.subroutines

/-- The targets of the directive lines of a document, in document order: the
second token of every line whose first token is `/COPY` or `/INCLUDE` (the
text `undefined` when the line has no second token). -/
def includeTargets (env : Env) (lines : List Str) : List Str :=
  lines.filterMap (fun raw =>
    if isDirective env raw then some ((tokens (trim raw))[1]?.getD "undefined".toList)
    else none)

/-- The index of the first occurrence of a key in a list of keys (the length
of the list when it does not occur). -/
def keyIndex (key : Str) : List Str → Nat
  | [] => 0
  | k :: rest => if k = key then 0 else keyIndex key rest + 1

/-- The rank of a position among the scanned files: the index of its file in
the list of file keys. -/
def fileRank (keys : List Str) (pos : Option Position) : Nat :=
  (pos.map (fun p => keyIndex p.path keys)).getD 0

/-- The file ranks of the records a list of references points to. -/
def ranks (keys : List Str) (heap : List DeclObj) (refs : List Nat) : List Nat :=
  refs.map (fun r => fileRank keys (deref heap r).position)

/-- A collection of records of type `t` is in file order while file `i` is
scanned: the ranks of its records never decrease and do not exceed `i`, and an
open record of type `t` has a rank that is at most `i` and at least the rank
of every record of the collection. -/
def CollOrdered (keys : List Str) (i : Nat) (st : ScanState) (t : DeclType)
    (refs : List Nat) : Prop :=
  (ranks keys st.heap refs).Pairwise (fun a b => a ≤ b) ∧
  (∀ x ∈ ranks keys st.heap refs, x ≤ i) ∧
  ∀ c, st.currentItem = some c → (deref st.heap c).type = t →
    fileRank keys (deref st.heap c).position ≤ i ∧
      ∀ x ∈ ranks keys st.heap refs, x ≤ fileRank keys (deref st.heap c).position

/-- The order invariant of the second loop, for the collections other than
`procedures`. -/
structure Ord (keys : List Str) (i : Nat) (st : ScanState) : Prop where
  consts : CollOrdered keys i st .constant st.constants
  vars : CollOrdered keys i st .variable st.vars
  structs : CollOrdered keys i st .struct st.structs
  subs : CollOrdered keys i st .subroutine st.subroutines

/-! ## Documents used by the concrete runs -/

/-- A prototype with a documentation block of two `param` tags. -/
def prototypeText : String :=
  "///\n// @param a first\n// @param b second\n///\nDCL-PR calc;\n  a CHAR(10);\n  b CHAR(10);\nEND-PR;"

/-- A document with a template variable, a template structure and an ordinary
variable. -/
def templateText : Str :=
  ("DCL-S custId_t PACKED(7) TEMPLATE;\nDCL-DS cust_t QUALIFIED TEMPLATE;\nEND-DS;\n" ++
    "DCL-S total PACKED(9:2);").toList

/-- The one record of the model of `templateText`. -/
def totalRecord : Declaration :=
  { type := .variable, name := some "total".toList, keywords := ["PACKED(9:2)".toList]
    description := [], tags := [], position := some { path := memberUri.path, line := 3 }
    subItems := [], readParms := false }

/-- The model of `templateText`. -/
def templateCache : Cache :=
  { procedures := [], structs := [], subroutines := [], vars := [totalRecord], constants := [] }

/-- A document whose first line is a declaration keyword without a name. -/
def namelessText : Str := "DCL-C\nDCL-S count INT(10);".toList

/-- The constant record the line `DCL-C` gives. -/
def namelessRecord : Declaration :=
  { type := .constant, name := none, keywords := [], description := [], tags := []
    position := some { path := memberUri.path, line := 0 }, subItems := [], readParms := false }

/-- The variable record of `namelessText`. -/
def countRecord : Declaration :=
  { type := .variable, name := some "count".toList, keywords := ["INT(10)".toList]
    description := [], tags := [], position := some { path := memberUri.path, line := 1 }
    subItems := [], readParms := false }

/-- The model of `namelessText`. -/
def namelessCache : Cache :=
  { procedures := [], structs := [], subroutines := [], vars := [countRecord]
    constants := [namelessRecord] }

/-- A document with one include directive and one declaration of its own. -/
def includingText : Str := "/COPY QCPYSRC,ORDERS_H\nDCL-S total PACKED(9:2);".toList

/-- The variable record of `includingText`. -/
def includingTotalRecord : Declaration :=
  { type := .variable, name := some "total".toList, keywords := ["PACKED(9:2)".toList]
    description := [], tags := [], position := some { path := memberUri.path, line := 1 }
    subItems := [], readParms := false }

/-- The constant record of `ordersHeader`, included under the key
`QCPYSRC,ORDERS_H`. -/
def maxOrdersRecord : Declaration :=
  { type := .constant, name := some "MAX_ORDERS".toList, keywords := ["100".toList]
    description := [], tags := []
    position := some { path := "QCPYSRC,ORDERS_H".toList, line := 1 }
    subItems := [], readParms := false }

/-- The variable record of `ordersHeader`, included under the key
`QCPYSRC,ORDERS_H`. -/
def orderIdRecord : Declaration :=
  { type := .variable, name := some "orderId".toList, keywords := ["INT(10)".toList]
    description := [], tags := []
    position := some { path := "QCPYSRC,ORDERS_H".toList, line := 2 }
    subItems := [], readParms := false }

/-- The model of `includingText` when its include can be downloaded. -/
def includedCache : Cache :=
  { procedures := [], structs := [], subroutines := []
    vars := [includingTotalRecord, orderIdRecord], constants := [maxOrdersRecord] }

/-- The `files` object of that build. -/
def includedFiles : FilesObj :=
  { own := [(memberUri.path, toLines includingText),
            ("QCPYSRC,ORDERS_H".toList, toLines ordersHeader)]
    proto := none }

/-- The content cache after that build. -/
def includedBooks : CopyBooks :=
  [("/MYLIB/QCPYSRC/ORDERS_H".toList, toLines ordersHeader)]

/-- The two caches after that build. -/
def includedWorld : World :=
  { copyBooks := includedBooks, parsedCache := [(memberUri.path, some includedCache)] }

/-- The prototype record of `calc` with one parameter `a`, as it stands on the
heap once its `END-PR` is read. -/
def calcPrototype : DeclObj :=
  { type := .procedure, name := some "calc".toList, keywords := [], description := []
    tags := .shared 0, position := some { path := memberUri.path, line := 0 }
    subItems := [{ name := some "a".toList, keywords := ["CHAR(10)".toList], description := [] }]
    readParms := true }

/-- The scanner state after the three lines `DCL-PR calc;`, `  a CHAR(10);` and
`END-PR;` at the start of a document. -/
def afterPrototype : ScanState :=
  { initState with
    tagHeap := [[], []], currentTags := 1, heap := [calcPrototype], procedures := [0] }

/-- The scanner state after those three lines and a documentation block with
the tag lines `// @param first` and `// @param second`. -/
def afterPrototypeBlock : ScanState :=
  { afterPrototype with
    tagHeap := [[], [], [paramTag "first".toList, paramTag "second".toList]], currentTags := 2 }

/-- The scanner state after the line `DCL-PR calc;` at the start of a
document: the prototype is open and reads parameters. -/
def openPrototype : ScanState :=
  { initState with
    heap := [{ calcPrototype with subItems := [] }], currentItem := some 0 }

/-- A document that opens the subroutine `init` twice, the second time in
another letter case, and the subroutine `fin` once. -/
def subroutinesText : Str :=
  "BEGSR init;\nENDSR;\nbegsr INIT;\nendsr;\nBEGSR fin;\nENDSR;".toList

/-- The model of `subroutinesText`. -/
def subroutinesCache : Cache :=
  { procedures := [], structs := [], vars := [], constants := []
    subroutines :=
      [{ type := .subroutine, name := some "init".toList, keywords := [], description := []
         tags := [], position := some { path := memberUri.path, line := 0 }
         subItems := [], readParms := false },
       { type := .subroutine, name := some "fin".toList, keywords := [], description := []
         tags := [], position := some { path := memberUri.path, line := 4 }
         subItems := [], readParms := false }] }

/-- The text of the member `CUST_H` of `QCPYSRC` in `MYLIB`. -/
def custHeader : Str := "DCL-S custId INT(10);".toList

/-- The text of the member `CALC_B` of `QCPYSRC` in `MYLIB`: a body definition
of the procedure `calc`. -/
def calcBody : Str := "DCL-PROC calc;\nEND-PROC;".toList

/-- The content served under a canonical path by `booksEnv`. -/
def booksContent (canonical : Str) : Option Str :=
  if canonical = "/MYLIB/QCPYSRC/ORDERS_H".toList then some ordersHeader
  else if canonical = "/MYLIB/QCPYSRC/CUST_H".toList then some custHeader
  else if canonical = "/MYLIB/QCPYSRC/CALC_B".toList then some calcBody
  else none

/-- An environment like `sampleEnv` in which the members `ORDERS_H`, `CUST_H`
and `CALC_B` of `QCPYSRC` in `MYLIB` can be downloaded. -/
def booksEnv : Env :=
  { sampleEnv with
    downloadMemberContent := fun a l f m =>
      booksContent ((joinWith ['/'] [a, l, f, m]).map asciiUpperChar)
    downloadStreamfile := booksContent }

/-- A document with two prototypes of its own that includes a body definition
of the first one. -/
def reusingText : Str :=
  "DCL-PR calc;\nEND-PR;\nDCL-PR other;\nEND-PR;\n/COPY QCPYSRC,CALC_B".toList

/-- A document with two include directives and one variable of its own. -/
def twoIncludesText : Str :=
  "/COPY QCPYSRC,ORDERS_H\n/COPY QCPYSRC,CUST_H\nDCL-S total PACKED(9:2);".toList

/-- The `files` object built for `twoIncludesText`. -/
def twoIncludesFiles : FilesObj :=
  { own := [(memberUri.path, toLines twoIncludesText),
            ("QCPYSRC,CUST_H".toList, toLines custHeader),
            ("QCPYSRC,ORDERS_H".toList, toLines ordersHeader)]
    proto := none }

/-- The content cache after the build for `twoIncludesText`. -/
def twoIncludesBooks : CopyBooks :=
  [("/MYLIB/QCPYSRC/CUST_H".toList, toLines custHeader),
   ("/MYLIB/QCPYSRC/ORDERS_H".toList, toLines ordersHeader)]

/-- The model of `twoIncludesText` when both includes can be downloaded. -/
def twoIncludesCache : Cache :=
  { procedures := [], structs := [], subroutines := []
    vars :=
      [{ type := .variable, name := some "total".toList, keywords := ["PACKED(9:2)".toList]
         description := [], tags := [], position := some { path := memberUri.path, line := 2 }
         subItems := [], readParms := false },
       { type := .variable, name := some "custId".toList, keywords := ["INT(10)".toList]
         description := [], tags := []
         position := some { path := "QCPYSRC,CUST_H".toList, line := 0 }
         subItems := [], readParms := false },
       orderIdRecord]
    constants := [maxOrdersRecord] }

/-- An environment like `sampleEnv` in which the member download answers only
for the components `MYLIB`, `QCPYSRC`, `ORDERS_H` spelled in upper case. -/
def strictEnv : Env :=
  { sampleEnv with
    downloadMemberContent := fun a l f m =>
      if joinWith ['/'] [a, l, f, m] = "/MYLIB/QCPYSRC/ORDERS_H".toList then some ordersHeader
      else none }

/-- A document that includes the member `ORDERS_H` of `QCPYSRC` twice, in two
spellings. -/
def twoSpellingsText : Str := "/COPY QCPYSRC,ORDERS_H\n/COPY qcpysrc,orders_h".toList

/-- The model of the first build of `twoSpellingsText` in `strictEnv`. -/
def firstBuildCache : Cache :=
  { procedures := [], structs := [], subroutines := []
    vars := [orderIdRecord], constants := [maxOrdersRecord] }

/-- The model of the build of `twoSpellingsText` in `strictEnv` after the
invalidation. -/
def secondBuildCache : Cache :=
  { procedures := [], structs := [], subroutines := []
    vars :=
      [{ orderIdRecord with position := some { path := "qcpysrc,orders_h".toList, line := 2 } },
       orderIdRecord]
    constants :=
      [{ maxOrdersRecord with position := some { path := "qcpysrc,orders_h".toList, line := 1 } },
       maxOrdersRecord] }

/-! ## Strings -/

theorem toNat_ofNat_small (n : Nat) (h : n < 55296) : (Char.ofNat n).toNat = n := by
  have hv : n.isValidChar := Or.inl h
  simp only [Char.ofNat, hv, dif_pos, Char.ofNatAux, Char.toNat]
  rfl

theorem asciiUpperChar_eq_space (c : Char) : asciiUpperChar c = ' ' ↔ c = ' ' := by
  unfold asciiUpperChar
  split
  · rename_i h
    constructor
    · intro he
      have := congrArg Char.toNat he
      rw [toNat_ofNat_small _ (by omega)] at this
      have h32 : (' ' : Char).toNat = 32 := rfl
      omega
    · intro he
      subst he
      have h32 : (' ' : Char).toNat = 32 := rfl
      omega
  · rfl

theorem splitOn_ne_nil (sep : Char) (s : Str) : splitOn sep s ≠ [] := by
  cases s with
  | nil => simp [splitOn]
  | cons c cs =>
    unfold splitOn
    split
    · simp
    · split <;> simp

theorem splitOn_cons_ne (sep c : Char) (s : Str) (h : c ≠ sep) :
    splitOn sep (c :: s) = (c :: (splitOn sep s).headD []) :: (splitOn sep s).tail := by
  conv => lhs; rw [splitOn]
  rw [if_neg h]
  cases hs : splitOn sep s with
  | nil => exact absurd hs (splitOn_ne_nil _ _)
  | cons p ps => rfl

theorem splitOn_cons_sep (sep : Char) (s : Str) :
    splitOn sep (sep :: s) = [] :: splitOn sep s := by
  conv => lhs; rw [splitOn]
  rw [if_pos rfl]

/-- Splitting after a piece that is free of the separator. -/
theorem splitOn_append_clean (sep : Char) (w rest : Str) (hw : sep ∉ w) :
    splitOn sep (w ++ rest) =
      (w ++ (splitOn sep rest).headD []) :: (splitOn sep rest).tail := by
  induction w with
  | nil =>
    cases h : splitOn sep rest with
    | nil => exact absurd h (splitOn_ne_nil _ _)
    | cons p ps => simp [h]
  | cons c cs ih =>
    have hc : c ≠ sep := fun e => hw (by rw [e]; exact List.mem_cons_self _ _)
    have hcs : sep ∉ cs := fun e => hw (List.mem_cons_of_mem _ e)
    rw [List.cons_append, splitOn_cons_ne _ _ _ hc, ih hcs]
    rfl

theorem upperChar_space (env : Env) (hup : UpperCaseOK env) : env.upperChar ' ' = [' '] := by
  rw [hup.1 ' ' (by decide)]
  rfl

theorem upperChar_slash (env : Env) (hup : UpperCaseOK env) : env.upperChar '/' = ['/'] := by
  rw [hup.1 '/' (by decide)]
  rfl

/-- Only the space is upper-cased to something with a space in it. -/
theorem upperChar_no_space (env : Env) (hup : UpperCaseOK env) (c : Char) (hc : c ≠ ' ') :
    ' ' ∉ env.upperChar c := by
  by_cases ha : c.toNat < 128
  · rw [hup.1 c ha]
    intro hm
    simp only [List.mem_singleton] at hm
    exact hc ((asciiUpperChar_eq_space c).mp hm.symm)
  · intro hm
    exact ((hup.2 c (by omega)).2.2 ' ' hm).1 rfl

theorem upperChar_ne_nil (env : Env) (hup : UpperCaseOK env) (c : Char) :
    env.upperChar c ≠ [] := by
  by_cases ha : c.toNat < 128
  · rw [hup.1 c ha]; simp
  · exact (hup.2 c (by omega)).1

theorem toUpperCase_eq_nil (env : Env) (hup : UpperCaseOK env) (s : Str) :
    toUpperCase env s = [] ↔ s = [] := by
  cases s with
  | nil => simp [toUpperCase]
  | cons c cs =>
    simp only [toUpperCase, List.append_eq_nil, upperChar_ne_nil env hup c, false_and]
    simp

theorem splitOn_toUpperCase (env : Env) (hup : UpperCaseOK env) (s : Str) :
    splitOn ' ' (toUpperCase env s) = (splitOn ' ' s).map (toUpperCase env) := by
  induction s with
  | nil => rfl
  | cons c cs ih =>
    by_cases hc : c = ' '
    · subst hc
      rw [splitOn_cons_sep]
      simp only [toUpperCase, upperChar_space env hup, List.singleton_append, splitOn_cons_sep,
        ih, List.map_cons]
    · rw [splitOn_cons_ne _ _ _ hc]
      simp only [toUpperCase]
      rw [splitOn_append_clean _ _ _ (upperChar_no_space env hup c hc), ih]
      cases h : splitOn ' ' cs with
      | nil => exact absurd h (splitOn_ne_nil _ _)
      | cons p ps => simp [toUpperCase]

/-- Upper-casing commutes with the split into tokens. -/
theorem tokens_toUpperCase (env : Env) (hup : UpperCaseOK env) (s : Str) :
    tokens (toUpperCase env s) = (tokens s).map (toUpperCase env) := by
  unfold tokens
  rw [splitOn_toUpperCase env hup, List.filter_map]
  congr 1
  apply List.filter_congr
  intro x _
  simp only [Function.comp, ne_eq, toUpperCase_eq_nil env hup]

theorem tokens_ne_nil (s t : Str) (h : t ∈ tokens s) : t ≠ [] := by
  unfold tokens at h
  simpa using (List.mem_filter.mp h).2

theorem reverse_dropWhile_eq_take {α : Type} (p : α → Bool) :
    ∀ r : List α, ∃ k, k ≤ r.length ∧ (r.dropWhile p).reverse = r.reverse.take k := by
  intro r
  induction r with
  | nil => exact ⟨0, Nat.le_refl _, rfl⟩
  | cons x xs ih =>
    obtain ⟨k, hk, he⟩ := ih
    by_cases hp : p x = true
    · refine ⟨k, Nat.le_succ_of_le hk, ?_⟩
      rw [List.dropWhile_cons_of_pos hp, he, List.reverse_cons,
        List.take_append_of_le_length (by simpa using hk)]
    · refine ⟨(x :: xs).length, Nat.le_refl _, ?_⟩
      rw [List.dropWhile_cons_of_neg hp]
      have : (x :: xs).length = (x :: xs).reverse.length := by simp
      rw [this, List.take_length]

/-- A trimmed line does not start with white space. -/
theorem trim_head (s : Str) (c : Char) (rest : Str) (h : trim s = c :: rest) :
    isWhiteSpace c = false := by
  unfold trim at h
  obtain ⟨k, _, he⟩ := reverse_dropWhile_eq_take isWhiteSpace (s.dropWhile isWhiteSpace).reverse
  rw [he, List.reverse_reverse] at h
  have hd := List.head?_dropWhile_not isWhiteSpace s
  cases ht : s.dropWhile isWhiteSpace with
  | nil => rw [ht] at h; simp at h
  | cons y ys =>
    rw [ht] at h hd
    cases k with
    | zero => simp at h
    | succ k =>
      simp only [List.take_succ_cons, List.cons.injEq] at h
      simp only [List.head?_cons] at hd
      rw [← h.1]
      simpa using hd

theorem tokens_head_of_ne_space (c : Char) (rest : Str) (hc : c ≠ ' ') :
    ∃ t, (tokens (c :: rest))[0]? = some t := by
  unfold tokens splitOn
  rw [if_neg hc]
  cases h : splitOn ' ' rest with
  | nil => exact absurd h (splitOn_ne_nil _ _)
  | cons p ps =>
    simp only
    rw [List.filter_cons_of_pos (by simp)]
    exact ⟨c :: p, by simp⟩

/-- A non-empty trimmed line has a first token. -/
theorem tokens_trim_head (raw : Str) (h : trim raw ≠ []) :
    ∃ t, (tokens (trim raw))[0]? = some t := by
  cases ht : trim raw with
  | nil => exact absurd ht h
  | cons c rest =>
    have hw := trim_head raw c rest ht
    refine tokens_head_of_ne_space c rest ?_
    intro hc
    subst hc
    simp [isWhiteSpace] at hw

/-! ## The invariant of the second loop -/

theorem deref_append_lt (heap : List DeclObj) (o : DeclObj) (r : Nat) (h : r < heap.length) :
    deref (heap ++ [o]) r = deref heap r := by
  simp [deref, List.getD, List.getElem?_append_left h]

theorem deref_append_length (heap : List DeclObj) (o : DeclObj) :
    deref (heap ++ [o]) heap.length = o := by
  simp [deref, List.getD]

theorem deref_mem (heap : List DeclObj) (r : Nat) (h : r < heap.length) :
    deref heap r ∈ heap := by
  have : deref heap r = heap[r] := by
    simp [deref, List.getD_eq_getElem?_getD, List.getElem?_eq_getElem h]
  rw [this]
  exact List.getElem_mem h

theorem deref_set_self (heap : List DeclObj) (r : Nat) (o : DeclObj) (h : r < heap.length) :
    deref (heap.set r o) r = o := by
  simp [deref, List.getD, List.getElem?_set_self h]

theorem deref_set_ne (heap : List DeclObj) (r q : Nat) (o : DeclObj) (h : r ≠ q) :
    deref (heap.set r o) q = deref heap q := by
  simp [deref, List.getD, List.getElem?_set_ne h]

theorem inv_initState (env : Env) (fl : List (Str × List Str)) : Inv env fl initState := by
  constructor <;> simp [initState]

/-- A state with the same heap satisfies the invariant when its open record
points into the heap and every reference added to a collection points to a
record of that collection's type. -/
theorem inv_of_heap_eq {env : Env} {fl : List (Str × List Str)} {st st1 : ScanState} (h : Inv env fl st)
    (hh : st1.heap = st.heap)
    (hc : ∀ r, st1.currentItem = some r → r < st.heap.length)
    (h1 : ∀ r ∈ st1.constants, r ∈ st.constants ∨
      (r < st.heap.length ∧ (deref st.heap r).type = .constant))
    (h2 : ∀ r ∈ st1.vars, r ∈ st.vars ∨
      (r < st.heap.length ∧ (deref st.heap r).type = .variable))
    (h3 : ∀ r ∈ st1.structs, r ∈ st.structs ∨
      (r < st.heap.length ∧ (deref st.heap r).type = .struct))
    (h4 : ∀ r ∈ st1.procedures, r ∈ st.procedures ∨
      (r < st.heap.length ∧ (deref st.heap r).type = .procedure))
    (h5 : ∀ r ∈ st1.subroutines, r ∈ st.subroutines ∨
      (r < st.heap.length ∧ (deref st.heap r).type = .subroutine)) : Inv env fl st1 := by
  constructor
  · rw [hh]; exact h.heapOK
  · rw [hh]; exact hc
  · rw [hh]; intro r hr; exact (h1 r hr).elim (h.consts r) id
  · rw [hh]; intro r hr; exact (h2 r hr).elim (h.vars r) id
  · rw [hh]; intro r hr; exact (h3 r hr).elim (h.structs r) id
  · rw [hh]; intro r hr; exact (h4 r hr).elim (h.procs r) id
  · rw [hh]; intro r hr; exact (h5 r hr).elim (h.subs r) id

theorem inv_resetDefinition {env : Env} {fl : List (Str × List Str)} {st : ScanState} (h : Inv env fl st) :
    Inv env fl (resetDefinition st) :=
  inv_of_heap_eq h rfl (by intro r hr; cases hr) (fun _ hr => Or.inl hr) (fun _ hr => Or.inl hr)
    (fun _ hr => Or.inl hr) (fun _ hr => Or.inl hr) (fun _ hr => Or.inl hr)

/-- Allocation of a record that agrees with a scanned line. -/
theorem inv_allocCurrent {env : Env} {fl : List (Str × List Str)} {st : ScanState} (h : Inv env fl st)
    (o : DeclObj) (ho : SigOK env fl o.type o.name o.position) : Inv env fl (allocCurrent st o) := by
  have hlt : ∀ r, r < st.heap.length → r < (st.heap ++ [o]).length := by
    intro r hr; simp; omega
  constructor
  · intro x hx
    simp only [allocCurrent, List.mem_append, List.mem_singleton] at hx
    rcases hx with hx | hx
    · exact h.heapOK x hx
    · subst hx; exact ho
  · intro r hr
    simp only [allocCurrent, Option.some.injEq] at hr
    subst hr
    simp [allocCurrent]
  · intro r hr
    have := h.consts r hr
    exact ⟨hlt r this.1, by simpa [allocCurrent, deref_append_lt _ _ _ this.1] using this.2⟩
  · intro r hr
    have := h.vars r hr
    exact ⟨hlt r this.1, by simpa [allocCurrent, deref_append_lt _ _ _ this.1] using this.2⟩
  · intro r hr
    have := h.structs r hr
    exact ⟨hlt r this.1, by simpa [allocCurrent, deref_append_lt _ _ _ this.1] using this.2⟩
  · intro r hr
    have := h.procs r hr
    exact ⟨hlt r this.1, by simpa [allocCurrent, deref_append_lt _ _ _ this.1] using this.2⟩
  · intro r hr
    have := h.subs r hr
    exact ⟨hlt r this.1, by simpa [allocCurrent, deref_append_lt _ _ _ this.1] using this.2⟩

/-- In-place update of a record that keeps its type and still agrees with a
scanned line. -/
theorem inv_updateObj {env : Env} {fl : List (Str × List Str)} {st : ScanState} (h : Inv env fl st)
    (r : Nat) (f : DeclObj → DeclObj)
    (ht : (f (deref st.heap r)).type = (deref st.heap r).type)
    (ho : SigOK env fl (f (deref st.heap r)).type (f (deref st.heap r)).name
      (f (deref st.heap r)).position) : Inv env fl (updateObj st r f) := by
  have key : ∀ q t, q < st.heap.length ∧ (deref st.heap q).type = t →
      q < (st.heap.set r (f (deref st.heap r))).length ∧
        (deref (st.heap.set r (f (deref st.heap r))) q).type = t := by
    intro q t hq
    refine ⟨by simpa using hq.1, ?_⟩
    by_cases hrq : r = q
    · subst hrq
      rw [deref_set_self _ _ _ hq.1, ht]; exact hq.2
    · rw [deref_set_ne _ _ _ _ hrq]; exact hq.2
  constructor
  · intro x hx
    simp only [updateObj] at hx
    rcases List.mem_or_eq_of_mem_set hx with hx | hx
    · exact h.heapOK x hx
    · subst hx; exact ho
  · intro q hq
    simpa [updateObj] using h.cur q hq
  · intro q hq; exact key q _ (h.consts q hq)
  · intro q hq; exact key q _ (h.vars q hq)
  · intro q hq; exact key q _ (h.structs q hq)
  · intro q hq; exact key q _ (h.procs q hq)
  · intro q hq; exact key q _ (h.subs q hq)

theorem findByName_mem (env : Env) (heap : List DeclObj) (l : List Nat) (t : Option Str) (r : Nat)
    (h : findByName env heap l t = .ok (some r)) : r ∈ l := by
  induction l with
  | nil => simp [findByName] at h
  | cons x xs ih =>
    unfold findByName at h
    split at h
    · cases h
    · split at h
      · simp only [Except.ok.injEq, Option.some.injEq] at h
        subst h; exact List.mem_cons_self _ _
      · exact List.mem_cons_of_mem _ (ih h)

theorem currentIs_some {st : ScanState} {t : DeclType} {r : Nat} (h : currentIs st t = some r) :
    st.currentItem = some r ∧ (deref st.heap r).type = t := by
  unfold currentIs at h
  split at h
  · cases h
  · split at h
    · simp only [Option.some.injEq] at h
      subst h
      exact ⟨by assumption, by assumption⟩
    · cases h

section cases
variable {env : Env} {fl : List (Str × List Str)} {st : ScanState}

theorem inv_caseDclC (h : Inv env fl st) (file : Str) (n : Nat) (parts partsLower : List Str)
    (hs : SigOK env fl .constant partsLower[1]? (posAt file n)) :
    Inv env fl (caseDclC file n parts partsLower st).1 := by
  unfold caseDclC
  split
  · exact h
  · have h1 := inv_allocCurrent h
      { newDeclaration .constant with
        name := partsLower[1]?, keywords := parts.drop 2
        description := joinStr [' '] st.currentDescription, position := posAt file n } hs
    refine inv_of_heap_eq h1 rfl h1.cur ?_ (fun _ hr => Or.inl hr) (fun _ hr => Or.inl hr)
      (fun _ hr => Or.inl hr) (fun _ hr => Or.inl hr)
    intro r hr
    simp only [List.mem_append, List.mem_singleton] at hr
    rcases hr with hr | hr
    · exact Or.inl hr
    · subst hr
      exact Or.inr ⟨by simp [allocCurrent], by simp [allocCurrent, deref_append_length]; rfl⟩

theorem inv_caseDclS (h : Inv env fl st) (file : Str) (n : Nat) (parts partsLower : List Str)
    (hs : parts.contains "TEMPLATE".toList = false →
      SigOK env fl .variable partsLower[1]? (posAt file n)) :
    Inv env fl (caseDclS file n parts partsLower st).1 := by
  unfold caseDclS
  split
  · exact h
  · split
    · exact h
    · rename_i ht
      have h1 := inv_allocCurrent h
        { newDeclaration .variable with
          name := partsLower[1]?, keywords := parts.drop 2
          description := joinStr [' '] st.currentDescription
          tags := .shared st.currentTags, position := posAt file n } (hs (by simpa using ht))
      refine inv_of_heap_eq h1 rfl h1.cur (fun _ hr => Or.inl hr) ?_ (fun _ hr => Or.inl hr)
        (fun _ hr => Or.inl hr) (fun _ hr => Or.inl hr)
      intro r hr
      simp only [List.mem_append, List.mem_singleton] at hr
      rcases hr with hr | hr
      · exact Or.inl hr
      · subst hr
        exact Or.inr ⟨by simp [allocCurrent], by simp [allocCurrent, deref_append_length]; rfl⟩

theorem inv_caseDclDs (h : Inv env fl st) (file : Str) (n : Nat)
    (parts partsLower : List Str)
    (hs : parts.contains "TEMPLATE".toList = false →
      SigOK env fl .struct partsLower[1]? (posAt file n)) :
    Inv env fl (caseDclDs env file n parts partsLower st).1 := by
  unfold caseDclDs
  split
  · exact h
  · split
    · exact h
    · rename_i ht
      have h1 := inv_allocCurrent h
        { newDeclaration .struct with
          name := partsLower[1]?, keywords := parts.drop 2
          description := joinStr [' '] st.currentDescription
          tags := .shared st.currentTags, position := posAt file n } (hs (by simpa using ht))
      simp only
      split
      · refine inv_of_heap_eq h1 rfl h1.cur (fun _ hr => Or.inl hr) (fun _ hr => Or.inl hr) ?_
          (fun _ hr => Or.inl hr) (fun _ hr => Or.inl hr)
        intro r hr
        simp only [List.mem_append, List.mem_singleton] at hr
        rcases hr with hr | hr
        · exact Or.inl hr
        · subst hr
          exact Or.inr ⟨by simp [allocCurrent], by simp [allocCurrent, deref_append_length]; rfl⟩
      · exact inv_of_heap_eq h1 rfl h1.cur (fun _ hr => Or.inl hr) (fun _ hr => Or.inl hr)
          (fun _ hr => Or.inl hr) (fun _ hr => Or.inl hr) (fun _ hr => Or.inl hr)

theorem inv_caseEndDs (h : Inv env fl st) : Inv env fl (caseEndDs st).1 := by
  unfold caseEndDs
  split
  · rename_i r hr
    have hc := currentIs_some hr
    refine inv_of_heap_eq h rfl h.cur (fun _ hr => Or.inl hr) (fun _ hr => Or.inl hr) ?_
      (fun _ hr => Or.inl hr) (fun _ hr => Or.inl hr)
    intro q hq
    simp only [List.mem_append, List.mem_singleton] at hq
    rcases hq with hq | hq
    · exact Or.inl hq
    · subst hq; exact Or.inr ⟨h.cur _ hc.1, hc.2⟩
  · exact h

theorem inv_caseEndProc (h : Inv env fl st) : Inv env fl (caseEndProc st).1 := by
  unfold caseEndProc
  split
  · rename_i r hr
    have hc := currentIs_some hr
    refine inv_of_heap_eq h rfl h.cur (fun _ hr => Or.inl hr) (fun _ hr => Or.inl hr)
      (fun _ hr => Or.inl hr) ?_ (fun _ hr => Or.inl hr)
    intro q hq
    simp only [List.mem_append, List.mem_singleton] at hq
    rcases hq with hq | hq
    · exact Or.inl hq
    · subst hq; exact Or.inr ⟨h.cur _ hc.1, hc.2⟩
  · exact h

theorem inv_caseEndsr (h : Inv env fl st) : Inv env fl (caseEndsr st).1 := by
  unfold caseEndsr
  split
  · rename_i r hr
    have hc := currentIs_some hr
    refine inv_of_heap_eq h rfl h.cur (fun _ hr => Or.inl hr) (fun _ hr => Or.inl hr)
      (fun _ hr => Or.inl hr) (fun _ hr => Or.inl hr) ?_
    intro q hq
    simp only [List.mem_append, List.mem_singleton] at hq
    rcases hq with hq | hq
    · exact Or.inl hq
    · subst hq; exact Or.inr ⟨h.cur _ hc.1, hc.2⟩
  · exact h

theorem inv_caseDclPr (h : Inv env fl st) (file : Str) (n : Nat) (parts partsLower : List Str)
    (hs : SigOK env fl .procedure partsLower[1]? (posAt file n)) (st1 : ScanState) (b : Bool)
    (hr : caseDclPr env file n parts partsLower st = .ok (st1, b)) : Inv env fl st1 := by
  unfold caseDclPr at hr
  split at hr
  · cases hr; exact h
  · split at hr
    · cases hr
    · cases hr; exact h
    · cases hr
      have h1 := inv_allocCurrent h
        { newDeclaration .procedure with
          name := partsLower[1]?, keywords := parts.drop 2
          description := joinStr [' '] st.currentDescription
          tags := .shared st.currentTags, position := posAt file n, readParms := true } hs
      exact inv_of_heap_eq h1 rfl h1.cur (fun _ hr => Or.inl hr) (fun _ hr => Or.inl hr)
        (fun _ hr => Or.inl hr) (fun _ hr => Or.inl hr) (fun _ hr => Or.inl hr)

theorem inv_caseBegsr (h : Inv env fl st) (file : Str) (n : Nat) (parts partsLower : List Str)
    (hs : SigOK env fl .subroutine partsLower[1]? (posAt file n)) (st1 : ScanState) (b : Bool)
    (hr : caseBegsr env file n parts partsLower st = .ok (st1, b)) : Inv env fl st1 := by
  unfold caseBegsr at hr
  split at hr
  · cases hr
  · cases hr; exact h
  · cases hr
    have h1 := inv_allocCurrent h
      { newDeclaration .subroutine with
        name := partsLower[1]?, description := joinStr [' '] st.currentDescription
        position := posAt file n } hs
    exact inv_of_heap_eq h1 rfl h1.cur (fun _ hr => Or.inl hr) (fun _ hr => Or.inl hr)
      (fun _ hr => Or.inl hr) (fun _ hr => Or.inl hr) (fun _ hr => Or.inl hr)

theorem set_append_length {α : Type} (l : List α) (a b : α) :
    (l ++ [a]).set l.length b = l ++ [b] := by
  induction l with
  | nil => rfl
  | cons x xs ih => simp [ih]

theorem updateObj_allocCurrent (st : ScanState) (o : DeclObj) (f : DeclObj → DeclObj) :
    updateObj (allocCurrent st o) st.heap.length f = allocCurrent st (f o) := by
  simp [updateObj, allocCurrent, deref_append_length, set_append_length]

theorem inv_caseDclProc (h : Inv env fl st) (file : Str) (n : Nat) (parts partsLower : List Str)
    (hs : SigOK env fl .procedure partsLower[1]? (posAt file n)) (st1 : ScanState) (b : Bool)
    (hr : caseDclProc env file n parts partsLower st = .ok (st1, b)) : Inv env fl st1 := by
  unfold caseDclProc at hr
  split at hr
  · cases hr
  · rename_i found hfound
    cases hr
    cases found with
    | none =>
      simp only [Option.getD_none, updateObj_allocCurrent]
      have h1 := inv_allocCurrent h
        { newDeclaration .procedure with
          name := partsLower[1]?, keywords := parts.drop 2
          description := joinStr [' '] st.currentDescription
          tags := .shared st.currentTags, position := posAt file n, readParms := false } hs
      exact inv_of_heap_eq h1 rfl h1.cur (fun _ hr => Or.inl hr) (fun _ hr => Or.inl hr)
        (fun _ hr => Or.inl hr) (fun _ hr => Or.inl hr) (fun _ hr => Or.inl hr)
    | some r =>
      have hp := h.procs r (findByName_mem _ _ _ _ _ hfound)
      have h0 : Inv env fl { st with currentItem := some r } :=
        inv_of_heap_eq h rfl (by intro q hq; cases hq; exact hp.1) (fun _ hr => Or.inl hr)
          (fun _ hr => Or.inl hr) (fun _ hr => Or.inl hr) (fun _ hr => Or.inl hr)
          (fun _ hr => Or.inl hr)
      have h1 := inv_updateObj h0 r (fun o => { o with
            name := partsLower[1]?, keywords := parts.drop 2
            description := joinStr [' '] st.currentDescription
            tags := .shared st.currentTags, position := posAt file n, readParms := false })
        rfl (by simpa [hp.2] using hs)
      exact inv_of_heap_eq h1 rfl h1.cur (fun _ hr => Or.inl hr) (fun _ hr => Or.inl hr)
        (fun _ hr => Or.inl hr) (fun _ hr => Or.inl hr) (fun _ hr => Or.inl hr)

theorem inv_caseDclPi (h : Inv env fl st) (parts : List Str) : Inv env fl (caseDclPi parts st).1 := by
  unfold caseDclPi
  split
  · exact h
  · rename_i r hr
    have hlt := h.cur r hr
    have h1 := inv_updateObj h r (fun o => { o with keywords := parts.drop 2, readParms := true })
      rfl (show SigOK env fl (deref st.heap r).type (deref st.heap r).name (deref st.heap r).position
        from h.heapOK _ (deref_mem _ _ hlt))
    exact inv_of_heap_eq h1 rfl h1.cur (fun _ hr => Or.inl hr) (fun _ hr => Or.inl hr)
      (fun _ hr => Or.inl hr) (fun _ hr => Or.inl hr) (fun _ hr => Or.inl hr)

theorem inv_caseEndPi (h : Inv env fl st) : Inv env fl (caseEndPi st).1 := by
  unfold caseEndPi
  split
  · rename_i r hr
    have hc := currentIs_some hr
    exact inv_updateObj h r (fun o => { o with readParms := false }) rfl
      (show SigOK env fl (deref st.heap r).type (deref st.heap r).name (deref st.heap r).position
        from h.heapOK _ (deref_mem _ _ (h.cur r hc.1)))
  · exact h

theorem inv_caseDocToggle (h : Inv env fl st) : Inv env fl (caseDocToggle st).1 := by
  unfold caseDocToggle
  split <;>
  exact inv_of_heap_eq h rfl h.cur (fun _ hr => Or.inl hr) (fun _ hr => Or.inl hr)
    (fun _ hr => Or.inl hr) (fun _ hr => Or.inl hr) (fun _ hr => Or.inl hr)

theorem inv_caseComment (h : Inv env fl st) (line : Str) : Inv env fl (caseComment line st).1 := by
  simp only [caseComment]
  split_ifs
  any_goals split
  all_goals
    exact inv_of_heap_eq h rfl h.cur (fun _ hr => Or.inl hr) (fun _ hr => Or.inl hr)
      (fun _ hr => Or.inl hr) (fun _ hr => Or.inl hr) (fun _ hr => Or.inl hr)

theorem inv_caseParameter (h : Inv env fl st) (parts partsLower : List Str) (st1 : ScanState)
    (b : Bool) (hr : caseParameter parts partsLower st = .ok (st1, b)) : Inv env fl st1 := by
  unfold caseParameter at hr
  cases hcur : currentIs st .procedure with
  | none =>
    simp only [hcur] at hr
    cases hr; exact h
  | some r =>
    have hc := currentIs_some hcur
    simp only [hcur] at hr
    by_cases hrp : (deref st.heap r).readParms = true
    · simp only [hrp, if_true] at hr
      cases hp : parts[0]? with
      | none => simp [hp] at hr
      | some p0 =>
        simp only [hp, Except.ok.injEq, Prod.mk.injEq] at hr
        rw [← hr.1]
        exact inv_updateObj h r _ rfl
          (show SigOK env fl (deref st.heap r).type (deref st.heap r).name
            (deref st.heap r).position from h.heapOK _ (deref_mem _ _ (h.cur r hc.1)))
    · simp only [hrp] at hr
      cases hr; exact h

end cases

theorem fst_of_ok {x : ScanState × Bool} {st2 : ScanState} {reset : Bool}
    (h : (Except.ok x : Except JSError (ScanState × Bool)) = .ok (st2, reset)) : st2 = x.1 := by
  cases h; rfl

/-- One iteration of the inner loop keeps the invariant. -/
theorem inv_processLine {fl : List (Str × List Str)} {st st1 : ScanState} (env : Env)
    {file : Str} {lines : List Str} {n : Nat} {raw : Str} (h : Inv env fl st)
    (hf : (file, lines) ∈ fl) (hl : lines[n]? = some raw)
    (hr : processLine env file n st raw = .ok st1) : Inv env fl st1 := by
  unfold processLine at hr
  by_cases hne : trim raw = []
  · simp only [hne, if_true] at hr
    cases hr; exact h
  · simp only [hne, if_false] at hr
    split at hr
    · cases hr
    · rename_i st2 reset hd
      simp only [Except.ok.injEq] at hr
      have h2 : Inv env fl st2 := by
        have sig : ∀ t, declaredBy env t (partsLowerOf raw)[1]? raw →
            SigOK env fl t (partsLowerOf raw)[1]? (posAt file n) :=
          fun t ht => ⟨file, n, lines, raw, rfl, hf, hl, ht⟩
        unfold dispatch at hd
        by_cases c1 : (tokens (toUpperCase env (beforeSemicolon (trim raw))))[0]? = some "DCL-C".toList
        · rw [if_pos c1] at hd; rw [fst_of_ok hd]
          exact inv_caseDclC h _ _ _ _ (sig _ ⟨hne, rfl, c1⟩)
        rw [if_neg c1] at hd
        by_cases c2 : (tokens (toUpperCase env (beforeSemicolon (trim raw))))[0]? = some "DCL-S".toList
        · rw [if_pos c2] at hd; rw [fst_of_ok hd]
          exact inv_caseDclS h _ _ _ _ (fun ht => sig _ ⟨hne, rfl, c2, ht⟩)
        rw [if_neg c2] at hd
        by_cases c3 : (tokens (toUpperCase env (beforeSemicolon (trim raw))))[0]? = some "DCL-DS".toList
        · rw [if_pos c3] at hd; rw [fst_of_ok hd]
          exact inv_caseDclDs h _ _ _ _ (fun ht => sig _ ⟨hne, rfl, c3, ht⟩)
        rw [if_neg c3] at hd
        by_cases c4 : (tokens (toUpperCase env (beforeSemicolon (trim raw))))[0]? = some "END-DS".toList
        · rw [if_pos c4] at hd; rw [fst_of_ok hd]; exact inv_caseEndDs h
        rw [if_neg c4] at hd
        by_cases c5 : (tokens (toUpperCase env (beforeSemicolon (trim raw))))[0]? = some "DCL-PR".toList
        · rw [if_pos c5] at hd
          exact inv_caseDclPr h _ _ _ _ (sig _ ⟨hne, rfl, Or.inl c5⟩) _ _ hd
        rw [if_neg c5] at hd
        by_cases c6 : (tokens (toUpperCase env (beforeSemicolon (trim raw))))[0]? = some "END-PR".toList
        · rw [if_pos c6] at hd; rw [fst_of_ok hd]; exact inv_caseEndProc h
        rw [if_neg c6] at hd
        by_cases c7 :
            (tokens (toUpperCase env (beforeSemicolon (trim raw))))[0]? = some "DCL-PROC".toList
        · rw [if_pos c7] at hd
          exact inv_caseDclProc h _ _ _ _ (sig _ ⟨hne, rfl, Or.inr c7⟩) _ _ hd
        rw [if_neg c7] at hd
        by_cases c8 : (tokens (toUpperCase env (beforeSemicolon (trim raw))))[0]? = some "DCL-PI".toList
        · rw [if_pos c8] at hd; rw [fst_of_ok hd]; exact inv_caseDclPi h _
        rw [if_neg c8] at hd
        by_cases c9 : (tokens (toUpperCase env (beforeSemicolon (trim raw))))[0]? = some "END-PI".toList
        · rw [if_pos c9] at hd; rw [fst_of_ok hd]; exact inv_caseEndPi h
        rw [if_neg c9] at hd
        by_cases c10 :
            (tokens (toUpperCase env (beforeSemicolon (trim raw))))[0]? = some "END-PROC".toList
        · rw [if_pos c10] at hd; rw [fst_of_ok hd]; exact inv_caseEndProc h
        rw [if_neg c10] at hd
        by_cases c11 : (tokens (toUpperCase env (beforeSemicolon (trim raw))))[0]? = some "BEGSR".toList
        · rw [if_pos c11] at hd
          exact inv_caseBegsr h _ _ _ _ (sig _ ⟨hne, rfl, c11⟩) _ _ hd
        rw [if_neg c11] at hd
        by_cases c12 : (tokens (toUpperCase env (beforeSemicolon (trim raw))))[0]? = some "ENDSR".toList
        · rw [if_pos c12] at hd; rw [fst_of_ok hd]; exact inv_caseEndsr h
        rw [if_neg c12] at hd
        by_cases c13 : (tokens (toUpperCase env (beforeSemicolon (trim raw))))[0]? = some "///".toList
        · rw [if_pos c13] at hd; rw [fst_of_ok hd]; exact inv_caseDocToggle h
        rw [if_neg c13] at hd
        by_cases c14 : startsWith (trim raw) "//".toList = true
        · rw [if_pos c14] at hd; rw [fst_of_ok hd]; exact inv_caseComment h _
        rw [if_neg c14] at hd
        exact inv_caseParameter h _ _ _ _ hd
      rw [← hr]
      split
      · exact inv_resetDefinition h2
      · exact h2

/-- The inner loop keeps the invariant. -/
theorem inv_processLines {fl : List (Str × List Str)} (env : Env) {file : Str}
    {lines : List Str} (hf : (file, lines) ∈ fl) :
    ∀ (rest : List Str) (n : Nat) (st st1 : ScanState),
      (∀ i raw, rest[i]? = some raw → lines[n + i]? = some raw) → Inv env fl st →
      processLines env file n rest st = .ok st1 → Inv env fl st1 := by
  intro rest
  induction rest with
  | nil =>
    intro n st st1 _ h hr
    simp only [processLines, Except.ok.injEq] at hr
    rw [← hr]; exact h
  | cons raw rest ih =>
    intro n st st1 hidx h hr
    unfold processLines at hr
    split at hr
    · cases hr
    · rename_i st2 h2
      have hl : lines[n]? = some raw := by simpa using hidx 0 raw (by simp)
      refine ih (n + 1) st2 st1 ?_ (inv_processLine env h hf hl h2) hr
      intro i r hi
      have := hidx (i + 1) r (by simpa using hi)
      rw [← this]
      congr 1
      omega

/-- The outer loop keeps the invariant. -/
theorem inv_processFiles {fl : List (Str × List Str)} (env : Env) :
    ∀ (l : List (Str × List Str)) (st st1 : ScanState), (∀ e ∈ l, e ∈ fl) → Inv env fl st →
      processFiles env l st = .ok st1 → Inv env fl st1 := by
  intro l
  induction l with
  | nil =>
    intro st st1 _ h hr
    simp only [processFiles, Except.ok.injEq] at hr
    rw [← hr]; exact h
  | cons e l ih =>
    intro st st1 hsub h hr
    obtain ⟨file, lines⟩ := e
    unfold processFiles at hr
    split at hr
    · cases hr
    · rename_i st2 h2
      have hf : (file, lines) ∈ fl := hsub _ (List.mem_cons_self _ _)
      refine ih st2 st1 (fun e he => hsub e (List.mem_cons_of_mem _ he)) ?_ hr
      exact inv_processLines env hf lines 0 st st2 (by intro i raw hi; simpa using hi) h h2

/-! ## Keys of the enumerated files -/

theorem decimalValue_append_singleton (ds : List Char) (c : Char) :
    decimalValue (ds ++ [c]) = 10 * decimalValue ds + (c.toNat - 48) := by
  simp [decimalValue, List.foldl_append]

theorem digitChar_value (k : Nat) (h : k < 10) : (Nat.digitChar k).toNat - 48 = k := by
  interval_cases k <;> rfl

theorem toDigitsCore_value :
    ∀ (fuel n : Nat) (ds : List Char), n < fuel →
      ∃ pre, Nat.toDigitsCore 10 fuel n ds = pre ++ ds ∧ decimalValue pre = n := by
  intro fuel
  induction fuel with
  | zero => intro n ds h; omega
  | succ fuel ih =>
    intro n ds h
    unfold Nat.toDigitsCore
    simp only
    by_cases h0 : n / 10 = 0
    · rw [if_pos h0]
      refine ⟨[Nat.digitChar (n % 10)], rfl, ?_⟩
      have hn : n < 10 := by omega
      rw [Nat.mod_eq_of_lt hn]
      simp [decimalValue, digitChar_value n hn]
    · rw [if_neg h0]
      obtain ⟨pre, hpre, hv⟩ := ih (n / 10) (Nat.digitChar (n % 10) :: ds) (by omega)
      refine ⟨pre ++ [Nat.digitChar (n % 10)], by simp [hpre], ?_⟩
      rw [decimalValue_append_singleton, hv, digitChar_value _ (Nat.mod_lt n (by decide))]
      omega

theorem decimalValue_toDigits (n : Nat) : decimalValue (Nat.toDigits 10 n) = n := by
  obtain ⟨pre, hpre, hv⟩ := toDigitsCore_value (n + 1) n [] (by omega)
  unfold Nat.toDigits
  rw [hpre, List.append_nil, hv]

theorem toDigits_injective {i j : Nat} (h : Nat.toDigits 10 i = Nat.toDigits 10 j) : i = j := by
  have := congrArg decimalValue h
  simpa [decimalValue_toDigits] using this

theorem lookupKey_eq_none_iff {α : Type} (key : Str) (l : List (Str × α)) :
    lookupKey key l = none ↔ key ∉ l.map Prod.fst := by
  induction l with
  | nil => simp [lookupKey]
  | cons x xs ih =>
    obtain ⟨k, v⟩ := x
    unfold lookupKey
    by_cases hk : k = key
    · rw [if_pos hk]
      constructor
      · intro h; cases h
      · intro h
        exact absurd (by rw [← hk]; exact List.mem_cons_self _ _) h
    · simp only [if_neg hk, ih, List.map_cons, List.mem_cons, not_or]
      constructor
      · intro h; exact ⟨fun e => hk e.symm, h⟩
      · intro h; exact h.2

theorem lookupKey_of_mem {α : Type} (l : List (Str × α)) (hn : (l.map Prod.fst).Nodup)
    (key : Str) (v : α) (h : (key, v) ∈ l) : lookupKey key l = some v := by
  induction l with
  | nil => cases h
  | cons x xs ih =>
    obtain ⟨k, w⟩ := x
    simp only [List.map_cons, List.nodup_cons] at hn
    unfold lookupKey
    rcases List.mem_cons.mp h with h | h
    · obtain ⟨h1, h2⟩ := Prod.mk.inj h
      subst h1 h2
      exact if_pos rfl
    · have hk : k ≠ key := by
        intro e; subst e
        exact hn.1 (List.mem_map.mpr ⟨(k, v), h, rfl⟩)
      rw [if_neg hk]
      exact ih hn.2 h

theorem mem_of_lookupKey {α : Type} (l : List (Str × α)) (key : Str) (v : α)
    (h : lookupKey key l = some v) : (key, v) ∈ l := by
  induction l with
  | nil => simp [lookupKey] at h
  | cons x xs ih =>
    obtain ⟨k, w⟩ := x
    unfold lookupKey at h
    by_cases hk : k = key
    · rw [if_pos hk] at h
      cases h; subst hk; exact List.mem_cons_self _ _
    · rw [if_neg hk] at h
      exact List.mem_cons_of_mem _ (ih h)

theorem setKey_keys {α : Type} (key : Str) (v : α) (l : List (Str × α)) :
    (setKey key v l).map Prod.fst =
      if key ∈ l.map Prod.fst then l.map Prod.fst else l.map Prod.fst ++ [key] := by
  induction l with
  | nil => simp [setKey]
  | cons x xs ih =>
    obtain ⟨k, w⟩ := x
    unfold setKey
    by_cases hk : k = key
    · rw [if_pos hk]
      simp only [List.map_cons, List.mem_cons, hk, true_or, if_true]
    · rw [if_neg hk]
      simp only [List.map_cons, ih, List.mem_cons]
      have hk2 : ¬ key = k := fun e => hk e.symm
      by_cases hm : key ∈ xs.map Prod.fst
      · simp [hm]
      · simp [hm, hk2]

theorem setKey_nodup {α : Type} (key : Str) (v : α) (l : List (Str × α))
    (h : (l.map Prod.fst).Nodup) : ((setKey key v l).map Prod.fst).Nodup := by
  rw [setKey_keys]
  split
  · exact h
  · rename_i hm
    exact List.nodup_append.mpr ⟨h, List.nodup_singleton _, by
      intro a ha hb
      simp only [List.mem_singleton] at hb
      subst hb; exact hm ha⟩

theorem insertByIndex_perm {α : Type} (e : Nat × α) (l : List (Nat × α)) :
    (insertByIndex e l).Perm (e :: l) := by
  induction l with
  | nil => exact List.Perm.refl _
  | cons x xs ih =>
    unfold insertByIndex
    split
    · exact List.Perm.refl _
    · exact (List.Perm.cons x ih).trans (List.Perm.swap e x xs)

theorem foldr_insertByIndex_perm {α : Type} (l : List (Nat × α)) :
    (l.foldr insertByIndex []).Perm l := by
  induction l with
  | nil => exact List.Perm.refl _
  | cons x xs ih => exact (insertByIndex_perm x _).trans (List.Perm.cons x ih)

theorem indexProps_perm (own : List (Str × List Str)) :
    (indexProps own).Perm (own.filter (fun kv => (arrayIndex? kv.1).isSome)) := by
  unfold indexProps
  refine ((foldr_insertByIndex_perm _).map Prod.snd).trans ?_
  rw [List.map_filterMap]
  apply List.Perm.of_eq
  induction own with
  | nil => rfl
  | cons x xs ih =>
    rw [List.filterMap_cons, List.filter_cons, ih]
    cases hx : arrayIndex? x.1 <;> simp

/-- The own part of the enumeration is a rearrangement of the own properties. -/
theorem ownPart_perm (own : List (Str × List Str)) :
    (indexProps own ++ own.filter (fun kv => (arrayIndex? kv.1).isNone)).Perm own := by
  refine ((indexProps_perm own).append_right _).trans ?_
  have := List.filter_append_perm (fun kv : Str × List Str => (arrayIndex? kv.1).isSome) own
  refine List.Perm.trans ?_ this
  apply List.Perm.of_eq
  congr 1
  apply List.filter_congr
  intro x _
  cases arrayIndex? x.1 <;> rfl

theorem inheritedProps_keys (files : FilesObj) :
    ∀ e ∈ inheritedProps files, e.1 ∉ files.own.map Prod.fst ∧
      ∃ arr i, files.proto = some arr ∧ i < arr.length ∧ e.1 = Nat.toDigits 10 i ∧
        e.2 = (arr.getD i []).map (fun c => [c]) := by
  intro e he
  unfold inheritedProps at he
  split at he
  · cases he
  · rename_i arr harr
    simp only [List.mem_filterMap, List.mem_range] at he
    obtain ⟨i, hi, hv⟩ := he
    split at hv
    · cases hv
    · rename_i hnone
      simp only [Option.some.injEq] at hv
      subst hv
      exact ⟨(lookupKey_eq_none_iff _ _).mp hnone, arr, i, harr, hi, rfl, rfl⟩

theorem inheritedProps_nodup (files : FilesObj) :
    ((inheritedProps files).map Prod.fst).Nodup := by
  unfold inheritedProps
  split
  · simp
  · rename_i arr _
    rw [List.map_filterMap]
    refine List.Nodup.filterMap ?_ (List.nodup_range _)
    intro i j k hi hj
    simp only [Option.mem_def] at hi hj
    split at hi
    · simp at hi
    · split at hj
      · simp at hj
      · simp only [Option.map_some', Option.some.injEq] at hi hj
        exact toDigits_injective (hi.trans hj.symm)

/-- The keys visited by `for (const file in files)` are pairwise distinct. -/
theorem forIn_keys_nodup (files : FilesObj) (h : (files.own.map Prod.fst).Nodup) :
    ((forIn files).map Prod.fst).Nodup := by
  unfold forIn
  rw [List.map_append]
  refine List.nodup_append.mpr ⟨?_, inheritedProps_nodup files, ?_⟩
  · exact ((ownPart_perm files.own).map Prod.fst).nodup_iff.mpr h
  · intro a ha hb
    obtain ⟨e, he, rfl⟩ := List.mem_map.mp hb
    have := (inheritedProps_keys files e he).1
    exact this (((ownPart_perm files.own).map Prod.fst).mem_iff.mp ha)

/-! ## Records of a freshly built model -/

theorem setProp_nodup (files : FilesObj) (key : Str) (lines : List Str)
    (h : (files.own.map Prod.fst).Nodup) : ((setProp files key lines).own.map Prod.fst).Nodup := by
  unfold setProp
  split
  · exact h
  · exact setKey_nodup _ _ _ h

theorem includeStep_nodup (env : Env) (uri : Uri) (acc acc1 : FilesObj × CopyBooks) (raw : Str)
    (h : (acc.1.own.map Prod.fst).Nodup) (hr : includeStep env uri acc raw = .ok acc1) :
    (acc1.1.own.map Prod.fst).Nodup := by
  unfold includeStep at hr
  simp only at hr
  split at hr
  · cases hr; exact h
  · split at hr
    · cases hr
    · split at hr
      · split at hr
        · cases hr
        · cases hr
          exact setProp_nodup _ _ _ h
      · cases hr; exact h

theorem discoverIncludes_nodup (env : Env) (uri : Uri) :
    ∀ (l : List Str) (acc acc1 : FilesObj × CopyBooks), (acc.1.own.map Prod.fst).Nodup →
      discoverIncludes env uri l acc = .ok acc1 → (acc1.1.own.map Prod.fst).Nodup := by
  intro l
  induction l with
  | nil =>
    intro acc acc1 h hr
    simp only [discoverIncludes, Except.ok.injEq] at hr
    rw [← hr]; exact h
  | cons raw rest ih =>
    intro acc acc1 h hr
    unfold discoverIncludes at hr
    split at hr
    · cases hr
    · rename_i acc2 h2
      exact ih acc2 acc1 (includeStep_nodup env uri acc acc2 raw h h2) hr

theorem discoverFiles_nodup (env : Env) (uri : Uri) (cb cb1 : CopyBooks) (content : Str)
    (withIncludes : Bool) (files : FilesObj)
    (hr : discoverFiles env uri cb content withIncludes = .ok (files, cb1)) :
    (files.own.map Prod.fst).Nodup := by
  unfold discoverFiles at hr
  simp only at hr
  have h0 : ((setProp emptyFiles uri.path (toLines content)).own.map Prod.fst).Nodup :=
    setProp_nodup _ _ _ (by simp [emptyFiles])
  split at hr
  · exact discoverIncludes_nodup env uri _ _ _ h0 hr
  · cases hr; exact h0

/-- A freshly built model comes from a completed scan of the enumerated files. -/
theorem getDocs_fresh (env : Env) (uri : Uri) (world world1 : World) (content : Str)
    (withIncludes : Bool) (cache : Cache)
    (hcached : (lookupKey uri.path world.parsedCache).join = none)
    (hdocs : getDocs env uri world (some content) withIncludes = .ok (some cache, world1)) :
    ∃ files cb st, discoverFiles env uri world.copyBooks content withIncludes = .ok (files, cb) ∧
      processFiles env (forIn files) initState = .ok st ∧ cache = buildCache st ∧
      world1 = { copyBooks := cb
                 parsedCache := setKey uri.path (some cache) world.parsedCache } := by
  unfold getDocs at hdocs
  rw [hcached] at hdocs
  simp only at hdocs
  cases content with
  | nil => simp at hdocs
  | cons c cs =>
    simp only at hdocs
    split at hdocs
    · cases hdocs
    · rename_i files cb hfiles
      split at hdocs
      · cases hdocs
      · rename_i st hst
        simp only [Except.ok.injEq, Prod.mk.injEq, Option.some.injEq] at hdocs
        exact ⟨files, cb, st, hfiles, hst, hdocs.1.symm, by rw [← hdocs.2, hdocs.1]⟩

/-- A record of the heap, read out as it stands in the model, agrees with its
declaring line. -/
theorem resolveDecl_declared {env : Env} {fl : List (Str × List Str)} {st : ScanState}
    (h : Inv env fl st)
    (r : Nat) (t : DeclType) (hr : r < st.heap.length ∧ (deref st.heap r).type = t) :
    (resolveDecl st r).type = t ∧
      SigOK env fl t (resolveDecl st r).name (resolveDecl st r).position := by
  have := h.heapOK _ (deref_mem _ _ hr.1)
  rw [hr.2] at this
  exact ⟨hr.2, this⟩

/-- Every record of a freshly built model has the type of its collection, and
its name and position agree with a line of the scanned files. -/
theorem getDocs_records_declared (env : Env) (uri : Uri) (world world1 : World) (content : Str)
    (withIncludes : Bool) (cache : Cache) (files : FilesObj) (cb : CopyBooks)
    (hcached : (lookupKey uri.path world.parsedCache).join = none)
    (hfiles : discoverFiles env uri world.copyBooks content withIncludes = .ok (files, cb))
    (hdocs : getDocs env uri world (some content) withIncludes = .ok (some cache, world1)) :
    ∀ (d : Declaration) (t : DeclType),
      (d ∈ cache.constants ∧ t = .constant) ∨ (d ∈ cache.vars ∧ t = .variable) ∨
      (d ∈ cache.structs ∧ t = .struct) ∨ (d ∈ cache.procedures ∧ t = .procedure) ∨
      (d ∈ cache.subroutines ∧ t = .subroutine) →
      d.type = t ∧ ∃ pos raw, d.position = some pos ∧ sourceLine files pos = some raw ∧
        declaredBy env t d.name raw := by
  obtain ⟨files1, cb1, st, hfiles1, hst, hcache, _⟩ :=
    getDocs_fresh env uri world world1 content withIncludes cache hcached hdocs
  rw [hfiles] at hfiles1
  simp only [Except.ok.injEq, Prod.mk.injEq] at hfiles1
  obtain ⟨rfl, rfl⟩ := hfiles1
  have hinv : Inv env (forIn files) st :=
    inv_processFiles env _ _ _ (fun _ he => he) (inv_initState _ _) hst
  have hnd := forIn_keys_nodup files (discoverFiles_nodup env uri _ _ _ _ _ hfiles)
  have key : ∀ (r : Nat) (t : DeclType), r < st.heap.length ∧ (deref st.heap r).type = t →
      (resolveDecl st r).type = t ∧ ∃ pos raw, (resolveDecl st r).position = some pos ∧
        sourceLine files pos = some raw ∧ declaredBy env t (resolveDecl st r).name raw := by
    intro r t hr
    obtain ⟨ht, file, n, lines, raw, hpos, hmem, hline, hdecl⟩ := resolveDecl_declared hinv r t hr
    refine ⟨ht, ⟨file, n⟩, raw, hpos, ?_, hdecl⟩
    simp only [sourceLine, lookupKey_of_mem _ hnd _ _ hmem, Option.some_bind, hline]
  intro d t hd
  subst hcache
  simp only [buildCache, List.mem_map] at hd
  rcases hd with ⟨⟨r, hr, rfl⟩, rfl⟩ | ⟨⟨r, hr, rfl⟩, rfl⟩ | ⟨⟨r, hr, rfl⟩, rfl⟩ |
    ⟨⟨r, hr, rfl⟩, rfl⟩ | ⟨⟨r, hr, rfl⟩, rfl⟩
  · exact key r _ (hinv.consts r hr)
  · exact key r _ (hinv.vars r hr)
  · exact key r _ (hinv.structs r hr)
  · exact key r _ (hinv.procs r hr)
  · exact key r _ (hinv.subs r hr)

/-! ## The loop body, case by case -/

theorem processLine_blank (env : Env) (file : Str) (n : Nat) (st : ScanState) (raw : Str)
    (h : trim raw = []) : processLine env file n st raw = .ok st := by
  simp [processLine, h]

theorem processLine_eq (env : Env) (file : Str) (n : Nat) (st : ScanState) (raw : Str)
    (hne : trim raw ≠ []) :
    processLine env file n st raw =
      match dispatch env file n (trim raw) (partsOf env raw) (partsLowerOf raw) st with
      | .error e => .error e
      | .ok (st1, reset) => .ok (if reset then resetDefinition st1 else st1) := by
  unfold processLine partsOf partsLowerOf
  rw [if_neg hne]

theorem trim_ne_nil_of_parts {env : Env} {raw : Str} {t : Str}
    (h : (partsOf env raw)[0]? = some t) :
    trim raw ≠ [] := by
  intro he
  simp [partsOf, he, beforeSemicolon, splitOn, toUpperCase, tokens] at h

section dispatch
variable (env : Env) (file : Str) (n : Nat) (line : Str) (parts partsLower : List Str)
  (st : ScanState)

theorem dispatch_dclC (h : parts[0]? = some "DCL-C".toList) :
    dispatch env file n line parts partsLower st = .ok (caseDclC file n parts partsLower st) := by
  unfold dispatch; rw [h]; rfl

theorem dispatch_dclS (h : parts[0]? = some "DCL-S".toList) :
    dispatch env file n line parts partsLower st = .ok (caseDclS file n parts partsLower st) := by
  unfold dispatch; rw [h]; rfl

theorem dispatch_dclDs (h : parts[0]? = some "DCL-DS".toList) :
    dispatch env file n line parts partsLower st =
      .ok (caseDclDs env file n parts partsLower st) := by
  unfold dispatch; rw [h]; rfl

theorem dispatch_endDs (h : parts[0]? = some "END-DS".toList) :
    dispatch env file n line parts partsLower st = .ok (caseEndDs st) := by
  unfold dispatch; rw [h]; rfl

theorem dispatch_dclPr (h : parts[0]? = some "DCL-PR".toList) :
    dispatch env file n line parts partsLower st = caseDclPr env file n parts partsLower st := by
  unfold dispatch; rw [h]; rfl

theorem dispatch_endPr (h : parts[0]? = some "END-PR".toList) :
    dispatch env file n line parts partsLower st = .ok (caseEndProc st) := by
  unfold dispatch; rw [h]; rfl

theorem dispatch_dclProc (h : parts[0]? = some "DCL-PROC".toList) :
    dispatch env file n line parts partsLower st = caseDclProc env file n parts partsLower st := by
  unfold dispatch; rw [h]; rfl

theorem dispatch_dclPi (h : parts[0]? = some "DCL-PI".toList) :
    dispatch env file n line parts partsLower st = .ok (caseDclPi parts st) := by
  unfold dispatch; rw [h]; rfl

theorem dispatch_endPi (h : parts[0]? = some "END-PI".toList) :
    dispatch env file n line parts partsLower st = .ok (caseEndPi st) := by
  unfold dispatch; rw [h]; rfl

theorem dispatch_endProc (h : parts[0]? = some "END-PROC".toList) :
    dispatch env file n line parts partsLower st = .ok (caseEndProc st) := by
  unfold dispatch; rw [h]; rfl

theorem dispatch_begsr (h : parts[0]? = some "BEGSR".toList) :
    dispatch env file n line parts partsLower st = caseBegsr env file n parts partsLower st := by
  unfold dispatch; rw [h]; rfl

theorem dispatch_endsr (h : parts[0]? = some "ENDSR".toList) :
    dispatch env file n line parts partsLower st = .ok (caseEndsr st) := by
  unfold dispatch; rw [h]; rfl

theorem dispatch_docToggle (h : parts[0]? = some "///".toList) :
    dispatch env file n line parts partsLower st = .ok (caseDocToggle st) := by
  unfold dispatch; rw [h]; rfl

theorem dispatch_default (h : ∀ k ∈ switchLabels, parts[0]? ≠ some k) :
    dispatch env file n line parts partsLower st =
      if startsWith line "//".toList then .ok (caseComment line st)
      else caseParameter parts partsLower st := by
  unfold dispatch
  rw [if_neg (h _ (by simp [switchLabels])), if_neg (h _ (by simp [switchLabels])),
    if_neg (h _ (by simp [switchLabels])), if_neg (h _ (by simp [switchLabels])),
    if_neg (h _ (by simp [switchLabels])), if_neg (h _ (by simp [switchLabels])),
    if_neg (h _ (by simp [switchLabels])), if_neg (h _ (by simp [switchLabels])),
    if_neg (h _ (by simp [switchLabels])), if_neg (h _ (by simp [switchLabels])),
    if_neg (h _ (by simp [switchLabels])), if_neg (h _ (by simp [switchLabels])),
    if_neg (h _ (by simp [switchLabels]))]

end dispatch


theorem currentIs_of_type {st : ScanState} {r : Nat} {t u : DeclType}
    (hc : st.currentItem = some r) (ht : (deref st.heap r).type = t) :
    currentIs st u = if t = u then some r else none := by
  simp [currentIs, hc, ht]

theorem structOpen_caseComment {st0 st : ScanState} {r : Nat} {file : Str} {n : Nat}
    {name : Option Str} (h : StructOpen st0 st r file n name) (line : Str) :
    StructOpen st0 (caseComment line st).1 r file n name := by
  simp only [caseComment]
  split_ifs
  any_goals split
  all_goals exact h

theorem caseComment_eq (line : Str) (st : ScanState) :
    caseComment line st = ((caseComment line st).1, false) := by
  simp only [caseComment]
  split_ifs
  any_goals split
  all_goals rfl

/-- A line that is neither `DCL-PROC`, `BEGSR` nor `END-DS` leaves an open
structure open, and the loop body does not raise on it. -/
theorem structOpen_processLine (env : Env) (file1 : Str) (m : Nat) {st0 st : ScanState}
    {r : Nat} {file : Str} {n : Nat} {name : Option Str} (raw : Str)
    (h : StructOpen st0 st r file n name)
    (h1 : (partsOf env raw)[0]? ≠ some "DCL-PROC".toList)
    (h2 : (partsOf env raw)[0]? ≠ some "BEGSR".toList)
    (h3 : (partsOf env raw)[0]? ≠ some "END-DS".toList) :
    ∃ st1, processLine env file1 m st raw = .ok st1 ∧ StructOpen st0 st1 r file n name := by
  by_cases hne : trim raw = []
  · exact ⟨st, processLine_blank _ _ _ _ _ hne, h⟩
  rw [processLine_eq _ _ _ _ _ hne]
  obtain ⟨hc, hlt, ht, hn, hp, hs⟩ := h
  have hproc : currentIs st .procedure = none := by
    rw [currentIs_of_type hc ht]; rfl
  have hsub : currentIs st .subroutine = none := by
    rw [currentIs_of_type hc ht]; rfl
  by_cases c1 : (partsOf env raw)[0]? = some "DCL-C".toList
  · rw [dispatch_dclC _ _ _ _ _ _ _ c1]
    exact ⟨st, by simp [caseDclC, hc], hc, hlt, ht, hn, hp, hs⟩
  by_cases c2 : (partsOf env raw)[0]? = some "DCL-S".toList
  · rw [dispatch_dclS _ _ _ _ _ _ _ c2]
    exact ⟨st, by simp [caseDclS, hc], hc, hlt, ht, hn, hp, hs⟩
  by_cases c3 : (partsOf env raw)[0]? = some "DCL-DS".toList
  · rw [dispatch_dclDs _ _ _ _ _ _ _ c3]
    exact ⟨st, by simp [caseDclDs, hc], hc, hlt, ht, hn, hp, hs⟩
  by_cases c5 : (partsOf env raw)[0]? = some "DCL-PR".toList
  · rw [dispatch_dclPr _ _ _ _ _ _ _ c5]
    exact ⟨st, by simp [caseDclPr, hc], hc, hlt, ht, hn, hp, hs⟩
  by_cases c6 : (partsOf env raw)[0]? = some "END-PR".toList
  · rw [dispatch_endPr _ _ _ _ _ _ _ c6]
    exact ⟨st, by simp [caseEndProc, hproc], hc, hlt, ht, hn, hp, hs⟩
  by_cases c8 : (partsOf env raw)[0]? = some "DCL-PI".toList
  · rw [dispatch_dclPi _ _ _ _ _ _ _ c8]
    refine ⟨_, by simp only [caseDclPi, hc]; rfl, ?_⟩
    refine ⟨hc, by simpa [updateObj] using hlt, ?_, ?_, ?_, hs⟩
    · simp [updateObj, deref_set_self _ _ _ hlt, ht]
    · simp [updateObj, deref_set_self _ _ _ hlt, hn]
    · simp [updateObj, deref_set_self _ _ _ hlt, hp]
  by_cases c9 : (partsOf env raw)[0]? = some "END-PI".toList
  · rw [dispatch_endPi _ _ _ _ _ _ _ c9]
    exact ⟨st, by simp [caseEndPi, hproc], hc, hlt, ht, hn, hp, hs⟩
  by_cases c10 : (partsOf env raw)[0]? = some "END-PROC".toList
  · rw [dispatch_endProc _ _ _ _ _ _ _ c10]
    exact ⟨st, by simp [caseEndProc, hproc], hc, hlt, ht, hn, hp, hs⟩
  by_cases c12 : (partsOf env raw)[0]? = some "ENDSR".toList
  · rw [dispatch_endsr _ _ _ _ _ _ _ c12]
    exact ⟨st, by simp [caseEndsr, hsub], hc, hlt, ht, hn, hp, hs⟩
  by_cases c13 : (partsOf env raw)[0]? = some "///".toList
  · rw [dispatch_docToggle _ _ _ _ _ _ _ c13]
    refine ⟨_, by simp only [caseDocToggle]; rfl, ?_⟩
    split <;> exact ⟨hc, hlt, ht, hn, hp, hs⟩
  have hdef : ∀ k ∈ switchLabels, (partsOf env raw)[0]? ≠ some k := by
    intro k hk
    simp only [switchLabels, List.mem_cons, List.mem_singleton, List.not_mem_nil, or_false] at hk
    rcases hk with rfl | rfl | rfl | rfl | rfl | rfl | rfl | rfl | rfl | rfl | rfl | rfl | rfl <;>
      assumption
  rw [dispatch_default _ _ _ _ _ _ _ hdef]
  by_cases c14 : startsWith (trim raw) "//".toList = true
  · rw [if_pos c14, caseComment_eq]
    exact ⟨_, rfl, structOpen_caseComment ⟨hc, hlt, ht, hn, hp, hs⟩ (trim raw)⟩
  · rw [if_neg c14]
    exact ⟨st, by simp [caseParameter, hproc], hc, hlt, ht, hn, hp, hs⟩

/-- The same over a run of lines. -/
theorem structOpen_processLines (env : Env) (file1 : Str) {st0 : ScanState} {r : Nat}
    {file : Str} {n : Nat} {name : Option Str} :
    ∀ (middle : List Str) (m : Nat) (st : ScanState), StructOpen st0 st r file n name →
      (∀ raw ∈ middle, (partsOf env raw)[0]? ≠ some "DCL-PROC".toList ∧
        (partsOf env raw)[0]? ≠ some "BEGSR".toList ∧ (partsOf env raw)[0]? ≠ some "END-DS".toList) →
      ∃ st1, processLines env file1 m middle st = .ok st1 ∧ StructOpen st0 st1 r file n name := by
  intro middle
  induction middle with
  | nil => intro m st h _; exact ⟨st, rfl, h⟩
  | cons raw rest ih =>
    intro m st h hmid
    have hr := hmid raw (List.mem_cons_self _ _)
    obtain ⟨st1, hst1, hopen1⟩ := structOpen_processLine env file1 m raw h hr.1 hr.2.1 hr.2.2
    obtain ⟨st2, hst2, hopen2⟩ := ih (m + 1) st1 hopen1
      (fun x hx => hmid x (List.mem_cons_of_mem _ hx))
    exact ⟨st2, by simp only [processLines, hst1, hst2], hopen2⟩

theorem processLines_append (env : Env) (file : Str) :
    ∀ (a b : List Str) (n : Nat) (st : ScanState),
      processLines env file n (a ++ b) st =
        match processLines env file n a st with
        | .error e => .error e
        | .ok st1 => processLines env file (n + a.length) b st1 := by
  intro a
  induction a with
  | nil => intro b n st; rfl
  | cons x xs ih =>
    intro b n st
    simp only [List.cons_append, processLines]
    cases processLine env file n st x with
    | error e => rfl
    | ok st1 =>
      have : n + (xs.length + 1) = n + 1 + xs.length := by omega
      simp only [List.length_cons, this]
      exact ih b (n + 1) st1

theorem processLine_template (env : Env) (file : Str) (n : Nat) (st : ScanState) (raw : Str)
    (hkw : (partsOf env raw)[0]? = some "DCL-S".toList ∨ (partsOf env raw)[0]? = some "DCL-DS".toList)
    (ht : (partsOf env raw).contains "TEMPLATE".toList = true) :
    processLine env file n st raw = .ok st := by
  rcases hkw with hkw | hkw
  · rw [processLine_eq _ _ _ _ _ (trim_ne_nil_of_parts hkw), dispatch_dclS _ _ _ _ _ _ _ hkw]
    unfold caseDclS
    rw [ht]
    cases st.currentItem <;> rfl
  · rw [processLine_eq _ _ _ _ _ (trim_ne_nil_of_parts hkw), dispatch_dclDs _ _ _ _ _ _ _ hkw]
    unfold caseDclDs
    rw [ht]
    cases st.currentItem <;> rfl

/-! ## Include discovery when every fetch fails -/

theorem getContent_of_fetchFails (env : Env) (uri : Uri) (cb : CopyBooks) (g : Str)
    (h : FetchFails env uri cb g) : getContent env uri cb (some g) = .ok ([], cb) := by
  obtain ⟨info, hinfo, hcache, hdl⟩ := h
  unfold getContent
  rw [hinfo]
  simp only [hcache]
  unfold downloadFails at hdl
  cases ht : info.type <;> simp only [ht] at hdl ⊢ <;> rw [hdl]

theorem mem_setKey {α : Type} (key : Str) (v : α) (l : List (Str × α)) :
    ∀ e ∈ setKey key v l, e ∈ l ∨ e = (key, v) := by
  induction l with
  | nil => intro e he; simp [setKey] at he; exact Or.inr he
  | cons x xs ih =>
    obtain ⟨k, w⟩ := x
    intro e he
    unfold setKey at he
    split at he
    · rename_i hk
      rcases List.mem_cons.mp he with he | he
      · exact Or.inr (by rw [he, hk])
      · exact Or.inl (List.mem_cons_of_mem _ he)
    · rcases List.mem_cons.mp he with he | he
      · exact Or.inl (by rw [he]; exact List.mem_cons_self _ _)
      · exact (ih e he).imp (List.mem_cons_of_mem _) id

theorem mem_setKey_of_ne {α : Type} (key : Str) (v : α) (l : List (Str × α)) (e : Str × α)
    (he : e ∈ l) (hne : e.1 ≠ key) : e ∈ setKey key v l := by
  induction l with
  | nil => cases he
  | cons x xs ih =>
    obtain ⟨k, w⟩ := x
    unfold setKey
    rcases List.mem_cons.mp he with h | h
    · subst h
      rw [if_neg hne]
      exact List.mem_cons_self _ _
    · split
      · rename_i hk
        exact List.mem_cons_of_mem _ h
      · exact List.mem_cons_of_mem _ (ih h)

theorem onlyOwnLines_setProp {path : Str} {baseLines : List Str} {files : FilesObj}
    (h : OnlyOwnLines path baseLines files) (g : Str) (hg : g ≠ path) :
    OnlyOwnLines path baseLines (setProp files g []) := by
  obtain ⟨h1, h2, h3, h4⟩ := h
  unfold setProp
  split
  · exact ⟨h1, h2, Or.inr rfl, h4⟩
  · refine ⟨mem_setKey_of_ne _ _ _ _ h1 (fun e => hg e.symm), ?_, h3, setKey_nodup _ _ _ h4⟩
    intro e he hne
    rcases mem_setKey _ _ _ e he with he | he
    · exact h2 e he hne
    · rw [he]

theorem onlyOwnLines_init (path : Str) (baseLines : List Str) (hp : path ≠ "__proto__".toList) :
    OnlyOwnLines path baseLines (setProp emptyFiles path baseLines) := by
  unfold setProp
  rw [if_neg hp]
  simp [OnlyOwnLines, emptyFiles, setKey]

theorem includeStep_of_fetchFails (env : Env) (uri : Uri) (baseLines : List Str)
    (files : FilesObj) (cb : CopyBooks) (raw : Str)
    (h : OnlyOwnLines uri.path baseLines files)
    (hfail : isDirective env raw = true → ∃ g, (tokens (trim raw))[1]? = some g ∧ g ≠ uri.path ∧
      FetchFails env uri cb g) :
    ∃ files1, includeStep env uri (files, cb) raw = .ok (files1, cb) ∧
      OnlyOwnLines uri.path baseLines files1 := by
  unfold includeStep
  by_cases hne : trim raw = []
  · exact ⟨files, by simp [hne], h⟩
  · simp only [hne, if_false]
    cases hp : (tokens (trim raw))[0]? with
    | none =>
      obtain ⟨t, ht⟩ := tokens_trim_head raw hne
      rw [hp] at ht
      cases ht
    | some p0 =>
      simp only
      by_cases hd : toUpperCase env p0 = "/COPY".toList ∨ toUpperCase env p0 = "/INCLUDE".toList
      · rw [if_pos hd]
        obtain ⟨g, hg, hgp, hff⟩ := hfail (by simp only [isDirective, hp]; exact decide_eq_true hd)
        rw [hg, getContent_of_fetchFails env uri cb g hff]
        exact ⟨_, rfl, onlyOwnLines_setProp h g hgp⟩
      · rw [if_neg hd]
        exact ⟨files, rfl, h⟩

theorem discoverIncludes_of_fetchFails (env : Env) (uri : Uri) (baseLines : List Str)
    (cb : CopyBooks) :
    ∀ (l : List Str) (files : FilesObj), OnlyOwnLines uri.path baseLines files →
      (∀ raw ∈ l, isDirective env raw = true → ∃ g, (tokens (trim raw))[1]? = some g ∧
        g ≠ uri.path ∧ FetchFails env uri cb g) →
      ∃ files1, discoverIncludes env uri l (files, cb) = .ok (files1, cb) ∧
        OnlyOwnLines uri.path baseLines files1 := by
  intro l
  induction l with
  | nil => intro files h _; exact ⟨files, rfl, h⟩
  | cons raw rest ih =>
    intro files h hfail
    obtain ⟨files1, hstep, h1⟩ := includeStep_of_fetchFails env uri baseLines files cb raw h
      (hfail raw (List.mem_cons_self _ _))
    obtain ⟨files2, hrest, h2⟩ := ih files1 h1 (fun x hx => hfail x (List.mem_cons_of_mem _ hx))
    exact ⟨files2, by simp only [discoverIncludes, hstep, hrest], h2⟩

/-- Files without lines do nothing in the second loop. -/
theorem processFiles_filter (env : Env) :
    ∀ (l : List (Str × List Str)) (st : ScanState),
      processFiles env l st = processFiles env (l.filter (fun e => e.2 ≠ [])) st := by
  intro l
  induction l with
  | nil => intro st; rfl
  | cons e rest ih =>
    intro st
    obtain ⟨file, lines⟩ := e
    cases lines with
    | nil =>
      rw [List.filter_cons_of_neg (by simp)]
      simp only [processFiles, processLines]
      exact ih st
    | cons x xs =>
      rw [List.filter_cons_of_pos (by simp)]
      simp only [processFiles]
      cases processLines env file 0 (x :: xs) st with
      | error e => rfl
      | ok st1 => exact ih st1

theorem eq_singleton_of_nodup {α : Type} (a : α) :
    ∀ l : List α, l.Nodup → (∀ x ∈ l, x = a) → a ∈ l → l = [a] := by
  intro l hn hall hmem
  cases l with
  | nil => cases hmem
  | cons x xs =>
    have hx : x = a := hall x (List.mem_cons_self _ _)
    subst hx
    cases xs with
    | nil => rfl
    | cons y ys =>
      have hy : y = x := hall y (List.mem_cons_of_mem _ (List.mem_cons_self _ _))
      subst hy
      simp at hn

/-- When only the document's own property holds lines, the second loop scans
exactly the document's own lines. -/
theorem processFiles_forIn_of_onlyOwnLines (env : Env) (path : Str) (baseLines : List Str)
    (files : FilesObj) (h : OnlyOwnLines path baseLines files) (hb : baseLines ≠ [])
    (st : ScanState) :
    processFiles env (forIn files) st = processFiles env [(path, baseLines)] st := by
  obtain ⟨h1, h2, h3, h4⟩ := h
  rw [processFiles_filter]
  have hinh : inheritedProps files = [] := by
    unfold inheritedProps
    rcases h3 with h3 | h3 <;> rw [h3]
    simp
  have hfor : ∀ e, e ∈ forIn files ↔ e ∈ files.own := by
    intro e
    unfold forIn
    rw [hinh, List.append_nil]
    exact (ownPart_perm files.own).mem_iff
  have hnd : (forIn files).Nodup :=
    List.Nodup.of_map Prod.fst (forIn_keys_nodup files h4)
  have := eq_singleton_of_nodup (path, baseLines)
    ((forIn files).filter (fun e => e.2 ≠ [])) (hnd.filter _) ?_ ?_
  · rw [this]
  · intro x hx
    obtain ⟨hx1, hx2⟩ := List.mem_filter.mp hx
    have hxo := (hfor x).mp hx1
    have hk : x.1 = path := by
      by_contra hne
      have := h2 x hxo hne
      simp [this] at hx2
    have l1 := lookupKey_of_mem files.own h4 x.1 x.2 hxo
    have l2 := lookupKey_of_mem files.own h4 path baseLines h1
    rw [hk, l2] at l1
    cases x
    simp only at hk l1
    simp only [Option.some.injEq] at l1
    rw [hk, l1]
  · exact List.mem_filter.mpr ⟨(hfor _).mpr h1, by simpa using hb⟩

theorem toLines_ne_nil (content : Str) : toLines content ≠ [] :=
  splitOn_ne_nil _ _

theorem getDocs_records_position (env : Env) (uri : Uri) (world world1 : World) (content : Str)
    (withIncludes : Bool) (cache : Cache) (files : FilesObj) (cb : CopyBooks)
    (hcached : (lookupKey uri.path world.parsedCache).join = none)
    (hfiles : discoverFiles env uri world.copyBooks content withIncludes = .ok (files, cb))
    (hdocs : getDocs env uri world (some content) withIncludes = .ok (some cache, world1)) :
    ∀ d ∈ cache.records, ∃ pos raw, d.position = some pos ∧ sourceLine files pos = some raw ∧
      declaredBy env d.type d.name raw := by
  intro d hd
  have key := getDocs_records_declared env uri world world1 content withIncludes cache files cb
    hcached hfiles hdocs d
  simp only [Cache.records, List.mem_append] at hd
  rcases hd with (((hd | hd) | hd) | hd) | hd
  · obtain ⟨ht, h⟩ := key .constant (Or.inl ⟨hd, rfl⟩)
    rw [ht]; exact h
  · obtain ⟨ht, h⟩ := key .variable (Or.inr (Or.inl ⟨hd, rfl⟩))
    rw [ht]; exact h
  · obtain ⟨ht, h⟩ := key .struct (Or.inr (Or.inr (Or.inl ⟨hd, rfl⟩)))
    rw [ht]; exact h
  · obtain ⟨ht, h⟩ := key .procedure (Or.inr (Or.inr (Or.inr (Or.inl ⟨hd, rfl⟩))))
    rw [ht]; exact h
  · obtain ⟨ht, h⟩ := key .subroutine (Or.inr (Or.inr (Or.inr (Or.inr ⟨hd, rfl⟩))))
    rw [ht]; exact h

theorem trim_singleton (c : Char) : trim [c] = if isWhiteSpace c then [] else [c] := by
  unfold trim
  by_cases h : isWhiteSpace c = true
  · simp [List.dropWhile, h]
  · simp [List.dropWhile, h]

/-- No case label of the `switch` is the upper-casing of one character. -/
theorem upperChar_not_label (env : Env) (hup : UpperCaseOK env) (c : Char) :
    env.upperChar c ∉ switchLabels := by
  intro hk
  by_cases ha : c.toNat < 128
  · rw [hup.1 c ha] at hk
    simp [switchLabels] at hk
  · obtain ⟨_, hlen, hd⟩ := hup.2 c (by omega)
    simp only [switchLabels, List.mem_cons, List.mem_singleton, List.not_mem_nil, or_false] at hk
    rcases hk with h | h | h | h | h | h | h | h | h | h | h | h | h
    all_goals rw [h] at hlen hd
    all_goals first
      | exact absurd hlen (by decide)
      | exact (hd '/' (by decide)).2 rfl

/-- A line of one character changes nothing while no declaration is open. -/
theorem processLine_singleChar (env : Env) (hup : UpperCaseOK env) (file : Str) (n : Nat)
    (st : ScanState) (c : Char)
    (hopen : st.currentItem = none) : processLine env file n st [c] = .ok st := by
  by_cases hw : isWhiteSpace c = true
  · exact processLine_blank _ _ _ _ _ (by rw [trim_singleton, if_pos hw])
  have htrim : trim [c] = [c] := by rw [trim_singleton, if_neg hw]
  have hne : trim [c] ≠ [] := by rw [htrim]; simp
  have hcur : currentIs st .procedure = none := by simp [currentIs, hopen]
  have hparts : ∀ k ∈ switchLabels, (partsOf env [c])[0]? ≠ some k := by
    intro k hk
    unfold partsOf
    rw [htrim]
    by_cases hs : c = ';'
    · subst hs
      simp [beforeSemicolon, splitOn, toUpperCase, tokens]
    · have hsp : c ≠ ' ' := by
        intro e
        subst e
        exact hw (by decide)
      have hb : beforeSemicolon [c] = [c] := by
        simp [beforeSemicolon, splitOn, hs]
      have : tokens (toUpperCase env (beforeSemicolon [c])) = [env.upperChar c] := by
        rw [hb, tokens_toUpperCase env hup]
        simp [splitOn, toUpperCase, tokens, hsp]
      rw [this]
      intro e
      have e2 : env.upperChar c = k := by simpa using e
      exact upperChar_not_label env hup c (e2 ▸ hk)
  rw [processLine_eq _ _ _ _ _ hne, dispatch_default _ _ _ _ _ _ _ hparts, htrim]
  have hsw : ¬ startsWith [c] "//".toList = true := by simp [startsWith]
  rw [if_neg hsw]
  simp [caseParameter, hcur]

theorem processLines_singleChars (env : Env) (hup : UpperCaseOK env) (file : Str)
    (st : ScanState)
    (hopen : st.currentItem = none) :
    ∀ (lines : List Str) (n : Nat), (∀ l ∈ lines, ∃ c, l = [c]) →
      processLines env file n lines st = .ok st := by
  intro lines
  induction lines with
  | nil => intro n _; rfl
  | cons l rest ih =>
    intro n h
    obtain ⟨c, rfl⟩ := h l (List.mem_cons_self _ _)
    simp only [processLines, processLine_singleChar env hup file n st c hopen]
    exact ih (n + 1) (fun x hx => h x (List.mem_cons_of_mem _ hx))

theorem processFiles_singleChars (env : Env) (hup : UpperCaseOK env) (st : ScanState)
    (hopen : st.currentItem = none) :
    ∀ fl : List (Str × List Str), (∀ e ∈ fl, ∀ l ∈ e.2, ∃ c, l = [c]) →
      processFiles env fl st = .ok st := by
  intro fl
  induction fl with
  | nil => intro _; rfl
  | cons e rest ih =>
    intro h
    obtain ⟨file, lines⟩ := e
    simp only [processFiles,
      processLines_singleChars env hup file st hopen lines 0 (h _ (List.mem_cons_self _ _))]
    exact ih (fun x hx => h x (List.mem_cons_of_mem _ hx))

/-- When no own property holds lines, the second loop changes nothing. -/
theorem processFiles_forIn_of_noOwnLines (env : Env) (hup : UpperCaseOK env)
    (files : FilesObj)
    (h : ∀ e ∈ files.own, e.2 = []) (st : ScanState) (hopen : st.currentItem = none) :
    processFiles env (forIn files) st = .ok st := by
  apply processFiles_singleChars env hup st hopen
  intro e he l hl
  unfold forIn at he
  rcases List.mem_append.mp he with he | he
  · have := h e ((ownPart_perm files.own).mem_iff.mp he)
    rw [this] at hl
    cases hl
  · obtain ⟨_, arr, i, _, _, _, hv⟩ := inheritedProps_keys files e he
    rw [hv] at hl
    obtain ⟨c, _, rfl⟩ := List.mem_map.mp hl
    exact ⟨c, rfl⟩

theorem includeStep_noOwnLines (env : Env) (uri : Uri)
    (files : FilesObj) (cb : CopyBooks) (raw : Str)
    (h : ∀ e ∈ files.own, e.2 = [])
    (hfail : isDirective env raw = true → ∃ g, (tokens (trim raw))[1]? = some g ∧ g ≠ uri.path ∧
      FetchFails env uri cb g) :
    ∃ files1, includeStep env uri (files, cb) raw = .ok (files1, cb) ∧
      ∀ e ∈ files1.own, e.2 = [] := by
  unfold includeStep
  by_cases hne : trim raw = []
  · exact ⟨files, by simp [hne], h⟩
  · simp only [hne, if_false]
    cases hp : (tokens (trim raw))[0]? with
    | none =>
      obtain ⟨t, ht⟩ := tokens_trim_head raw hne
      rw [hp] at ht
      cases ht
    | some p0 =>
      simp only
      by_cases hd : toUpperCase env p0 = "/COPY".toList ∨ toUpperCase env p0 = "/INCLUDE".toList
      · rw [if_pos hd]
        obtain ⟨g, hg, hgp, hff⟩ := hfail (by simp only [isDirective, hp]; exact decide_eq_true hd)
        rw [hg, getContent_of_fetchFails env uri cb g hff]
        refine ⟨_, rfl, ?_⟩
        simp only [Option.getD_some]
        unfold setProp
        split
        · exact h
        · intro e he
          rcases mem_setKey _ _ _ e he with he | he
          · exact h e he
          · rw [he]
      · rw [if_neg hd]
        exact ⟨files, rfl, h⟩

theorem discoverIncludes_noOwnLines (env : Env) (uri : Uri) (cb : CopyBooks) :
    ∀ (l : List Str) (files : FilesObj), (∀ e ∈ files.own, e.2 = []) →
      (∀ raw ∈ l, isDirective env raw = true → ∃ g, (tokens (trim raw))[1]? = some g ∧
        g ≠ uri.path ∧ FetchFails env uri cb g) →
      ∃ files1, discoverIncludes env uri l (files, cb) = .ok (files1, cb) ∧
        ∀ e ∈ files1.own, e.2 = [] := by
  intro l
  induction l with
  | nil => intro files h _; exact ⟨files, rfl, h⟩
  | cons raw rest ih =>
    intro files h hfail
    obtain ⟨files1, hstep, h1⟩ := includeStep_noOwnLines env uri files cb raw h
      (hfail raw (List.mem_cons_self _ _))
    obtain ⟨files2, hrest, h2⟩ := ih files1 h1 (fun x hx => hfail x (List.mem_cons_of_mem _ hx))
    exact ⟨files2, by simp only [discoverIncludes, hstep, hrest], h2⟩

/-! ## Documentation blocks and parameter lines -/

theorem dropWhile_of_head {α : Type} (p : α → Bool) (a : α) (l : List α) (h : p a = false) :
    (a :: l).dropWhile p = a :: l := by
  simp [List.dropWhile, h]

/-- Trimming leaves a string alone that starts and ends with other than white
space. -/
theorem trim_eq_self (a : Char) (s : Str) (ha : isWhiteSpace a = false)
    (hs : EndsClean (a :: s)) : trim (a :: s) = a :: s := by
  obtain ⟨x, hx, hw⟩ := hs
  unfold trim
  rw [dropWhile_of_head _ _ _ ha]
  have hr : (a :: s).reverse.head? = some x := by rw [List.head?_reverse]; exact hx
  cases hrev : (a :: s).reverse with
  | nil => rw [hrev] at hr; cases hr
  | cons y ys =>
    rw [hrev] at hr
    simp only [List.head?_cons, Option.some.injEq] at hr
    subst hr
    rw [dropWhile_of_head _ _ _ hw, ← hrev, List.reverse_reverse]

theorem trim_cons_space (s : Str) : trim (' ' :: s) = trim s := by
  unfold trim
  have : isWhiteSpace ' ' = true := by decide
  rw [List.dropWhile_cons_of_pos this]

theorem endsClean_append (p s : Str) (h : EndsClean s) : EndsClean (p ++ s) := by
  obtain ⟨x, hx, hw⟩ := h
  refine ⟨x, ?_, hw⟩
  have hne : s ≠ [] := by intro e; rw [e] at hx; cases hx
  rw [List.getLast?_append_of_ne_nil _ hne]
  exact hx

theorem joinWith_cons_cons (sep : Str) (c : Char) (p : Str) (rest : List (Option Str)) :
    joinWith sep (some (c :: p) :: rest) = c :: joinWith sep (some p :: rest) := by
  cases rest <;> simp [joinWith]

/-- Joining the pieces of a split with the separator gives the string back. -/
theorem joinStr_splitOn (sep : Char) (s : Str) : joinStr [sep] (splitOn sep s) = s := by
  unfold joinStr
  induction s with
  | nil => rfl
  | cons c cs ih =>
    unfold splitOn
    by_cases hc : c = sep
    · rw [if_pos hc]
      cases h : splitOn sep cs with
      | nil => exact absurd h (splitOn_ne_nil _ _)
      | cons p ps =>
        rw [h] at ih
        simp only [List.map_cons, joinWith, Option.getD_some, List.nil_append, List.singleton_append]
        simp only [List.map_cons] at ih
        rw [ih, hc]
    · rw [if_neg hc]
      cases h : splitOn sep cs with
      | nil => exact absurd h (splitOn_ne_nil _ _)
      | cons p ps =>
        rw [h] at ih
        simp only [List.map_cons] at ih ⊢
        rw [joinWith_cons_cons, ih]

theorem beforeSemicolon_cons_ne (c : Char) (s : Str) (h : c ≠ ';') :
    beforeSemicolon (c :: s) = c :: beforeSemicolon s := by
  unfold beforeSemicolon
  rw [splitOn_cons_ne _ _ _ h]
  rfl

theorem tokens_cons_space (s : Str) : tokens (' ' :: s) = tokens s := by
  unfold tokens
  rw [splitOn_cons_sep]
  rw [List.filter_cons_of_neg (by simp)]

/-- The array `parts` of a line that starts with two slashes and a space has
the two slashes as its first token. -/
theorem partsOf_comment_head (env : Env) (hup : UpperCaseOK env) (s : Str)
    (h : trim ("// ".toList ++ s) = "// ".toList ++ s) :
    (partsOf env ("// ".toList ++ s))[0]? = some "//".toList := by
  unfold partsOf
  rw [h]
  show (tokens (toUpperCase env (beforeSemicolon ('/' :: '/' :: ' ' :: s))))[0]? = _
  rw [beforeSemicolon_cons_ne _ _ (by decide), beforeSemicolon_cons_ne _ _ (by decide),
    beforeSemicolon_cons_ne _ _ (by decide)]
  simp only [toUpperCase, upperChar_slash env hup, upperChar_space env hup]
  show (tokens ('/' :: '/' :: ' ' :: toUpperCase env (beforeSemicolon s)))[0]? = _
  unfold tokens
  rw [splitOn_cons_ne _ _ _ (by decide), splitOn_cons_ne _ _ _ (by decide), splitOn_cons_sep]
  simp only [List.headD_cons, List.tail_cons]
  rw [List.filter_cons_of_pos (by simp), List.getElem?_cons_zero]
  rfl

theorem tagsAt_append_length (th : List (List Tag)) (ts : List Tag) :
    tagsAt (th ++ [ts]) th.length = ts := by
  simp [tagsAt, List.getD_eq_getElem?_getD]

theorem caseDocToggle_eq (st : ScanState) :
    caseDocToggle st = ((caseDocToggle st).1, false) := by
  unfold caseDocToggle
  split <;> rfl

theorem processLine_docToggle (env : Env) (hup : UpperCaseOK env) (file : Str) (n : Nat)
    (st : ScanState) :
    processLine env file n st "///".toList = .ok (caseDocToggle st).1 := by
  have hp : (partsOf env "///".toList)[0]? = some "///".toList := by
    have ht : trim "///".toList = "///".toList := by decide
    have hb : beforeSemicolon "///".toList = "///".toList := by decide
    unfold partsOf
    rw [ht, hb]
    show (tokens (toUpperCase env ['/', '/', '/']))[0]? = _
    simp only [toUpperCase, upperChar_slash env hup]
    rfl
  rw [processLine_eq _ _ _ _ _ (trim_ne_nil_of_parts hp), dispatch_docToggle _ _ _ _ _ _ _ hp,
    caseDocToggle_eq]
  rfl

theorem processLine_paramTag (env : Env) (hup : UpperCaseOK env) (file : Str) (n : Nat)
    (st : ScanState) (ts : List Tag) (c : Str) (hc : EndsClean c) :
    processLine env file n (docState st ts) ("// @param ".toList ++ c) =
      .ok (docState st (ts ++ [paramTag c])) := by
  have htrim : trim ("// @param ".toList ++ c) = "// @param ".toList ++ c :=
    trim_eq_self '/' _ (by decide) (endsClean_append "// @param ".toList c hc)
  have hp : (partsOf env ("// @param ".toList ++ c))[0]? = some "//".toList :=
    partsOf_comment_head env hup ("@param ".toList ++ c) htrim
  have hdef : ∀ k ∈ switchLabels, (partsOf env ("// @param ".toList ++ c))[0]? ≠ some k := by
    rw [hp]; decide
  rw [processLine_eq _ _ _ _ _ (trim_ne_nil_of_parts hp), dispatch_default _ _ _ _ _ _ _ hdef,
    htrim]
  have hsw : startsWith ("// @param ".toList ++ c) "//".toList = true := by
    simp [startsWith]
  rw [if_pos hsw]
  have hcontent : trim (("// @param ".toList ++ c).drop 2) = "@param ".toList ++ c := by
    show trim (' ' :: ("@param ".toList ++ c)) = _
    rw [trim_cons_space]
    exact trim_eq_self '@' _ (by decide) (endsClean_append "@param ".toList c hc)
  have hsplit : splitOn ' ' ('p' :: 'a' :: 'r' :: 'a' :: 'm' :: ' ' :: c) =
      ['p', 'a', 'r', 'a', 'm'] :: splitOn ' ' c := by
    rw [splitOn_cons_ne _ _ _ (by decide), splitOn_cons_ne _ _ _ (by decide),
      splitOn_cons_ne _ _ _ (by decide), splitOn_cons_ne _ _ _ (by decide),
      splitOn_cons_ne _ _ _ (by decide), splitOn_cons_sep]
    rfl
  simp only [caseComment, docState, hcontent, tagsAt_append_length, set_append_length]
  simp [startsWith, paramTag, hsplit, joinStr_splitOn]

theorem processLines_paramTags (env : Env) (hup : UpperCaseOK env) (file : Str)
    (st : ScanState) :
    ∀ (contents : List Str) (n : Nat) (ts : List Tag) (tail : List Str),
      (∀ c ∈ contents, EndsClean c) →
      processLines env file n (contents.map (fun c => "// @param ".toList ++ c) ++ tail)
          (docState st ts) =
        processLines env file (n + contents.length) tail
          (docState st (ts ++ contents.map paramTag)) := by
  intro contents
  induction contents with
  | nil => intro n ts tail _; simp
  | cons c rest ih =>
    intro n ts tail h
    have hstep := processLine_paramTag env hup file n st ts c (h c (List.mem_cons_self _ _))
    have hrest := ih (n + 1) (ts ++ [paramTag c]) tail
      (fun x hx => h x (List.mem_cons_of_mem _ hx))
    have hn : n + 1 + rest.length = n + (c :: rest).length := by
      rw [List.length_cons]; omega
    have hts : ts ++ [paramTag c] ++ rest.map paramTag = ts ++ (c :: rest).map paramTag := by
      simp
    rw [hn, hts] at hrest
    rw [← hrest]
    show processLines env file n (("// @param ".toList ++ c) ::
      (rest.map (fun c => "// @param ".toList ++ c) ++ tail)) (docState st ts) = _
    simp only [processLines, hstep]

/-- A documentation block of `param` tag lines leaves its tags in a new tag
array and nothing else behind. -/
theorem processLines_docBlock (env : Env) (hup : UpperCaseOK env) (file : Str) (n : Nat)
    (st : ScanState) (contents : List Str) (hdocs : st.docs = false) (hclean : ∀ c ∈ contents, EndsClean c) :
    processLines env file n (docBlock contents) st =
      .ok (afterBlock st (contents.map paramTag)) := by
  have h0 : (caseDocToggle st).1 = docState st [] := by
    simp [caseDocToggle, hdocs, docState]
  unfold docBlock
  simp only [processLines, processLine_docToggle env hup, h0]
  rw [processLines_paramTags env hup file st contents (n + 1) [] _ hclean]
  simp only [processLines, processLine_docToggle env hup, List.nil_append]
  rfl

theorem processLine_prototype (env : Env) (file : Str) (n : Nat) (st : ScanState)
    (ts : List Tag) (rawPr : Str) (hopen : st.currentItem = none)
    (hpr : (partsOf env rawPr)[0]? = some "DCL-PR".toList)
    (hnew : findByName env st.heap st.procedures (partsOf env rawPr)[1]? = .ok none) :
    processLine env file n (afterBlock st ts) rawPr =
      .ok (openProcState st ts
        (openedProc st file n rawPr ((partsOf env rawPr).drop 2) true [])) := by
  rw [processLine_eq _ _ _ _ _ (trim_ne_nil_of_parts hpr), dispatch_dclPr _ _ _ _ _ _ _ hpr]
  simp only [caseDclPr, afterBlock, hopen, hnew]
  rfl

theorem processLine_procedure (env : Env) (file : Str) (n : Nat) (st : ScanState)
    (ts : List Tag) (rawProc : Str)
    (hproc : (partsOf env rawProc)[0]? = some "DCL-PROC".toList)
    (hnew : findByName env st.heap st.procedures (partsOf env rawProc)[1]? = .ok none) :
    processLine env file n (afterBlock st ts) rawProc =
      .ok (openProcState st ts
        (openedProc st file n rawProc ((partsOf env rawProc).drop 2) false [])) := by
  rw [processLine_eq _ _ _ _ _ (trim_ne_nil_of_parts hproc),
    dispatch_dclProc _ _ _ _ _ _ _ hproc]
  simp only [caseDclProc, afterBlock, hnew, Option.getD_none, updateObj_allocCurrent]
  rfl

theorem currentIs_openProcState (st : ScanState) (ts : List Tag) (file : Str) (n : Nat)
    (raw : Str) (kws : List Str) (b : Bool) (subs : List SubItem) :
    currentIs (openProcState st ts (openedProc st file n raw kws b subs)) .procedure =
      some st.heap.length := by
  simp [currentIs, openProcState, afterBlock, deref_append_length, openedProc]

theorem processLine_interface (env : Env) (file file0 : Str) (n n0 : Nat) (st : ScanState)
    (ts : List Tag) (raw rawPi : Str) (kws : List Str) (b : Bool) (subs : List SubItem)
    (hpi : (partsOf env rawPi)[0]? = some "DCL-PI".toList) :
    processLine env file n (openProcState st ts (openedProc st file0 n0 raw kws b subs)) rawPi =
      .ok (openProcState st ts
        (openedProc st file0 n0 raw ((partsOf env rawPi).drop 2) true subs)) := by
  rw [processLine_eq _ _ _ _ _ (trim_ne_nil_of_parts hpi), dispatch_dclPi _ _ _ _ _ _ _ hpi]
  simp only [caseDclPi, openProcState, afterBlock, updateObj, deref_append_length,
    set_append_length, openedProc]
  rfl

theorem processLine_parameter (env : Env) (file file0 : Str) (n n0 : Nat) (st : ScanState)
    (ts : List Tag) (rawPr raw : Str) (kws : List Str) (subs : List SubItem)
    (h : IsParameterLine env raw) :
    ∃ sub, sub.description = paramDescription ts subs.length ∧
      processLine env file n (openProcState st ts (openedProc st file0 n0 rawPr kws true subs))
          raw =
        .ok (openProcState st ts (openedProc st file0 n0 rawPr kws true (subs ++ [sub]))) := by
  obtain ⟨⟨p0, hp0, hnl⟩, hsl⟩ := h
  have hdef : ∀ k ∈ switchLabels, (partsOf env raw)[0]? ≠ some k := by
    intro k hk e
    rw [hp0] at e
    cases e
    exact hnl hk
  rw [processLine_eq _ _ _ _ _ (trim_ne_nil_of_parts hp0), dispatch_default _ _ _ _ _ _ _ hdef]
  have hsl2 : ¬ startsWith (trim raw) "//".toList = true := by rw [hsl]; simp
  rw [if_neg hsl2]
  simp only [caseParameter, currentIs_openProcState, hp0]
  simp only [openProcState, afterBlock, deref_append_length, openedProc, if_true,
    tagsAt_append_length, updateObj, set_append_length]
  refine ⟨_, ?_, rfl⟩
  simp only [paramDescription]
  split
  · rename_i hlen
    rw [List.getElem?_eq_getElem hlen]
    rfl
  · rename_i hlen
    rw [List.getElem?_eq_none (by omega)]
    rfl

theorem processLines_parameters (env : Env) (file file0 : Str) (n0 : Nat) (st : ScanState)
    (ts : List Tag) (rawPr : Str) (kws : List Str) :
    ∀ (params : List Str) (n : Nat) (subs : List SubItem) (tail : List Str),
      (∀ raw ∈ params, IsParameterLine env raw) →
      ∃ more : List SubItem,
        more.map (fun s => s.description) =
          (List.range params.length).map (fun i => paramDescription ts (subs.length + i)) ∧
        processLines env file n (params ++ tail)
            (openProcState st ts (openedProc st file0 n0 rawPr kws true subs)) =
          processLines env file (n + params.length) tail
            (openProcState st ts (openedProc st file0 n0 rawPr kws true (subs ++ more))) := by
  intro params
  induction params with
  | nil =>
    intro n subs tail _
    exact ⟨[], rfl, by simp⟩
  | cons raw rest ih =>
    intro n subs tail h
    obtain ⟨sub, hd, hstep⟩ := processLine_parameter env file file0 n n0 st ts rawPr raw kws
      subs (h raw (List.mem_cons_self _ _))
    obtain ⟨more, hm, hrest⟩ := ih (n + 1) (subs ++ [sub]) tail
      (fun x hx => h x (List.mem_cons_of_mem _ hx))
    refine ⟨sub :: more, ?_, ?_⟩
    · rw [List.length_cons, List.range_succ_eq_map, List.map_cons, List.map_cons, List.map_map,
        hm, hd, Nat.add_zero]
      congr 1
      apply List.map_congr_left
      intro i _
      have : (subs ++ [sub]).length + i = subs.length + Nat.succ i := by
        rw [List.length_append, List.length_singleton]; omega
      simp only [Function.comp, this]
    · have hn : n + 1 + rest.length = n + (raw :: rest).length := by
        rw [List.length_cons]; omega
      rw [hn] at hrest
      simp only [List.append_assoc, List.singleton_append] at hrest
      rw [← hrest]
      show processLines env file n (raw :: (rest ++ tail)) _ = _
      simp only [processLines, hstep]

theorem processLine_endInterface (env : Env) (file file0 : Str) (n n0 : Nat) (st : ScanState)
    (ts : List Tag) (rawPr raw : Str) (kws : List Str) (b : Bool) (subs : List SubItem)
    (hend : (partsOf env raw)[0]? = some "END-PI".toList) :
    processLine env file n (openProcState st ts (openedProc st file0 n0 rawPr kws b subs)) raw =
      .ok (openProcState st ts (openedProc st file0 n0 rawPr kws false subs)) := by
  rw [processLine_eq _ _ _ _ _ (trim_ne_nil_of_parts hend), dispatch_endPi _ _ _ _ _ _ _ hend]
  simp only [caseEndPi, currentIs_openProcState]
  simp only [openProcState, afterBlock, updateObj, deref_append_length, set_append_length,
    openedProc]
  rfl

theorem processLine_endProcedure (env : Env) (file file0 : Str) (n n0 : Nat) (st : ScanState)
    (ts : List Tag) (rawPr raw : Str) (kws : List Str) (b : Bool) (subs : List SubItem)
    (hend : (partsOf env raw)[0]? = some "END-PR".toList ∨
      (partsOf env raw)[0]? = some "END-PROC".toList) :
    processLine env file n (openProcState st ts (openedProc st file0 n0 rawPr kws b subs)) raw =
      .ok (resetDefinition { openProcState st ts (openedProc st file0 n0 rawPr kws b subs) with
        procedures := st.procedures ++ [st.heap.length] }) := by
  rcases hend with hend | hend
  · rw [processLine_eq _ _ _ _ _ (trim_ne_nil_of_parts hend),
      dispatch_endPr _ _ _ _ _ _ _ hend]
    simp only [caseEndProc, currentIs_openProcState]
    rfl
  · rw [processLine_eq _ _ _ _ _ (trim_ne_nil_of_parts hend),
      dispatch_endProc _ _ _ _ _ _ _ hend]
    simp only [caseEndProc, currentIs_openProcState]
    rfl

theorem tagsAt_append_nil (th : List (List Tag)) (t : Nat) :
    tagsAt (th ++ [[]]) t = tagsAt th t := by
  unfold tagsAt
  rcases Nat.lt_trichotomy t th.length with h | h | h
  · simp [List.getD_eq_getElem?_getD, List.getElem?_append_left h]
  · subst h
    simp [List.getD_eq_getElem?_getD]
  · have h1 : th.length ≤ t := Nat.le_of_lt h
    have h2 : (th ++ [[]]).length ≤ t := by simp; omega
    simp [List.getD_eq_getElem?_getD, List.getElem?_eq_none h1, List.getElem?_eq_none h2]

theorem paramDescription_paramTags (contents : List Str) (i : Nat) :
    paramDescription (contents.map paramTag) i = contents[i]?.getD [] := by
  unfold paramDescription
  have : (contents.map paramTag).filter (fun t => t.tag = "param".toList) =
      contents.map paramTag := by
    rw [List.filter_eq_self]
    intro t ht
    obtain ⟨c, _, rfl⟩ := List.mem_map.mp ht
    simp [paramTag]
  rw [this, List.getElem?_map]
  cases contents[i]? <;> rfl

/-- The record left in the model by a procedure that was open in
`openProcState` when it was pushed. -/
theorem resolveDecl_pushed (st : ScanState) (ts : List Tag) (file : Str) (n : Nat)
    (raw : Str) (kws : List Str) (b : Bool) (subs : List SubItem) :
    (resolveDecl (resetDefinition { openProcState st ts (openedProc st file n raw kws b subs) with
        procedures := st.procedures ++ [st.heap.length] }) st.heap.length).tags = ts ∧
    (resolveDecl (resetDefinition { openProcState st ts (openedProc st file n raw kws b subs) with
        procedures := st.procedures ++ [st.heap.length] }) st.heap.length).subItems = subs := by
  simp only [resolveDecl, resetDefinition, openProcState, afterBlock, deref_append_length,
    openedProc, tagsAt_append_nil, tagsAt_append_length, and_self]

/-! ## The environment of the concrete runs -/

/-- The environment of the concrete runs upper-cases as assumed. -/
theorem sampleEnv_upperCaseOK : UpperCaseOK sampleEnv := by
  refine ⟨fun c _ => rfl, fun c hc => ?_⟩
  have hid : asciiUpperChar c = c := by
    unfold asciiUpperChar
    rw [if_neg (by omega)]
  refine ⟨by simp [sampleEnv], by simp [sampleEnv], ?_⟩
  intro d hd
  have hdc : d = c := by simpa [sampleEnv, hid] using hd
  subst hdc
  constructor
  · intro e; subst e; exact absurd hc (by decide)
  · intro e; subst e; exact absurd hc (by decide)

/-! ## Splitting and the member branch of `getPathInfo` -/

theorem splitOn_clean (sep : Char) (w : Str) (h : sep ∉ w) : splitOn sep w = [w] := by
  have := splitOn_append_clean sep w [] h
  simpa [splitOn] using this

theorem splitOn_append_sep (sep : Char) (d r : Str) :
    splitOn sep (d ++ sep :: r) = splitOn sep d ++ splitOn sep r := by
  induction d with
  | nil => rw [List.nil_append, splitOn_cons_sep]; rfl
  | cons c d ih =>
    by_cases hc : c = sep
    · subst hc
      rw [List.cons_append, splitOn_cons_sep, splitOn_cons_sep, ih, List.cons_append]
    · rw [List.cons_append, splitOn_cons_ne _ _ _ hc, splitOn_cons_ne _ _ _ hc, ih]
      cases hd : splitOn sep d with
      | nil => exact absurd hd (splitOn_ne_nil _ _)
      | cons p ps => rfl

theorem toUpperCase_append (env : Env) (a b : Str) :
    toUpperCase env (a ++ b) = toUpperCase env a ++ toUpperCase env b := by
  induction a with
  | nil => rfl
  | cons c cs ih =>
    show env.upperChar c ++ toUpperCase env (cs ++ b) =
      (env.upperChar c ++ toUpperCase env cs) ++ toUpperCase env b
    rw [ih, List.append_assoc]

/-- The member branch of `getPathInfo` for a target of the form `L/F,M`. -/
theorem getPathInfo_library_file_member (env : Env) (uri : Uri) (lib file mbr : Str)
    (hs : uri.scheme ≠ "streamfile".toList) (hl : '/' ∉ lib)
    (hf : '/' ∉ file ∧ ',' ∉ file) (hm : '/' ∉ mbr ∧ ',' ∉ mbr ∧ '.' ∉ mbr) :
    ∃ info asp, getPathInfo env uri (some (lib ++ '/' :: (file ++ ',' :: mbr))) = .ok info ∧
      info.type = .member ∧ info.memberPath = some [asp, some lib, some file, some mbr] ∧
      ((splitOn '/' uri.path).length = 4 → asp = none ∧
        info.finishedPath = toUpperCase env ('/' :: (lib ++ '/' :: (file ++ '/' :: mbr)))) := by
  have hfm : '/' ∉ file ++ ',' :: mbr := by
    simp [hf.1, hm.1]
  have h1 : splitOn '/' (lib ++ '/' :: (file ++ ',' :: mbr)) = [lib, file ++ ',' :: mbr] := by
    rw [splitOn_append_sep, splitOn_clean _ _ hl, splitOn_clean _ _ hfm]; rfl
  have h2 : splitOn ',' (file ++ ',' :: mbr) = [file, mbr] := by
    rw [splitOn_append_sep, splitOn_clean _ _ hf.2, splitOn_clean _ _ hm.2.1]; rfl
  unfold getPathInfo
  rw [if_neg hs]
  simp only [h1, List.getLast?_cons_cons, List.getLast?_singleton, Option.getD_some, h2]
  by_cases h4 : (splitOn '/' uri.path).length = 4
  · simp [h4, hm.2.2, joinWith]
  · simp [h4, hm.2.2, joinWith]

theorem lastIndexOf_none (c : Char) (s : Str) (h : c ∉ s) : lastIndexOf c s = none := by
  induction s with
  | nil => rfl
  | cons x xs ih =>
    have hx : x ≠ c := fun e => h (by rw [e]; exact List.mem_cons_self _ _)
    have hxs : c ∉ xs := fun e => h (List.mem_cons_of_mem _ e)
    simp only [lastIndexOf, ih hxs, if_neg hx]

theorem lastIndexOf_append (c : Char) (p s : Str) (h : c ∉ s) :
    lastIndexOf c (p ++ c :: s) = some p.length := by
  induction p with
  | nil => simp only [List.nil_append, lastIndexOf, lastIndexOf_none c s h, if_pos, List.length_nil]
  | cons x xs ih =>
    show (match lastIndexOf c (xs ++ c :: s) with
      | some i => some (i + 1)
      | none => if x = c then some 0 else none) = some (xs.length + 1)
    rw [ih]

/-- The text before the last occurrence of a character, as `substr` cuts it. -/
theorem take_lastIndexOf (c : Char) (p s : Str) (h : c ∉ s) :
    (p ++ c :: s).take ((lastIndexOf c (p ++ c :: s)).getD 0) = p := by
  rw [lastIndexOf_append c p s h, Option.getD_some, List.take_left]

/-- The last piece of a target behind its directory part. -/
theorem splitOn_getLast_dir (dir tail : Str) (hdir : dir = [] ∨ dir.getLast? = some '/')
    (ht : '/' ∉ tail) :
    (splitOn '/' (dir ++ tail)).getLast? = some tail ∧
      ((splitOn '/' (dir ++ tail)).length = 2 →
        ∃ l, (splitOn '/' (dir ++ tail))[0]? = some l) := by
  rcases hdir with rfl | hd
  · rw [List.nil_append, splitOn_clean _ _ ht]
    exact ⟨rfl, fun h => absurd h (by simp)⟩
  · obtain ⟨d, rfl⟩ := List.getLast?_eq_some_iff.mp hd
    rw [List.append_assoc, List.singleton_append, splitOn_append_sep, splitOn_clean _ _ ht]
    refine ⟨by simp, fun _ => ?_⟩
    cases hs : splitOn '/' d with
    | nil => exact absurd hs (splitOn_ne_nil _ _)
    | cons p ps => exact ⟨p, by simp⟩

/-- Upper-casing of ASCII text. -/
theorem toUpperCase_ascii (env : Env) (hup : UpperCaseOK env) :
    ∀ s : Str, (∀ c ∈ s, c.toNat < 128) → toUpperCase env s = s.map asciiUpperChar := by
  intro s
  induction s with
  | nil => intro _; rfl
  | cons c cs ih =>
    intro h
    simp only [toUpperCase, hup.1 c (h c (List.mem_cons_self _ _)),
      ih (fun x hx => h x (List.mem_cons_of_mem _ hx)), List.map_cons, List.singleton_append]

theorem splitOn_path4 (a b c : Str) (ha : '/' ∉ a) (hb : '/' ∉ b) (hc : '/' ∉ c) :
    splitOn '/' ('/' :: (a ++ '/' :: (b ++ '/' :: c))) = [[], a, b, c] := by
  rw [splitOn_cons_sep, splitOn_append_sep, splitOn_append_sep, splitOn_clean _ _ ha,
    splitOn_clean _ _ hb, splitOn_clean _ _ hc]
  rfl

theorem splitOn_path5 (a b c d : Str) (ha : '/' ∉ a) (hb : '/' ∉ b) (hc : '/' ∉ c)
    (hd : '/' ∉ d) :
    splitOn '/' ('/' :: (a ++ '/' :: (b ++ '/' :: (c ++ '/' :: d)))) = [[], a, b, c, d] := by
  rw [splitOn_cons_sep, splitOn_append_sep, splitOn_append_sep, splitOn_append_sep,
    splitOn_clean _ _ ha, splitOn_clean _ _ hb, splitOn_clean _ _ hc, splitOn_clean _ _ hd]
  rfl

/-- The member branch of `getPathInfo` for a target whose last piece names a
member, with or without a source file before a comma: the source-file and
member components it returns. -/
theorem getPathInfo_member_target (env : Env) (uri : Uri) (dir : Str) (src : Option Str)
    (m : Str) (hs : uri.scheme ≠ "streamfile".toList)
    (hdir : dir = [] ∨ dir.getLast? = some '/') (hm : '/' ∉ m ∧ ',' ∉ m)
    (hsrc : ∀ f, src = some f → '/' ∉ f ∧ ',' ∉ f) :
    ∃ info mp,
      getPathInfo env uri
        (some (dir ++ (match src with | none => m | some f => f ++ ',' :: m))) = .ok info ∧
      info.memberPath = some mp ∧
      mp[3]? = some (some (if m.contains '.' then m.take ((lastIndexOf '.' m).getD 0) else m)) ∧
      (src = none → ((splitOn '/' uri.path).length = 4 → mp[2]? = some (splitOn '/' uri.path)[2]?) ∧
        ((splitOn '/' uri.path).length ≠ 4 → mp[2]? = some (splitOn '/' uri.path)[3]?)) ∧
      (∀ f, src = some f → mp[2]? = some (some f)) := by
  cases src with
  | none =>
    obtain ⟨hlast, hlen⟩ := splitOn_getLast_dir dir m hdir hm.1
    unfold getPathInfo
    rw [if_neg hs]
    simp only [hlast, Option.getD_some, splitOn_clean _ _ hm.2]
    by_cases h2 : (splitOn '/' (dir ++ m)).length = 2
    · obtain ⟨l, hl⟩ := hlen h2
      by_cases h4 : (splitOn '/' uri.path).length = 4 <;>
        by_cases hdot : '.' ∈ m <;>
        simp [h2, h4, hdot, hl]
    · by_cases h4 : (splitOn '/' uri.path).length = 4 <;>
        by_cases hdot : '.' ∈ m <;>
        simp [h2, h4, hdot]
  | some f =>
    have hf := hsrc f rfl
    have htail : '/' ∉ f ++ ',' :: m := by simp [hf.1, hm.1]
    obtain ⟨hlast, hlen⟩ := splitOn_getLast_dir dir _ hdir htail
    have hsplit : splitOn ',' (f ++ ',' :: m) = [f, m] := by
      rw [splitOn_append_sep, splitOn_clean _ _ hf.2, splitOn_clean _ _ hm.2]; rfl
    unfold getPathInfo
    rw [if_neg hs]
    simp only [hlast, Option.getD_some, hsplit]
    by_cases h2 : (splitOn '/' (dir ++ (f ++ ',' :: m))).length = 2
    · obtain ⟨l, hl⟩ := hlen h2
      by_cases h4 : (splitOn '/' uri.path).length = 4 <;>
        by_cases hdot : '.' ∈ m <;>
        simp [h2, h4, hdot, hl]
    · by_cases h4 : (splitOn '/' uri.path).length = 4 <;>
        by_cases hdot : '.' ∈ m <;>
        simp [h2, h4, hdot]

/-! ## The stream-file branch of `getPathInfo` -/

theorem startsWith_singleton (s : Str) (c : Char) :
    startsWith s [c] = true ↔ s.head? = some c := by
  cases s with
  | nil => simp [startsWith]
  | cons x xs =>
    cases xs <;> simp [startsWith]

theorem endsWith_singleton (s : Str) (c : Char) :
    endsWith s [c] = true ↔ s.getLast? = some c := by
  unfold endsWith
  rw [List.reverse_singleton, startsWith_singleton, List.head?_reverse]

/-! ## Letter case and canonical paths -/

theorem mem_toUpperCase (env : Env) (q : Char) (hq : StableChar env q) (s : Str) :
    q ∈ toUpperCase env s ↔ q ∈ s := by
  induction s with
  | nil => simp [toUpperCase]
  | cons c cs ih =>
    simp only [toUpperCase, List.mem_append, ih, List.mem_cons]
    by_cases hc : c = q
    · subst hc
      simp [hq.1]
    · have := hq.2 c hc
      constructor
      · rintro (h | h)
        · exact absurd h this
        · exact Or.inr h
      · rintro (h | h)
        · exact absurd h.symm hc
        · exact Or.inr h

theorem splitOn_toUpperCase_stable (env : Env) (q : Char) (hq : StableChar env q) (s : Str) :
    splitOn q (toUpperCase env s) = (splitOn q s).map (toUpperCase env) := by
  induction s with
  | nil => rfl
  | cons c cs ih =>
    by_cases hc : c = q
    · subst hc
      rw [splitOn_cons_sep]
      simp only [toUpperCase, hq.1, List.singleton_append, splitOn_cons_sep, ih, List.map_cons]
    · rw [splitOn_cons_ne _ _ _ hc]
      simp only [toUpperCase]
      rw [splitOn_append_clean _ _ _ (hq.2 c hc), ih]
      cases h : splitOn q cs with
      | nil => exact absurd h (splitOn_ne_nil _ _)
      | cons p ps => simp [toUpperCase]

theorem toUpperCase_idem (env : Env) (h : ∀ c, toUpperCase env (env.upperChar c) = env.upperChar c)
    (s : Str) : toUpperCase env (toUpperCase env s) = toUpperCase env s := by
  induction s with
  | nil => rfl
  | cons c cs ih =>
    show toUpperCase env (env.upperChar c ++ toUpperCase env cs) = _
    rw [toUpperCase_append, h, ih]
    rfl

theorem head?_toUpperCase (env : Env) (hne : ∀ c, env.upperChar c ≠ []) (q : Char)
    (hq : StableChar env q) (s : Str) :
    (toUpperCase env s).head? = some q ↔ s.head? = some q := by
  cases s with
  | nil => simp [toUpperCase]
  | cons c cs =>
    show (env.upperChar c ++ toUpperCase env cs).head? = some q ↔ _
    cases hu : env.upperChar c with
    | nil => exact absurd hu (hne c)
    | cons x xs =>
      simp only [List.cons_append, List.head?_cons, Option.some.injEq]
      by_cases hc : c = q
      · subst hc
        rw [hq.1] at hu
        cases hu
        simp
      · have := hq.2 c hc
        rw [hu] at this
        constructor
        · intro e
          exact absurd (by rw [e]; exact List.mem_cons_self _ _) this
        · intro e
          exact absurd e hc

theorem getLast?_toUpperCase (env : Env) (hne : ∀ c, env.upperChar c ≠ []) (q : Char)
    (hq : StableChar env q) (s : Str) :
    (toUpperCase env s).getLast? = some q ↔ s.getLast? = some q := by
  rcases List.eq_nil_or_concat s with rfl | ⟨ys, c, rfl⟩
  · simp [toUpperCase]
  · simp only [List.concat_eq_append]
    rw [toUpperCase_append]
    show (toUpperCase env ys ++ (env.upperChar c ++ [])).getLast? = some q ↔ _
    rw [List.append_nil, List.getLast?_append_of_ne_nil _ (hne c), List.getLast?_concat]
    by_cases hc : c = q
    · subst hc
      rw [hq.1]
      simp
    · have := hq.2 c hc
      constructor
      · intro e
        exact absurd (List.mem_of_getLast?_eq_some e) this
      · intro e
        exact absurd (Option.some.inj e) hc

theorem toUpperCase_stripLeading (env : Env) (hne : ∀ c, env.upperChar c ≠ []) (q : Char)
    (hq : StableChar env q) (t : Str) :
    toUpperCase env (if startsWith t [q] then t.drop 1 else t) =
      if (toUpperCase env t).head? = some q then (toUpperCase env t).drop 1
      else toUpperCase env t := by
  by_cases h : t.head? = some q
  · rw [if_pos ((startsWith_singleton _ _).mpr h),
      if_pos ((head?_toUpperCase env hne q hq t).mpr h)]
    cases t with
    | nil => cases h
    | cons x xs =>
      simp only [List.head?_cons, Option.some.injEq] at h
      subst h
      show toUpperCase env xs = (env.upperChar x ++ toUpperCase env xs).drop 1
      rw [hq.1]
      rfl
  · rw [if_neg (fun e => h ((startsWith_singleton _ _).mp e)),
      if_neg (fun e => h ((head?_toUpperCase env hne q hq t).mp e))]

theorem toUpperCase_stripTrailing (env : Env) (hne : ∀ c, env.upperChar c ≠ []) (q : Char)
    (hq : StableChar env q) (t : Str) :
    toUpperCase env (if endsWith t [q] then t.take (t.length - 1) else t) =
      if (toUpperCase env t).getLast? = some q then (toUpperCase env t).dropLast
      else toUpperCase env t := by
  by_cases h : t.getLast? = some q
  · rw [if_pos ((endsWith_singleton _ _).mpr h),
      if_pos ((getLast?_toUpperCase env hne q hq t).mpr h)]
    obtain ⟨ys, rfl⟩ := List.getLast?_eq_some_iff.mp h
    have hl : (ys ++ [q]).length - 1 = ys.length := by simp
    rw [hl, List.take_left, toUpperCase_append]
    show _ = (toUpperCase env ys ++ (env.upperChar q ++ [])).dropLast
    rw [hq.1]
    simp
  · rw [if_neg (fun e => h ((endsWith_singleton _ _).mp e)),
      if_neg (fun e => h ((getLast?_toUpperCase env hne q hq t).mp e))]

theorem lastIndexOf_of_mem (q : Char) (s : Str) (h : q ∈ s) : ∃ i, lastIndexOf q s = some i := by
  induction s with
  | nil => cases h
  | cons x xs ih =>
    cases hl : lastIndexOf q xs with
    | some i => exact ⟨i + 1, by simp only [lastIndexOf, hl]⟩
    | none =>
      have hx : x = q := by
        rcases List.mem_cons.mp h with e | e
        · exact e.symm
        · obtain ⟨i, hi⟩ := ih e
          rw [hl] at hi
          cases hi
      exact ⟨0, by simp only [lastIndexOf, hl, if_pos hx]⟩

/-- The cut before the last occurrence, one character at a time. -/
theorem cut_cons (q x : Char) (xs : Str) :
    (x :: xs).take ((lastIndexOf q (x :: xs)).getD 0) =
      if q ∈ xs then x :: xs.take ((lastIndexOf q xs).getD 0) else [] := by
  by_cases h : q ∈ xs
  · obtain ⟨i, hi⟩ := lastIndexOf_of_mem q xs h
    rw [if_pos h]
    simp only [lastIndexOf, hi, Option.getD_some, List.take_succ_cons]
  · rw [if_neg h]
    simp only [lastIndexOf, lastIndexOf_none q xs h]
    split <;> rfl

theorem cut_append (q : Char) (w ys : Str) (h : q ∈ ys) :
    (w ++ ys).take ((lastIndexOf q (w ++ ys)).getD 0) =
      w ++ ys.take ((lastIndexOf q ys).getD 0) := by
  induction w with
  | nil => rfl
  | cons x xs ih =>
    rw [List.cons_append, cut_cons, if_pos (List.mem_append_right _ h), ih, List.cons_append]

theorem cut_clean (q : Char) (w : Str) (h : q ∉ w) :
    w.take ((lastIndexOf q w).getD 0) = [] := by
  rw [lastIndexOf_none q w h]
  rfl

/-- Upper-casing commutes with the cut before the last occurrence of a stable
character. -/
theorem toUpperCase_cut (env : Env) (q : Char) (hq : StableChar env q) (m : Str) :
    toUpperCase env (m.take ((lastIndexOf q m).getD 0)) =
      (toUpperCase env m).take ((lastIndexOf q (toUpperCase env m)).getD 0) := by
  induction m with
  | nil => rfl
  | cons c cs ih =>
    rw [cut_cons]
    show _ = (env.upperChar c ++ toUpperCase env cs).take
      ((lastIndexOf q (env.upperChar c ++ toUpperCase env cs)).getD 0)
    by_cases h : q ∈ cs
    · rw [if_pos h, cut_append q _ _ ((mem_toUpperCase env q hq cs).mpr h), ← ih]
      rfl
    · rw [if_neg h]
      have hu : q ∉ toUpperCase env cs := fun e => h ((mem_toUpperCase env q hq cs).mp e)
      by_cases hc : c = q
      · subst hc
        rw [hq.1, List.singleton_append, cut_cons, if_neg hu]
        rfl
      · rw [cut_clean q _ (by
          intro e
          rcases List.mem_append.mp e with e | e
          · exact hq.2 c hc e
          · exact hu e)]
        rfl

theorem toUpperCase_joinWith (env : Env) (q : Char) (hq : env.upperChar q = [q]) :
    ∀ xs : List (Option Str),
      toUpperCase env (joinWith [q] xs) = joinWith [q] (xs.map (Option.map (toUpperCase env))) := by
  intro xs
  induction xs with
  | nil => rfl
  | cons x rest ih =>
    cases rest with
    | nil => cases x <;> rfl
    | cons y rest =>
      show toUpperCase env (x.getD [] ++ [q] ++ joinWith [q] (y :: rest)) = _
      rw [toUpperCase_append, toUpperCase_append, ih]
      have : toUpperCase env [q] = [q] := by
        show env.upperChar q ++ [] = [q]
        rw [hq]; rfl
      rw [this]
      cases x <;> rfl

theorem upperList_getElem? (env : Env) {M M1 : List Str}
    (h : M.map (toUpperCase env) = M1.map (toUpperCase env)) (i : Nat) :
    M[i]?.map (toUpperCase env) = M1[i]?.map (toUpperCase env) := by
  rw [← List.getElem?_map, ← List.getElem?_map, h]

/-- Components set from pieces that differ only in letter case differ only in
letter case. -/
theorem components_case_member (env : Env) (mp1 : List (Option Str)) (M M1 : List Str)
    (h : M.map (toUpperCase env) = M1.map (toUpperCase env)) :
    (if M.length = 1 then mp1.set 3 M[0]?
      else if M.length = 2 then (mp1.set 2 M[0]?).set 3 M[1]? else mp1).map
        (Option.map (toUpperCase env)) =
    (if M1.length = 1 then mp1.set 3 M1[0]?
      else if M1.length = 2 then (mp1.set 2 M1[0]?).set 3 M1[1]? else mp1).map
        (Option.map (toUpperCase env)) := by
  have hlen : M.length = M1.length := by simpa using congrArg List.length h
  rw [← hlen]
  split_ifs <;>
    simp only [List.map_set, upperList_getElem? env h]

theorem components_case_library (env : Env) (mp2 mp21 : List (Option Str)) (L L1 : List Str)
    (hmp : mp2.map (Option.map (toUpperCase env)) = mp21.map (Option.map (toUpperCase env)))
    (h : L.map (toUpperCase env) = L1.map (toUpperCase env)) :
    (if L.length = 2 then mp2.set 1 L[0]? else mp2).map (Option.map (toUpperCase env)) =
    (if L1.length = 2 then mp21.set 1 L1[0]? else mp21).map (Option.map (toUpperCase env)) := by
  have hlen : L.length = L1.length := by simpa using congrArg List.length h
  rw [← hlen]
  split_ifs <;>
    simp only [List.map_set, upperList_getElem? env h, hmp]

/-- The end of the member branch gives the same canonical path for component
arrays that differ only in letter case. -/
theorem finishedPath_case_tail (env : Env) (hp : PathCaseOK env) (wp : List Str)
    (mp3 mp31 : List (Option Str))
    (hmp : mp3.map (Option.map (toUpperCase env)) = mp31.map (Option.map (toUpperCase env))) :
    (match mp3[3]?.join with
      | none => (Except.error JSError.typeError : Except JSError PathInfo)
      | some m =>
        let mp4 :=
          if m.contains '.' then mp3.set 3 (some (m.take ((lastIndexOf '.' m).getD 0)))
          else mp3
        let joined := joinWith ['/'] mp4
        let finishedPath := if wp.length = 5 then '/' :: joined else joined
        .ok { type := .member, memberPath := some mp4
              finishedPath := toUpperCase env finishedPath }).map PathInfo.finishedPath =
    (match mp31[3]?.join with
      | none => (Except.error JSError.typeError : Except JSError PathInfo)
      | some m =>
        let mp4 :=
          if m.contains '.' then mp31.set 3 (some (m.take ((lastIndexOf '.' m).getD 0)))
          else mp31
        let joined := joinWith ['/'] mp4
        let finishedPath := if wp.length = 5 then '/' :: joined else joined
        .ok { type := .member, memberPath := some mp4
              finishedPath := toUpperCase env finishedPath }).map PathInfo.finishedPath := by
  obtain ⟨hne, hslash, hcomma, hdot, hquote, hidem⟩ := hp
  have h3 : mp3[3]?.join.map (toUpperCase env) = mp31[3]?.join.map (toUpperCase env) := by
    have := congrArg (fun l => l[3]?) hmp
    simp only [List.getElem?_map] at this
    rcases h : mp3[3]? with _ | _ | x <;> rcases h1 : mp31[3]? with _ | _ | y <;>
      rw [h, h1] at this <;> simp_all
  cases hm : mp3[3]?.join with
  | none =>
    cases hm1 : mp31[3]?.join with
    | none => rfl
    | some m1 => rw [hm, hm1] at h3; cases h3
  | some m =>
    cases hm1 : mp31[3]?.join with
    | none => rw [hm, hm1] at h3; cases h3
    | some m1 =>
      rw [hm, hm1] at h3
      simp only [Option.map_some', Option.some.injEq] at h3
      have hdotmem : ('.' ∈ m) ↔ ('.' ∈ m1) := by
        rw [← mem_toUpperCase env '.' hdot m, ← mem_toUpperCase env '.' hdot m1, h3]
      have hcut : toUpperCase env (m.take ((lastIndexOf '.' m).getD 0)) =
          toUpperCase env (m1.take ((lastIndexOf '.' m1).getD 0)) := by
        rw [toUpperCase_cut env '.' hdot, toUpperCase_cut env '.' hdot, h3]
      have h4 : (if m.contains '.' then mp3.set 3 (some (m.take ((lastIndexOf '.' m).getD 0)))
            else mp3).map (Option.map (toUpperCase env)) =
          (if m1.contains '.' then mp31.set 3 (some (m1.take ((lastIndexOf '.' m1).getD 0)))
            else mp31).map (Option.map (toUpperCase env)) := by
        have hcm : ∀ s : Str, s.contains '.' = true ↔ '.' ∈ s := fun s => by simp
        by_cases hd : m.contains '.' = true
        · have hd1 : m1.contains '.' = true := (hcm m1).mpr (hdotmem.mp ((hcm m).mp hd))
          rw [if_pos hd, if_pos hd1]
          simp only [List.map_set, Option.map_some', hcut, hmp]
        · have hd1 : ¬ m1.contains '.' = true :=
            fun e => hd ((hcm m).mpr (hdotmem.mpr ((hcm m1).mp e)))
          rw [if_neg hd, if_neg hd1]
          exact hmp
      simp only [Except.map]
      congr 1
      by_cases h5 : wp.length = 5
      · simp only [h5, if_true]
        show toUpperCase env (['/'] ++ joinWith ['/'] _) = toUpperCase env (['/'] ++ joinWith ['/'] _)
        rw [toUpperCase_append, toUpperCase_append, toUpperCase_joinWith env '/' hslash.1,
          toUpperCase_joinWith env '/' hslash.1, h4]
      · simp only [h5, if_false]
        rw [toUpperCase_joinWith env '/' hslash.1, toUpperCase_joinWith env '/' hslash.1, h4]

theorem getLastD_case (env : Env) {L L1 : List Str}
    (h : L.map (toUpperCase env) = L1.map (toUpperCase env)) :
    toUpperCase env (L.getLast?.getD []) = toUpperCase env (L1.getLast?.getD []) := by
  have := congrArg List.getLast? h
  rw [List.getLast?_map, List.getLast?_map] at this
  cases h0 : L.getLast? <;> cases h1 : L1.getLast? <;> rw [h0, h1] at this <;> simp_all

/-- Targets that differ only in letter case resolve to the same canonical
path, or both raise. -/
theorem finishedPath_case (env : Env) (hp : PathCaseOK env) (hj : JoinRespectsCase env)
    (uri : Uri) (t t1 : Str) (h : toUpperCase env t = toUpperCase env t1) :
    (getPathInfo env uri (some t)).map PathInfo.finishedPath =
      (getPathInfo env uri (some t1)).map PathInfo.finishedPath := by
  by_cases hs : uri.scheme = "streamfile".toList
  · unfold getPathInfo
    rw [if_pos hs, if_pos hs]
    simp only [Except.map]
    congr 1
    obtain ⟨hne, hslash, _, _, hquote, _⟩ := hp
    have h1 := toUpperCase_stripLeading env hne _ hquote t
    have h11 := toUpperCase_stripLeading env hne _ hquote t1
    rw [h] at h1
    rw [← h11] at h1
    generalize (if startsWith t [Char.ofNat 39] then t.drop 1 else t) = g1 at h1 ⊢
    generalize (if startsWith t1 [Char.ofNat 39] then t1.drop 1 else t1) = g11 at h1 ⊢
    have h2 := toUpperCase_stripTrailing env hne _ hquote g1
    have h21 := toUpperCase_stripTrailing env hne _ hquote g11
    rw [h1] at h2
    rw [← h21] at h2
    generalize (if endsWith g1 [Char.ofNat 39] then g1.take (g1.length - 1) else g1) = g2 at h2 ⊢
    generalize (if endsWith g11 [Char.ofNat 39] then g11.take (g11.length - 1) else g11) =
      g21 at h2 ⊢
    have hh : g2.head? = some '/' ↔ g21.head? = some '/' := by
      rw [← head?_toUpperCase env hne '/' hslash g2, ← head?_toUpperCase env hne '/' hslash g21,
        h2]
    by_cases hd : g2.head? = some '/'
    · rw [if_pos ((startsWith_singleton _ _).mpr hd),
        if_pos ((startsWith_singleton _ _).mpr (hh.mp hd))]
      exact h2
    · rw [if_neg (fun e => hd ((startsWith_singleton _ _).mp e)),
        if_neg (fun e => hd (hh.mpr ((startsWith_singleton _ _).mp e)))]
      exact hj _ _ _ h2
  · have hL : (splitOn '/' t).map (toUpperCase env) = (splitOn '/' t1).map (toUpperCase env) := by
      rw [← splitOn_toUpperCase_stable env '/' hp.2.1, ← splitOn_toUpperCase_stable env '/' hp.2.1,
        h]
    have hM : (splitOn ',' ((splitOn '/' t).getLast?.getD [])).map (toUpperCase env) =
        (splitOn ',' ((splitOn '/' t1).getLast?.getD [])).map (toUpperCase env) := by
      rw [← splitOn_toUpperCase_stable env ',' hp.2.2.1,
        ← splitOn_toUpperCase_stable env ',' hp.2.2.1, getLastD_case env hL]
    unfold getPathInfo
    rw [if_neg hs, if_neg hs]
    exact finishedPath_case_tail env hp _ _ _
      (components_case_library env _ _ _ _ (components_case_member env _ _ _ hM) hL)

theorem getPathInfo_finishedPath_upper (env : Env) (uri : Uri) (t : Option Str) (info : PathInfo)
    (h : getPathInfo env uri t = .ok info) : ∃ x, info.finishedPath = toUpperCase env x := by
  unfold getPathInfo at h
  split at h
  · split at h
    · cases h
    · cases h
      exact ⟨_, rfl⟩
  · split at h
    · cases h
    · dsimp only at h
      split at h
      · cases h
      · cases h
        exact ⟨_, rfl⟩

theorem asciiUpperChar_eq_low (q c : Char) (hq : q.toNat < 65) (h : asciiUpperChar c = q) :
    c = q := by
  unfold asciiUpperChar at h
  split at h
  · rename_i hc
    have := congrArg Char.toNat h
    rw [toNat_ofNat_small _ (by omega)] at this
    omega
  · exact h

theorem asciiUpperChar_idem (c : Char) : asciiUpperChar (asciiUpperChar c) = asciiUpperChar c := by
  by_cases hc : 97 ≤ c.toNat ∧ c.toNat ≤ 122
  · have h1 : asciiUpperChar c = Char.ofNat (c.toNat - 32) := by
      unfold asciiUpperChar
      rw [if_pos hc]
    have h2 : (Char.ofNat (c.toNat - 32)).toNat = c.toNat - 32 := toNat_ofNat_small _ (by omega)
    rw [h1]
    unfold asciiUpperChar
    rw [if_neg (by rw [h2]; omega)]
  · have h1 : asciiUpperChar c = c := by
      unfold asciiUpperChar
      rw [if_neg hc]
    rw [h1, h1]

theorem sampleEnv_stableChar (q : Char) (hq : q.toNat < 65) : StableChar sampleEnv q := by
  constructor
  · show [asciiUpperChar q] = [q]
    have : asciiUpperChar q = q := by
      unfold asciiUpperChar
      rw [if_neg (by omega)]
    rw [this]
  · intro c hc hm
    have : q = asciiUpperChar c := by simpa [sampleEnv] using hm
    exact hc (asciiUpperChar_eq_low q c hq this.symm)

/-- The environment of the concrete runs upper-cases paths as assumed. -/
theorem sampleEnv_pathCaseOK : PathCaseOK sampleEnv := by
  refine ⟨fun c => by simp [sampleEnv], sampleEnv_stableChar _ (by decide),
    sampleEnv_stableChar _ (by decide), sampleEnv_stableChar _ (by decide),
    sampleEnv_stableChar _ (by decide), fun c => ?_⟩
  show [asciiUpperChar (asciiUpperChar c)] ++ [] = [asciiUpperChar c]
  rw [asciiUpperChar_idem]
  rfl

theorem sampleEnv_joinRespectsCase : JoinRespectsCase sampleEnv := by
  intro a b b1 h
  show toUpperCase sampleEnv (a ++ '/' :: b) = toUpperCase sampleEnv (a ++ '/' :: b1)
  rw [toUpperCase_append, toUpperCase_append]
  show _ ++ (sampleEnv.upperChar '/' ++ toUpperCase sampleEnv b) =
    _ ++ (sampleEnv.upperChar '/' ++ toUpperCase sampleEnv b1)
  rw [h]

/-! ## The content cache -/

theorem lookupKey_setKey_self {α : Type} (key : Str) (v : α) (l : List (Str × α)) :
    lookupKey key (setKey key v l) = some v := by
  induction l with
  | nil => simp [setKey, lookupKey]
  | cons x xs ih =>
    obtain ⟨k, w⟩ := x
    unfold setKey
    by_cases hk : k = key
    · rw [if_pos hk]
      unfold lookupKey
      exact if_pos hk
    · rw [if_neg hk]
      unfold lookupKey
      rw [if_neg hk]
      exact ih

theorem lookupKey_setKey_ne {α : Type} (key key1 : Str) (v : α) (l : List (Str × α))
    (hne : key1 ≠ key) : lookupKey key1 (setKey key v l) = lookupKey key1 l := by
  induction l with
  | nil =>
    unfold setKey lookupKey
    rw [if_neg (fun e => hne e.symm)]
    rfl
  | cons x xs ih =>
    obtain ⟨k, w⟩ := x
    unfold setKey
    by_cases hk : k = key
    · rw [if_pos hk]
      unfold lookupKey
      rw [if_neg (fun e => hne (e.symm.trans hk)), if_neg (fun e => hne (e.symm.trans hk))]
    · rw [if_neg hk]
      unfold lookupKey
      by_cases hk1 : k = key1
      · rw [if_pos hk1, if_pos hk1]
      · rw [if_neg hk1, if_neg hk1]
        exact ih

theorem setKey_setKey {α : Type} (key : Str) (v w : α) (l : List (Str × α)) :
    setKey key v (setKey key w l) = setKey key v l := by
  induction l with
  | nil => simp [setKey]
  | cons x xs ih =>
    obtain ⟨k, u⟩ := x
    by_cases hk : k = key
    · simp [setKey, hk]
    · simp [setKey, hk, ih]

/-- The body of `getContent` behind a resolved path, in terms of `fetch`. -/
theorem getContent_of_info (env : Env) (uri : Uri) (cb : CopyBooks) (t : Option Str)
    (info : PathInfo) (hinfo : getPathInfo env uri t = .ok info) :
    getContent env uri cb t =
      match lookupKey info.finishedPath cb with
      | some lines => .ok (lines, cb)
      | none =>
        match fetch env info with
        | none => .ok ([], cb)
        | some content =>
          .ok (toLines content, setKey info.finishedPath (toLines content) cb) := by
  unfold getContent fetch
  rw [hinfo]

theorem getContent_info (env : Env) (uri : Uri) (cb cb1 : CopyBooks) (t : Option Str)
    (lines : List Str) (h : getContent env uri cb t = .ok (lines, cb1)) :
    ∃ info, getPathInfo env uri t = .ok info := by
  unfold getContent at h
  cases hinfo : getPathInfo env uri t with
  | error e => rw [hinfo] at h; cases h
  | ok info => exact ⟨info, rfl⟩

theorem cacheGrows_refl (contentOf : Str → Option Str) (cb : CopyBooks) :
    CacheGrows contentOf cb cb :=
  fun _ => Or.inl rfl

theorem cacheGrows_trans {contentOf : Str → Option Str} {cb cb1 cb2 : CopyBooks}
    (h1 : CacheGrows contentOf cb cb1) (h2 : CacheGrows contentOf cb1 cb2) :
    CacheGrows contentOf cb cb2 := by
  intro k
  rcases h2 k with e2 | ⟨n2, c, hc, e2⟩
  · rcases h1 k with e1 | ⟨n1, c, hc, e1⟩
    · exact Or.inl (e2.trans e1)
    · exact Or.inr ⟨n1, c, hc, e2.trans e1⟩
  · rcases h1 k with e1 | ⟨n1, c1, hc1, e1⟩
    · exact Or.inr ⟨e1 ▸ n2, c, hc, e2⟩
    · rw [e1] at n2
      cases n2

/-- A call of `getContent` only adds to the cache, and only fetched lines. -/
theorem getContent_grows {env : Env} {uri : Uri} {contentOf : Str → Option Str}
    (hfetch : FetchByPath env uri contentOf) {cb cb1 : CopyBooks} {t : Option Str}
    {lines : List Str} (h : getContent env uri cb t = .ok (lines, cb1)) :
    CacheGrows contentOf cb cb1 := by
  obtain ⟨info, hinfo⟩ := getContent_info env uri cb cb1 t lines h
  rw [getContent_of_info env uri cb t info hinfo] at h
  cases hl : lookupKey info.finishedPath cb with
  | some cached =>
    rw [hl] at h
    cases h
    exact cacheGrows_refl _ _
  | none =>
    rw [hl] at h
    cases hf : fetch env info with
    | none =>
      rw [hf] at h
      cases h
      exact cacheGrows_refl _ _
    | some content =>
      rw [hf] at h
      cases h
      intro k
      by_cases hk : k = info.finishedPath
      · subst hk
        exact Or.inr ⟨hl, content, by rw [← hfetch t info hinfo, hf],
          lookupKey_setKey_self _ _ _⟩
      · exact Or.inl (lookupKey_setKey_ne _ _ _ _ hk)

/-- A call of `getContent` gives the same lines again from any cache that grew
out of the one it left behind, and leaves that cache as it is. -/
theorem getContent_replay {env : Env} {uri : Uri} {contentOf : Str → Option Str}
    (hfetch : FetchByPath env uri contentOf) {cb cb1 cbF : CopyBooks} {t : Option Str}
    {lines : List Str} (h : getContent env uri cb t = .ok (lines, cb1))
    (hg : CacheGrows contentOf cb1 cbF) :
    getContent env uri cbF t = .ok (lines, cbF) := by
  obtain ⟨info, hinfo⟩ := getContent_info env uri cb cb1 t lines h
  rw [getContent_of_info env uri cb t info hinfo] at h
  rw [getContent_of_info env uri cbF t info hinfo]
  cases hl : lookupKey info.finishedPath cb with
  | some cached =>
    rw [hl] at h
    cases h
    rcases hg info.finishedPath with e | ⟨n, _⟩
    · rw [e, hl]
    · rw [hl] at n
      cases n
  | none =>
    rw [hl] at h
    cases hf : fetch env info with
    | none =>
      rw [hf] at h
      cases h
      rcases hg info.finishedPath with e | ⟨_, c, hc, _⟩
      · rw [e, hl]
      · rw [← hfetch t info hinfo, hf] at hc
        cases hc
    | some content =>
      rw [hf] at h
      cases h
      rcases hg info.finishedPath with e | ⟨n, _⟩
      · rw [e, lookupKey_setKey_self]
      · rw [lookupKey_setKey_self] at n
        cases n

/-- What one iteration of the first loop does, by cases. -/
theorem includeStep_cases {env : Env} {uri : Uri} {files files1 : FilesObj} {cb cb1 : CopyBooks}
    {raw : Str} (h : includeStep env uri (files, cb) raw = .ok (files1, cb1)) :
    (files1 = files ∧ cb1 = cb ∧ ∀ cbF, includeStep env uri (files, cbF) raw = .ok (files, cbF)) ∨
    ∃ lines, getContent env uri cb (tokens (trim raw))[1]? = .ok (lines, cb1) ∧
      ∀ cbF, getContent env uri cbF (tokens (trim raw))[1]? = .ok (lines, cbF) →
        includeStep env uri (files, cbF) raw = .ok (files1, cbF) := by
  unfold includeStep at h
  by_cases hne : trim raw = []
  · simp only [hne, if_true] at h
    cases h
    exact Or.inl ⟨rfl, rfl, fun cbF => by unfold includeStep; simp only [hne, if_true]⟩
  · simp only [hne, if_false] at h
    cases hp : (tokens (trim raw))[0]? with
    | none => rw [hp] at h; cases h
    | some p0 =>
      rw [hp] at h
      simp only at h
      by_cases hd : toUpperCase env p0 = "/COPY".toList ∨ toUpperCase env p0 = "/INCLUDE".toList
      · rw [if_pos hd] at h
        cases hc : getContent env uri cb (tokens (trim raw))[1]? with
        | error e => rw [hc] at h; cases h
        | ok res =>
          obtain ⟨lines, cb2⟩ := res
          rw [hc] at h
          cases h
          refine Or.inr ⟨lines, rfl, fun cbF hF => ?_⟩
          unfold includeStep
          simp only [hne, if_false, hp, if_pos hd, hF]
      · rw [if_neg hd] at h
        cases h
        refine Or.inl ⟨rfl, rfl, fun cbF => ?_⟩
        unfold includeStep
        simp only [hne, if_false, hp, if_neg hd]

theorem includeStep_grows {env : Env} {uri : Uri} {contentOf : Str → Option Str}
    (hfetch : FetchByPath env uri contentOf) {files files1 : FilesObj} {cb cb1 : CopyBooks}
    {raw : Str} (h : includeStep env uri (files, cb) raw = .ok (files1, cb1)) :
    CacheGrows contentOf cb cb1 := by
  rcases includeStep_cases h with ⟨_, rfl, _⟩ | ⟨lines, hc, _⟩
  · exact cacheGrows_refl _ _
  · exact getContent_grows hfetch hc

theorem includeStep_replay {env : Env} {uri : Uri} {contentOf : Str → Option Str}
    (hfetch : FetchByPath env uri contentOf) {files files1 : FilesObj} {cb cb1 cbF : CopyBooks}
    {raw : Str} (h : includeStep env uri (files, cb) raw = .ok (files1, cb1))
    (hg : CacheGrows contentOf cb1 cbF) :
    includeStep env uri (files, cbF) raw = .ok (files1, cbF) := by
  rcases includeStep_cases h with ⟨rfl, _, hF⟩ | ⟨lines, hc, hF⟩
  · exact hF cbF
  · exact hF cbF (getContent_replay hfetch hc hg)

theorem discoverIncludes_grows {env : Env} {uri : Uri} {contentOf : Str → Option Str}
    (hfetch : FetchByPath env uri contentOf) :
    ∀ (l : List Str) (files files1 : FilesObj) (cb cb1 : CopyBooks),
      discoverIncludes env uri l (files, cb) = .ok (files1, cb1) →
      CacheGrows contentOf cb cb1 := by
  intro l
  induction l with
  | nil =>
    intro files files1 cb cb1 h
    cases h
    exact cacheGrows_refl _ _
  | cons raw rest ih =>
    intro files files1 cb cb1 h
    unfold discoverIncludes at h
    split at h
    · cases h
    · rename_i acc hstep
      obtain ⟨files2, cb2⟩ := acc
      exact cacheGrows_trans (includeStep_grows hfetch hstep) (ih _ _ _ _ h)

/-- The first loop gives the same `files` again from any cache that grew out of
the one it left behind, and leaves that cache as it is. -/
theorem discoverIncludes_replay {env : Env} {uri : Uri} {contentOf : Str → Option Str}
    (hfetch : FetchByPath env uri contentOf) :
    ∀ (l : List Str) (files files1 : FilesObj) (cb cb1 cbF : CopyBooks),
      discoverIncludes env uri l (files, cb) = .ok (files1, cb1) →
      CacheGrows contentOf cb1 cbF →
      discoverIncludes env uri l (files, cbF) = .ok (files1, cbF) := by
  intro l
  induction l with
  | nil =>
    intro files files1 cb cb1 cbF h _
    cases h
    rfl
  | cons raw rest ih =>
    intro files files1 cb cb1 cbF h hg
    unfold discoverIncludes at h ⊢
    split at h
    · cases h
    · rename_i acc hstep
      obtain ⟨files2, cb2⟩ := acc
      have hrest := discoverIncludes_grows hfetch _ _ _ _ _ h
      rw [includeStep_replay hfetch hstep (cacheGrows_trans hrest hg)]
      exact ih _ _ _ _ _ h hg

/-- The shape of a result of the member branch of `getPathInfo`. -/
theorem getPathInfo_member_shape (env : Env) (uri : Uri) (t : Option Str) (info : PathInfo)
    (hs : uri.scheme ≠ "streamfile".toList) (h : getPathInfo env uri t = .ok info) :
    info.type = .member ∧ ∃ a b c d, info.memberPath = some [a, b, c, d] ∧
      info.finishedPath =
        toUpperCase env
          (if (splitOn '/' uri.path).length = 5 then '/' :: joinWith ['/'] [a, b, c, d]
            else joinWith ['/'] [a, b, c, d]) := by
  have len4 : ∀ l : List (Option Str), l.length = 4 → ∃ a b c d, l = [a, b, c, d] := by
    intro l hl
    match l, hl with
    | [a, b, c, d], _ => exact ⟨a, b, c, d, rfl⟩
  unfold getPathInfo at h
  rw [if_neg hs] at h
  cases t with
  | none => cases h
  | some g =>
    dsimp only at h
    split at h
    · cases h
    · rename_i m hm
      cases h
      refine ⟨rfl, ?_⟩
      dsimp only
      generalize hl : (if m.contains '.' = true then _ else _ : List (Option Str)) = l
      have hlen : l.length = 4 := by
        rw [← hl]
        split_ifs <;> simp [List.length_set]
      obtain ⟨a, b, c, d, rfl⟩ := len4 l hlen
      exact ⟨a, b, c, d, rfl, rfl⟩

theorem toUpperCase_libraryEnv (s : Str) : toUpperCase libraryEnv s = s.map asciiUpperChar := by
  induction s with
  | nil => rfl
  | cons c cs ih =>
    show [asciiUpperChar c] ++ toUpperCase libraryEnv cs = _
    rw [ih]
    rfl

/-- The library environment serves its contents by canonical path. -/
theorem libraryEnv_fetchByPath : FetchByPath libraryEnv memberUri libraryContent := by
  intro t info h
  obtain ⟨ht, a, b, c, d, hmp, hfp⟩ :=
    getPathInfo_member_shape libraryEnv memberUri t info (by decide) h
  have h5 : ¬ (splitOn '/' memberUri.path).length = 5 := by decide
  rw [if_neg h5, toUpperCase_libraryEnv] at hfp
  unfold fetch
  rw [ht, hmp, hfp]
  rfl

/-! ## The tag accumulator -/

theorem splitOn_headD_takeWhile (sep : Char) (s : Str) :
    (splitOn sep s).headD [] = s.takeWhile (fun c => c ≠ sep) := by
  induction s with
  | nil => rfl
  | cons c cs ih =>
    by_cases hc : c = sep
    · subst hc
      rw [splitOn_cons_sep]
      simp [List.takeWhile]
    · rw [splitOn_cons_ne _ _ _ hc]
      have : (c :: cs).takeWhile (fun c => c ≠ sep) = c :: cs.takeWhile (fun c => c ≠ sep) := by
        simp [List.takeWhile, hc]
      rw [this, ← ih]
      rfl

theorem splitOn_tail_dropWhile (sep : Char) (s : Str) :
    joinStr [sep] ((splitOn sep s).drop 1) = (s.dropWhile (fun c => c ≠ sep)).drop 1 := by
  induction s with
  | nil => rfl
  | cons c cs ih =>
    by_cases hc : c = sep
    · subst hc
      rw [splitOn_cons_sep]
      simp only [List.drop_succ_cons, List.drop_zero, joinStr_splitOn]
      simp [List.dropWhile]
    · rw [splitOn_cons_ne _ _ _ hc]
      have : (c :: cs).dropWhile (fun c => c ≠ sep) = cs.dropWhile (fun c => c ≠ sep) := by
        simp [List.dropWhile, hc]
      rw [this, ← ih]
      cases h : splitOn sep cs with
      | nil => exact absurd h (splitOn_ne_nil _ _)
      | cons p ps => rfl

theorem appendToLastTag_eq (content : Str) (ts : List Tag) :
    appendToLastTag content ts =
      match ts.getLast? with
      | none => ts
      | some t => ts.dropLast ++ [{ t with content := t.content ++ ' ' :: content }] := by
  induction ts with
  | nil => rfl
  | cons t rest ih =>
    cases rest with
    | nil => rfl
    | cons u rest =>
      rw [appendToLastTag, ih]
      rw [List.getLast?_cons_cons]
      cases h : (u :: rest).getLast? with
      | none => simp at h
      | some x => simp [List.dropLast]

/-- One comment line inside a documentation block moves the tag array as the
reference says. -/
theorem caseComment_tags (line : Str) (st : ScanState) (hdocs : st.docs = true)
    (hcur : st.currentTags < st.tagHeap.length) :
    (caseComment line st).1.docs = true ∧
    (caseComment line st).1.currentTags = st.currentTags ∧
    (caseComment line st).1.tagHeap.length = st.tagHeap.length ∧
    tagsAt (caseComment line st).1.tagHeap (caseComment line st).1.currentTags =
      refTagStep (tagsAt st.tagHeap st.currentTags) (trim (line.drop 2)) := by
  have hset : ∀ v : List Tag, tagsAt (st.tagHeap.set st.currentTags v) st.currentTags = v := by
    intro v
    simp [tagsAt, List.getD_eq_getElem?_getD, List.getElem?_set_self hcur]
  unfold caseComment refTagStep
  rw [if_pos hdocs]
  dsimp only
  by_cases hc : trim (line.drop 2) = []
  · have : ¬ (trim (line.drop 2)).length > 0 := by rw [hc]; simp
    rw [if_neg this, if_pos hc]
    exact ⟨hdocs, rfl, rfl, rfl⟩
  · have : (trim (line.drop 2)).length > 0 := List.length_pos.mpr hc
    rw [if_pos this, if_neg hc]
    by_cases hat : (trim (line.drop 2)).head? = some '@'
    · rw [if_pos ((startsWith_singleton _ _).mpr hat), if_pos hat]
      refine ⟨hdocs, rfl, by simp, ?_⟩
      dsimp only
      rw [hset, splitOn_headD_takeWhile, splitOn_tail_dropWhile]
    · rw [if_neg (fun e => hat ((startsWith_singleton _ _).mp e)), if_neg hat]
      by_cases hl : (tagsAt st.tagHeap st.currentTags).length > 0
      · rw [if_pos hl]
        refine ⟨hdocs, rfl, by simp, ?_⟩
        dsimp only
        rw [hset, appendToLastTag_eq]
      · rw [if_neg hl]
        have hnil : tagsAt st.tagHeap st.currentTags = [] := by
          cases h : tagsAt st.tagHeap st.currentTags with
          | nil => rfl
          | cons x xs => rw [h] at hl; simp at hl
        rw [hnil]
        cases st.currentTitle <;> exact ⟨hdocs, rfl, rfl, hnil⟩

theorem processLine_comment (env : Env) (file : Str) (n : Nat) (st : ScanState) (raw : Str)
    (h : IsCommentLine env raw) :
    processLine env file n st raw = .ok (caseComment (trim raw) st).1 := by
  have hne : trim raw ≠ [] := by
    intro e
    have := h.1
    rw [e] at this
    simp [startsWith] at this
  rw [processLine_eq _ _ _ _ _ hne, dispatch_default _ _ _ _ _ _ _ h.2, if_pos h.1,
    caseComment_eq]
  rfl

/-! ## Title and description of a documentation block -/

theorem processLine_toggle (env : Env) (file : Str) (n : Nat) (st : ScanState) (raw : Str)
    (h : (partsOf env raw)[0]? = some "///".toList) :
    processLine env file n st raw = .ok (caseDocToggle st).1 := by
  rw [processLine_eq _ _ _ _ _ (trim_ne_nil_of_parts h), dispatch_docToggle _ _ _ _ _ _ _ h,
    caseDocToggle_eq]
  rfl

/-- A free-text comment line read while no tag is open and no title is set is
kept as the title. -/
theorem caseComment_title (line : Str) (st : ScanState) (hdocs : st.docs = true)
    (hnone : tagsAt st.tagHeap st.currentTags = []) (ht : st.currentTitle = none)
    (hc : trim (line.drop 2) ≠ []) (hat : (trim (line.drop 2)).head? ≠ some '@') :
    (caseComment line st).1 = { st with currentTitle := some (trim (line.drop 2)) } := by
  unfold caseComment
  rw [if_pos hdocs]
  dsimp only
  rw [if_pos (List.length_pos.mpr hc), if_neg (fun e => hat ((startsWith_singleton _ _).mp e)),
    hnone, if_neg (by simp), ht]

/-- A free-text comment line read while no tag is open and a title is set is
added to the description. -/
theorem caseComment_description (line : Str) (st : ScanState) (t : Str) (hdocs : st.docs = true)
    (hnone : tagsAt st.tagHeap st.currentTags = []) (ht : st.currentTitle = some t)
    (hc : trim (line.drop 2) ≠ []) (hat : (trim (line.drop 2)).head? ≠ some '@') :
    (caseComment line st).1 =
      { st with currentDescription := st.currentDescription ++ [trim (line.drop 2)] } := by
  unfold caseComment
  rw [if_pos hdocs]
  dsimp only
  rw [if_pos (List.length_pos.mpr hc), if_neg (fun e => hat ((startsWith_singleton _ _).mp e)),
    hnone, if_neg (by simp), ht]

/-- A run of free-text comment lines read while no tag is open and a title is
set: every content is added to the description. -/
theorem processLines_description (env : Env) (file : Str) :
    ∀ (lines : List Str) (n : Nat) (st : ScanState) (t : Str), st.docs = true →
      tagsAt st.tagHeap st.currentTags = [] → st.currentTitle = some t →
      (∀ raw ∈ lines, IsCommentLine env raw) →
      (∀ raw ∈ lines, commentText raw ≠ [] ∧ (commentText raw).head? ≠ some '@') →
      processLines env file n lines st =
        .ok { st with currentDescription := st.currentDescription ++ lines.map commentText } := by
  intro lines
  induction lines with
  | nil =>
    intro n st t _ _ _ _ _
    simp [processLines]
  | cons raw rest ih =>
    intro n st t hd hnone ht hall hfree
    have hf := hfree raw (List.mem_cons_self _ _)
    have hstep := processLine_comment env file n st raw (hall raw (List.mem_cons_self _ _))
    rw [caseComment_description (trim raw) st t hd hnone ht hf.1 hf.2] at hstep
    simp only [processLines, hstep]
    have hrest := ih (n + 1)
      { st with currentDescription := st.currentDescription ++ [trim ((trim raw).drop 2)] } t
      hd hnone ht (fun x hx => hall x (List.mem_cons_of_mem _ hx))
      (fun x hx => hfree x (List.mem_cons_of_mem _ hx))
    rw [hrest]
    simp [commentText]

/-- A run of free-text comment lines read while no tag is open and no title is
set: the first content becomes the title, the others the description. -/
theorem processLines_freeText (env : Env) (file : Str) (raw : Str) (rest : List Str) (n : Nat)
    (st : ScanState) (hd : st.docs = true) (hnone : tagsAt st.tagHeap st.currentTags = [])
    (ht : st.currentTitle = none) (hall : ∀ x ∈ raw :: rest, IsCommentLine env x)
    (hfree : ∀ x ∈ raw :: rest, commentText x ≠ [] ∧ (commentText x).head? ≠ some '@') :
    processLines env file n (raw :: rest) st =
      .ok { st with
        currentTitle := some (commentText raw)
        currentDescription := st.currentDescription ++ rest.map commentText } := by
  have hf := hfree raw (List.mem_cons_self _ _)
  have hstep := processLine_comment env file n st raw (hall raw (List.mem_cons_self _ _))
  rw [caseComment_title (trim raw) st hd hnone ht hf.1 hf.2] at hstep
  simp only [processLines, hstep]
  have hrest := processLines_description env file rest (n + 1)
    { st with currentTitle := some (trim ((trim raw).drop 2)) } (commentText raw) hd hnone rfl
    (fun x hx => hall x (List.mem_cons_of_mem _ hx))
    (fun x hx => hfree x (List.mem_cons_of_mem _ hx))
  rw [hrest]
  rfl

/-- A line that opens a record writes its position and the joined description
lines into the record, which becomes the open declaration or the last entry of
its collection. -/
theorem processLine_opens (env : Env) (file : Str) (m : Nat) (s : ScanState) (raw : Str)
    (h : OpensRecord env s raw) :
    ∃ s2 r, processLine env file m s raw = .ok s2 ∧ r < s2.heap.length ∧
      (s2.currentItem = some r ∨ s2.constants = s.constants ++ [r] ∨
        s2.vars = s.vars ++ [r] ∨ s2.structs = s.structs ++ [r]) ∧
      (deref s2.heap r).position = posAt file m ∧
      (deref s2.heap r).description = joinStr [' '] s.currentDescription := by
  rcases h with ⟨hp, hc⟩ | ⟨hp, hc, ht⟩ | ⟨hp, hc, ht⟩ | ⟨hp, hc, hf⟩ | ⟨hp, found, hf, hv⟩ |
    ⟨hp, hf⟩
  · rw [processLine_eq _ _ _ _ _ (trim_ne_nil_of_parts hp), dispatch_dclC _ _ _ _ _ _ _ hp]
    simp only [caseDclC, hc]
    refine ⟨_, s.heap.length, rfl, ?_, Or.inr (Or.inl rfl), ?_, ?_⟩
    · simp [resetDefinition, allocCurrent]
    · simp [resetDefinition, allocCurrent, deref_append_length]
    · simp [resetDefinition, allocCurrent, deref_append_length]
  · rw [processLine_eq _ _ _ _ _ (trim_ne_nil_of_parts hp), dispatch_dclS _ _ _ _ _ _ _ hp]
    simp only [caseDclS, hc, ht]
    refine ⟨_, s.heap.length, rfl, ?_, Or.inr (Or.inr (Or.inl rfl)), ?_, ?_⟩
    · simp [resetDefinition, allocCurrent]
    · simp [resetDefinition, allocCurrent, deref_append_length]
    · simp [resetDefinition, allocCurrent, deref_append_length]
  · rw [processLine_eq _ _ _ _ _ (trim_ne_nil_of_parts hp), dispatch_dclDs _ _ _ _ _ _ _ hp]
    simp only [caseDclDs, hc, ht]
    by_cases hone : isOneLine env ((partsOf env raw).drop 2) = true
    · simp only [hone]
      refine ⟨_, s.heap.length, rfl, ?_, Or.inr (Or.inr (Or.inr rfl)), ?_, ?_⟩
      · simp [resetDefinition, allocCurrent]
      · simp [resetDefinition, allocCurrent, deref_append_length]
      · simp [resetDefinition, allocCurrent, deref_append_length]
    · simp only [hone]
      refine ⟨_, s.heap.length, rfl, ?_, Or.inl rfl, ?_, ?_⟩
      · simp [allocCurrent]
      · simp [allocCurrent, deref_append_length]
      · simp [allocCurrent, deref_append_length]
  · rw [processLine_eq _ _ _ _ _ (trim_ne_nil_of_parts hp), dispatch_dclPr _ _ _ _ _ _ _ hp]
    simp only [caseDclPr, hc, hf]
    refine ⟨_, s.heap.length, rfl, ?_, Or.inl rfl, ?_, ?_⟩
    · simp [allocCurrent]
    · simp [allocCurrent, deref_append_length]
    · simp [allocCurrent, deref_append_length]
  · rw [processLine_eq _ _ _ _ _ (trim_ne_nil_of_parts hp), dispatch_dclProc _ _ _ _ _ _ _ hp]
    simp only [caseDclProc, hf]
    cases found with
    | none =>
      simp only [Option.getD_none, updateObj_allocCurrent]
      refine ⟨_, s.heap.length, rfl, ?_, Or.inl rfl, ?_, ?_⟩
      · simp [allocCurrent]
      · simp [allocCurrent, deref_append_length]
      · simp [allocCurrent, deref_append_length]
    | some r =>
      have hr := hv r rfl
      simp only [Option.getD_some]
      refine ⟨_, r, rfl, ?_, Or.inl rfl, ?_, ?_⟩
      · simpa [updateObj] using hr
      · simp [updateObj, deref_set_self _ _ _ hr]
      · simp [updateObj, deref_set_self _ _ _ hr]
  · rw [processLine_eq _ _ _ _ _ (trim_ne_nil_of_parts hp), dispatch_begsr _ _ _ _ _ _ _ hp]
    simp only [caseBegsr, hf]
    refine ⟨_, s.heap.length, rfl, ?_, Or.inl rfl, ?_, ?_⟩
    · simp [allocCurrent]
    · simp [allocCurrent, deref_append_length]
    · simp [allocCurrent, deref_append_length]

theorem refTagStep_ne_nil (ts : List Tag) (content : Str)
    (h : ts ≠ [] ∨ content.head? = some '@') : refTagStep ts content ≠ [] := by
  unfold refTagStep
  by_cases hc : content = []
  · rw [if_pos hc]
    rcases h with h | h
    · exact h
    · rw [hc] at h; cases h
  · rw [if_neg hc]
    by_cases hat : content.head? = some '@'
    · rw [if_pos hat]; simp
    · rw [if_neg hat]
      rcases h with h | h
      · cases hl : ts.getLast? with
        | none => exact h
        | some t => simp
      · exact absurd h hat

/-- A comment line read while a tag is open, or one that is a tag line, changes
the tag array only. -/
theorem caseComment_tagOnly (line : Str) (st : ScanState)
    (h : tagsAt st.tagHeap st.currentTags ≠ [] ∨ (trim (line.drop 2)).head? = some '@') :
    (caseComment line st).1 = { st with tagHeap := (caseComment line st).1.tagHeap } := by
  unfold caseComment
  by_cases hdocs : st.docs = true
  · rw [if_pos hdocs]
    dsimp only
    by_cases hc : (trim (line.drop 2)).length > 0
    · rw [if_pos hc]
      by_cases hat : (trim (line.drop 2)).head? = some '@'
      · rw [if_pos ((startsWith_singleton _ _).mpr hat)]
      · rw [if_neg (fun e => hat ((startsWith_singleton _ _).mp e))]
        have hl : (tagsAt st.tagHeap st.currentTags).length > 0 := by
          rcases h with h | h
          · exact List.length_pos.mpr h
          · exact absurd h hat
        rw [if_pos hl]
    · rw [if_neg hc]
  · rw [if_neg hdocs]

/-- A run of comment lines read while a tag is open changes the tag heap
only. -/
theorem processLines_tagOpen (env : Env) (file : Str) :
    ∀ (lines : List Str) (n : Nat) (st : ScanState), st.docs = true →
      st.currentTags < st.tagHeap.length → tagsAt st.tagHeap st.currentTags ≠ [] →
      (∀ raw ∈ lines, IsCommentLine env raw) →
      ∃ th, processLines env file n lines st = .ok { st with tagHeap := th } := by
  intro lines
  induction lines with
  | nil => intro n st _ _ _ _; exact ⟨st.tagHeap, rfl⟩
  | cons raw rest ih =>
    intro n st hd hcur hne hall
    have hstep := processLine_comment env file n st raw (hall raw (List.mem_cons_self _ _))
    obtain ⟨h1, h2, h3, h4⟩ := caseComment_tags (trim raw) st hd hcur
    have honly := caseComment_tagOnly (trim raw) st (Or.inl hne)
    have hne1 : tagsAt (caseComment (trim raw) st).1.tagHeap st.currentTags ≠ [] := by
      rw [← h2, h4]
      exact refTagStep_ne_nil _ _ (Or.inl hne)
    obtain ⟨th, hrun⟩ := ih (n + 1) { st with tagHeap := (caseComment (trim raw) st).1.tagHeap }
      hd (by rw [← h3] at hcur; exact hcur) hne1 (fun x hx => hall x (List.mem_cons_of_mem _ hx))
    refine ⟨th, ?_⟩
    simp only [processLines, hstep]
    rw [honly]
    exact hrun

/-- A run of comment lines that is empty or starts with a tag line changes the
tag heap only. -/
theorem processLines_tagLines (env : Env) (file : Str) (lines : List Str) (n : Nat)
    (st : ScanState) (hd : st.docs = true) (hcur : st.currentTags < st.tagHeap.length)
    (hall : ∀ raw ∈ lines, IsCommentLine env raw)
    (hfirst : ∀ raw, lines.head? = some raw → (commentText raw).head? = some '@') :
    ∃ th, processLines env file n lines st = .ok { st with tagHeap := th } := by
  cases lines with
  | nil => exact ⟨st.tagHeap, rfl⟩
  | cons raw rest =>
    have hat := hfirst raw rfl
    have hstep := processLine_comment env file n st raw (hall raw (List.mem_cons_self _ _))
    obtain ⟨h1, h2, h3, h4⟩ := caseComment_tags (trim raw) st hd hcur
    have honly := caseComment_tagOnly (trim raw) st (Or.inr hat)
    have hne1 : tagsAt (caseComment (trim raw) st).1.tagHeap st.currentTags ≠ [] := by
      rw [← h2, h4]
      exact refTagStep_ne_nil _ _ (Or.inr hat)
    obtain ⟨th, hrun⟩ := processLines_tagOpen env file rest (n + 1)
      { st with tagHeap := (caseComment (trim raw) st).1.tagHeap }
      hd (by rw [← h3] at hcur; exact hcur) hne1 (fun x hx => hall x (List.mem_cons_of_mem _ hx))
    refine ⟨th, ?_⟩
    simp only [processLines, hstep]
    rw [honly]
    exact hrun

theorem processLines_cons_ok (env : Env) (file : Str) (n : Nat) (st st1 : ScanState) (raw : Str)
    (rest : List Str) (h : processLine env file n st raw = .ok st1) :
    processLines env file n (raw :: rest) st = processLines env file (n + 1) rest st1 := by
  simp only [processLines, h]

/-! ## An open procedure, line by line -/

theorem paramSubs_length (env : Env) (ts : List Tag) :
    ∀ (params : List Str) (k : Nat), (paramSubs env ts k params).length = params.length := by
  intro params
  induction params with
  | nil => intro k; rfl
  | cons raw rest ih => intro k; simp [paramSubs, ih]

theorem paramSubs_getElem? (env : Env) (ts : List Tag) :
    ∀ (params : List Str) (k j : Nat),
      (paramSubs env ts k params)[j]? = params[j]?.map (paramSub env ts (k + j)) := by
  intro params
  induction params with
  | nil => intro k j; rfl
  | cons raw rest ih =>
    intro k j
    cases j with
    | zero => simp [paramSubs]
    | succ j =>
      simp only [paramSubs, List.getElem?_cons_succ, ih]
      have : k + 1 + j = k + (j + 1) := by omega
      rw [this]

theorem procCur_parameter (env : Env) (file : Str) (n : Nat) {st : ScanState} {r : Nat}
    {pos : Option Position} {kws : List Str} {subs : List SubItem} {ts : List Tag}
    {procs : List Nat} (h : ProcCur st r pos kws true subs ts procs) (raw : Str)
    (hp : IsParameterLine env raw) :
    ∃ st1, processLine env file n st raw = .ok st1 ∧
      ProcCur st1 r pos kws true (subs ++ [paramSub env ts subs.length raw]) ts procs := by
  obtain ⟨⟨p0, hp0, hnl⟩, hsl⟩ := hp
  have hdef : ∀ k ∈ switchLabels, (partsOf env raw)[0]? ≠ some k := by
    intro k hk e
    rw [hp0] at e
    cases e
    exact hnl hk
  rw [processLine_eq _ _ _ _ _ (trim_ne_nil_of_parts hp0), dispatch_default _ _ _ _ _ _ _ hdef]
  have hsl2 : ¬ startsWith (trim raw) "//".toList = true := by rw [hsl]; simp
  rw [if_neg hsl2]
  have hcur : currentIs st .procedure = some r := by
    rw [currentIs_of_type h.cur h.type]; rfl
  have hres : caseParameter (partsOf env raw) (partsLowerOf raw) st =
      .ok (updateObj st r (fun o =>
        { o with subItems := o.subItems ++ [paramSub env ts subs.length raw] }), false) := by
    simp only [caseParameter, hcur, h.readParms, if_true, hp0, h.subItems, h.tags, paramSub,
      Option.some.injEq, paramDescription]
    by_cases hlen : (ts.filter (fun t => t.tag = "param".toList)).length > subs.length
    · rw [if_pos hlen, List.getElem?_eq_getElem hlen]
      rfl
    · have he : (ts.filter (fun t => t.tag = "param".toList))[subs.length]? = none :=
        List.getElem?_eq_none (by omega)
      rw [if_neg hlen, he]
      rfl
  rw [hres]
  refine ⟨_, rfl, ?_⟩
  constructor
  · exact h.cur
  · simpa [updateObj] using h.lt
  · simp [updateObj, deref_set_self _ _ _ h.lt, h.type]
  · simp [updateObj, deref_set_self _ _ _ h.lt, h.position]
  · simp [updateObj, deref_set_self _ _ _ h.lt, h.keywords]
  · simp [updateObj, deref_set_self _ _ _ h.lt, h.readParms]
  · simp [updateObj, deref_set_self _ _ _ h.lt, h.subItems]
  · exact h.tags
  · exact h.procs

theorem procCur_parameters (env : Env) (file : Str) {r : Nat} {pos : Option Position}
    {kws : List Str} {ts : List Tag} {procs : List Nat} :
    ∀ (params : List Str) (n : Nat) (st : ScanState) (subs : List SubItem),
      ProcCur st r pos kws true subs ts procs → (∀ raw ∈ params, IsParameterLine env raw) →
      ∃ st1, processLines env file n params st = .ok st1 ∧
        ProcCur st1 r pos kws true (subs ++ paramSubs env ts subs.length params) ts procs := by
  intro params
  induction params with
  | nil =>
    intro n st subs h _
    exact ⟨st, rfl, by simpa [paramSubs] using h⟩
  | cons raw rest ih =>
    intro n st subs h hall
    obtain ⟨st1, h1, hc1⟩ := procCur_parameter env file n h raw (hall raw (List.mem_cons_self _ _))
    obtain ⟨st2, h2, hc2⟩ := ih (n + 1) st1 _ hc1 (fun x hx => hall x (List.mem_cons_of_mem _ hx))
    refine ⟨st2, by simp only [processLines, h1, h2], ?_⟩
    simpa [paramSubs, List.append_assoc] using hc2

theorem procCur_interface (env : Env) (file : Str) (n : Nat) {st : ScanState} {r : Nat}
    {pos : Option Position} {kws : List Str} {b : Bool} {subs : List SubItem} {ts : List Tag}
    {procs : List Nat} (h : ProcCur st r pos kws b subs ts procs) (raw : Str)
    (hp : (partsOf env raw)[0]? = some "DCL-PI".toList) :
    ∃ st1, processLine env file n st raw = .ok st1 ∧
      ProcCur st1 r pos ((partsOf env raw).drop 2) true subs ts procs := by
  rw [processLine_eq _ _ _ _ _ (trim_ne_nil_of_parts hp), dispatch_dclPi _ _ _ _ _ _ _ hp]
  simp only [caseDclPi, h.cur]
  refine ⟨_, rfl, ?_⟩
  constructor
  · exact h.cur
  · simpa [updateObj] using h.lt
  · simp [updateObj, deref_set_self _ _ _ h.lt, h.type]
  · simp [updateObj, deref_set_self _ _ _ h.lt, h.position]
  · simp [updateObj, deref_set_self _ _ _ h.lt]
  · simp [updateObj, deref_set_self _ _ _ h.lt]
  · simp [updateObj, deref_set_self _ _ _ h.lt, h.subItems]
  · exact h.tags
  · exact h.procs

theorem procCur_endInterface (env : Env) (file : Str) (n : Nat) {st : ScanState} {r : Nat}
    {pos : Option Position} {kws : List Str} {b : Bool} {subs : List SubItem} {ts : List Tag}
    {procs : List Nat} (h : ProcCur st r pos kws b subs ts procs) (raw : Str)
    (hp : (partsOf env raw)[0]? = some "END-PI".toList) :
    ∃ st1, processLine env file n st raw = .ok st1 ∧
      ProcCur st1 r pos kws false subs ts procs := by
  rw [processLine_eq _ _ _ _ _ (trim_ne_nil_of_parts hp), dispatch_endPi _ _ _ _ _ _ _ hp]
  have hcur : currentIs st .procedure = some r := by
    rw [currentIs_of_type h.cur h.type]; rfl
  simp only [caseEndPi, hcur]
  refine ⟨_, rfl, ?_⟩
  constructor
  · exact h.cur
  · simpa [updateObj] using h.lt
  · simp [updateObj, deref_set_self _ _ _ h.lt, h.type]
  · simp [updateObj, deref_set_self _ _ _ h.lt, h.position]
  · simp [updateObj, deref_set_self _ _ _ h.lt, h.keywords]
  · simp [updateObj, deref_set_self _ _ _ h.lt]
  · simp [updateObj, deref_set_self _ _ _ h.lt, h.subItems]
  · exact h.tags
  · exact h.procs

/-- A body line read while the open procedure is not reading parameters
changes nothing. -/
theorem procCur_bodyLine (env : Env) (file : Str) (n : Nat) {st : ScanState} {r : Nat}
    {pos : Option Position} {kws : List Str} {subs : List SubItem} {ts : List Tag}
    {procs : List Nat} (h : ProcCur st r pos kws false subs ts procs) (raw : Str)
    (hb : IsBodyLine env raw) : processLine env file n st raw = .ok st := by
  by_cases hne : trim raw = []
  · exact processLine_blank _ _ _ _ _ hne
  rw [processLine_eq _ _ _ _ _ hne, dispatch_default _ _ _ _ _ _ _ hb.1]
  have hsl2 : ¬ startsWith (trim raw) "//".toList = true := by rw [hb.2]; simp
  rw [if_neg hsl2]
  have hcur : currentIs st .procedure = some r := by
    rw [currentIs_of_type h.cur h.type]; rfl
  simp [caseParameter, hcur, h.readParms]

theorem procCur_bodyLines (env : Env) (file : Str) {r : Nat} {pos : Option Position}
    {kws : List Str} {subs : List SubItem} {ts : List Tag} {procs : List Nat} :
    ∀ (body : List Str) (n : Nat) (st : ScanState), ProcCur st r pos kws false subs ts procs →
      (∀ raw ∈ body, IsBodyLine env raw) → processLines env file n body st = .ok st := by
  intro body
  induction body with
  | nil => intro n st _ _; rfl
  | cons raw rest ih =>
    intro n st h hall
    simp only [processLines, procCur_bodyLine env file n h raw (hall raw (List.mem_cons_self _ _))]
    exact ih (n + 1) st h (fun x hx => hall x (List.mem_cons_of_mem _ hx))

/-- The closing line pushes the open procedure as it stands. -/
theorem procCur_close (env : Env) (file : Str) (n : Nat) {st : ScanState} {r : Nat}
    {pos : Option Position} {kws : List Str} {b : Bool} {subs : List SubItem} {ts : List Tag}
    {procs : List Nat} (h : ProcCur st r pos kws b subs ts procs) (raw : Str)
    (hp : (partsOf env raw)[0]? = some "END-PR".toList ∨
      (partsOf env raw)[0]? = some "END-PROC".toList) :
    ∃ st1, processLine env file n st raw = .ok st1 ∧ st1.procedures = procs ++ [r] ∧
      st1.currentItem = none ∧ st1.heap = st.heap ∧
      (resolveDecl st1 r).position = pos ∧ (resolveDecl st1 r).keywords = kws ∧
      (resolveDecl st1 r).subItems = subs := by
  have hcur : currentIs st .procedure = some r := by
    rw [currentIs_of_type h.cur h.type]; rfl
  have hres : processLine env file n st raw =
      .ok (resetDefinition { st with procedures := st.procedures ++ [r] }) := by
    rcases hp with hp | hp
    · rw [processLine_eq _ _ _ _ _ (trim_ne_nil_of_parts hp), dispatch_endPr _ _ _ _ _ _ _ hp]
      simp only [caseEndProc, hcur]
      rfl
    · rw [processLine_eq _ _ _ _ _ (trim_ne_nil_of_parts hp), dispatch_endProc _ _ _ _ _ _ _ hp]
      simp only [caseEndProc, hcur]
      rfl
  refine ⟨_, hres, ?_, rfl, rfl, ?_, ?_, ?_⟩
  · simp [resetDefinition, h.procs]
  · simpa [resolveDecl, resetDefinition] using h.position
  · simpa [resolveDecl, resetDefinition] using h.keywords
  · simpa [resolveDecl, resetDefinition] using h.subItems

/-- The line `DCL-PROC` makes the record found under its name, or else a new
one, the open procedure; a record found keeps its subitems. -/
theorem procCur_open (env : Env) (file : Str) (n : Nat) (st : ScanState) (raw : Str)
    (found : Option Nat) (hp : (partsOf env raw)[0]? = some "DCL-PROC".toList)
    (hf : findByName env st.heap st.procedures (partsOf env raw)[1]? = .ok found)
    (hwf : ∀ q ∈ st.procedures, q < st.heap.length ∧ (deref st.heap q).type = .procedure) :
    ∃ st1, processLine env file n st raw = .ok st1 ∧
      ProcCur st1 (found.getD st.heap.length) (posAt file n) ((partsOf env raw).drop 2) false
        (match found with
          | some q => (deref st.heap q).subItems
          | none => [])
        (tagsAt st.tagHeap st.currentTags) st.procedures := by
  rw [processLine_eq _ _ _ _ _ (trim_ne_nil_of_parts hp), dispatch_dclProc _ _ _ _ _ _ _ hp]
  simp only [caseDclProc, hf]
  refine ⟨_, rfl, ?_⟩
  cases found with
  | none =>
    simp only [Option.getD_none, updateObj_allocCurrent]
    constructor
    · rfl
    · simp [allocCurrent]
    · simp [allocCurrent, deref_append_length, newDeclaration]
    · simp [allocCurrent, deref_append_length]
    · simp [allocCurrent, deref_append_length]
    · simp [allocCurrent, deref_append_length]
    · simp [allocCurrent, deref_append_length, newDeclaration]
    · rfl
    · rfl
  | some q =>
    have hq := hwf q (findByName_mem _ _ _ _ _ hf)
    simp only [Option.getD_some]
    constructor
    · rfl
    · simpa [updateObj] using hq.1
    · simp [updateObj, deref_set_self _ _ _ hq.1, hq.2]
    · simp [updateObj, deref_set_self _ _ _ hq.1]
    · simp [updateObj, deref_set_self _ _ _ hq.1]
    · simp [updateObj, deref_set_self _ _ _ hq.1]
    · simp [updateObj, deref_set_self _ _ _ hq.1]
    · rfl
    · rfl

theorem paramSubs_at (env : Env) (ts : List Tag) (subs : List SubItem) (params : List Str)
    (j : Nat) (raw : Str) (h : params[j]? = some raw) :
    (subs ++ paramSubs env ts subs.length params)[subs.length + j]? =
      some (paramSub env ts (subs.length + j) raw) := by
  rw [List.getElem?_append_right (by omega)]
  have : subs.length + j - subs.length = j := by omega
  rw [this, paramSubs_getElem?, h]
  rfl

/-- The lines of a procedure interface and body, read while a procedure is
open: the keywords become those of the `DCL-PI` line, the parameter lines add
their subitems, and the closing line pushes the record. -/
theorem procCur_definition (env : Env) (file : Str) (n : Nat) {st : ScanState} {r : Nat}
    {pos : Option Position} {kws : List Str} {b : Bool} {subs : List SubItem} {ts : List Tag}
    {procs : List Nat} (h : ProcCur st r pos kws b subs ts procs)
    (rawPi rawEndPi rawEnd : Str) (params body : List Str)
    (hpi : (partsOf env rawPi)[0]? = some "DCL-PI".toList)
    (hparams : ∀ raw ∈ params, IsParameterLine env raw)
    (hendpi : (partsOf env rawEndPi)[0]? = some "END-PI".toList)
    (hbody : ∀ raw ∈ body, IsBodyLine env raw)
    (hend : (partsOf env rawEnd)[0]? = some "END-PROC".toList) :
    ∃ st1, processLines env file n (rawPi :: (params ++ rawEndPi :: (body ++ [rawEnd]))) st =
        .ok st1 ∧
      st1.procedures = procs ++ [r] ∧ (resolveDecl st1 r).position = pos ∧
      (resolveDecl st1 r).keywords = (partsOf env rawPi).drop 2 ∧
      (resolveDecl st1 r).subItems = subs ++ paramSubs env ts subs.length params := by
  obtain ⟨s1, e1, c1⟩ := procCur_interface env file n h rawPi hpi
  obtain ⟨s2, e2, c2⟩ := procCur_parameters env file params (n + 1) s1 subs c1 hparams
  obtain ⟨s3, e3, c3⟩ := procCur_endInterface env file (n + 1 + params.length) c2 rawEndPi hendpi
  have e4 := procCur_bodyLines env file body (n + 1 + params.length + 1) s3 c3 hbody
  obtain ⟨s5, e5, hp, _, _, hpos, hk, hs⟩ :=
    procCur_close env file (n + 1 + params.length + 1 + body.length) c3 rawEnd (Or.inr hend)
  refine ⟨s5, ?_, hp, hpos, hk, hs⟩
  simp only [processLines, e1]
  rw [processLines_append, e2]
  simp only [processLines, e3]
  rw [processLines_append, e4]
  simp only [processLines, e5]

/-! ## One iteration of the loop body, summarised -/

theorem step_heap_eq {env : Env} {file : Str} {n : Nat} {parts partsLower : List Str}
    {st st1 : ScanState} (hh : st1.heap = st.heap)
    (hc : st1.currentItem = none ∨ st1.currentItem = st.currentItem)
    (h1 : Pushed st st1 st.constants st1.constants) (h2 : Pushed st st1 st.vars st1.vars)
    (h3 : Pushed st st1 st.structs st1.structs)
    (h4 : Pushed st st1 st.subroutines st1.subroutines) :
    Step env file n parts partsLower st st1 := by
  refine ⟨?_, ?_, ?_, ?_, h1, h2, h3, h4⟩
  · intro r _; rw [hh]
  · intro r _ _; rw [hh]; exact ⟨rfl, rfl⟩
  · intro hl; rw [hh] at hl; omega
  · intro c hcur
    rcases hc with hc | hc
    · rw [hc] at hcur; cases hcur
    · rw [hc] at hcur; exact Or.inl hcur

theorem step_refl (env : Env) (file : Str) (n : Nat) (parts partsLower : List Str)
    (st : ScanState) : Step env file n parts partsLower st st :=
  step_heap_eq rfl (Or.inr rfl) (Or.inl rfl) (Or.inl rfl) (Or.inl rfl) (Or.inl rfl)

theorem step_alloc {env : Env} {file : Str} {n : Nat} {parts partsLower : List Str}
    {st st1 : ScanState} (o : DeclObj) (hh : st1.heap = st.heap ++ [o])
    (hpos : o.position = posAt file n) (hname : o.name = partsLower[1]?)
    (hsub : o.type = .subroutine → findByName env st.heap st.subroutines parts[1]? = .ok none)
    (hc : st1.currentItem = none ∨ st1.currentItem = some st.heap.length)
    (h1 : Pushed st st1 st.constants st1.constants) (h2 : Pushed st st1 st.vars st1.vars)
    (h3 : Pushed st st1 st.structs st1.structs)
    (h4 : Pushed st st1 st.subroutines st1.subroutines) :
    Step env file n parts partsLower st st1 := by
  refine ⟨?_, ?_, ?_, ?_, h1, h2, h3, h4⟩
  · intro r hr; rw [hh, deref_append_lt _ _ _ hr]
  · intro r hr _; rw [hh, deref_append_lt _ _ _ hr]; exact ⟨rfl, rfl⟩
  · intro _; rw [hh, deref_append_length]; exact ⟨hpos, hname, hsub⟩
  · intro c hcur
    rcases hc with hc | hc
    · rw [hc] at hcur; cases hcur
    · rw [hc] at hcur
      cases hcur
      exact Or.inr (Or.inl ⟨rfl, by simp [hh]⟩)

theorem step_update {env : Env} {file : Str} {n : Nat} {parts partsLower : List Str}
    {st st1 : ScanState} (r : Nat) (o : DeclObj) (hh : st1.heap = st.heap.set r o)
    (hr : r < st.heap.length) (ht : o.type = (deref st.heap r).type)
    (hsig : (deref st.heap r).type ≠ .procedure →
      o.name = (deref st.heap r).name ∧ o.position = (deref st.heap r).position)
    (hc : st1.currentItem = st.currentItem ∨
      (st1.currentItem = some r ∧ (deref st.heap r).type = .procedure))
    (h1 : st1.constants = st.constants) (h2 : st1.vars = st.vars)
    (h3 : st1.structs = st.structs) (h4 : st1.subroutines = st.subroutines) :
    Step env file n parts partsLower st st1 := by
  refine ⟨?_, ?_, ?_, ?_, Or.inl h1, Or.inl h2, Or.inl h3, Or.inl h4⟩
  · intro q _
    rw [hh]
    by_cases hq : r = q
    · subst hq; rw [deref_set_self _ _ _ hr, ht]
    · rw [deref_set_ne _ _ _ _ hq]
  · intro q _ hnp
    rw [hh]
    by_cases hq : r = q
    · subst hq; rw [deref_set_self _ _ _ hr]; exact hsig hnp
    · rw [deref_set_ne _ _ _ _ hq]; exact ⟨rfl, rfl⟩
  · intro hl; rw [hh] at hl; simp at hl
  · intro c hcur
    rcases hc with hc | ⟨hc, hp⟩
    · rw [hc] at hcur; exact Or.inl hcur
    · rw [hc] at hcur
      cases hcur
      exact Or.inr (Or.inr (by rw [hh, deref_set_self _ _ _ hr, ht, hp]))

section stepCases
variable {env : Env} {fl : List (Str × List Str)} {st : ScanState} (file : Str) (n : Nat)
  (parts partsLower : List Str)

theorem step_caseDclC : Step env file n parts partsLower st
    (finish (caseDclC file n parts partsLower st)) := by
  unfold caseDclC
  split
  · exact step_refl _ _ _ _ _ _
  · exact step_alloc _ rfl rfl rfl (fun h => by cases h) (Or.inl rfl)
      (Or.inr ⟨st.heap.length, rfl, rfl, Or.inr ⟨rfl, by simp [finish, resetDefinition, allocCurrent]⟩⟩)
      (Or.inl rfl) (Or.inl rfl) (Or.inl rfl)

theorem step_caseDclS : Step env file n parts partsLower st
    (finish (caseDclS file n parts partsLower st)) := by
  unfold caseDclS
  split
  · exact step_refl _ _ _ _ _ _
  · split
    · exact step_refl _ _ _ _ _ _
    · exact step_alloc _ rfl rfl rfl (fun h => by cases h) (Or.inl rfl) (Or.inl rfl)
        (Or.inr ⟨st.heap.length, rfl, rfl,
          Or.inr ⟨rfl, by simp [finish, resetDefinition, allocCurrent]⟩⟩)
        (Or.inl rfl) (Or.inl rfl)

theorem step_caseDclDs : Step env file n parts partsLower st
    (finish (caseDclDs env file n parts partsLower st)) := by
  unfold caseDclDs
  split
  · exact step_refl _ _ _ _ _ _
  · split
    · exact step_refl _ _ _ _ _ _
    · simp only
      split
      · exact step_alloc _ rfl rfl rfl (fun h => by cases h) (Or.inl rfl) (Or.inl rfl)
          (Or.inl rfl)
          (Or.inr ⟨st.heap.length, rfl, rfl,
            Or.inr ⟨rfl, by simp [finish, resetDefinition, allocCurrent]⟩⟩)
          (Or.inl rfl)
      · exact step_alloc _ rfl rfl rfl (fun h => by cases h) (Or.inr rfl) (Or.inl rfl)
          (Or.inl rfl) (Or.inl rfl) (Or.inl rfl)

theorem step_caseEndDs : Step env file n parts partsLower st (finish (caseEndDs st)) := by
  unfold caseEndDs
  split
  · rename_i r hr
    exact step_heap_eq rfl (Or.inl rfl) (Or.inl rfl) (Or.inl rfl)
      (Or.inr ⟨r, rfl, rfl, Or.inl (currentIs_some hr).1⟩) (Or.inl rfl)
  · exact step_refl _ _ _ _ _ _

theorem step_caseEndProc : Step env file n parts partsLower st (finish (caseEndProc st)) := by
  unfold caseEndProc
  split
  · exact step_heap_eq rfl (Or.inl rfl) (Or.inl rfl) (Or.inl rfl) (Or.inl rfl) (Or.inl rfl)
  · exact step_refl _ _ _ _ _ _

theorem step_caseEndsr : Step env file n parts partsLower st (finish (caseEndsr st)) := by
  unfold caseEndsr
  split
  · rename_i r hr
    exact step_heap_eq rfl (Or.inl rfl) (Or.inl rfl) (Or.inl rfl) (Or.inl rfl)
      (Or.inr ⟨r, rfl, rfl, Or.inl (currentIs_some hr).1⟩)
  · exact step_refl _ _ _ _ _ _

theorem step_caseDclPr (x : ScanState × Bool)
    (hr : caseDclPr env file n parts partsLower st = .ok x) :
    Step env file n parts partsLower st (finish x) := by
  unfold caseDclPr at hr
  split at hr
  · cases hr; exact step_refl _ _ _ _ _ _
  · split at hr
    · cases hr
    · cases hr; exact step_refl _ _ _ _ _ _
    · cases hr
      exact step_alloc _ rfl rfl rfl (fun h => by cases h) (Or.inr rfl) (Or.inl rfl)
        (Or.inl rfl) (Or.inl rfl) (Or.inl rfl)

theorem step_caseBegsr (x : ScanState × Bool)
    (hr : caseBegsr env file n parts partsLower st = .ok x) :
    Step env file n parts partsLower st (finish x) := by
  unfold caseBegsr at hr
  split at hr
  · cases hr
  · cases hr; exact step_refl _ _ _ _ _ _
  · rename_i hnone
    cases hr
    exact step_alloc _ rfl rfl rfl (fun _ => hnone) (Or.inr rfl) (Or.inl rfl)
      (Or.inl rfl) (Or.inl rfl) (Or.inl rfl)

theorem step_caseDclProc (h : Inv env fl st) (x : ScanState × Bool)
    (hr : caseDclProc env file n parts partsLower st = .ok x) :
    Step env file n parts partsLower st (finish x) := by
  unfold caseDclProc at hr
  split at hr
  · cases hr
  · rename_i found hfound
    cases hr
    cases found with
    | none =>
      simp only [Option.getD_none, updateObj_allocCurrent]
      exact step_alloc _ rfl rfl rfl (fun h => by cases h) (Or.inr rfl) (Or.inl rfl)
        (Or.inl rfl) (Or.inl rfl) (Or.inl rfl)
    | some r =>
      have hp := h.procs r (findByName_mem _ _ _ _ _ hfound)
      exact step_update r _ rfl hp.1 rfl (fun hnp => absurd hp.2 hnp) (Or.inr ⟨rfl, hp.2⟩)
        rfl rfl rfl rfl

theorem step_caseDclPi (h : Inv env fl st) :
    Step env file n parts partsLower st (finish (caseDclPi parts st)) := by
  unfold caseDclPi
  split
  · exact step_refl _ _ _ _ _ _
  · rename_i r hr
    exact step_update r _ rfl (h.cur r hr) rfl (fun _ => ⟨rfl, rfl⟩) (Or.inl rfl)
      rfl rfl rfl rfl

theorem step_caseEndPi (h : Inv env fl st) :
    Step env file n parts partsLower st (finish (caseEndPi st)) := by
  unfold caseEndPi
  split
  · rename_i r hr
    exact step_update r _ rfl (h.cur r (currentIs_some hr).1) rfl (fun _ => ⟨rfl, rfl⟩)
      (Or.inl rfl) rfl rfl rfl rfl
  · exact step_refl _ _ _ _ _ _

theorem step_caseDocToggle :
    Step env file n parts partsLower st (finish (caseDocToggle st)) := by
  unfold caseDocToggle
  split <;>
  exact step_heap_eq rfl (Or.inr rfl) (Or.inl rfl) (Or.inl rfl) (Or.inl rfl) (Or.inl rfl)

theorem step_caseComment (line : Str) :
    Step env file n parts partsLower st (finish (caseComment line st)) := by
  simp only [caseComment]
  split_ifs
  any_goals split
  all_goals
    exact step_heap_eq rfl (Or.inr rfl) (Or.inl rfl) (Or.inl rfl) (Or.inl rfl) (Or.inl rfl)

theorem step_caseParameter (h : Inv env fl st) (x : ScanState × Bool)
    (hr : caseParameter parts partsLower st = .ok x) :
    Step env file n parts partsLower st (finish x) := by
  unfold caseParameter at hr
  cases hcur : currentIs st .procedure with
  | none =>
    simp only [hcur] at hr
    cases hr; exact step_refl _ _ _ _ _ _
  | some r =>
    have hc := currentIs_some hcur
    simp only [hcur] at hr
    by_cases hrp : (deref st.heap r).readParms = true
    · simp only [hrp, if_true] at hr
      cases hp : parts[0]? with
      | none => simp [hp] at hr
      | some p0 =>
        simp only [hp, Except.ok.injEq] at hr
        rw [← hr]
        exact step_update r _ rfl (h.cur r hc.1) rfl (fun _ => ⟨rfl, rfl⟩) (Or.inl rfl)
          rfl rfl rfl rfl
    · simp only [hrp] at hr
      cases hr; exact step_refl _ _ _ _ _ _

end stepCases

theorem processLine_finish (env : Env) (file : Str) (n : Nat) (st st1 : ScanState) (raw : Str)
    (hne : trim raw ≠ []) (hr : processLine env file n st raw = .ok st1) :
    ∃ x, dispatch env file n (trim raw) (partsOf env raw) (partsLowerOf raw) st = .ok x ∧
      st1 = finish x := by
  rw [processLine_eq _ _ _ _ _ hne] at hr
  split at hr
  · cases hr
  · rename_i st2 reset hd
    simp only [Except.ok.injEq] at hr
    exact ⟨(st2, reset), hd, hr.symm⟩

/-- One iteration of the loop body, summarised. -/
theorem step_processLine {fl : List (Str × List Str)} {st st1 : ScanState} (env : Env)
    (file : Str) (n : Nat) (raw : Str) (h : Inv env fl st)
    (hr : processLine env file n st raw = .ok st1) :
    Step env file n (partsOf env raw) (partsLowerOf raw) st st1 := by
  by_cases hne : trim raw = []
  · rw [processLine_blank _ _ _ _ _ hne] at hr
    cases hr
    exact step_refl _ _ _ _ _ _
  obtain ⟨x, hd, rfl⟩ := processLine_finish env file n st st1 raw hne hr
  by_cases c1 : (partsOf env raw)[0]? = some "DCL-C".toList
  · rw [dispatch_dclC _ _ _ _ _ _ _ c1] at hd; cases hd; exact step_caseDclC _ _ _ _
  by_cases c2 : (partsOf env raw)[0]? = some "DCL-S".toList
  · rw [dispatch_dclS _ _ _ _ _ _ _ c2] at hd; cases hd; exact step_caseDclS _ _ _ _
  by_cases c3 : (partsOf env raw)[0]? = some "DCL-DS".toList
  · rw [dispatch_dclDs _ _ _ _ _ _ _ c3] at hd; cases hd; exact step_caseDclDs _ _ _ _
  by_cases c4 : (partsOf env raw)[0]? = some "END-DS".toList
  · rw [dispatch_endDs _ _ _ _ _ _ _ c4] at hd; cases hd; exact step_caseEndDs _ _ _ _
  by_cases c5 : (partsOf env raw)[0]? = some "DCL-PR".toList
  · rw [dispatch_dclPr _ _ _ _ _ _ _ c5] at hd; exact step_caseDclPr _ _ _ _ _ hd
  by_cases c6 : (partsOf env raw)[0]? = some "END-PR".toList
  · rw [dispatch_endPr _ _ _ _ _ _ _ c6] at hd; cases hd; exact step_caseEndProc _ _ _ _
  by_cases c7 : (partsOf env raw)[0]? = some "DCL-PROC".toList
  · rw [dispatch_dclProc _ _ _ _ _ _ _ c7] at hd; exact step_caseDclProc _ _ _ _ h _ hd
  by_cases c8 : (partsOf env raw)[0]? = some "DCL-PI".toList
  · rw [dispatch_dclPi _ _ _ _ _ _ _ c8] at hd; cases hd; exact step_caseDclPi _ _ _ _ h
  by_cases c9 : (partsOf env raw)[0]? = some "END-PI".toList
  · rw [dispatch_endPi _ _ _ _ _ _ _ c9] at hd; cases hd; exact step_caseEndPi _ _ _ _ h
  by_cases c10 : (partsOf env raw)[0]? = some "END-PROC".toList
  · rw [dispatch_endProc _ _ _ _ _ _ _ c10] at hd; cases hd; exact step_caseEndProc _ _ _ _
  by_cases c11 : (partsOf env raw)[0]? = some "BEGSR".toList
  · rw [dispatch_begsr _ _ _ _ _ _ _ c11] at hd; exact step_caseBegsr _ _ _ _ _ hd
  by_cases c12 : (partsOf env raw)[0]? = some "ENDSR".toList
  · rw [dispatch_endsr _ _ _ _ _ _ _ c12] at hd; cases hd; exact step_caseEndsr _ _ _ _
  by_cases c13 : (partsOf env raw)[0]? = some "///".toList
  · rw [dispatch_docToggle _ _ _ _ _ _ _ c13] at hd; cases hd; exact step_caseDocToggle _ _ _ _
  have hdef : ∀ k ∈ switchLabels, (partsOf env raw)[0]? ≠ some k := by
    intro k hk
    simp only [switchLabels, List.mem_cons, List.mem_singleton, List.not_mem_nil, or_false] at hk
    rcases hk with rfl | rfl | rfl | rfl | rfl | rfl | rfl | rfl | rfl | rfl | rfl | rfl | rfl <;>
      assumption
  rw [dispatch_default _ _ _ _ _ _ _ hdef] at hd
  by_cases c14 : startsWith (trim raw) "//".toList = true
  · rw [if_pos c14] at hd; cases hd; exact step_caseComment _ _ _ _ _
  · rw [if_neg c14] at hd; exact step_caseParameter _ _ _ _ h _ hd

/-! ## Distinct subroutine names -/

theorem findByName_none (env : Env) (heap : List DeclObj) (t : Option Str) :
    ∀ (l : List Nat), findByName env heap l t = .ok none →
      ∀ r ∈ l, ∃ nm, (deref heap r).name = some nm ∧ some (toUpperCase env nm) ≠ t := by
  intro l
  induction l with
  | nil => intro _ r hr; cases hr
  | cons x xs ih =>
    intro h r hr
    unfold findByName at h
    cases hn : (deref heap x).name with
    | none => simp [hn] at h
    | some nm =>
      simp only [hn] at h
      by_cases he : some (toUpperCase env nm) = t
      · simp [he] at h
      · rw [if_neg he] at h
        rcases List.mem_cons.mp hr with rfl | hr
        · exact ⟨nm, hn, he⟩
        · exact ih h r hr

theorem parts_second (env : Env) (hup : UpperCaseOK env) (raw : Str) :
    (partsOf env raw)[1]? = (partsLowerOf raw)[1]?.map (toUpperCase env) := by
  unfold partsOf partsLowerOf
  rw [tokens_toUpperCase env hup, List.getElem?_map]

theorem upperNames_congr (env : Env) (h h1 : List DeclObj) (refs : List Nat)
    (hn : ∀ r ∈ refs, (deref h1 r).name = (deref h r).name) :
    upperNames env h1 refs = upperNames env h refs := by
  unfold upperNames
  apply List.map_congr_left
  intro r hr
  simp only [upperName, hn r hr]

/-- One iteration of the loop body keeps the subroutine names distinct. -/
theorem subsDistinct_step {fl : List (Str × List Str)} {st st1 : ScanState} (env : Env)
    (hup : UpperCaseOK env) (file : Str) (n : Nat) (raw : Str) (h : Inv env fl st)
    (h1 : Inv env fl st1)
    (hs : Step env file n (partsOf env raw) (partsLowerOf raw) st st1)
    (hd : SubsDistinct env st) : SubsDistinct env st1 := by
  have hold : ∀ r ∈ st.subroutines, (deref st1.heap r).name = (deref st.heap r).name := by
    intro r hr
    have hb := h.subs r hr
    exact (hs.oldSig r hb.1 (by rw [hb.2]; decide)).1
  have hnames : upperNames env st1.heap st.subroutines = upperNames env st.heap st.subroutines :=
    upperNames_congr env _ _ _ hold
  have good : ∀ c, (st.currentItem = some c ∨
        (c = st.heap.length ∧ st1.heap.length = st.heap.length + 1)) →
      (deref st1.heap c).type = .subroutine →
      upperName env (deref st1.heap c) ∉ upperNames env st.heap st.subroutines := by
    intro c hc ht
    rcases hc with hc | ⟨rfl, hlen⟩
    · have hlt := h.cur c hc
      have ht0 : (deref st.heap c).type = .subroutine := by rw [← hs.oldType c hlt]; exact ht
      have hn := (hs.oldSig c hlt (by rw [ht0]; decide)).1
      have := hd.cur c hc ht0
      simpa [upperName, hn] using this
    · obtain ⟨_, hname, hfind⟩ := hs.fresh hlen
      have hnone := findByName_none env st.heap _ st.subroutines (hfind ht)
      intro hmem
      simp only [upperNames, List.mem_map] at hmem
      obtain ⟨r, hr, he⟩ := hmem
      obtain ⟨nm, hnm, hne⟩ := hnone r hr
      apply hne
      rw [parts_second env hup, ← hname]
      simpa [upperName, hnm] using he
  rcases hs.subs with he | ⟨c, he, hnone, hc⟩
  · constructor
    · rw [he, hnames]; exact hd.nodup
    · intro c hc ht
      rw [he, hnames]
      rcases hs.cur c hc with h0 | h0 | h0
      · exact good c (Or.inl h0) ht
      · exact good c (Or.inr h0) ht
      · rw [ht] at h0; cases h0
  · constructor
    · have ht : (deref st1.heap c).type = .subroutine :=
        (h1.subs c (by rw [he]; simp)).2
      have hg := good c hc ht
      rw [he]
      simp only [upperNames, List.map_append, List.map_cons, List.map_nil]
      rw [List.nodup_append]
      refine ⟨?_, by simp, ?_⟩
      · have := hd.nodup
        rw [← hnames] at this
        exact this
      · intro a ha hb
        simp only [List.mem_singleton] at hb
        subst hb
        apply hg
        rw [← hnames]
        exact ha
    · intro c1 hc1
      rw [hnone] at hc1
      cases hc1

theorem subsDistinct_processLines {fl : List (Str × List Str)} (env : Env)
    (hup : UpperCaseOK env) {file : Str} {lines : List Str} (hf : (file, lines) ∈ fl) :
    ∀ (rest : List Str) (n : Nat) (st st1 : ScanState),
      (∀ i raw, rest[i]? = some raw → lines[n + i]? = some raw) → Inv env fl st →
      SubsDistinct env st → processLines env file n rest st = .ok st1 →
      SubsDistinct env st1 := by
  intro rest
  induction rest with
  | nil =>
    intro n st st1 _ _ hd hr
    simp only [processLines, Except.ok.injEq] at hr
    rw [← hr]; exact hd
  | cons raw rest ih =>
    intro n st st1 hidx h hd hr
    unfold processLines at hr
    split at hr
    · cases hr
    · rename_i st2 h2
      have hl : lines[n]? = some raw := by simpa using hidx 0 raw (by simp)
      have hinv2 := inv_processLine env h hf hl h2
      refine ih (n + 1) st2 st1 ?_ hinv2
        (subsDistinct_step env hup file n raw h hinv2 (step_processLine env file n raw h h2) hd) hr
      intro i r hi
      have := hidx (i + 1) r (by simpa using hi)
      rw [← this]
      congr 1
      omega

theorem subsDistinct_processFiles {fl : List (Str × List Str)} (env : Env)
    (hup : UpperCaseOK env) :
    ∀ (l : List (Str × List Str)) (st st1 : ScanState), (∀ e ∈ l, e ∈ fl) → Inv env fl st →
      SubsDistinct env st → processFiles env l st = .ok st1 → SubsDistinct env st1 := by
  intro l
  induction l with
  | nil =>
    intro st st1 _ _ hd hr
    simp only [processFiles, Except.ok.injEq] at hr
    rw [← hr]; exact hd
  | cons e l ih =>
    intro st st1 hsub h hd hr
    obtain ⟨file, lines⟩ := e
    unfold processFiles at hr
    split at hr
    · cases hr
    · rename_i st2 h2
      have hf : (file, lines) ∈ fl := hsub _ (List.mem_cons_self _ _)
      have hidx : ∀ i raw, lines[i]? = some raw → lines[0 + i]? = some raw := by
        intro i raw hi; simpa using hi
      exact ih st2 st1 (fun e he => hsub e (List.mem_cons_of_mem _ he))
        (inv_processLines env hf lines 0 st st2 hidx h h2)
        (subsDistinct_processLines env hup hf lines 0 st st2 hidx h hd h2) hr

/-! ## Records in file order -/

theorem keyIndex_append (key : Str) (pre rest : List Str) (h : key ∉ pre) :
    keyIndex key (pre ++ key :: rest) = pre.length := by
  induction pre with
  | nil => simp [keyIndex]
  | cons k ks ih =>
    have hk : k ≠ key := fun e => h (by rw [e]; exact List.mem_cons_self _ _)
    have hr : key ∉ ks := fun hm => h (List.mem_cons_of_mem _ hm)
    simp [keyIndex, hk, ih hr]

theorem ranks_congr (keys : List Str) (h h1 : List DeclObj) (refs : List Nat)
    (hp : ∀ r ∈ refs, (deref h1 r).position = (deref h r).position) :
    ranks keys h1 refs = ranks keys h refs := by
  unfold ranks
  apply List.map_congr_left
  intro r hr
  rw [hp r hr]

/-- One iteration of the loop body keeps a collection in file order. -/
theorem collOrdered_step {env : Env} {file : Str} {n : Nat} {parts partsLower : List Str}
    {st st1 : ScanState} (keys : List Str) (i : Nat) (t : DeclType) (old new : List Nat)
    (hs : Step env file n parts partsLower st st1) (hfile : keyIndex file keys = i)
    (htp : t ≠ .procedure) (hcur : ∀ r, st.currentItem = some r → r < st.heap.length)
    (hold : ∀ r ∈ old, r < st.heap.length ∧ (deref st.heap r).type = t)
    (hnew : ∀ r ∈ new, (deref st1.heap r).type = t) (hp : Pushed st st1 old new)
    (ho : CollOrdered keys i st t old) : CollOrdered keys i st1 t new := by
  obtain ⟨hpw, hle, hc⟩ := ho
  have hranks : ranks keys st1.heap old = ranks keys st.heap old := by
    apply ranks_congr
    intro r hr
    have hb := hold r hr
    exact (hs.oldSig r hb.1 (by rw [hb.2]; exact htp)).2
  have good : ∀ c, (st.currentItem = some c ∨
        (c = st.heap.length ∧ st1.heap.length = st.heap.length + 1)) →
      (deref st1.heap c).type = t →
      fileRank keys (deref st1.heap c).position ≤ i ∧
        ∀ x ∈ ranks keys st.heap old, x ≤ fileRank keys (deref st1.heap c).position := by
    intro c hcc ht
    rcases hcc with hcc | ⟨rfl, hlen⟩
    · have hlt := hcur c hcc
      have ht0 : (deref st.heap c).type = t := by rw [← hs.oldType c hlt]; exact ht
      rw [(hs.oldSig c hlt (by rw [ht0]; exact htp)).2]
      exact hc c hcc ht0
    · obtain ⟨hpos, _, _⟩ := hs.fresh hlen
      have hr : fileRank keys (deref st1.heap st.heap.length).position = i := by
        rw [hpos]
        simpa [fileRank, posAt] using hfile
      rw [hr]
      exact ⟨Nat.le_refl _, hle⟩
  rcases hp with he | ⟨c, he, hnone, hcc⟩
  · subst he
    rw [CollOrdered, hranks]
    refine ⟨hpw, hle, ?_⟩
    intro c hc1 ht
    rcases hs.cur c hc1 with h0 | h0 | h0
    · exact good c (Or.inl h0) ht
    · exact good c (Or.inr h0) ht
    · rw [ht] at h0; exact absurd h0 htp
  · subst he
    have hg := good c hcc (hnew c (by simp))
    have hr : ranks keys st1.heap (old ++ [c]) =
        ranks keys st.heap old ++ [fileRank keys (deref st1.heap c).position] := by
      rw [← hranks]
      simp [ranks]
    rw [CollOrdered, hr]
    refine ⟨?_, ?_, ?_⟩
    · rw [List.pairwise_append]
      refine ⟨hpw, by simp, ?_⟩
      intro a ha b hb
      simp only [List.mem_singleton] at hb
      subst hb
      exact hg.2 a ha
    · intro x hx
      rcases List.mem_append.mp hx with hx | hx
      · exact hle x hx
      · simp only [List.mem_singleton] at hx
        subst hx
        exact hg.1
    · intro c1 hc1
      rw [hnone] at hc1
      cases hc1

theorem ord_step {fl : List (Str × List Str)} {st st1 : ScanState} (env : Env) (file : Str)
    (n : Nat) (raw : Str) (keys : List Str) (i : Nat) (h : Inv env fl st) (h1 : Inv env fl st1)
    (hs : Step env file n (partsOf env raw) (partsLowerOf raw) st st1)
    (hfile : keyIndex file keys = i) (ho : Ord keys i st) : Ord keys i st1 :=
  ⟨collOrdered_step keys i _ _ _ hs hfile (by decide) h.cur h.consts
      (fun r hr => (h1.consts r hr).2) hs.consts ho.consts,
    collOrdered_step keys i _ _ _ hs hfile (by decide) h.cur h.vars
      (fun r hr => (h1.vars r hr).2) hs.vars ho.vars,
    collOrdered_step keys i _ _ _ hs hfile (by decide) h.cur h.structs
      (fun r hr => (h1.structs r hr).2) hs.structs ho.structs,
    collOrdered_step keys i _ _ _ hs hfile (by decide) h.cur h.subs
      (fun r hr => (h1.subs r hr).2) hs.subs ho.subs⟩

theorem collOrdered_mono {keys : List Str} {i j : Nat} {st : ScanState} {t : DeclType}
    {refs : List Nat} (hij : i ≤ j) (h : CollOrdered keys i st t refs) :
    CollOrdered keys j st t refs :=
  ⟨h.1, fun x hx => Nat.le_trans (h.2.1 x hx) hij,
    fun c hc ht => ⟨Nat.le_trans (h.2.2 c hc ht).1 hij, (h.2.2 c hc ht).2⟩⟩

theorem ord_mono {keys : List Str} {i j : Nat} {st : ScanState} (hij : i ≤ j)
    (h : Ord keys i st) : Ord keys j st :=
  ⟨collOrdered_mono hij h.consts, collOrdered_mono hij h.vars, collOrdered_mono hij h.structs,
    collOrdered_mono hij h.subs⟩

theorem ord_initState (keys : List Str) : Ord keys 0 initState := by
  constructor <;> simp [CollOrdered, ranks, initState]

theorem ord_processLines {fl : List (Str × List Str)} (env : Env) {file : Str}
    {lines : List Str} (hf : (file, lines) ∈ fl) (keys : List Str) (i : Nat)
    (hfile : keyIndex file keys = i) :
    ∀ (rest : List Str) (n : Nat) (st st1 : ScanState),
      (∀ j raw, rest[j]? = some raw → lines[n + j]? = some raw) → Inv env fl st →
      Ord keys i st → processLines env file n rest st = .ok st1 → Ord keys i st1 := by
  intro rest
  induction rest with
  | nil =>
    intro n st st1 _ _ ho hr
    simp only [processLines, Except.ok.injEq] at hr
    rw [← hr]; exact ho
  | cons raw rest ih =>
    intro n st st1 hidx h ho hr
    unfold processLines at hr
    split at hr
    · cases hr
    · rename_i st2 h2
      have hl : lines[n]? = some raw := by simpa using hidx 0 raw (by simp)
      have hinv2 := inv_processLine env h hf hl h2
      refine ih (n + 1) st2 st1 ?_ hinv2
        (ord_step env file n raw keys i h hinv2 (step_processLine env file n raw h h2) hfile ho)
        hr
      intro j r hj
      have := hidx (j + 1) r (by simpa using hj)
      rw [← this]
      congr 1
      omega

theorem ord_processFiles (env : Env) (fl : List (Str × List Str))
    (hnd : (fl.map Prod.fst).Nodup) :
    ∀ (l pre : List (Str × List Str)) (st st1 : ScanState), fl = pre ++ l →
      Inv env fl st → Ord (fl.map Prod.fst) pre.length st → processFiles env l st = .ok st1 →
      ∃ j, Ord (fl.map Prod.fst) j st1 := by
  intro l
  induction l with
  | nil =>
    intro pre st st1 _ _ ho hr
    simp only [processFiles, Except.ok.injEq] at hr
    rw [← hr]; exact ⟨_, ho⟩
  | cons e l ih =>
    intro pre st st1 hfl h ho hr
    obtain ⟨file, lines⟩ := e
    unfold processFiles at hr
    split at hr
    · cases hr
    · rename_i st2 h2
      have hf : (file, lines) ∈ fl := by rw [hfl]; simp
      have hidx : ∀ j raw, lines[j]? = some raw → lines[0 + j]? = some raw := by
        intro j raw hj; simpa using hj
      have hfile : keyIndex file (fl.map Prod.fst) = pre.length := by
        have hnd2 := hnd
        rw [hfl, List.map_append, List.map_cons] at hnd2 ⊢
        have hnot : file ∉ pre.map Prod.fst := by
          intro hm
          exact (List.nodup_append.mp hnd2).2.2 hm (List.mem_cons_self _ _)
        have hi := keyIndex_append file (pre.map Prod.fst) (l.map Prod.fst) hnot
        rw [List.length_map] at hi
        exact hi
      have ho2 := ord_processLines env hf _ _ hfile lines 0 st st2 hidx h ho h2
      have hinv2 := inv_processLines env hf lines 0 st st2 hidx h h2
      refine ih (pre ++ [(file, lines)]) st2 st1 (by rw [hfl]; simp) hinv2 ?_ hr
      rw [List.length_append, List.length_singleton]
      exact ord_mono (Nat.le_succ _) ho2

/-! ## The order of the scanned files -/

theorem includeStep_files {env : Env} {uri : Uri} {acc acc1 : FilesObj × CopyBooks} {raw : Str}
    (h : includeStep env uri acc raw = .ok acc1) :
    (isDirective env raw = false ∧ acc1.1 = acc.1) ∨
    (isDirective env raw = true ∧
      ∃ lines, acc1.1 = setProp acc.1 ((tokens (trim raw))[1]?.getD "undefined".toList) lines) := by
  unfold includeStep at h
  by_cases hne : trim raw = []
  · simp only [hne, if_true] at h
    cases h
    exact Or.inl ⟨by simp [isDirective, hne, tokens, splitOn], rfl⟩
  · simp only [hne, if_false] at h
    cases hp : (tokens (trim raw))[0]? with
    | none => rw [hp] at h; cases h
    | some p0 =>
      rw [hp] at h
      simp only at h
      by_cases hd : toUpperCase env p0 = "/COPY".toList ∨ toUpperCase env p0 = "/INCLUDE".toList
      · rw [if_pos hd] at h
        cases hc : getContent env uri acc.2 (tokens (trim raw))[1]? with
        | error e => rw [hc] at h; cases h
        | ok res =>
          obtain ⟨lines, cb2⟩ := res
          rw [hc] at h
          cases h
          refine Or.inr ⟨?_, lines, rfl⟩
          simp only [isDirective, hp]
          exact decide_eq_true hd
      · rw [if_neg hd] at h
        cases h
        refine Or.inl ⟨?_, rfl⟩
        simp only [isDirective, hp]
        exact decide_eq_false hd

theorem setProp_fresh (files : FilesObj) (key : Str) (lines : List Str)
    (hk : key ≠ "__proto__".toList) (hnew : key ∉ files.own.map Prod.fst) :
    (setProp files key lines).own.map Prod.fst = files.own.map Prod.fst ++ [key] ∧
      (setProp files key lines).proto = files.proto := by
  unfold setProp
  rw [if_neg hk]
  simp only [setKey_keys, if_neg hnew, and_self]

theorem discoverIncludes_keys (env : Env) (uri : Uri) :
    ∀ (l : List Str) (acc acc1 : FilesObj × CopyBooks),
      discoverIncludes env uri l acc = .ok acc1 →
      (acc.1.own.map Prod.fst ++ includeTargets env l).Nodup →
      (∀ k ∈ includeTargets env l, k ≠ "__proto__".toList) →
      acc1.1.own.map Prod.fst = acc.1.own.map Prod.fst ++ includeTargets env l ∧
        acc1.1.proto = acc.1.proto := by
  intro l
  induction l with
  | nil =>
    intro acc acc1 h _ _
    simp only [discoverIncludes, Except.ok.injEq] at h
    rw [← h]
    simp [includeTargets]
  | cons raw rest ih =>
    intro acc acc1 h hnd hk
    unfold discoverIncludes at h
    split at h
    · cases h
    · rename_i acc2 h2
      rcases includeStep_files h2 with ⟨hdir, he⟩ | ⟨hdir, lines, he⟩
      · have ht : includeTargets env (raw :: rest) = includeTargets env rest := by
          simp [includeTargets, hdir]
        rw [ht] at hnd hk ⊢
        rw [← he]
        exact ih acc2 acc1 h (by rw [he]; exact hnd) hk
      · have ht : includeTargets env (raw :: rest) =
            (tokens (trim raw))[1]?.getD "undefined".toList :: includeTargets env rest := by
          simp [includeTargets, hdir]
        rw [ht] at hnd hk ⊢
        have hnew : (tokens (trim raw))[1]?.getD "undefined".toList ∉ acc.1.own.map Prod.fst := by
          intro hm
          exact (List.nodup_append.mp hnd).2.2 hm (List.mem_cons_self _ _)
        obtain ⟨hkeys, hproto⟩ := setProp_fresh acc.1 _ lines (hk _ (List.mem_cons_self _ _)) hnew
        rw [← he] at hkeys hproto
        obtain ⟨r1, r2⟩ := ih acc2 acc1 h
          (by rw [hkeys]; simpa [List.append_assoc] using hnd)
          (fun k hkm => hk k (List.mem_cons_of_mem _ hkm))
        rw [r1, r2, hkeys, hproto]
        simp

theorem indexProps_of_plain (own : List (Str × List Str))
    (h : ∀ k ∈ own.map Prod.fst, arrayIndex? k = none) : indexProps own = [] := by
  unfold indexProps
  have : own.filterMap (fun kv => (arrayIndex? kv.1).map (fun i => (i, kv))) = [] := by
    rw [List.filterMap_eq_nil_iff]
    intro kv hkv
    rw [h kv.1 (List.mem_map.mpr ⟨kv, hkv, rfl⟩)]
    rfl
  rw [this]
  rfl

/-- With keys that are no array indices and no prototype installed, the files
are visited in insertion order. -/
theorem forIn_of_plain (files : FilesObj) (hp : files.proto = none)
    (h : ∀ k ∈ files.own.map Prod.fst, arrayIndex? k = none) : forIn files = files.own := by
  unfold forIn
  rw [indexProps_of_plain _ h]
  have hf : files.own.filter (fun kv => (arrayIndex? kv.1).isNone) = files.own := by
    rw [List.filter_eq_self]
    intro kv hkv
    rw [h kv.1 (List.mem_map.mpr ⟨kv, hkv, rfl⟩)]
    rfl
  rw [hf]
  simp [inheritedProps, hp]

theorem discoverFiles_keys (env : Env) (uri : Uri) (cb cb1 : CopyBooks) (content : Str)
    (files : FilesObj)
    (hfiles : discoverFiles env uri cb content true = .ok (files, cb1))
    (hnodup : (uri.path :: (includeTargets env (toLines content)).reverse).Nodup)
    (hplain : ∀ k ∈ uri.path :: (includeTargets env (toLines content)).reverse,
      arrayIndex? k = none ∧ k ≠ "__proto__".toList) :
    (forIn files).map Prod.fst = uri.path :: (includeTargets env (toLines content)).reverse := by
  unfold discoverFiles at hfiles
  simp only [if_true] at hfiles
  have hpath : uri.path ≠ "__proto__".toList := (hplain _ (List.mem_cons_self _ _)).2
  have h0 : setProp emptyFiles uri.path (toLines content) =
      { own := [(uri.path, toLines content)], proto := none } := by
    unfold setProp
    rw [if_neg hpath]
    rfl
  rw [h0] at hfiles
  have ht : includeTargets env (toLines content).reverse =
      (includeTargets env (toLines content)).reverse := by
    simp [includeTargets, List.filterMap_reverse]
  obtain ⟨hk, hp⟩ := discoverIncludes_keys env uri _ _ _ hfiles
    (by rw [ht]; simpa using hnodup)
    (by
      rw [ht]
      intro k hkm
      exact (hplain k (List.mem_cons_of_mem _ hkm)).2)
  rw [ht] at hk
  simp only [List.map_cons, List.map_nil, List.singleton_append] at hk
  rw [forIn_of_plain files hp (by
    rw [hk]
    intro k hkm
    exact (hplain k hkm).1), hk]

/-! ## The claims -/

set_option maxRecDepth 100000

/-- C1: a prototype followed by a body definition of the same procedure leaves
two entries for it in `procedures` (the one object, pushed a second time by
`END-PROC`), both showing the keywords of the body definition. -/
theorem getDocs_prototype_then_body_pushes_twice :
    modelOf "DCL-PR calc EXTPROC;\nEND-PR;\nDCL-PROC CALC EXPORT;\nEND-PROC;" =
      .ok (some
        { procedures :=
            [{ type := .procedure, name := some "CALC".toList, keywords := ["EXPORT".toList]
               description := [], tags := []
               position := some { path := memberUri.path, line := 2 }
               subItems := [], readParms := false },
             { type := .procedure, name := some "CALC".toList, keywords := ["EXPORT".toList]
               description := [], tags := []
               position := some { path := memberUri.path, line := 2 }
               subItems := [], readParms := false }]
          structs := [], subroutines := [], vars := [], constants := [] }) := by
  rfl

/-- C2: `getDocs` raises a `TypeError` on a directive without target, on a
member target with two commas, on a name lookup after a nameless prototype or
subroutine, and on a line holding only a semicolon while parameters are read. -/
theorem getDocs_raises_on_malformed_input :
    modelOf "/COPY" = .error .typeError ∧
    modelOf "/INCLUDE a,b,c" = .error .typeError ∧
    modelOf "DCL-PR;\nEND-PR;\nDCL-PROC calc;\nEND-PROC;" = .error .typeError ∧
    modelOf "BEGSR;\nENDSR;\nBEGSR init;\nENDSR;" = .error .typeError ∧
    modelOf "DCL-PR calc;\n;\nEND-PR;" = .error .typeError := by
  refine ⟨?_, ?_, ?_, ?_, ?_⟩ <;> rfl

/-- C3 (as stated, refuted): with the tag lines `// @param a first` and
`// @param b second` the two subitems are described by `a first` and
`b second`, not by `first` and `second`. -/
theorem param_description_keeps_first_word :
    modelOf prototypeText =
      .ok (some
        { procedures :=
            [{ type := .procedure, name := some "calc".toList, keywords := []
               description := []
               tags := [{ tag := "param".toList, content := "a first".toList },
                        { tag := "param".toList, content := "b second".toList }]
               position := some { path := memberUri.path, line := 4 }
               subItems :=
                 [{ name := some "a".toList, keywords := ["CHAR(10)".toList]
                    description := "a first".toList },
                  { name := some "b".toList, keywords := ["CHAR(10)".toList]
                    description := "b second".toList }]
               readParms := true }]
          structs := [], subroutines := [], vars := [], constants := [] }) ∧
    (modelOf prototypeText).map (Option.map (fun c =>
        c.procedures.map (fun d => d.subItems.map (fun s => s.description)))) ≠
      .ok (some [["first".toList, "second".toList]]) := by
  constructor
  · rfl
  · intro h
    have h2 : (modelOf prototypeText).map (Option.map (fun c =>
        c.procedures.map (fun d => d.subItems.map (fun s => s.description)))) =
        .ok (some [["a first".toList, "b second".toList]]) := by rfl
    rw [h2] at h
    exact absurd (Option.some.inj (Except.ok.inj h)) (by decide)

/-- C3 (amended): after a documentation block whose tag lines are
`// @param` followed by the texts `contents`, a prototype (first part) or a
body definition with a procedure interface (second part) with the parameter
lines `params`, for a procedure not yet in `procedures`, gives a record whose
i-th subitem is described by the whole text of the i-th tag, whatever the
parameter is called, and by the empty string when there is no i-th tag. -/
theorem params_described_by_position :
    (∀ (env : Env) (file : Str) (n : Nat) (st : ScanState) (contents params : List Str)
      (rawPr rawEnd : Str),
      UpperCaseOK env →
      st.docs = false → st.currentItem = none → (∀ c ∈ contents, EndsClean c) →
      (partsOf env rawPr)[0]? = some "DCL-PR".toList →
      findByName env st.heap st.procedures (partsOf env rawPr)[1]? = .ok none →
      (∀ raw ∈ params, IsParameterLine env raw) →
      (partsOf env rawEnd)[0]? = some "END-PR".toList →
      ∃ st1,
        processLines env file n (docBlock contents ++ rawPr :: (params ++ [rawEnd])) st =
          .ok st1 ∧
        st1.procedures = st.procedures ++ [st.heap.length] ∧
        (resolveDecl st1 st.heap.length).tags = contents.map paramTag ∧
        (resolveDecl st1 st.heap.length).subItems.map (fun s => s.description) =
          (List.range params.length).map (fun i => contents[i]?.getD [])) ∧
    (∀ (env : Env) (file : Str) (n : Nat) (st : ScanState) (contents params : List Str)
      (rawProc rawPi rawEndPi rawEndProc : Str),
      UpperCaseOK env →
      st.docs = false → (∀ c ∈ contents, EndsClean c) →
      (partsOf env rawProc)[0]? = some "DCL-PROC".toList →
      findByName env st.heap st.procedures (partsOf env rawProc)[1]? = .ok none →
      (partsOf env rawPi)[0]? = some "DCL-PI".toList →
      (∀ raw ∈ params, IsParameterLine env raw) →
      (partsOf env rawEndPi)[0]? = some "END-PI".toList →
      (partsOf env rawEndProc)[0]? = some "END-PROC".toList →
      ∃ st1,
        processLines env file n
          (docBlock contents ++ rawProc :: rawPi :: (params ++ [rawEndPi, rawEndProc])) st =
          .ok st1 ∧
        st1.procedures = st.procedures ++ [st.heap.length] ∧
        (resolveDecl st1 st.heap.length).tags = contents.map paramTag ∧
        (resolveDecl st1 st.heap.length).subItems.map (fun s => s.description) =
          (List.range params.length).map (fun i => contents[i]?.getD [])) := by
  constructor
  · intro env file n st contents params rawPr rawEnd hup hdocs hopen hclean hpr hnew hparams hend
    obtain ⟨more, hmore, hrun⟩ := processLines_parameters env file file
      (n + (docBlock contents).length) st (contents.map paramTag) rawPr
      ((partsOf env rawPr).drop 2) params (n + (docBlock contents).length + 1) [] [rawEnd] hparams
    refine ⟨resetDefinition { openProcState st (contents.map paramTag)
      (openedProc st file (n + (docBlock contents).length) rawPr ((partsOf env rawPr).drop 2)
        true ([] ++ more)) with
      procedures := st.procedures ++ [st.heap.length] }, ?_, rfl, ?_⟩
    · rw [processLines_append, processLines_docBlock env hup file n st contents hdocs hclean]
      simp only [processLines, processLine_prototype env file _ st _ rawPr hopen hpr hnew]
      rw [hrun]
      simp only [processLines,
        processLine_endProcedure env file file _ _ st _ rawPr rawEnd _ _ _ (Or.inl hend)]
    · have := resolveDecl_pushed st (contents.map paramTag) file
        (n + (docBlock contents).length) rawPr ((partsOf env rawPr).drop 2) true ([] ++ more)
      refine ⟨this.1, ?_⟩
      rw [this.2]
      simp only [List.nil_append, hmore, paramDescription_paramTags, List.length_nil,
        Nat.zero_add]
  · intro env file n st contents params rawProc rawPi rawEndPi rawEndProc hup hdocs hclean
      hproc hnew hpi hparams hendPi hendProc
    obtain ⟨more, hmore, hrun⟩ := processLines_parameters env file file
      (n + (docBlock contents).length) st (contents.map paramTag) rawProc
      ((partsOf env rawPi).drop 2) params (n + (docBlock contents).length + 1 + 1) []
      [rawEndPi, rawEndProc] hparams
    refine ⟨resetDefinition { openProcState st (contents.map paramTag)
      (openedProc st file (n + (docBlock contents).length) rawProc ((partsOf env rawPi).drop 2)
        false ([] ++ more)) with
      procedures := st.procedures ++ [st.heap.length] }, ?_, rfl, ?_⟩
    · rw [processLines_append, processLines_docBlock env hup file n st contents hdocs hclean]
      simp only [processLines, processLine_procedure env file _ st _ rawProc hproc hnew,
        processLine_interface env file file _ _ st _ rawProc rawPi _ _ _ hpi]
      rw [hrun]
      simp only [processLines,
        processLine_endInterface env file file _ _ st _ rawProc rawEndPi _ _ _ hendPi,
        processLine_endProcedure env file file _ _ st _ rawProc rawEndProc _ _ _
          (Or.inr hendProc)]
    · have := resolveDecl_pushed st (contents.map paramTag) file
        (n + (docBlock contents).length) rawProc ((partsOf env rawPi).drop 2) false ([] ++ more)
      refine ⟨this.1, ?_⟩
      rw [this.2]
      simp only [List.nil_append, hmore, paramDescription_paramTags, List.length_nil,
        Nat.zero_add]

/-- A prototype and a body definition, each after a block of two tags, that
meet the hypotheses above. -/
theorem params_described_by_position_witness :
    (UpperCaseOK sampleEnv ∧ initState.docs = false ∧ initState.currentItem = none ∧
      (∀ c ∈ ["a first".toList, "b second".toList], EndsClean c) ∧
      (partsOf sampleEnv "DCL-PR calc;".toList)[0]? = some "DCL-PR".toList ∧
      findByName sampleEnv initState.heap initState.procedures (partsOf sampleEnv "DCL-PR calc;".toList)[1]? =
        .ok none ∧
      (∀ raw ∈ ["  a CHAR(10);".toList, "  b CHAR(10);".toList], IsParameterLine sampleEnv raw) ∧
      (partsOf sampleEnv "END-PR;".toList)[0]? = some "END-PR".toList ∧
      (partsOf sampleEnv "DCL-PROC calc EXPORT;".toList)[0]? = some "DCL-PROC".toList ∧
      findByName sampleEnv initState.heap initState.procedures
        (partsOf sampleEnv "DCL-PROC calc EXPORT;".toList)[1]? = .ok none ∧
      (partsOf sampleEnv "DCL-PI *N INT(10);".toList)[0]? = some "DCL-PI".toList ∧
      (partsOf sampleEnv "END-PI;".toList)[0]? = some "END-PI".toList ∧
      (partsOf sampleEnv "END-PROC;".toList)[0]? = some "END-PROC".toList) ∧
    (∃ st1,
      processLines sampleEnv memberUri.path 0
        (docBlock ["a first".toList, "b second".toList] ++ "DCL-PR calc;".toList ::
          (["  a CHAR(10);".toList, "  b CHAR(10);".toList] ++ ["END-PR;".toList]))
        initState = .ok st1 ∧
      st1.procedures = initState.procedures ++ [initState.heap.length] ∧
      (resolveDecl st1 initState.heap.length).tags =
        ["a first".toList, "b second".toList].map paramTag ∧
      (resolveDecl st1 initState.heap.length).subItems.map (fun s => s.description) =
        (List.range ["  a CHAR(10);".toList, "  b CHAR(10);".toList].length).map
          (fun i => ["a first".toList, "b second".toList][i]?.getD [])) ∧
    (∃ st1,
      processLines sampleEnv memberUri.path 0
        (docBlock ["a first".toList, "b second".toList] ++ "DCL-PROC calc EXPORT;".toList ::
          "DCL-PI *N INT(10);".toList ::
          (["  a CHAR(10);".toList, "  b CHAR(10);".toList] ++
            ["END-PI;".toList, "END-PROC;".toList]))
        initState = .ok st1 ∧
      st1.procedures = initState.procedures ++ [initState.heap.length] ∧
      (resolveDecl st1 initState.heap.length).tags =
        ["a first".toList, "b second".toList].map paramTag ∧
      (resolveDecl st1 initState.heap.length).subItems.map (fun s => s.description) =
        (List.range ["  a CHAR(10);".toList, "  b CHAR(10);".toList].length).map
          (fun i => ["a first".toList, "b second".toList][i]?.getD [])) :=
  have hclean : ∀ c ∈ ["a first".toList, "b second".toList], EndsClean c := by
    intro c hc
    simp only [List.mem_cons, List.mem_singleton, List.not_mem_nil, or_false] at hc
    rcases hc with rfl | rfl
    · exact ⟨'t', by rfl, by decide⟩
    · exact ⟨'d', by rfl, by decide⟩
  have hparams : ∀ raw ∈ ["  a CHAR(10);".toList, "  b CHAR(10);".toList],
      IsParameterLine sampleEnv raw := by
    intro raw hr
    simp only [List.mem_cons, List.mem_singleton, List.not_mem_nil, or_false] at hr
    rcases hr with rfl | rfl
    · exact ⟨⟨"A".toList, by rfl, by decide⟩, by rfl⟩
    · exact ⟨⟨"B".toList, by rfl, by decide⟩, by rfl⟩
  ⟨⟨sampleEnv_upperCaseOK, rfl, rfl, hclean, by rfl, by rfl, hparams, by rfl, by rfl, by rfl,
      by rfl, by rfl, by rfl⟩,
    params_described_by_position.1 sampleEnv memberUri.path 0 initState
      ["a first".toList, "b second".toList] ["  a CHAR(10);".toList, "  b CHAR(10);".toList]
      "DCL-PR calc;".toList "END-PR;".toList sampleEnv_upperCaseOK rfl rfl hclean (by rfl) (by rfl) hparams (by rfl),
    params_described_by_position.2 sampleEnv memberUri.path 0 initState
      ["a first".toList, "b second".toList] ["  a CHAR(10);".toList, "  b CHAR(10);".toList]
      "DCL-PROC calc EXPORT;".toList "DCL-PI *N INT(10);".toList "END-PI;".toList
      "END-PROC;".toList sampleEnv_upperCaseOK rfl hclean (by rfl) (by rfl) (by rfl) hparams (by rfl) (by rfl)⟩

/-- C4: a `DCL-C` or `DCL-S` line without `TEMPLATE` token, read while no
declaration is open, adds exactly one record to `constants`, respectively to
`vars`, and to no other collection; the record is named by the second token as
written, and its keywords are the tokens after the name in upper case. -/
theorem single_line_declaration_record (env : Env) (file : Str) (n : Nat) (st : ScanState)
    (raw t0 name : Str) (rest : List Str) (hup : UpperCaseOK env)
    (hopen : st.currentItem = none)
    (htok : partsLowerOf raw = t0 :: name :: rest)
    (hkw : toUpperCase env t0 = "DCL-C".toList ∨ toUpperCase env t0 = "DCL-S".toList)
    (hnt : ∀ t ∈ partsLowerOf raw, toUpperCase env t ≠ "TEMPLATE".toList) :
    ∃ st1, processLine env file n st raw = .ok st1 ∧
      (resolveDecl st1 st.heap.length).name = some name ∧
      (resolveDecl st1 st.heap.length).keywords = rest.map (toUpperCase env) ∧
      (resolveDecl st1 st.heap.length).position = some { path := file, line := n } ∧
      (toUpperCase env t0 = "DCL-C".toList →
        (resolveDecl st1 st.heap.length).type = .constant ∧
        st1.constants = st.constants ++ [st.heap.length] ∧ st1.vars = st.vars) ∧
      (toUpperCase env t0 = "DCL-S".toList →
        (resolveDecl st1 st.heap.length).type = .variable ∧
        st1.vars = st.vars ++ [st.heap.length] ∧ st1.constants = st.constants) ∧
      st1.structs = st.structs ∧ st1.procedures = st.procedures ∧
      st1.subroutines = st.subroutines ∧ st1.currentItem = none := by
  have hparts : partsOf env raw =
      toUpperCase env t0 :: toUpperCase env name :: rest.map (toUpperCase env) := by
    have := tokens_toUpperCase env hup (beforeSemicolon (trim raw))
    unfold partsLowerOf at htok
    unfold partsOf
    rw [this, htok]; rfl
  have hne : trim raw ≠ [] := trim_ne_nil_of_parts (t := toUpperCase env t0) (by rw [hparts]; rfl)
  have hnt2 : (partsOf env raw).contains "TEMPLATE".toList = false := by
    rw [Bool.eq_false_iff]
    intro hc
    rw [List.contains_iff_exists_mem_beq] at hc
    obtain ⟨x, hx, hb⟩ := hc
    have hx2 : x ∈ (partsLowerOf raw).map (toUpperCase env) := by
      have := tokens_toUpperCase env hup (beforeSemicolon (trim raw))
      unfold partsOf at hx
      rw [this] at hx
      exact hx
    obtain ⟨t, ht, rfl⟩ := List.mem_map.mp hx2
    exact hnt t ht (eq_of_beq hb).symm
  rw [processLine_eq _ _ _ _ _ hne]
  rcases hkw with hkw | hkw
  · rw [dispatch_dclC _ _ _ _ _ _ _ (by rw [hparts, hkw]; rfl)]
    simp only [caseDclC, hopen]
    refine ⟨_, rfl, ?_⟩
    have hne2 : ("DCL-C".toList : Str) ≠ "DCL-S".toList := by decide
    simp [resolveDecl, resetDefinition, allocCurrent, deref_append_length, hparts, htok, hkw,
      hne2, newDeclaration, posAt]
  · rw [dispatch_dclS _ _ _ _ _ _ _ (by rw [hparts, hkw]; rfl)]
    simp only [caseDclS, hopen, hnt2]
    refine ⟨_, rfl, ?_⟩
    have hne2 : ("DCL-S".toList : Str) ≠ "DCL-C".toList := by decide
    simp [resolveDecl, resetDefinition, allocCurrent, deref_append_length, hparts, htok, hkw,
      hne2, newDeclaration, posAt]

/-- A `Dcl-S` line in mixed case that meets the hypotheses above. -/
theorem single_line_declaration_record_witness :
    (UpperCaseOK sampleEnv ∧ initState.currentItem = none ∧
      partsLowerOf "  Dcl-S total PACKED(9:2) inz(0); // sum".toList =
        ["Dcl-S".toList, "total".toList, "PACKED(9:2)".toList, "inz(0)".toList] ∧
      (toUpperCase sampleEnv "Dcl-S".toList = "DCL-C".toList ∨
        toUpperCase sampleEnv "Dcl-S".toList = "DCL-S".toList) ∧
      (∀ t ∈ partsLowerOf "  Dcl-S total PACKED(9:2) inz(0); // sum".toList,
        toUpperCase sampleEnv t ≠ "TEMPLATE".toList)) ∧
    ∃ st1,
      processLine sampleEnv memberUri.path 7 initState
        "  Dcl-S total PACKED(9:2) inz(0); // sum".toList = .ok st1 ∧
      (resolveDecl st1 initState.heap.length).name = some "total".toList ∧
      (resolveDecl st1 initState.heap.length).keywords =
        ["PACKED(9:2)".toList, "inz(0)".toList].map (toUpperCase sampleEnv) ∧
      (resolveDecl st1 initState.heap.length).position =
        some { path := memberUri.path, line := 7 } ∧
      (toUpperCase sampleEnv "Dcl-S".toList = "DCL-C".toList →
        (resolveDecl st1 initState.heap.length).type = .constant ∧
        st1.constants = initState.constants ++ [initState.heap.length] ∧
        st1.vars = initState.vars) ∧
      (toUpperCase sampleEnv "Dcl-S".toList = "DCL-S".toList →
        (resolveDecl st1 initState.heap.length).type = .variable ∧
        st1.vars = initState.vars ++ [initState.heap.length] ∧
        st1.constants = initState.constants) ∧
      st1.structs = initState.structs ∧ st1.procedures = initState.procedures ∧
      st1.subroutines = initState.subroutines ∧ st1.currentItem = none :=
  have hnt : ∀ t ∈ partsLowerOf "  Dcl-S total PACKED(9:2) inz(0); // sum".toList,
      toUpperCase sampleEnv t ≠ "TEMPLATE".toList := by decide
  ⟨⟨sampleEnv_upperCaseOK, rfl, by rfl, Or.inr (by rfl), hnt⟩,
    single_line_declaration_record sampleEnv memberUri.path 7 initState
      "  Dcl-S total PACKED(9:2) inz(0); // sum".toList "Dcl-S".toList "total".toList
      ["PACKED(9:2)".toList, "inz(0)".toList] sampleEnv_upperCaseOK rfl (by rfl)
      (Or.inr (by rfl)) hnt⟩

/-- C5: a `DCL-DS` line without `TEMPLATE` and without inline-terminating
keyword, read while no declaration is open and followed by lines that are
neither `DCL-PROC`, `BEGSR` nor `END-DS` and then by an `END-DS` line: after
the lines before `END-DS` the collection `structs` is as it was, and after
`END-DS` it has exactly one more record, whose position line is the index of
the `DCL-DS` line. -/
theorem struct_pushed_at_end_ds (env : Env) (file : Str) (n : Nat) (st : ScanState)
    (rawDs rawEnd : Str) (middle : List Str)
    (hopen : st.currentItem = none)
    (hds : (partsOf env rawDs)[0]? = some "DCL-DS".toList)
    (hnt : (partsOf env rawDs).contains "TEMPLATE".toList = false)
    (hmulti : isOneLine env ((partsOf env rawDs).drop 2) = false)
    (hmid : ∀ raw ∈ middle, (partsOf env raw)[0]? ≠ some "DCL-PROC".toList ∧
      (partsOf env raw)[0]? ≠ some "BEGSR".toList ∧ (partsOf env raw)[0]? ≠ some "END-DS".toList)
    (hend : (partsOf env rawEnd)[0]? = some "END-DS".toList) :
    ∃ st1 st2,
      processLines env file n (rawDs :: middle) st = .ok st1 ∧
      st1.structs = st.structs ∧
      processLines env file n (rawDs :: middle ++ [rawEnd]) st = .ok st2 ∧
      st2.structs = st.structs ++ [st.heap.length] ∧
      (resolveDecl st2 st.heap.length).type = .struct ∧
      (resolveDecl st2 st.heap.length).name = (partsLowerOf rawDs)[1]? ∧
      (resolveDecl st2 st.heap.length).position = some { path := file, line := n } := by
  have hne : trim rawDs ≠ [] := trim_ne_nil_of_parts hds
  have hfirst : ∃ st0, processLine env file n st rawDs = .ok st0 ∧
      StructOpen st st0 st.heap.length file n (partsLowerOf rawDs)[1]? := by
    rw [processLine_eq _ _ _ _ _ hne, dispatch_dclDs _ _ _ _ _ _ _ hds]
    simp only [caseDclDs, hopen, hnt, hmulti]
    refine ⟨_, rfl, ?_⟩
    simp [StructOpen, allocCurrent, deref_append_length, newDeclaration]
  obtain ⟨st0, hst0, hopen0⟩ := hfirst
  obtain ⟨st1, hst1, hopen1⟩ := structOpen_processLines env file middle (n + 1) st0 hopen0 hmid
  have hrun1 : processLines env file n (rawDs :: middle) st = .ok st1 := by
    simp only [processLines, hst0, hst1]
  obtain ⟨hc, hlt, ht, hn, hp, hs⟩ := hopen1
  have hne2 : trim rawEnd ≠ [] := trim_ne_nil_of_parts hend
  have hlast : processLine env file (n + (rawDs :: middle).length) st1 rawEnd =
      .ok (resetDefinition { st1 with structs := st1.structs ++ [st.heap.length] }) := by
    rw [processLine_eq _ _ _ _ _ hne2, dispatch_endDs _ _ _ _ _ _ _ hend]
    simp [caseEndDs, currentIs_of_type hc ht]
  refine ⟨st1, resetDefinition { st1 with structs := st1.structs ++ [st.heap.length] },
    hrun1, hs, ?_, ?_, ?_, ?_, ?_⟩
  · have := processLines_append env file (rawDs :: middle) [rawEnd] n st
    rw [this, hrun1]
    simp only [processLines, hlast]
  · simp [resetDefinition, hs]
  · simpa [resolveDecl, resetDefinition] using ht
  · simpa [resolveDecl, resetDefinition] using hn
  · simpa [resolveDecl, resetDefinition, posAt] using hp

/-- A structure of two fields that meets the hypotheses above. -/
theorem struct_pushed_at_end_ds_witness :
    (initState.currentItem = none ∧
      (partsOf sampleEnv "DCL-DS customer QUALIFIED;".toList)[0]? = some "DCL-DS".toList ∧
      (partsOf sampleEnv "DCL-DS customer QUALIFIED;".toList).contains "TEMPLATE".toList = false ∧
      isOneLine sampleEnv ((partsOf sampleEnv "DCL-DS customer QUALIFIED;".toList).drop 2) = false ∧
      (∀ raw ∈ ["  id INT(10);".toList, "".toList, "  name CHAR(30);".toList],
        (partsOf sampleEnv raw)[0]? ≠ some "DCL-PROC".toList ∧
        (partsOf sampleEnv raw)[0]? ≠ some "BEGSR".toList ∧ (partsOf sampleEnv raw)[0]? ≠ some "END-DS".toList) ∧
      (partsOf sampleEnv "END-DS;".toList)[0]? = some "END-DS".toList) ∧
    ∃ st1 st2,
      processLines sampleEnv memberUri.path 3
        ("DCL-DS customer QUALIFIED;".toList ::
          ["  id INT(10);".toList, "".toList, "  name CHAR(30);".toList]) initState = .ok st1 ∧
      st1.structs = initState.structs ∧
      processLines sampleEnv memberUri.path 3
        ("DCL-DS customer QUALIFIED;".toList ::
          ["  id INT(10);".toList, "".toList, "  name CHAR(30);".toList] ++
            ["END-DS;".toList]) initState = .ok st2 ∧
      st2.structs = initState.structs ++ [initState.heap.length] ∧
      (resolveDecl st2 initState.heap.length).type = .struct ∧
      (resolveDecl st2 initState.heap.length).name =
        (partsLowerOf "DCL-DS customer QUALIFIED;".toList)[1]? ∧
      (resolveDecl st2 initState.heap.length).position =
        some { path := memberUri.path, line := 3 } :=
  have hmid : ∀ raw ∈ ["  id INT(10);".toList, "".toList, "  name CHAR(30);".toList],
      (partsOf sampleEnv raw)[0]? ≠ some "DCL-PROC".toList ∧
      (partsOf sampleEnv raw)[0]? ≠ some "BEGSR".toList ∧ (partsOf sampleEnv raw)[0]? ≠ some "END-DS".toList := by
    decide
  ⟨⟨rfl, by rfl, by rfl, by rfl, hmid, by rfl⟩,
    struct_pushed_at_end_ds sampleEnv memberUri.path 3 initState
      "DCL-DS customer QUALIFIED;".toList "END-DS;".toList
      ["  id INT(10);".toList, "".toList, "  name CHAR(30);".toList]
      rfl (by rfl) (by rfl) (by rfl) hmid (by rfl)⟩

/-- C6: a subroutine inside a body definition takes the place of the open
procedure, so `END-PROC` finds nothing to push: the model has the subroutine
and no procedure. -/
theorem getDocs_subroutine_in_procedure_loses_procedure :
    modelOf "DCL-PROC calc;\nBEGSR init;\nENDSR;\nEND-PROC;" =
      .ok (some
        { procedures := []
          structs := []
          subroutines :=
            [{ type := .subroutine, name := some "init".toList, keywords := []
               description := [], tags := []
               position := some { path := memberUri.path, line := 1 }
               subItems := [], readParms := false }]
          vars := [], constants := [] }) := by
  rfl

/-- C7: when the fetch of every include target of the document fails (each
target resolves, differs from the document's path, is not cached and cannot be
downloaded), `getDocs` returns what it returns with `withIncludes = false`, and
every record of the model is positioned in the document's own path. -/
theorem failed_includes_give_own_model (env : Env) (uri : Uri) (world : World) (content : Str)
    (hup : UpperCaseOK env)
    (hfail : ∀ raw ∈ toLines content, isDirective env raw = true →
      ∃ g, (tokens (trim raw))[1]? = some g ∧ g ≠ uri.path ∧
        FetchFails env uri world.copyBooks g) :
    getDocs env uri world (some content) true = getDocs env uri world (some content) false ∧
    ∀ cache world1, (lookupKey uri.path world.parsedCache).join = none →
      getDocs env uri world (some content) true = .ok (some cache, world1) →
      ∀ d ∈ cache.records, ∃ pos, d.position = some pos ∧ pos.path = uri.path := by
  have hF : discoverFiles env uri world.copyBooks content false =
      .ok (setProp emptyFiles uri.path (toLines content), world.copyBooks) := by
    simp [discoverFiles]
  by_cases hpath : uri.path = "__proto__".toList
  · have h0 : ∀ e ∈ (setProp emptyFiles uri.path (toLines content)).own, e.2 = [] := by
      unfold setProp
      rw [if_pos hpath]
      intro e he
      cases he
    obtain ⟨files1, hdisc, h1⟩ := discoverIncludes_noOwnLines env uri world.copyBooks
      (toLines content).reverse _ h0 (fun raw hr => hfail raw (List.mem_reverse.mp hr))
    have hT : discoverFiles env uri world.copyBooks content true =
        .ok (files1, world.copyBooks) := by
      simp only [discoverFiles, if_true]; exact hdisc
    have s1 := processFiles_forIn_of_noOwnLines env hup files1 h1 initState rfl
    have s0 := processFiles_forIn_of_noOwnLines env hup _ h0 initState rfl
    have heq : getDocs env uri world (some content) true =
        getDocs env uri world (some content) false := by
      unfold getDocs
      cases content with
      | nil => rfl
      | cons c cs => simp only [hT, hF, s1, s0]
    refine ⟨heq, ?_⟩
    intro cache world1 hcached hdocs d hd
    obtain ⟨files, cb, st, hfiles, hst, hcache, _⟩ :=
      getDocs_fresh env uri world world1 content true cache hcached hdocs
    rw [hT] at hfiles
    simp only [Except.ok.injEq, Prod.mk.injEq] at hfiles
    obtain ⟨rfl, rfl⟩ := hfiles
    rw [s1] at hst
    simp only [Except.ok.injEq] at hst
    subst hst
    subst hcache
    simp [Cache.records, buildCache, initState] at hd
  · have h0 := onlyOwnLines_init uri.path (toLines content) hpath
    obtain ⟨files1, hdisc, h1⟩ := discoverIncludes_of_fetchFails env uri (toLines content)
      world.copyBooks (toLines content).reverse _ h0
      (fun raw hr => hfail raw (List.mem_reverse.mp hr))
    have hT : discoverFiles env uri world.copyBooks content true =
        .ok (files1, world.copyBooks) := by
      simp only [discoverFiles, if_true]; exact hdisc
    have hscan : ∀ st, processFiles env (forIn files1) st =
        processFiles env (forIn (setProp emptyFiles uri.path (toLines content))) st := by
      intro st
      rw [processFiles_forIn_of_onlyOwnLines env _ _ _ h1 (toLines_ne_nil _),
        processFiles_forIn_of_onlyOwnLines env _ _ _ h0 (toLines_ne_nil _)]
    have heq : getDocs env uri world (some content) true =
        getDocs env uri world (some content) false := by
      unfold getDocs
      cases content with
      | nil => rfl
      | cons c cs => simp only [hT, hF, hscan]
    refine ⟨heq, ?_⟩
    intro cache world1 hcached hdocs d hd
    rw [heq] at hdocs
    obtain ⟨pos, raw, hpos, hsrc, _⟩ := getDocs_records_position env uri world world1 content
      false cache _ _ hcached hF hdocs d hd
    refine ⟨pos, hpos, ?_⟩
    unfold sourceLine at hsrc
    cases hl : lookupKey pos.path (forIn (setProp emptyFiles uri.path (toLines content))) with
    | none => rw [hl] at hsrc; cases hsrc
    | some lines =>
      have hm := mem_of_lookupKey _ _ _ hl
      have hinh : inheritedProps (setProp emptyFiles uri.path (toLines content)) = [] := by
        unfold inheritedProps
        rcases h0.2.2.1 with h3 | h3 <;> rw [h3]
        simp
      unfold forIn at hm
      rw [hinh, List.append_nil] at hm
      have hm2 := (ownPart_perm _).mem_iff.mp hm
      unfold setProp at hm2
      rw [if_neg hpath] at hm2
      simp only [emptyFiles, setKey, List.mem_singleton, Prod.mk.injEq] at hm2
      exact hm2.1

/-- The document `includingText` in an environment where every download fails
meets the hypothesis above. -/
theorem failed_includes_give_own_model_witness :
    UpperCaseOK sampleEnv ∧
    (∀ raw ∈ toLines includingText, isDirective sampleEnv raw = true →
      ∃ g, (tokens (trim raw))[1]? = some g ∧ g ≠ memberUri.path ∧
        FetchFails sampleEnv memberUri emptyWorld.copyBooks g) ∧
    (getDocs sampleEnv memberUri emptyWorld (some includingText) true =
        getDocs sampleEnv memberUri emptyWorld (some includingText) false ∧
      ∀ cache world1, (lookupKey memberUri.path emptyWorld.parsedCache).join = none →
        getDocs sampleEnv memberUri emptyWorld (some includingText) true =
          .ok (some cache, world1) →
        ∀ d ∈ cache.records, ∃ pos, d.position = some pos ∧ pos.path = memberUri.path) :=
  have hfail : ∀ raw ∈ toLines includingText, isDirective sampleEnv raw = true →
      ∃ g, (tokens (trim raw))[1]? = some g ∧ g ≠ memberUri.path ∧
        FetchFails sampleEnv memberUri emptyWorld.copyBooks g := by
    intro raw hr
    have hl : toLines includingText =
        ["/COPY QCPYSRC,ORDERS_H".toList, "DCL-S total PACKED(9:2);".toList] := by rfl
    rw [hl] at hr
    simp only [List.mem_cons, List.mem_singleton, List.not_mem_nil, or_false] at hr
    rcases hr with rfl | rfl
    · intro _
      exact ⟨"QCPYSRC,ORDERS_H".toList, by rfl, by decide,
        { type := .member
          memberPath := some [none, some "MYLIB".toList, some "QCPYSRC".toList,
            some "ORDERS_H".toList]
          finishedPath := "/MYLIB/QCPYSRC/ORDERS_H".toList }, by rfl, by rfl, by rfl⟩
    · intro h
      exact absurd h (by decide)
  ⟨sampleEnv_upperCaseOK, hfail,
    failed_includes_give_own_model sampleEnv memberUri emptyWorld includingText
      sampleEnv_upperCaseOK hfail⟩

/-- C8 (as stated, refuted): the line `DCL-C` alone gives a constant record
whose name is absent. -/
theorem getDocs_nameless_constant_emitted :
    modelOf "DCL-C" = .ok (some
      { procedures := [], structs := [], subroutines := [], vars := []
        constants :=
          [{ type := .constant, name := none, keywords := [], description := [], tags := []
             position := some { path := memberUri.path, line := 0 }
             subItems := [], readParms := false }] }) := by
  rfl

/-- C8 (amended): in a freshly built model every record of the five
collections points at a line of the scanned files, and its name is the second
token of that line: absent when the line has no second token, and otherwise
not empty. -/
theorem record_name_is_second_token (env : Env) (uri : Uri) (world world1 : World)
    (content : Str) (withIncludes : Bool) (cache : Cache) (files : FilesObj) (cb : CopyBooks)
    (hcached : (lookupKey uri.path world.parsedCache).join = none)
    (hfiles : discoverFiles env uri world.copyBooks content withIncludes = .ok (files, cb))
    (hdocs : getDocs env uri world (some content) withIncludes = .ok (some cache, world1)) :
    ∀ d ∈ cache.records, ∃ pos raw, d.position = some pos ∧ sourceLine files pos = some raw ∧
      d.name = (partsLowerOf raw)[1]? ∧ ∀ s, d.name = some s → s ≠ [] := by
  intro d hd
  obtain ⟨pos, raw, hpos, hsrc, hdecl⟩ := getDocs_records_position env uri world world1 content
    withIncludes cache files cb hcached hfiles hdocs d hd
  refine ⟨pos, raw, hpos, hsrc, hdecl.2.1, ?_⟩
  intro s hs
  rw [hdecl.2.1] at hs
  exact tokens_ne_nil _ s (List.getElem?_mem hs)

/-- The document `namelessText` meets the hypotheses above, for its nameless
constant and for its named variable. -/
theorem record_name_is_second_token_witness :
    ((lookupKey memberUri.path emptyWorld.parsedCache).join = none ∧
      discoverFiles sampleEnv memberUri emptyWorld.copyBooks namelessText true =
        .ok ({ own := [(memberUri.path, toLines namelessText)], proto := none }, []) ∧
      getDocs sampleEnv memberUri emptyWorld (some namelessText) true =
        .ok (some namelessCache,
          { copyBooks := [], parsedCache := [(memberUri.path, some namelessCache)] })) ∧
    (∃ pos raw, namelessRecord.position = some pos ∧
      sourceLine { own := [(memberUri.path, toLines namelessText)], proto := none } pos =
        some raw ∧
      namelessRecord.name = (partsLowerOf raw)[1]? ∧
      ∀ s, namelessRecord.name = some s → s ≠ []) ∧
    (∃ pos raw, countRecord.position = some pos ∧
      sourceLine { own := [(memberUri.path, toLines namelessText)], proto := none } pos =
        some raw ∧
      countRecord.name = (partsLowerOf raw)[1]? ∧ ∀ s, countRecord.name = some s → s ≠ []) :=
  ⟨⟨by rfl, by rfl, by rfl⟩,
    record_name_is_second_token sampleEnv memberUri emptyWorld _ namelessText true
      namelessCache _ [] (by rfl) (by rfl) (by rfl) namelessRecord
      (by simp [Cache.records, namelessCache]),
    record_name_is_second_token sampleEnv memberUri emptyWorld _ namelessText true
      namelessCache _ [] (by rfl) (by rfl) (by rfl) countRecord
      (by simp [Cache.records, namelessCache])⟩

/-- C9: the documentation written for a skipped `TEMPLATE` declaration is
still in place at the next declaration, which takes its description and
tags. -/
theorem getDocs_template_documentation_leaks :
    modelOf ("///\n// Customer id\n// type of every customer key\n// @since 2.0\n///\n" ++
        "DCL-S custId_t PACKED(7) TEMPLATE;\nDCL-S total PACKED(9:2);") =
      .ok (some
        { procedures := [], structs := [], subroutines := []
          vars :=
            [{ type := .variable, name := some "total".toList
               keywords := ["PACKED(9:2)".toList]
               description := "type of every customer key".toList
               tags := [{ tag := "since".toList, content := "2.0".toList }]
               position := some { path := memberUri.path, line := 6 }
               subItems := [], readParms := false }]
          constants := [] }) := by
  rfl

/-- C10: a `DCL-S` or `DCL-DS` line with a `TEMPLATE` token leaves the whole
scanner state as it was, and in a freshly built model every record of `vars`
and `structs` points at a source line without a `TEMPLATE` token. -/
theorem template_declaration_never_in_model :
    (∀ (env : Env) (file : Str) (n : Nat) (st : ScanState) (raw : Str),
      ((partsOf env raw)[0]? = some "DCL-S".toList ∨ (partsOf env raw)[0]? = some "DCL-DS".toList) →
      (partsOf env raw).contains "TEMPLATE".toList = true →
      processLine env file n st raw = .ok st) ∧
    (∀ (env : Env) (uri : Uri) (world world1 : World) (content : Str) (withIncludes : Bool)
      (cache : Cache) (files : FilesObj) (cb : CopyBooks),
      (lookupKey uri.path world.parsedCache).join = none →
      discoverFiles env uri world.copyBooks content withIncludes = .ok (files, cb) →
      getDocs env uri world (some content) withIncludes = .ok (some cache, world1) →
      ∀ d, d ∈ cache.vars ∨ d ∈ cache.structs →
        ∃ pos raw, d.position = some pos ∧ sourceLine files pos = some raw ∧
          (partsOf env raw).contains "TEMPLATE".toList = false) := by
  refine ⟨processLine_template, ?_⟩
  intro env uri world world1 content withIncludes cache files cb hcached hfiles hdocs d hd
  have key := getDocs_records_declared env uri world world1 content withIncludes cache files cb
    hcached hfiles hdocs d
  rcases hd with hd | hd
  · obtain ⟨_, pos, raw, hpos, hsrc, hdecl⟩ := key .variable (Or.inr (Or.inl ⟨hd, rfl⟩))
    exact ⟨pos, raw, hpos, hsrc, hdecl.2.2.2⟩
  · obtain ⟨_, pos, raw, hpos, hsrc, hdecl⟩ := key .struct (Or.inr (Or.inr (Or.inl ⟨hd, rfl⟩)))
    exact ⟨pos, raw, hpos, hsrc, hdecl.2.2.2⟩

/-- A template line and the document `templateText`, which meet the hypotheses
above. -/
theorem template_declaration_never_in_model_witness :
    (((partsOf sampleEnv "DCL-S custId_t PACKED(7) TEMPLATE;".toList)[0]? = some "DCL-S".toList ∨
        (partsOf sampleEnv "DCL-S custId_t PACKED(7) TEMPLATE;".toList)[0]? = some "DCL-DS".toList) ∧
      (partsOf sampleEnv "DCL-S custId_t PACKED(7) TEMPLATE;".toList).contains "TEMPLATE".toList = true ∧
      (lookupKey memberUri.path emptyWorld.parsedCache).join = none ∧
      discoverFiles sampleEnv memberUri emptyWorld.copyBooks templateText true =
        .ok ({ own := [(memberUri.path, toLines templateText)], proto := none }, []) ∧
      getDocs sampleEnv memberUri emptyWorld (some templateText) true =
        .ok (some templateCache,
          { copyBooks := [], parsedCache := [(memberUri.path, some templateCache)] })) ∧
    processLine sampleEnv memberUri.path 0 initState "DCL-S custId_t PACKED(7) TEMPLATE;".toList =
      .ok initState ∧
    ∃ pos raw, totalRecord.position = some pos ∧
      sourceLine { own := [(memberUri.path, toLines templateText)], proto := none } pos =
        some raw ∧
      (partsOf sampleEnv raw).contains "TEMPLATE".toList = false :=
  ⟨⟨Or.inl (by rfl), by rfl, by rfl, by rfl, by rfl⟩,
    template_declaration_never_in_model.1 sampleEnv memberUri.path 0 initState _
      (Or.inl (by rfl)) (by rfl),
    template_declaration_never_in_model.2 sampleEnv memberUri emptyWorld _ templateText true
      templateCache _ [] (by rfl) (by rfl) (by rfl) totalRecord (Or.inl (by simp [templateCache]))⟩

/-- C11: in a freshly built model, the position of every record of the five
collections names a key of the scanned `files` object and the index, among the
lines stored under that key, of the line that declared the record: the line is
not blank, its first token (before the first semicolon, in upper case) is the
keyword that opens a record of that type, and its second token is the name of
the record. -/
theorem record_position_in_own_file (env : Env) (uri : Uri) (world world1 : World)
    (content : Str) (withIncludes : Bool) (cache : Cache) (files : FilesObj) (cb : CopyBooks)
    (hcached : (lookupKey uri.path world.parsedCache).join = none)
    (hfiles : discoverFiles env uri world.copyBooks content withIncludes = .ok (files, cb))
    (hdocs : getDocs env uri world (some content) withIncludes = .ok (some cache, world1)) :
    ∀ d ∈ cache.records, ∃ pos lines raw, d.position = some pos ∧
      lookupKey pos.path (forIn files) = some lines ∧ lines[pos.line]? = some raw ∧
      declaredBy env d.type d.name raw := by
  intro d hd
  obtain ⟨pos, raw, hpos, hsrc, hdecl⟩ := getDocs_records_position env uri world world1 content
    withIncludes cache files cb hcached hfiles hdocs d hd
  unfold sourceLine at hsrc
  cases hl : lookupKey pos.path (forIn files) with
  | none => rw [hl] at hsrc; cases hsrc
  | some lines =>
    rw [hl] at hsrc
    exact ⟨pos, lines, raw, hpos, hl, hsrc, hdecl⟩

/-- The document `includingText`, built where its include can be downloaded:
the records of the include are positioned at lines 1 and 2 of the include. -/
theorem record_position_in_own_file_witness :
    ((lookupKey memberUri.path emptyWorld.parsedCache).join = none ∧
      discoverFiles libraryEnv memberUri emptyWorld.copyBooks includingText true =
        .ok (includedFiles, includedBooks) ∧
      getDocs libraryEnv memberUri emptyWorld (some includingText) true =
        .ok (some includedCache, includedWorld)) ∧
    ∀ d ∈ includedCache.records, ∃ pos lines raw, d.position = some pos ∧
      lookupKey pos.path (forIn includedFiles) = some lines ∧ lines[pos.line]? = some raw ∧
      declaredBy libraryEnv d.type d.name raw :=
  ⟨⟨by rfl, by rfl, by rfl⟩,
    record_position_in_own_file libraryEnv memberUri emptyWorld includedWorld includingText true
      includedCache includedFiles includedBooks (by rfl) (by rfl) (by rfl)⟩

/-- C12: for a document that is not a stream file and whose path has four
segments, the target `MYLIB/MYFILE,MYMEMBER` resolves to type `member`, to the
components absent, `MYLIB`, `MYFILE`, `MYMEMBER`, and to the canonical path
`/MYLIB/MYFILE/MYMEMBER`; and every target `L/F,M` (no slash in `L`, no slash
or comma in `F` and `M`, no dot in `M`) resolves to library `L`, source file
`F` and member `M`. -/
theorem library_file_member_target (env : Env) (uri : Uri) (hup : UpperCaseOK env)
    (hs : uri.scheme ≠ "streamfile".toList) (h4 : (splitOn '/' uri.path).length = 4) :
    getPathInfo env uri (some "MYLIB/MYFILE,MYMEMBER".toList) =
      .ok { type := .member
            memberPath :=
              some [none, some "MYLIB".toList, some "MYFILE".toList, some "MYMEMBER".toList]
            finishedPath := "/MYLIB/MYFILE/MYMEMBER".toList } ∧
    ∀ lib file mbr : Str, '/' ∉ lib → '/' ∉ file ∧ ',' ∉ file →
      '/' ∉ mbr ∧ ',' ∉ mbr ∧ '.' ∉ mbr →
      getPathInfo env uri (some (lib ++ '/' :: (file ++ ',' :: mbr))) =
        .ok { type := .member
              memberPath := some [none, some lib, some file, some mbr]
              finishedPath := toUpperCase env ('/' :: (lib ++ '/' :: (file ++ '/' :: mbr))) } := by
  have general : ∀ lib file mbr : Str, '/' ∉ lib → '/' ∉ file ∧ ',' ∉ file →
      '/' ∉ mbr ∧ ',' ∉ mbr ∧ '.' ∉ mbr →
      getPathInfo env uri (some (lib ++ '/' :: (file ++ ',' :: mbr))) =
        .ok { type := .member
              memberPath := some [none, some lib, some file, some mbr]
              finishedPath :=
                toUpperCase env ('/' :: (lib ++ '/' :: (file ++ '/' :: mbr))) } := by
    intro lib file mbr hl hf hm
    obtain ⟨info, asp, hinfo, ht, hmp, hfin⟩ :=
      getPathInfo_library_file_member env uri lib file mbr hs hl hf hm
    obtain ⟨hasp, hfp⟩ := hfin h4
    rw [hinfo]
    cases info
    simp only at ht hmp hfp
    rw [ht, hmp, hfp, hasp]
  refine ⟨?_, general⟩
  have := general "MYLIB".toList "MYFILE".toList "MYMEMBER".toList (by decide) (by decide)
    (by decide)
  rw [toUpperCase_ascii env hup _ (by decide)] at this
  exact this

/-- The member opened in the editor meets the hypotheses above. -/
theorem library_file_member_target_witness :
    (UpperCaseOK sampleEnv ∧ memberUri.scheme ≠ "streamfile".toList ∧
      (splitOn '/' memberUri.path).length = 4) ∧
    getPathInfo sampleEnv memberUri (some "MYLIB/MYFILE,MYMEMBER".toList) =
      .ok { type := .member
            memberPath :=
              some [none, some "MYLIB".toList, some "MYFILE".toList, some "MYMEMBER".toList]
            finishedPath := "/MYLIB/MYFILE/MYMEMBER".toList } :=
  ⟨⟨sampleEnv_upperCaseOK, by decide, by decide⟩,
    (library_file_member_target sampleEnv memberUri sampleEnv_upperCaseOK (by decide)
      (by decide)).1⟩

/-- C13: for a document that is not a stream file and a bare target `M` (no
slash, comma or dot), the other components come from the document's path by
position: with the path `/ASP/LIB/FILE/MBR` the components are `ASP`, `LIB`,
`FILE`, `M` and the canonical path is `/ASP/LIB/FILE/M` in upper case; with
the path `/LIB/FILE/MBR` the components are absent, `LIB`, `FILE`, `M` and the
canonical path is `/LIB/FILE/M` in upper case. -/
theorem bare_target_inherits_by_position (env : Env) (uri : Uri) (m : Str)
    (hs : uri.scheme ≠ "streamfile".toList) (hm : '/' ∉ m ∧ ',' ∉ m ∧ '.' ∉ m) :
    (∀ asp lib file mbr : Str, '/' ∉ asp → '/' ∉ lib → '/' ∉ file → '/' ∉ mbr →
      uri.path = '/' :: (asp ++ '/' :: (lib ++ '/' :: (file ++ '/' :: mbr))) →
      getPathInfo env uri (some m) =
        .ok { type := .member
              memberPath := some [some asp, some lib, some file, some m]
              finishedPath :=
                toUpperCase env ('/' :: (asp ++ '/' :: (lib ++ '/' :: (file ++ '/' :: m)))) }) ∧
    (∀ lib file mbr : Str, '/' ∉ lib → '/' ∉ file → '/' ∉ mbr →
      uri.path = '/' :: (lib ++ '/' :: (file ++ '/' :: mbr)) →
      getPathInfo env uri (some m) =
        .ok { type := .member
              memberPath := some [none, some lib, some file, some m]
              finishedPath := toUpperCase env ('/' :: (lib ++ '/' :: (file ++ '/' :: m))) }) := by
  have h1 : splitOn '/' m = [m] := splitOn_clean _ _ hm.1
  have h2 : splitOn ',' m = [m] := splitOn_clean _ _ hm.2.1
  constructor
  · intro asp lib file mbr ha hl hf hb hpath
    unfold getPathInfo
    rw [if_neg hs, hpath, splitOn_path5 _ _ _ _ ha hl hf hb]
    simp [h1, h2, hm.2.2, joinWith]
  · intro lib file mbr hl hf hb hpath
    unfold getPathInfo
    rw [if_neg hs, hpath, splitOn_path4 _ _ _ hl hf hb]
    simp [h1, h2, hm.2.2, joinWith]

/-- The bare target `ORDERS_H`, resolved from a member with a storage group
and from a member without one. -/
theorem bare_target_inherits_by_position_witness :
    (memberUri.scheme ≠ "streamfile".toList ∧
      ('/' ∉ "ORDERS_H".toList ∧ ',' ∉ "ORDERS_H".toList ∧ '.' ∉ "ORDERS_H".toList) ∧
      memberUri.path =
        '/' :: ("MYLIB".toList ++ '/' :: ("QRPGLESRC".toList ++ '/' :: "ORDERS.rpgle".toList)) ∧
      aspUri.scheme ≠ "streamfile".toList ∧
      aspUri.path =
        '/' :: ("IASP1".toList ++ '/' :: ("MYLIB".toList ++ '/' ::
          ("QRPGLESRC".toList ++ '/' :: "ORDERS.rpgle".toList)))) ∧
    getPathInfo sampleEnv memberUri (some "ORDERS_H".toList) =
      .ok { type := .member
            memberPath :=
              some [none, some "MYLIB".toList, some "QRPGLESRC".toList, some "ORDERS_H".toList]
            finishedPath :=
              toUpperCase sampleEnv
                ('/' :: ("MYLIB".toList ++ '/' :: ("QRPGLESRC".toList ++ '/' ::
                  "ORDERS_H".toList))) } ∧
    getPathInfo sampleEnv aspUri (some "ORDERS_H".toList) =
      .ok { type := .member
            memberPath :=
              some [some "IASP1".toList, some "MYLIB".toList, some "QRPGLESRC".toList,
                some "ORDERS_H".toList]
            finishedPath :=
              toUpperCase sampleEnv
                ('/' :: ("IASP1".toList ++ '/' :: ("MYLIB".toList ++ '/' ::
                  ("QRPGLESRC".toList ++ '/' :: "ORDERS_H".toList)))) } :=
  ⟨⟨by decide, by decide, by rfl, by decide, by rfl⟩,
    (bare_target_inherits_by_position sampleEnv memberUri "ORDERS_H".toList (by decide)
      (by decide)).2 "MYLIB".toList "QRPGLESRC".toList "ORDERS.rpgle".toList
      (by decide) (by decide) (by decide) (by rfl),
    (bare_target_inherits_by_position sampleEnv aspUri "ORDERS_H".toList (by decide)
      (by decide)).1 "IASP1".toList "MYLIB".toList "QRPGLESRC".toList "ORDERS.rpgle".toList
      (by decide) (by decide) (by decide) (by decide) (by rfl)⟩

/-- C14 (as stated, refuted): from the member `/MYLIB/QRPGLESRC/ORDERS.rpgle`
the bare target `ORDERS_H` resolves to the source file `QRPGLESRC` of the
document, not to `QRPGLEREF`. -/
theorem default_source_file_overwritten :
    getPathInfo sampleEnv memberUri (some "ORDERS_H".toList) =
      .ok { type := .member
            memberPath :=
              some [none, some "MYLIB".toList, some "QRPGLESRC".toList, some "ORDERS_H".toList]
            finishedPath := "/MYLIB/QRPGLESRC/ORDERS_H".toList } ∧
    ¬ ∃ info mp, getPathInfo sampleEnv memberUri (some "ORDERS_H".toList) = .ok info ∧
      info.memberPath = some mp ∧ mp[2]? = some (some "QRPGLEREF".toList) := by
  have h : getPathInfo sampleEnv memberUri (some "ORDERS_H".toList) =
      .ok { type := .member
            memberPath :=
              some [none, some "MYLIB".toList, some "QRPGLESRC".toList, some "ORDERS_H".toList]
            finishedPath := "/MYLIB/QRPGLESRC/ORDERS_H".toList } := by rfl
  refine ⟨h, ?_⟩
  rintro ⟨info, mp, hinfo, hmp, h2⟩
  rw [h] at hinfo
  cases hinfo
  cases hmp
  exact absurd h2 (by decide)

/-- C14 (amended): for a document that is not a stream file and a target whose
last piece has no comma, the source-file component is the one of the
document's path: its third piece when the path has four pieces, its fourth
piece when it has five. -/
theorem source_file_inherited_from_path (env : Env) (uri : Uri) (dir m : Str)
    (hs : uri.scheme ≠ "streamfile".toList)
    (hdir : dir = [] ∨ dir.getLast? = some '/') (hm : '/' ∉ m ∧ ',' ∉ m) :
    ∃ info mp, getPathInfo env uri (some (dir ++ m)) = .ok info ∧
      info.memberPath = some mp ∧
      ((splitOn '/' uri.path).length = 4 → mp[2]? = some (splitOn '/' uri.path)[2]?) ∧
      ((splitOn '/' uri.path).length = 5 → mp[2]? = some (splitOn '/' uri.path)[3]?) := by
  obtain ⟨info, mp, hinfo, hmp, _, h2, _⟩ :=
    getPathInfo_member_target env uri dir none m hs hdir hm (fun f hf => by cases hf)
  refine ⟨info, mp, hinfo, hmp, (h2 rfl).1, fun h5 => (h2 rfl).2 ?_⟩
  rw [h5]
  decide

/-- The target `mylib/orders_h`, resolved from a member without storage
group, meets the hypotheses above. -/
theorem source_file_inherited_from_path_witness :
    (memberUri.scheme ≠ "streamfile".toList ∧
      ("mylib/".toList = [] ∨ "mylib/".toList.getLast? = some '/') ∧
      ('/' ∉ "orders_h".toList ∧ ',' ∉ "orders_h".toList)) ∧
    ∃ info mp, getPathInfo sampleEnv memberUri (some ("mylib/".toList ++ "orders_h".toList)) =
        .ok info ∧
      info.memberPath = some mp ∧
      ((splitOn '/' memberUri.path).length = 4 → mp[2]? = some (splitOn '/' memberUri.path)[2]?) ∧
      ((splitOn '/' memberUri.path).length = 5 → mp[2]? = some (splitOn '/' memberUri.path)[3]?) :=
  ⟨⟨by decide, Or.inr (by rfl), by decide⟩,
    source_file_inherited_from_path sampleEnv memberUri "mylib/".toList "orders_h".toList
      (by decide) (Or.inr (by rfl)) (by decide)⟩

/-- C15: two include targets that differ only in letter case resolve to the
same canonical path (or both raise), and a canonical path returned by
`getPathInfo` is its own upper-casing, whatever the scheme of the document. -/
theorem canonical_path_ignores_case (env : Env) (uri : Uri) (t t1 : Str)
    (hp : PathCaseOK env) (hj : JoinRespectsCase env)
    (h : toUpperCase env t = toUpperCase env t1) :
    (getPathInfo env uri (some t)).map PathInfo.finishedPath =
      (getPathInfo env uri (some t1)).map PathInfo.finishedPath ∧
    ∀ info, getPathInfo env uri (some t) = .ok info →
      toUpperCase env info.finishedPath = info.finishedPath := by
  refine ⟨finishedPath_case env hp hj uri t t1 h, ?_⟩
  intro info hinfo
  obtain ⟨x, hx⟩ := getPathInfo_finishedPath_upper env uri _ info hinfo
  rw [hx, toUpperCase_idem env hp.2.2.2.2.2]

/-- A member target and a stream-file target, each in two spellings, meet the
hypotheses above. -/
theorem canonical_path_ignores_case_witness :
    (PathCaseOK sampleEnv ∧ JoinRespectsCase sampleEnv ∧
      toUpperCase sampleEnv "mylib/QcpySrc,orders_h.rpgleinc".toList =
        toUpperCase sampleEnv "MYLIB/qcpysrc,Orders_H.RPGLEINC".toList ∧
      toUpperCase sampleEnv "'copy/orders_h.rpgleinc'".toList =
        toUpperCase sampleEnv "'Copy/Orders_H.rpgleinc'".toList) ∧
    ((getPathInfo sampleEnv memberUri (some "mylib/QcpySrc,orders_h.rpgleinc".toList)).map
        PathInfo.finishedPath =
      (getPathInfo sampleEnv memberUri (some "MYLIB/qcpysrc,Orders_H.RPGLEINC".toList)).map
        PathInfo.finishedPath ∧
    ∀ info, getPathInfo sampleEnv memberUri (some "mylib/QcpySrc,orders_h.rpgleinc".toList) =
        .ok info →
      toUpperCase sampleEnv info.finishedPath = info.finishedPath) ∧
    ((getPathInfo sampleEnv streamUri (some "'copy/orders_h.rpgleinc'".toList)).map
        PathInfo.finishedPath =
      (getPathInfo sampleEnv streamUri (some "'Copy/Orders_H.rpgleinc'".toList)).map
        PathInfo.finishedPath ∧
    ∀ info, getPathInfo sampleEnv streamUri (some "'copy/orders_h.rpgleinc'".toList) =
        .ok info →
      toUpperCase sampleEnv info.finishedPath = info.finishedPath) :=
  ⟨⟨sampleEnv_pathCaseOK, sampleEnv_joinRespectsCase, by rfl, by rfl⟩,
    canonical_path_ignores_case sampleEnv memberUri _ _ sampleEnv_pathCaseOK
      sampleEnv_joinRespectsCase (by rfl),
    canonical_path_ignores_case sampleEnv streamUri _ _ sampleEnv_pathCaseOK
      sampleEnv_joinRespectsCase (by rfl)⟩

/-- C16: for a document of scheme `streamfile`, with `g1` the target without
one leading single quote and `g2` that without one trailing single quote (each
taken off only if present), the result has type `streamfile` and its canonical
path is `g2` in upper case when `g2` starts with a slash, and otherwise the
join of the home directory and `g2` in upper case. -/
theorem streamfile_target_resolution (env : Env) (uri : Uri) (g : Str)
    (hs : uri.scheme = "streamfile".toList) :
    ∃ g1 g2 : Str,
      (g = Char.ofNat 39 :: g1 ∨ (g.head? ≠ some (Char.ofNat 39) ∧ g1 = g)) ∧
      (g1 = g2 ++ [Char.ofNat 39] ∨ (g1.getLast? ≠ some (Char.ofNat 39) ∧ g2 = g1)) ∧
      getPathInfo env uri (some g) =
        .ok { type := .streamfile, memberPath := none
              finishedPath :=
                toUpperCase env
                  (if g2.head? = some '/' then g2 else env.posixJoin env.homeDirectory g2) } := by
  have key : ∀ g1 : Str, (if startsWith g [Char.ofNat 39] then g.drop 1 else g) = g1 →
      ∀ g2 : Str, (if endsWith g1 [Char.ofNat 39] then g1.take (g1.length - 1) else g1) = g2 →
      getPathInfo env uri (some g) =
        .ok { type := .streamfile, memberPath := none
              finishedPath :=
                toUpperCase env
                  (if g2.head? = some '/' then g2 else env.posixJoin env.homeDirectory g2) } := by
    intro g1 h1 g2 h2
    unfold getPathInfo
    rw [if_pos hs]
    simp only [h1, h2]
    by_cases hh : g2.head? = some '/'
    · rw [if_pos ((startsWith_singleton _ _).mpr hh), if_pos hh]
    · rw [if_neg (fun e => hh ((startsWith_singleton _ _).mp e)), if_neg hh]
  have e1 : ∃ g1 : Str, (if startsWith g [Char.ofNat 39] then g.drop 1 else g) = g1 ∧
      (g = Char.ofNat 39 :: g1 ∨ (g.head? ≠ some (Char.ofNat 39) ∧ g1 = g)) := by
    by_cases h : g.head? = some (Char.ofNat 39)
    · rw [if_pos ((startsWith_singleton _ _).mpr h)]
      cases g with
      | nil => cases h
      | cons x xs =>
        simp only [List.head?_cons, Option.some.injEq] at h
        exact ⟨xs, rfl, Or.inl (by rw [h])⟩
    · rw [if_neg (fun e => h ((startsWith_singleton _ _).mp e))]
      exact ⟨g, rfl, Or.inr ⟨h, rfl⟩⟩
  obtain ⟨g1, h1, p1⟩ := e1
  have e2 : ∃ g2 : Str,
      (if endsWith g1 [Char.ofNat 39] then g1.take (g1.length - 1) else g1) = g2 ∧
      (g1 = g2 ++ [Char.ofNat 39] ∨ (g1.getLast? ≠ some (Char.ofNat 39) ∧ g2 = g1)) := by
    by_cases h : g1.getLast? = some (Char.ofNat 39)
    · rw [if_pos ((endsWith_singleton _ _).mpr h)]
      obtain ⟨ys, hys⟩ := List.getLast?_eq_some_iff.mp h
      refine ⟨ys, ?_, Or.inl hys⟩
      have : (ys ++ [Char.ofNat 39]).length - 1 = ys.length := by simp
      rw [hys, this, List.take_left]
    · rw [if_neg (fun e => h ((endsWith_singleton _ _).mp e))]
      exact ⟨g1, rfl, Or.inr ⟨h, rfl⟩⟩
  obtain ⟨g2, h2, p2⟩ := e2
  exact ⟨g1, g2, p1, p2, key g1 h1 g2 h2⟩

/-- A quoted relative target and a quoted absolute target, resolved from a
stream file. -/
theorem streamfile_target_resolution_witness :
    streamUri.scheme = "streamfile".toList ∧
    (∃ g1 g2 : Str,
      ("'copy/orders_h.rpgleinc'".toList = Char.ofNat 39 :: g1 ∨
        ("'copy/orders_h.rpgleinc'".toList.head? ≠ some (Char.ofNat 39) ∧
          g1 = "'copy/orders_h.rpgleinc'".toList)) ∧
      (g1 = g2 ++ [Char.ofNat 39] ∨ (g1.getLast? ≠ some (Char.ofNat 39) ∧ g2 = g1)) ∧
      getPathInfo sampleEnv streamUri (some "'copy/orders_h.rpgleinc'".toList) =
        .ok { type := .streamfile, memberPath := none
              finishedPath :=
                toUpperCase sampleEnv
                  (if g2.head? = some '/' then g2
                    else sampleEnv.posixJoin sampleEnv.homeDirectory g2) }) ∧
    getPathInfo sampleEnv streamUri (some "'copy/orders_h.rpgleinc'".toList) =
      .ok { type := .streamfile, memberPath := none
            finishedPath := "/HOME/DEV/COPY/ORDERS_H.RPGLEINC".toList } ∧
    getPathInfo sampleEnv streamUri (some "'/shared/orders_h.rpgleinc".toList) =
      .ok { type := .streamfile, memberPath := none
            finishedPath := "/SHARED/ORDERS_H.RPGLEINC".toList } :=
  ⟨by rfl, streamfile_target_resolution sampleEnv streamUri _ (by rfl), by rfl, by rfl⟩

/-- C17: in member resolution the member component is the member name of the
target cut just before its last dot, and the member name itself when it has no
dot; the member name is the last piece of the target, behind an optional
directory part and an optional source file with a comma. -/
theorem member_extension_stripped (env : Env) (uri : Uri) (dir : Str) (src : Option Str)
    (m : Str) (hs : uri.scheme ≠ "streamfile".toList)
    (hdir : dir = [] ∨ dir.getLast? = some '/') (hm : '/' ∉ m ∧ ',' ∉ m)
    (hsrc : ∀ f, src = some f → '/' ∉ f ∧ ',' ∉ f) :
    ∃ info mp,
      getPathInfo env uri
        (some (dir ++ (match src with | none => m | some f => f ++ ',' :: m))) = .ok info ∧
      info.memberPath = some mp ∧
      ('.' ∉ m → mp[3]? = some (some m)) ∧
      (∀ p s : Str, m = p ++ '.' :: s → '.' ∉ s → mp[3]? = some (some p)) := by
  obtain ⟨info, mp, hinfo, hmp, h3, _⟩ :=
    getPathInfo_member_target env uri dir src m hs hdir hm hsrc
  refine ⟨info, mp, hinfo, hmp, ?_, ?_⟩
  · intro hdot
    have : m.contains '.' = false := by simpa using hdot
    rw [h3, this]
    rfl
  · intro p s hps hdot
    have : m.contains '.' = true := by rw [hps]; simp
    rw [h3, this, if_pos rfl, hps, take_lastIndexOf _ _ _ hdot]

/-- The target `MYLIB/QCPYSRC,ORDERS_H.v2.rpgleinc` meets the hypotheses
above; its member component is `ORDERS_H.v2`. -/
theorem member_extension_stripped_witness :
    (memberUri.scheme ≠ "streamfile".toList ∧
      ("MYLIB/".toList = [] ∨ "MYLIB/".toList.getLast? = some '/') ∧
      ('/' ∉ "ORDERS_H.v2.rpgleinc".toList ∧ ',' ∉ "ORDERS_H.v2.rpgleinc".toList) ∧
      (∀ f, some "QCPYSRC".toList = some f → '/' ∉ f ∧ ',' ∉ f) ∧
      "ORDERS_H.v2.rpgleinc".toList = "ORDERS_H.v2".toList ++ '.' :: "rpgleinc".toList ∧
      '.' ∉ "rpgleinc".toList) ∧
    ∃ info mp,
      getPathInfo sampleEnv memberUri
        (some ("MYLIB/".toList ++ ("QCPYSRC".toList ++ ',' :: "ORDERS_H.v2.rpgleinc".toList))) =
          .ok info ∧
      info.memberPath = some mp ∧ mp[3]? = some (some "ORDERS_H.v2".toList) :=
  have hsrc : ∀ f, some "QCPYSRC".toList = some f → '/' ∉ f ∧ ',' ∉ f := by
    intro f hf
    cases hf
    decide
  ⟨⟨by decide, Or.inr (by rfl), by decide, hsrc, by rfl, by decide⟩,
    (member_extension_stripped sampleEnv memberUri "MYLIB/".toList (some "QCPYSRC".toList)
      "ORDERS_H.v2.rpgleinc".toList (by decide) (Or.inr (by rfl)) (by decide) hsrc).imp
      (fun _ h => h.imp (fun _ h2 => ⟨h2.1, h2.2.1, h2.2.2.2 _ _ (by rfl) (by decide)⟩))⟩

/-- C18: after a call of `getContent` that found the canonical path cached or
fetched its content, the cache maps the canonical path to the lines returned
(for a fetch: the content without carriage returns, split at line feeds), and
every later call for a target with that canonical path returns those lines and
leaves the cache as it is, whatever the fetch collaborator would serve by
then. -/
theorem getContent_cache_backed (env : Env) (uri : Uri) (cb cb1 : CopyBooks) (t : Option Str)
    (info : PathInfo) (lines : List Str)
    (hinfo : getPathInfo env uri t = .ok info)
    (hrun : getContent env uri cb t = .ok (lines, cb1))
    (hok : lookupKey info.finishedPath cb ≠ none ∨ fetch env info ≠ none) :
    lookupKey info.finishedPath cb1 = some lines ∧
    (lookupKey info.finishedPath cb = none →
      ∃ content, fetch env info = some content ∧ lines = toLines content) ∧
    ∀ (env1 : Env) (uri1 : Uri) (t1 : Option Str) (info1 : PathInfo),
      getPathInfo env1 uri1 t1 = .ok info1 → info1.finishedPath = info.finishedPath →
      getContent env1 uri1 cb1 t1 = .ok (lines, cb1) := by
  rw [getContent_of_info env uri cb t info hinfo] at hrun
  have later : lookupKey info.finishedPath cb1 = some lines →
      ∀ (env1 : Env) (uri1 : Uri) (t1 : Option Str) (info1 : PathInfo),
        getPathInfo env1 uri1 t1 = .ok info1 → info1.finishedPath = info.finishedPath →
        getContent env1 uri1 cb1 t1 = .ok (lines, cb1) := by
    intro hl env1 uri1 t1 info1 h1 hp
    rw [getContent_of_info env1 uri1 cb1 t1 info1 h1, hp, hl]
  cases hl : lookupKey info.finishedPath cb with
  | some cached =>
    rw [hl] at hrun
    cases hrun
    refine ⟨hl, ?_, later hl⟩
    intro e
    cases e
  | none =>
    rw [hl] at hrun
    cases hf : fetch env info with
    | none =>
      rcases hok with h | h
      · exact absurd hl h
      · exact absurd hf h
    | some content =>
      rw [hf] at hrun
      cases hrun
      exact ⟨lookupKey_setKey_self _ _ _, fun _ => ⟨content, rfl, rfl⟩,
        later (lookupKey_setKey_self _ _ _)⟩

/-- The member `ORDERS_H` is fetched once; a later call in an environment
without it, for another spelling of the target, still returns its lines. -/
theorem getContent_cache_backed_witness :
    (getPathInfo libraryEnv memberUri (some "QCPYSRC,ORDERS_H".toList) =
        .ok { type := .member
              memberPath :=
                some [none, some "MYLIB".toList, some "QCPYSRC".toList, some "ORDERS_H".toList]
              finishedPath := "/MYLIB/QCPYSRC/ORDERS_H".toList } ∧
      getContent libraryEnv memberUri [] (some "QCPYSRC,ORDERS_H".toList) =
        .ok (toLines ordersHeader, includedBooks) ∧
      getPathInfo sampleEnv memberUri (some "qcpysrc,orders_h.rpgleinc".toList) =
        .ok { type := .member
              memberPath :=
                some [none, some "MYLIB".toList, some "qcpysrc".toList, some "orders_h".toList]
              finishedPath := "/MYLIB/QCPYSRC/ORDERS_H".toList }) ∧
    lookupKey "/MYLIB/QCPYSRC/ORDERS_H".toList includedBooks = some (toLines ordersHeader) ∧
    getContent sampleEnv memberUri includedBooks (some "qcpysrc,orders_h.rpgleinc".toList) =
      .ok (toLines ordersHeader, includedBooks) :=
  have h := getContent_cache_backed libraryEnv memberUri [] includedBooks
    (some "QCPYSRC,ORDERS_H".toList)
    { type := .member
      memberPath :=
        some [none, some "MYLIB".toList, some "QCPYSRC".toList, some "ORDERS_H".toList]
      finishedPath := "/MYLIB/QCPYSRC/ORDERS_H".toList }
    (toLines ordersHeader) (by rfl) (by rfl) (Or.inr (by decide))
  ⟨⟨by rfl, by rfl, by rfl⟩, h.1,
    h.2.2 sampleEnv memberUri (some "qcpysrc,orders_h.rpgleinc".toList)
      { type := .member
        memberPath :=
          some [none, some "MYLIB".toList, some "qcpysrc".toList, some "orders_h".toList]
        finishedPath := "/MYLIB/QCPYSRC/ORDERS_H".toList } (by rfl) rfl⟩

/-- C19: when the canonical path of a target is not cached and its fetch
fails, `getContent` returns no lines and the cache as it was; a later call
whose fetch succeeds returns the fetched lines. -/
theorem failed_fetch_gives_no_lines (env : Env) (uri : Uri) (cb : CopyBooks) (t : Option Str)
    (info : PathInfo)
    (hinfo : getPathInfo env uri t = .ok info)
    (hmiss : lookupKey info.finishedPath cb = none)
    (hfail : fetch env info = none) :
    getContent env uri cb t = .ok ([], cb) ∧
    ∀ (env1 : Env) (content : Str), getPathInfo env1 uri t = .ok info →
      fetch env1 info = some content →
      getContent env1 uri cb t =
        .ok (toLines content, setKey info.finishedPath (toLines content) cb) := by
  constructor
  · rw [getContent_of_info env uri cb t info hinfo, hmiss, hfail]
  · intro env1 content h1 hf
    rw [getContent_of_info env1 uri cb t info h1, hmiss, hf]

/-- The member `ORDERS_H` cannot be fetched in `sampleEnv`; the later call in
`libraryEnv` fetches it. -/
theorem failed_fetch_gives_no_lines_witness :
    (getPathInfo sampleEnv memberUri (some "QCPYSRC,ORDERS_H".toList) =
        .ok { type := .member
              memberPath :=
                some [none, some "MYLIB".toList, some "QCPYSRC".toList, some "ORDERS_H".toList]
              finishedPath := "/MYLIB/QCPYSRC/ORDERS_H".toList } ∧
      lookupKey "/MYLIB/QCPYSRC/ORDERS_H".toList ([] : CopyBooks) = none ∧
      fetch sampleEnv
        { type := .member
          memberPath :=
            some [none, some "MYLIB".toList, some "QCPYSRC".toList, some "ORDERS_H".toList]
          finishedPath := "/MYLIB/QCPYSRC/ORDERS_H".toList } = none) ∧
    getContent sampleEnv memberUri [] (some "QCPYSRC,ORDERS_H".toList) = .ok ([], []) ∧
    getContent libraryEnv memberUri [] (some "QCPYSRC,ORDERS_H".toList) =
      .ok (toLines ordersHeader,
        setKey "/MYLIB/QCPYSRC/ORDERS_H".toList (toLines ordersHeader) []) :=
  have h := failed_fetch_gives_no_lines sampleEnv memberUri [] (some "QCPYSRC,ORDERS_H".toList)
    { type := .member
      memberPath :=
        some [none, some "MYLIB".toList, some "QCPYSRC".toList, some "ORDERS_H".toList]
      finishedPath := "/MYLIB/QCPYSRC/ORDERS_H".toList } (by rfl) (by rfl) (by rfl)
  ⟨⟨by rfl, by rfl, by rfl⟩, h.1, h.2 libraryEnv ordersHeader (by rfl) (by rfl)⟩

/-- C20 (as stated, refuted): where the member download answers only the
spelling `QCPYSRC,ORDERS_H`, a document that names the member in two spellings
gets a model with the records of the include once; after the invalidation, the
same text in the same environment gets a model with these records twice,
because the lines cached under the canonical path now serve both spellings. -/
theorem rebuild_differs_for_two_spellings :
    getDocs strictEnv memberUri emptyWorld (some twoSpellingsText) true =
      .ok (some firstBuildCache,
        { copyBooks := includedBooks
          parsedCache := [(memberUri.path, some firstBuildCache)] }) ∧
    getDocs strictEnv memberUri
        (invalidate memberUri
          { copyBooks := includedBooks
            parsedCache := [(memberUri.path, some firstBuildCache)] })
        (some twoSpellingsText) true =
      .ok (some secondBuildCache,
        { copyBooks := includedBooks
          parsedCache := [(memberUri.path, some secondBuildCache)] }) ∧
    firstBuildCache ≠ secondBuildCache := by
  refine ⟨by rfl, by rfl, by decide⟩

/-- C20 (amended): when the fetch collaborator serves contents by canonical
path (the download for a target of the document gives the content recorded for
the upper-cased canonical path of the target, whatever the spelling), a build
from a document without cached model, followed by the invalidation of the
document and a build from the same text, returns the same model, and leaves
the two caches as the first build left them. -/
theorem rebuild_is_deterministic (env : Env) (uri : Uri) (contentOf : Str → Option Str)
    (world world1 : World) (content : Str) (withIncludes : Bool) (cache : Cache)
    (hfetch : FetchByPath env uri contentOf)
    (hfresh : (lookupKey uri.path world.parsedCache).join = none)
    (hbuild : getDocs env uri world (some content) withIncludes = .ok (some cache, world1)) :
    getDocs env uri (invalidate uri world1) (some content) withIncludes =
      .ok (some cache, world1) := by
  obtain ⟨files, cb, st, hfiles, hst, hcache, hworld⟩ :=
    getDocs_fresh env uri world world1 content withIncludes cache hfresh hbuild
  have hfiles1 : discoverFiles env uri cb content withIncludes = .ok (files, cb) := by
    unfold discoverFiles at hfiles ⊢
    cases withIncludes with
    | false =>
      simp only [Bool.false_eq_true, if_false, Except.ok.injEq, Prod.mk.injEq] at hfiles ⊢
      exact ⟨hfiles.1, trivial⟩
    | true =>
      simp only [if_true] at hfiles ⊢
      exact discoverIncludes_replay hfetch _ _ _ _ _ _ hfiles (cacheGrows_refl _ _)
  have hne : content ≠ [] := by
    intro e
    rw [e] at hbuild
    unfold getDocs at hbuild
    rw [hfresh] at hbuild
    cases hbuild
  subst hworld
  unfold getDocs invalidate
  simp only [lookupKey_setKey_self, Option.join]
  cases content with
  | nil => exact absurd rfl hne
  | cons c cs =>
    simp only [hfiles1, hst, setKey_setKey, hcache]
    rfl

/-- The document `includingText`, built where its include can be downloaded,
meets the hypotheses above. -/
theorem rebuild_is_deterministic_witness :
    (FetchByPath libraryEnv memberUri libraryContent ∧
      (lookupKey memberUri.path emptyWorld.parsedCache).join = none ∧
      getDocs libraryEnv memberUri emptyWorld (some includingText) true =
        .ok (some includedCache, includedWorld)) ∧
    getDocs libraryEnv memberUri (invalidate memberUri includedWorld) (some includingText) true =
      .ok (some includedCache, includedWorld) :=
  ⟨⟨libraryEnv_fetchByPath, by rfl, by rfl⟩,
    rebuild_is_deterministic libraryEnv memberUri libraryContent emptyWorld includedWorld
      includingText true includedCache libraryEnv_fetchByPath (by rfl) (by rfl)⟩

/-- C21: on a fresh worker `getDocs` gives `null` for a missing and for an
empty text and returns a cached model whatever text is passed, but for the
non-empty text `/COPY` it raises a `TypeError`: no model is returned and none
is stored. -/
theorem getDocs_fresh_text_not_always_built :
    getDocs sampleEnv memberUri emptyWorld (some "/COPY".toList) true = .error .typeError ∧
    getDocs sampleEnv memberUri emptyWorld none true = .ok (none, emptyWorld) ∧
    getDocs sampleEnv memberUri emptyWorld (some []) true = .ok (none, emptyWorld) ∧
    getDocs sampleEnv memberUri
        { copyBooks := [], parsedCache := [(memberUri.path, some templateCache)] } none true =
      .ok (some templateCache,
        { copyBooks := [], parsedCache := [(memberUri.path, some templateCache)] }) ∧
    getDocs sampleEnv memberUri
        { copyBooks := [], parsedCache := [(memberUri.path, some templateCache)] }
        (some namelessText) true =
      .ok (some templateCache,
        { copyBooks := [], parsedCache := [(memberUri.path, some templateCache)] }) ∧
    getDocs sampleEnv memberUri emptyWorld (some templateText) true =
      .ok (some templateCache,
        { copyBooks := [], parsedCache := [(memberUri.path, some templateCache)] }) := by
  refine ⟨?_, ?_, ?_, ?_, ?_, ?_⟩ <;> rfl

/-- C22: over a run of comment lines read while documentation tracking is on,
the tag array ends as the reference says: a content that starts with `@` adds
an entry (tag up to the first space, content behind it), any other non-empty
content is appended, behind one space, to the last entry if there is one;
entries stay in source order and equal tag names stay separate entries. -/
theorem tag_accumulator_matches_reference (env : Env) (file : Str) :
    ∀ (lines : List Str) (n : Nat) (st : ScanState), st.docs = true →
      st.currentTags < st.tagHeap.length → (∀ raw ∈ lines, IsCommentLine env raw) →
      ∃ st1, processLines env file n lines st = .ok st1 ∧ st1.docs = true ∧
        st1.currentTags = st.currentTags ∧
        tagsAt st1.tagHeap st1.currentTags =
          refTags (tagsAt st.tagHeap st.currentTags) (lines.map commentText) := by
  intro lines
  induction lines with
  | nil => intro n st hd _ _; exact ⟨st, rfl, hd, rfl, rfl⟩
  | cons raw rest ih =>
    intro n st hd hcur hall
    have hstep := processLine_comment env file n st raw (hall raw (List.mem_cons_self _ _))
    obtain ⟨h1, h2, h3, h4⟩ := caseComment_tags (trim raw) st hd hcur
    obtain ⟨st1, hrun, hd1, hc1, ht1⟩ := ih (n + 1) (caseComment (trim raw) st).1 h1
      (by rw [h2, h3]; exact hcur) (fun x hx => hall x (List.mem_cons_of_mem _ hx))
    refine ⟨st1, by simp only [processLines, hstep, hrun], hd1, hc1.trans h2, ?_⟩
    rw [ht1, h4]
    rfl

/-- A block with two `param` tags, a continuation line, an empty comment and a
`return` tag, read after the opening line of three slashes. -/
theorem tag_accumulator_matches_reference_witness :
    ((docState initState []).docs = true ∧
      (docState initState []).currentTags < (docState initState []).tagHeap.length ∧
      (∀ raw ∈ ["// @param a first".toList, "//   more about a".toList,
          "// @param b second".toList, "//".toList, "// @return the total".toList],
        IsCommentLine sampleEnv raw)) ∧
    (∃ st1,
      processLines sampleEnv memberUri.path 1
        ["// @param a first".toList, "//   more about a".toList,
          "// @param b second".toList, "//".toList, "// @return the total".toList]
        (docState initState []) = .ok st1 ∧ st1.docs = true ∧
      st1.currentTags = (docState initState []).currentTags ∧
      tagsAt st1.tagHeap st1.currentTags =
        refTags (tagsAt (docState initState []).tagHeap (docState initState []).currentTags)
          (["// @param a first".toList, "//   more about a".toList,
            "// @param b second".toList, "//".toList, "// @return the total".toList].map
              commentText)) ∧
    refTags [] (["// @param a first".toList, "//   more about a".toList,
        "// @param b second".toList, "//".toList, "// @return the total".toList].map
          commentText) =
      [{ tag := "param".toList, content := "a first more about a".toList },
       { tag := "param".toList, content := "b second".toList },
       { tag := "return".toList, content := "the total".toList }] :=
  have hall : ∀ raw ∈ ["// @param a first".toList, "//   more about a".toList,
      "// @param b second".toList, "//".toList, "// @return the total".toList],
      IsCommentLine sampleEnv raw := by
    intro raw hr
    simp only [List.mem_cons, List.mem_singleton, List.not_mem_nil, or_false] at hr
    rcases hr with rfl | rfl | rfl | rfl | rfl <;> exact ⟨by rfl, by decide⟩
  ⟨⟨rfl, by decide, hall⟩,
    tag_accumulator_matches_reference sampleEnv memberUri.path _ 1 (docState initState []) rfl
      (by decide) hall,
    by rfl⟩

/-- C23: a documentation block (a line of three slashes, the free-text comment
lines `c1 ... cn` with `n >= 1`, then possibly tag lines and their
continuation lines, and a line of three slashes) read while documentation
tracking is off keeps `c1` as the title and `c2 ... cn` as the description
lines; the record opened by the declaration line that follows is positioned at
that line and described by `c2 ... cn` joined by single spaces, without the
title. -/
theorem description_is_text_after_title (env : Env) (file : Str) (n : Nat) (st : ScanState)
    (rawOpen raw rawClose rawDecl : Str) (rest tagLines : List Str) (hdocs : st.docs = false)
    (hopen : (partsOf env rawOpen)[0]? = some "///".toList)
    (hall : ∀ x ∈ raw :: rest, IsCommentLine env x)
    (hfree : ∀ x ∈ raw :: rest, commentText x ≠ [] ∧ (commentText x).head? ≠ some '@')
    (htags : ∀ x ∈ tagLines, IsCommentLine env x)
    (hfirst : ∀ x, tagLines.head? = some x → (commentText x).head? = some '@')
    (hclose : (partsOf env rawClose)[0]? = some "///".toList)
    (hdecl : OpensRecord env st rawDecl) :
    ∃ st1 st2 r,
      processLines env file n (rawOpen :: (raw :: rest ++ (tagLines ++ [rawClose]))) st =
        .ok st1 ∧
      st1.currentTitle = some (commentText raw) ∧
      st1.currentDescription = rest.map commentText ∧
      processLine env file (n + rest.length + tagLines.length + 3) st1 rawDecl = .ok st2 ∧
      r < st2.heap.length ∧
      (st2.currentItem = some r ∨ st2.constants = st.constants ++ [r] ∨
        st2.vars = st.vars ++ [r] ∨ st2.structs = st.structs ++ [r]) ∧
      (resolveDecl st2 r).position = posAt file (n + rest.length + tagLines.length + 3) ∧
      (resolveDecl st2 r).description = joinStr [' '] (rest.map commentText) := by
  have h1 : processLine env file n st rawOpen = .ok (docState st []) := by
    rw [processLine_toggle env file n st rawOpen hopen]
    simp [caseDocToggle, hdocs, docState]
  have h2 : processLines env file (n + 1) (raw :: rest) (docState st []) =
      .ok { st with
        docs := true, currentTitle := some (commentText raw)
        currentDescription := rest.map commentText
        tagHeap := st.tagHeap ++ [[]], currentTags := st.tagHeap.length } :=
    processLines_freeText env file raw rest (n + 1) (docState st []) rfl
      (tagsAt_append_length _ _) rfl hall hfree
  have h3 : ∃ th, processLines env file (n + 1 + (raw :: rest).length) tagLines
      { st with
        docs := true, currentTitle := some (commentText raw)
        currentDescription := rest.map commentText
        tagHeap := st.tagHeap ++ [[]], currentTags := st.tagHeap.length } =
      .ok { st with
        docs := true, currentTitle := some (commentText raw)
        currentDescription := rest.map commentText
        tagHeap := th, currentTags := st.tagHeap.length } :=
    processLines_tagLines env file tagLines (n + 1 + (raw :: rest).length)
      { st with
        docs := true, currentTitle := some (commentText raw)
        currentDescription := rest.map commentText
        tagHeap := st.tagHeap ++ [[]], currentTags := st.tagHeap.length }
      rfl (by simp) htags hfirst
  obtain ⟨th, h3⟩ := h3
  have h4 : processLines env file (n + 1 + (raw :: rest).length + tagLines.length) [rawClose]
      { st with
        docs := true, currentTitle := some (commentText raw)
        currentDescription := rest.map commentText
        tagHeap := th, currentTags := st.tagHeap.length } =
      .ok { st with
        docs := false, currentTitle := some (commentText raw)
        currentDescription := rest.map commentText
        tagHeap := th, currentTags := st.tagHeap.length } := by
    simp only [processLines]
    rw [processLine_toggle env file _ _ rawClose hclose]
    simp [caseDocToggle]
  obtain ⟨s2, r, hrun, hlt, hwhere, hpos, hdesc⟩ := processLine_opens env file
    (n + rest.length + tagLines.length + 3)
    { st with
      docs := false, currentTitle := some (commentText raw)
      currentDescription := rest.map commentText
      tagHeap := th, currentTags := st.tagHeap.length } rawDecl hdecl
  refine ⟨_, s2, r, ?_, rfl, rfl, hrun, hlt, hwhere, ?_, ?_⟩
  · have e23 : processLines env file (n + 1 + (raw :: rest).length) (tagLines ++ [rawClose])
        { st with
          docs := true, currentTitle := some (commentText raw)
          currentDescription := rest.map commentText
          tagHeap := st.tagHeap ++ [[]], currentTags := st.tagHeap.length } =
        .ok { st with
          docs := false, currentTitle := some (commentText raw)
          currentDescription := rest.map commentText
          tagHeap := th, currentTags := st.tagHeap.length } := by
      rw [processLines_append, h3]
      exact h4
    rw [processLines_cons_ok env file n st _ rawOpen _ h1, processLines_append, h2]
    exact e23
  · simpa [resolveDecl] using hpos
  · simpa [resolveDecl] using hdesc

/-- A block with the title `Order total`, two description lines and a tag with
a continuation line before the variable `total`, at the start of a document. -/
theorem description_is_text_after_title_witness :
    (initState.docs = false ∧
      (partsOf sampleEnv "///".toList)[0]? = some "///".toList ∧
      (∀ x ∈ ["// Order total".toList, "// sum of all lines".toList, "// of one order".toList],
        IsCommentLine sampleEnv x) ∧
      (∀ x ∈ ["// Order total".toList, "// sum of all lines".toList, "// of one order".toList],
        commentText x ≠ [] ∧ (commentText x).head? ≠ some '@') ∧
      (∀ x ∈ ["// @since 2.0".toList, "// and later".toList], IsCommentLine sampleEnv x) ∧
      (∀ x, ["// @since 2.0".toList, "// and later".toList].head? = some x →
        (commentText x).head? = some '@') ∧
      OpensRecord sampleEnv initState "DCL-S total PACKED(9:2);".toList) ∧
    (∃ st1 st2 r,
      processLines sampleEnv memberUri.path 0
        ("///".toList :: ("// Order total".toList ::
          ["// sum of all lines".toList, "// of one order".toList] ++
            (["// @since 2.0".toList, "// and later".toList] ++ ["///".toList])))
        initState = .ok st1 ∧
      st1.currentTitle = some (commentText "// Order total".toList) ∧
      st1.currentDescription =
        ["// sum of all lines".toList, "// of one order".toList].map commentText ∧
      processLine sampleEnv memberUri.path
        (0 + ["// sum of all lines".toList, "// of one order".toList].length +
          ["// @since 2.0".toList, "// and later".toList].length + 3) st1
        "DCL-S total PACKED(9:2);".toList = .ok st2 ∧
      r < st2.heap.length ∧
      (st2.currentItem = some r ∨ st2.constants = initState.constants ++ [r] ∨
        st2.vars = initState.vars ++ [r] ∨ st2.structs = initState.structs ++ [r]) ∧
      (resolveDecl st2 r).position =
        posAt memberUri.path
          (0 + ["// sum of all lines".toList, "// of one order".toList].length +
            ["// @since 2.0".toList, "// and later".toList].length + 3) ∧
      (resolveDecl st2 r).description =
        joinStr [' '] (["// sum of all lines".toList, "// of one order".toList].map
          commentText)) ∧
    commentText "// Order total".toList = "Order total".toList ∧
    joinStr [' '] (["// sum of all lines".toList, "// of one order".toList].map commentText) =
      "sum of all lines of one order".toList :=
  have hall : ∀ x ∈ ["// Order total".toList, "// sum of all lines".toList,
      "// of one order".toList], IsCommentLine sampleEnv x := by
    intro x hx
    simp only [List.mem_cons, List.mem_singleton, List.not_mem_nil, or_false] at hx
    rcases hx with rfl | rfl | rfl <;> exact ⟨by rfl, by decide⟩
  have hfree : ∀ x ∈ ["// Order total".toList, "// sum of all lines".toList,
      "// of one order".toList], commentText x ≠ [] ∧ (commentText x).head? ≠ some '@' := by
    intro x hx
    simp only [List.mem_cons, List.mem_singleton, List.not_mem_nil, or_false] at hx
    rcases hx with rfl | rfl | rfl <;> decide
  have htags : ∀ x ∈ ["// @since 2.0".toList, "// and later".toList],
      IsCommentLine sampleEnv x := by
    intro x hx
    simp only [List.mem_cons, List.mem_singleton, List.not_mem_nil, or_false] at hx
    rcases hx with rfl | rfl <;> exact ⟨by rfl, by decide⟩
  have hfirst : ∀ x, ["// @since 2.0".toList, "// and later".toList].head? = some x →
      (commentText x).head? = some '@' := by
    intro x hx
    simp only [List.head?_cons, Option.some.injEq] at hx
    subst hx
    rfl
  have hdecl : OpensRecord sampleEnv initState "DCL-S total PACKED(9:2);".toList :=
    Or.inr (Or.inl ⟨by rfl, rfl, by rfl⟩)
  ⟨⟨rfl, by rfl, hall, hfree, htags, hfirst, hdecl⟩,
    description_is_text_after_title sampleEnv memberUri.path 0 initState "///".toList
      "// Order total".toList "///".toList "DCL-S total PACKED(9:2);".toList
      ["// sum of all lines".toList, "// of one order".toList]
      ["// @since 2.0".toList, "// and later".toList] rfl (by rfl) hall hfree htags hfirst
      (by rfl) hdecl,
    by rfl, by rfl⟩

/-- C24: the parameter line `DCL-PARM custId packed(7);` of a prototype gives
a subitem named `DCL-PARM` with the keywords `CUSTID` and `PACKED(7)`: the
leading token is not dropped. -/
theorem getDocs_leading_dcl_token_kept :
    modelOf "DCL-PR calc;\n  DCL-PARM custId packed(7);\nEND-PR;" =
      .ok (some
        { procedures :=
            [{ type := .procedure, name := some "calc".toList, keywords := []
               description := [], tags := []
               position := some { path := memberUri.path, line := 0 }
               subItems :=
                 [{ name := some "DCL-PARM".toList
                    keywords := ["CUSTID".toList, "PACKED(7)".toList]
                    description := [] }]
               readParms := true }]
          structs := [], subroutines := [], vars := [], constants := [] }) := by
  rfl

/-- C25: a run of parameter lines, read while the open declaration is a
procedure that reads parameters, appends one subitem per line in line order.
The subitem of the line at index `j` of the run stands at index `k + j`, where
`k` is the number of subitems the procedure had before; it is named `parm`
with the number `k + j + 1` when the first token of the line is the marker
`*N`, and by the first token as written otherwise. -/
theorem parameter_subitems_named_in_order (env : Env) (file : Str) (n : Nat) (st : ScanState)
    (r : Nat) (params : List Str) (hcur : st.currentItem = some r) (hlt : r < st.heap.length)
    (htype : (deref st.heap r).type = .procedure)
    (hread : (deref st.heap r).readParms = true)
    (hall : ∀ raw ∈ params, IsParameterLine env raw) :
    ∃ st1, processLines env file n params st = .ok st1 ∧
      (deref st1.heap r).subItems =
        (deref st.heap r).subItems ++
          paramSubs env (tagsAt st.tagHeap st.currentTags) (deref st.heap r).subItems.length
            params ∧
      ∀ j raw, params[j]? = some raw →
        ∃ sub, (deref st1.heap r).subItems[(deref st.heap r).subItems.length + j]? = some sub ∧
          sub.name =
            if (partsOf env raw)[0]? = some "*N".toList then
              some ("parm".toList ++ Nat.toDigits 10 ((deref st.heap r).subItems.length + j + 1))
            else (partsLowerOf raw)[0]? := by
  have h : ProcCur st r (deref st.heap r).position (deref st.heap r).keywords true
      (deref st.heap r).subItems (tagsAt st.tagHeap st.currentTags) st.procedures :=
    ⟨hcur, hlt, htype, rfl, rfl, hread, rfl, rfl, rfl⟩
  obtain ⟨st1, hrun, hc⟩ := procCur_parameters env file params n st _ h hall
  refine ⟨st1, hrun, hc.subItems, ?_⟩
  intro j raw hj
  rw [hc.subItems, paramSubs_at env _ _ params j raw hj]
  exact ⟨_, rfl, rfl⟩

/-- Three parameter lines of the open prototype `calc`, two of them anonymous
(one with the marker in lower case). -/
theorem parameter_subitems_named_in_order_witness :
    (openPrototype.currentItem = some 0 ∧ 0 < openPrototype.heap.length ∧
      (deref openPrototype.heap 0).type = .procedure ∧
      (deref openPrototype.heap 0).readParms = true ∧
      (∀ raw ∈ ["  *N CHAR(10);".toList, "  orderQty INT(10);".toList, "  *n PACKED(5);".toList],
        IsParameterLine sampleEnv raw)) ∧
    processLines sampleEnv memberUri.path 0 ["DCL-PR calc;".toList] initState =
      .ok openPrototype ∧
    (∃ st1,
      processLines sampleEnv memberUri.path 1
        ["  *N CHAR(10);".toList, "  orderQty INT(10);".toList, "  *n PACKED(5);".toList]
        openPrototype = .ok st1 ∧
      (deref st1.heap 0).subItems =
        (deref openPrototype.heap 0).subItems ++
          paramSubs sampleEnv (tagsAt openPrototype.tagHeap openPrototype.currentTags)
            (deref openPrototype.heap 0).subItems.length
            ["  *N CHAR(10);".toList, "  orderQty INT(10);".toList, "  *n PACKED(5);".toList] ∧
      ∀ j raw,
        ["  *N CHAR(10);".toList, "  orderQty INT(10);".toList, "  *n PACKED(5);".toList][j]? =
          some raw →
        ∃ sub, (deref st1.heap 0).subItems[(deref openPrototype.heap 0).subItems.length + j]? =
            some sub ∧
          sub.name =
            if (partsOf sampleEnv raw)[0]? = some "*N".toList then
              some ("parm".toList ++
                Nat.toDigits 10 ((deref openPrototype.heap 0).subItems.length + j + 1))
            else (partsLowerOf raw)[0]?) ∧
    (paramSubs sampleEnv [] 0
        ["  *N CHAR(10);".toList, "  orderQty INT(10);".toList, "  *n PACKED(5);".toList]).map
        (fun s => s.name) =
      [some "parm1".toList, some "orderQty".toList, some "parm3".toList] :=
  have hall : ∀ raw ∈ ["  *N CHAR(10);".toList, "  orderQty INT(10);".toList,
      "  *n PACKED(5);".toList], IsParameterLine sampleEnv raw := by
    intro raw hr
    simp only [List.mem_cons, List.mem_singleton, List.not_mem_nil, or_false] at hr
    rcases hr with rfl | rfl | rfl
    · exact ⟨⟨"*N".toList, by rfl, by decide⟩, by rfl⟩
    · exact ⟨⟨"ORDERQTY".toList, by rfl, by decide⟩, by rfl⟩
    · exact ⟨⟨"*N".toList, by rfl, by decide⟩, by rfl⟩
  ⟨⟨rfl, by decide, rfl, rfl, hall⟩, by rfl,
    parameter_subitems_named_in_order sampleEnv memberUri.path 1 openPrototype 0 _ rfl
      (by decide) rfl rfl hall,
    by rfl⟩

/-- C26: in a freshly built model the upper-cased names of the records of
`subroutines` are pairwise different; and a `BEGSR` line whose name lookup
finds a record in `subroutines` leaves the scanner state as it was, so it
opens no record.  Upper-casing is taken to map ASCII as Unicode does and to
give no empty string, space or slash for a character outside ASCII. -/
theorem subroutine_names_distinct (env : Env) (hup : UpperCaseOK env) :
    (∀ (uri : Uri) (world world1 : World) (content : Str) (withIncludes : Bool) (cache : Cache),
      (lookupKey uri.path world.parsedCache).join = none →
      getDocs env uri world (some content) withIncludes = .ok (some cache, world1) →
      (cache.subroutines.map (fun d => d.name.map (toUpperCase env))).Nodup) ∧
    ∀ (file : Str) (n : Nat) (st : ScanState) (raw : Str) (r : Nat),
      (partsOf env raw)[0]? = some "BEGSR".toList →
      findByName env st.heap st.subroutines (partsOf env raw)[1]? = .ok (some r) →
      processLine env file n st raw = .ok st := by
  constructor
  · intro uri world world1 content withIncludes cache hcached hdocs
    obtain ⟨files, cb, st, _, hst, hcache, _⟩ :=
      getDocs_fresh env uri world world1 content withIncludes cache hcached hdocs
    have hd : SubsDistinct env st :=
      subsDistinct_processFiles env hup (forIn files) initState st (fun _ he => he)
        (inv_initState _ _) ⟨by simp [upperNames, initState], by simp [initState]⟩ hst
    subst hcache
    have := hd.nodup
    simpa [buildCache, upperNames, upperName, resolveDecl, Function.comp] using this
  · intro file n st raw r hp hf
    rw [processLine_eq _ _ _ _ _ (trim_ne_nil_of_parts hp), dispatch_begsr _ _ _ _ _ _ _ hp]
    simp [caseBegsr, hf]

/-- The document `subroutinesText`: the second `BEGSR` of `init` opens no
record. -/
theorem subroutine_names_distinct_witness :
    (UpperCaseOK sampleEnv ∧ (lookupKey memberUri.path emptyWorld.parsedCache).join = none ∧
      getDocs sampleEnv memberUri emptyWorld (some subroutinesText) true =
        .ok (some subroutinesCache,
          { copyBooks := [], parsedCache := [(memberUri.path, some subroutinesCache)] })) ∧
    (subroutinesCache.subroutines.map (fun d => d.name.map (toUpperCase sampleEnv))).Nodup ∧
    subroutinesCache.subroutines.map (fun d => d.name.map (toUpperCase sampleEnv)) =
      [some "INIT".toList, some "FIN".toList] :=
  ⟨⟨sampleEnv_upperCaseOK, by rfl, by rfl⟩,
    (subroutine_names_distinct sampleEnv sampleEnv_upperCaseOK).1 memberUri emptyWorld _
      subroutinesText true subroutinesCache (by rfl) (by rfl),
    by rfl⟩

/-- C27: when no declaration is open and the name lookup of a `DCL-PR` line
finds a record in `procedures` (names compared in upper case), that line, its
parameter lines and the `END-PR` line leave the scanner state as it was: no
record is added to `procedures` and no record of the heap changes. -/
theorem repeated_prototype_changes_nothing (env : Env) (file : Str) (n : Nat)
    (st : ScanState) (rawPr rawEnd : Str) (params : List Str) (r : Nat)
    (hopen : st.currentItem = none)
    (hpr : (partsOf env rawPr)[0]? = some "DCL-PR".toList)
    (hfound : findByName env st.heap st.procedures (partsOf env rawPr)[1]? = .ok (some r))
    (hall : ∀ raw ∈ params, IsParameterLine env raw)
    (hend : (partsOf env rawEnd)[0]? = some "END-PR".toList) :
    processLines env file n (rawPr :: (params ++ [rawEnd])) st = .ok st := by
  have hnone : ∀ t, currentIs st t = none := by
    intro t
    simp [currentIs, hopen]
  have h1 : processLine env file n st rawPr = .ok st := by
    rw [processLine_eq _ _ _ _ _ (trim_ne_nil_of_parts hpr), dispatch_dclPr _ _ _ _ _ _ _ hpr]
    simp [caseDclPr, hopen, hfound]
  have h2 : ∀ (ps : List Str) (m : Nat), (∀ raw ∈ ps, IsParameterLine env raw) →
      processLines env file m ps st = .ok st := by
    intro ps
    induction ps with
    | nil => intro m _; rfl
    | cons raw rest ih =>
      intro m hps
      obtain ⟨⟨p0, hp0, hnl⟩, hsl⟩ := hps raw (List.mem_cons_self _ _)
      have hdef : ∀ k ∈ switchLabels, (partsOf env raw)[0]? ≠ some k := by
        intro k hk e
        rw [hp0] at e
        cases e
        exact hnl hk
      have hsl2 : ¬ startsWith (trim raw) "//".toList = true := by rw [hsl]; simp
      have hstep : processLine env file m st raw = .ok st := by
        rw [processLine_eq _ _ _ _ _ (trim_ne_nil_of_parts hp0),
          dispatch_default _ _ _ _ _ _ _ hdef, if_neg hsl2]
        simp [caseParameter, hnone]
      simp only [processLines, hstep]
      exact ih (m + 1) (fun x hx => hps x (List.mem_cons_of_mem _ hx))
  have h3 : processLine env file (n + 1 + params.length) st rawEnd = .ok st := by
    rw [processLine_eq _ _ _ _ _ (trim_ne_nil_of_parts hend), dispatch_endPr _ _ _ _ _ _ _ hend]
    simp [caseEndProc, hnone]
  simp only [processLines, h1]
  rw [processLines_append, h2 params (n + 1) hall]
  simp only [processLines, h3]

/-- A second prototype of `calc`, written in another letter case, after the
first one. -/
theorem repeated_prototype_changes_nothing_witness :
    (afterPrototype.currentItem = none ∧
      (partsOf sampleEnv "dcl-pr Calc;".toList)[0]? = some "DCL-PR".toList ∧
      findByName sampleEnv afterPrototype.heap afterPrototype.procedures
        (partsOf sampleEnv "dcl-pr Calc;".toList)[1]? = .ok (some 0) ∧
      (∀ raw ∈ ["  x CHAR(1);".toList, "  y CHAR(1);".toList], IsParameterLine sampleEnv raw) ∧
      (partsOf sampleEnv "end-pr;".toList)[0]? = some "END-PR".toList) ∧
    processLines sampleEnv memberUri.path 0
        ["DCL-PR calc;".toList, "  a CHAR(10);".toList, "END-PR;".toList] initState =
      .ok afterPrototype ∧
    processLines sampleEnv memberUri.path 3
        ("dcl-pr Calc;".toList :: (["  x CHAR(1);".toList, "  y CHAR(1);".toList] ++
          ["end-pr;".toList])) afterPrototype =
      .ok afterPrototype :=
  have hall : ∀ raw ∈ ["  x CHAR(1);".toList, "  y CHAR(1);".toList],
      IsParameterLine sampleEnv raw := by
    intro raw hr
    simp only [List.mem_cons, List.mem_singleton, List.not_mem_nil, or_false] at hr
    rcases hr with rfl | rfl
    · exact ⟨⟨"X".toList, by rfl, by decide⟩, by rfl⟩
    · exact ⟨⟨"Y".toList, by rfl, by decide⟩, by rfl⟩
  ⟨⟨rfl, by rfl, by rfl, hall, by rfl⟩, by rfl,
    repeated_prototype_changes_nothing sampleEnv memberUri.path 3 afterPrototype
      "dcl-pr Calc;".toList "end-pr;".toList _ 0 rfl (by rfl) (by rfl) hall (by rfl)⟩

/-- C28 (as stated, refuted): when an include holds a body definition of a
procedure that the document declares by a prototype, the reused record takes
the position of the included definition and keeps its place in `procedures`,
before the record of a later prototype of the document; and an include target
`__proto__` is not among the keys the second loop visits. -/
theorem included_definition_precedes_own_prototype :
    (getDocs booksEnv memberUri emptyWorld (some reusingText) true).map
        (fun x => x.1.map (fun c => c.procedures.map (fun d => (d.name, d.position)))) =
      .ok (some
        [(some "calc".toList, some { path := "QCPYSRC,CALC_B".toList, line := 0 }),
         (some "other".toList, some { path := memberUri.path, line := 2 }),
         (some "calc".toList, some { path := "QCPYSRC,CALC_B".toList, line := 0 })]) ∧
    (discoverFiles sampleEnv memberUri [] "/COPY __proto__".toList true).map
        (fun x => (forIn x.1).map Prod.fst) =
      .ok [memberUri.path] := by
  constructor <;> rfl

/-- C28 (amended): when the document's path and the targets of its directive
lines are pairwise different and none of them is an array index or the key
`__proto__`, the second loop visits the document's path first and then the
targets in reverse document order (the target of the last directive line
first); and in `constants`, `variables`, `structs` and `subroutines` of the
model the file ranks of the records never decrease: the records of the
document's own text come first, those of a later directive's include before
those of an earlier directive's include. -/
theorem records_grouped_by_file (env : Env) (uri : Uri) (world world1 : World) (content : Str)
    (cache : Cache) (files : FilesObj) (cb : CopyBooks)
    (hcached : (lookupKey uri.path world.parsedCache).join = none)
    (hfiles : discoverFiles env uri world.copyBooks content true = .ok (files, cb))
    (hdocs : getDocs env uri world (some content) true = .ok (some cache, world1))
    (hnodup : (uri.path :: (includeTargets env (toLines content)).reverse).Nodup)
    (hplain : ∀ k ∈ uri.path :: (includeTargets env (toLines content)).reverse,
      arrayIndex? k = none ∧ k ≠ "__proto__".toList) :
    (forIn files).map Prod.fst = uri.path :: (includeTargets env (toLines content)).reverse ∧
    ∀ coll ∈ [cache.constants, cache.vars, cache.structs, cache.subroutines],
      (coll.map (fun d =>
        fileRank (uri.path :: (includeTargets env (toLines content)).reverse) d.position)).Pairwise
          (fun a b => a ≤ b) := by
  have hkeys := discoverFiles_keys env uri world.copyBooks cb content files hfiles hnodup hplain
  refine ⟨hkeys, ?_⟩
  obtain ⟨files1, cb1, st, hfiles1, hst, hcache, _⟩ :=
    getDocs_fresh env uri world world1 content true cache hcached hdocs
  rw [hfiles] at hfiles1
  simp only [Except.ok.injEq, Prod.mk.injEq] at hfiles1
  obtain ⟨rfl, rfl⟩ := hfiles1
  have hnd : ((forIn files).map Prod.fst).Nodup := by rw [hkeys]; exact hnodup
  obtain ⟨j, ho⟩ := ord_processFiles env (forIn files) hnd (forIn files) [] initState st rfl
    (inv_initState _ _) (ord_initState _) hst
  rw [hkeys] at ho
  subst hcache
  intro coll hcoll
  simp only [List.mem_cons, List.mem_singleton, List.not_mem_nil, or_false] at hcoll
  rcases hcoll with rfl | rfl | rfl | rfl
  · simpa [buildCache, ranks, resolveDecl, Function.comp] using ho.consts.1
  · simpa [buildCache, ranks, resolveDecl, Function.comp] using ho.vars.1
  · simpa [buildCache, ranks, resolveDecl, Function.comp] using ho.structs.1
  · simpa [buildCache, ranks, resolveDecl, Function.comp] using ho.subs.1

/-- The document `twoIncludesText`, whose two includes can be downloaded: the
include named last is visited first, and the variables of the model stand in
the order own text, `CUST_H`, `ORDERS_H`. -/
theorem records_grouped_by_file_witness :
    ((lookupKey memberUri.path emptyWorld.parsedCache).join = none ∧
      discoverFiles booksEnv memberUri emptyWorld.copyBooks twoIncludesText true =
        .ok (twoIncludesFiles, twoIncludesBooks) ∧
      getDocs booksEnv memberUri emptyWorld (some twoIncludesText) true =
        .ok (some twoIncludesCache,
          { copyBooks := twoIncludesBooks
            parsedCache := [(memberUri.path, some twoIncludesCache)] }) ∧
      (memberUri.path :: (includeTargets booksEnv (toLines twoIncludesText)).reverse).Nodup ∧
      ∀ k ∈ memberUri.path :: (includeTargets booksEnv (toLines twoIncludesText)).reverse,
        arrayIndex? k = none ∧ k ≠ "__proto__".toList) ∧
    ((forIn twoIncludesFiles).map Prod.fst =
        memberUri.path :: (includeTargets booksEnv (toLines twoIncludesText)).reverse ∧
      ∀ coll ∈ [twoIncludesCache.constants, twoIncludesCache.vars, twoIncludesCache.structs,
          twoIncludesCache.subroutines],
        (coll.map (fun d =>
          fileRank (memberUri.path :: (includeTargets booksEnv (toLines twoIncludesText)).reverse)
            d.position)).Pairwise (fun a b => a ≤ b)) ∧
    memberUri.path :: (includeTargets booksEnv (toLines twoIncludesText)).reverse =
      [memberUri.path, "QCPYSRC,CUST_H".toList, "QCPYSRC,ORDERS_H".toList] ∧
    twoIncludesCache.vars.map (fun d =>
        fileRank [memberUri.path, "QCPYSRC,CUST_H".toList, "QCPYSRC,ORDERS_H".toList]
          d.position) =
      [0, 1, 2] :=
  have hk : memberUri.path :: (includeTargets booksEnv (toLines twoIncludesText)).reverse =
      [memberUri.path, "QCPYSRC,CUST_H".toList, "QCPYSRC,ORDERS_H".toList] := by rfl
  have hnodup :
      (memberUri.path :: (includeTargets booksEnv (toLines twoIncludesText)).reverse).Nodup := by
    rw [hk]
    decide
  have hplain : ∀ k ∈ memberUri.path ::
      (includeTargets booksEnv (toLines twoIncludesText)).reverse,
      arrayIndex? k = none ∧ k ≠ "__proto__".toList := by
    rw [hk]
    decide
  ⟨⟨by rfl, by rfl, by rfl, hnodup, hplain⟩,
    records_grouped_by_file booksEnv memberUri emptyWorld _ twoIncludesText twoIncludesCache
      twoIncludesFiles twoIncludesBooks (by rfl) (by rfl) (by rfl) hnodup hplain,
    hk, by rfl⟩

/-- C29: a body definition whose `DCL-PROC` line is followed by a `DCL-PI`
line, parameter lines, `END-PI`, body lines and `END-PROC` pushes a record,
positioned at the `DCL-PROC` line, whose keywords are the upper-cased tokens
after the second token of the `DCL-PI` line; the keywords of the `DCL-PROC`
line are overwritten.  Without the interface (`DCL-PROC`, body lines,
`END-PROC`) the keywords are the upper-cased tokens after the second token of
the `DCL-PROC` line. -/
theorem interface_keywords_replace_definition_keywords (env : Env) (file : Str) (n : Nat)
    (st : ScanState) (rawProc rawPi rawEndPi rawEnd : Str) (params body : List Str)
    (found : Option Nat)
    (hproc : (partsOf env rawProc)[0]? = some "DCL-PROC".toList)
    (hf : findByName env st.heap st.procedures (partsOf env rawProc)[1]? = .ok found)
    (hwf : ∀ q ∈ st.procedures, q < st.heap.length ∧ (deref st.heap q).type = .procedure)
    (hpi : (partsOf env rawPi)[0]? = some "DCL-PI".toList)
    (hparams : ∀ raw ∈ params, IsParameterLine env raw)
    (hendpi : (partsOf env rawEndPi)[0]? = some "END-PI".toList)
    (hbody : ∀ raw ∈ body, IsBodyLine env raw)
    (hend : (partsOf env rawEnd)[0]? = some "END-PROC".toList) :
    (∃ st1,
      processLines env file n
        (rawProc :: rawPi :: (params ++ rawEndPi :: (body ++ [rawEnd]))) st = .ok st1 ∧
      st1.procedures = st.procedures ++ [found.getD st.heap.length] ∧
      (resolveDecl st1 (found.getD st.heap.length)).position = posAt file n ∧
      (resolveDecl st1 (found.getD st.heap.length)).keywords = (partsOf env rawPi).drop 2) ∧
    (∃ st1,
      processLines env file n (rawProc :: (body ++ [rawEnd])) st = .ok st1 ∧
      st1.procedures = st.procedures ++ [found.getD st.heap.length] ∧
      (resolveDecl st1 (found.getD st.heap.length)).position = posAt file n ∧
      (resolveDecl st1 (found.getD st.heap.length)).keywords = (partsOf env rawProc).drop 2) := by
  obtain ⟨s1, e1, c1⟩ := procCur_open env file n st rawProc found hproc hf hwf
  constructor
  · obtain ⟨s2, e2, hp, hpos, hk, _⟩ := procCur_definition env file (n + 1) c1 rawPi rawEndPi
      rawEnd params body hpi hparams hendpi hbody hend
    refine ⟨s2, ?_, hp, hpos, hk⟩
    simp only [processLines, e1]
    exact e2
  · have e2 := procCur_bodyLines env file body (n + 1) s1 c1 hbody
    obtain ⟨s3, e3, hp, _, _, hpos, hk, _⟩ :=
      procCur_close env file (n + 1 + body.length) c1 rawEnd (Or.inr hend)
    refine ⟨s3, ?_, hp, hpos, hk⟩
    simp only [processLines, e1]
    rw [processLines_append, e2]
    simp only [processLines, e3]

/-- The exported procedure `calc` at the start of a document, with and without
an interface. -/
theorem interface_keywords_replace_definition_keywords_witness :
    ((partsOf sampleEnv "DCL-PROC calc EXPORT;".toList)[0]? = some "DCL-PROC".toList ∧
      findByName sampleEnv initState.heap initState.procedures
        (partsOf sampleEnv "DCL-PROC calc EXPORT;".toList)[1]? = .ok none ∧
      (∀ q ∈ initState.procedures,
        q < initState.heap.length ∧ (deref initState.heap q).type = .procedure) ∧
      (partsOf sampleEnv "  DCL-PI *N INT(10) OPDESC;".toList)[0]? = some "DCL-PI".toList ∧
      (∀ raw ∈ ["    qty INT(10);".toList], IsParameterLine sampleEnv raw) ∧
      (partsOf sampleEnv "  END-PI;".toList)[0]? = some "END-PI".toList ∧
      (∀ raw ∈ ["".toList, "  return qty * 2;".toList], IsBodyLine sampleEnv raw) ∧
      (partsOf sampleEnv "END-PROC;".toList)[0]? = some "END-PROC".toList) ∧
    ((∃ st1,
      processLines sampleEnv memberUri.path 0
        ("DCL-PROC calc EXPORT;".toList :: "  DCL-PI *N INT(10) OPDESC;".toList ::
          (["    qty INT(10);".toList] ++ "  END-PI;".toList ::
            (["".toList, "  return qty * 2;".toList] ++ ["END-PROC;".toList]))) initState =
        .ok st1 ∧
      st1.procedures = initState.procedures ++ [(none : Option Nat).getD initState.heap.length] ∧
      (resolveDecl st1 ((none : Option Nat).getD initState.heap.length)).position =
        posAt memberUri.path 0 ∧
      (resolveDecl st1 ((none : Option Nat).getD initState.heap.length)).keywords =
        (partsOf sampleEnv "  DCL-PI *N INT(10) OPDESC;".toList).drop 2) ∧
    (∃ st1,
      processLines sampleEnv memberUri.path 0
        ("DCL-PROC calc EXPORT;".toList ::
          (["".toList, "  return qty * 2;".toList] ++ ["END-PROC;".toList])) initState =
        .ok st1 ∧
      st1.procedures = initState.procedures ++ [(none : Option Nat).getD initState.heap.length] ∧
      (resolveDecl st1 ((none : Option Nat).getD initState.heap.length)).position =
        posAt memberUri.path 0 ∧
      (resolveDecl st1 ((none : Option Nat).getD initState.heap.length)).keywords =
        (partsOf sampleEnv "DCL-PROC calc EXPORT;".toList).drop 2)) ∧
    (partsOf sampleEnv "  DCL-PI *N INT(10) OPDESC;".toList).drop 2 =
      ["INT(10)".toList, "OPDESC".toList] ∧
    (partsOf sampleEnv "DCL-PROC calc EXPORT;".toList).drop 2 = ["EXPORT".toList] :=
  have hparams : ∀ raw ∈ ["    qty INT(10);".toList], IsParameterLine sampleEnv raw := by
    intro raw hr
    simp only [List.mem_singleton] at hr
    subst hr
    exact ⟨⟨"QTY".toList, by rfl, by decide⟩, by rfl⟩
  have hbody : ∀ raw ∈ ["".toList, "  return qty * 2;".toList], IsBodyLine sampleEnv raw := by
    intro raw hr
    simp only [List.mem_cons, List.mem_singleton, List.not_mem_nil, or_false] at hr
    rcases hr with rfl | rfl <;> exact ⟨by decide, by rfl⟩
  have hwf : ∀ q ∈ initState.procedures,
      q < initState.heap.length ∧ (deref initState.heap q).type = .procedure := by
    intro q hq
    cases hq
  ⟨⟨by rfl, by rfl, hwf, by rfl, hparams, by rfl, hbody, by rfl⟩,
    interface_keywords_replace_definition_keywords sampleEnv memberUri.path 0 initState
      "DCL-PROC calc EXPORT;".toList "  DCL-PI *N INT(10) OPDESC;".toList "  END-PI;".toList
      "END-PROC;".toList ["    qty INT(10);".toList] ["".toList, "  return qty * 2;".toList] none
      (by rfl) (by rfl) hwf (by rfl) hparams (by rfl) hbody (by rfl),
    by rfl, by rfl⟩

/-- C30: when the name lookup of a `DCL-PROC` line finds the record `r` of an
earlier prototype with `k` subitems, the lines `DCL-PROC`, `DCL-PI`, `m`
parameter lines, `END-PI`, body lines and `END-PROC` leave `r` with the `k`
subitems of the prototype followed by the `m` subitems of the definition.  The
subitem of the parameter line at index `j` stands at index `k + j`; it is
named `parm` with the number `k + j + 1` when the line starts with the marker
`*N`, and it is described by the `param` tag at index `k + j` of the tag
array, if there is one. -/
theorem reused_prototype_keeps_subitems (env : Env) (file : Str) (n : Nat) (st : ScanState)
    (rawProc rawPi rawEndPi rawEnd : Str) (params body : List Str) (r : Nat)
    (hproc : (partsOf env rawProc)[0]? = some "DCL-PROC".toList)
    (hf : findByName env st.heap st.procedures (partsOf env rawProc)[1]? = .ok (some r))
    (hwf : ∀ q ∈ st.procedures, q < st.heap.length ∧ (deref st.heap q).type = .procedure)
    (hpi : (partsOf env rawPi)[0]? = some "DCL-PI".toList)
    (hparams : ∀ raw ∈ params, IsParameterLine env raw)
    (hendpi : (partsOf env rawEndPi)[0]? = some "END-PI".toList)
    (hbody : ∀ raw ∈ body, IsBodyLine env raw)
    (hend : (partsOf env rawEnd)[0]? = some "END-PROC".toList) :
    ∃ st1,
      processLines env file n
        (rawProc :: rawPi :: (params ++ rawEndPi :: (body ++ [rawEnd]))) st = .ok st1 ∧
      (resolveDecl st1 r).subItems =
        (deref st.heap r).subItems ++
          paramSubs env (tagsAt st.tagHeap st.currentTags) (deref st.heap r).subItems.length
            params ∧
      (resolveDecl st1 r).subItems.length = (deref st.heap r).subItems.length + params.length ∧
      ∀ j raw, params[j]? = some raw →
        ∃ sub, (resolveDecl st1 r).subItems[(deref st.heap r).subItems.length + j]? = some sub ∧
          sub.name =
            (if (partsOf env raw)[0]? = some "*N".toList then
              some ("parm".toList ++ Nat.toDigits 10 ((deref st.heap r).subItems.length + j + 1))
            else (partsLowerOf raw)[0]?) ∧
          sub.description =
            paramDescription (tagsAt st.tagHeap st.currentTags)
              ((deref st.heap r).subItems.length + j) := by
  obtain ⟨s1, e1, c1⟩ := procCur_open env file n st rawProc (some r) hproc hf hwf
  obtain ⟨s2, e2, _, _, _, hs⟩ := procCur_definition env file (n + 1) c1 rawPi rawEndPi
    rawEnd params body hpi hparams hendpi hbody hend
  simp only [Option.getD_some] at hs
  refine ⟨s2, ?_, hs, ?_, ?_⟩
  · simp only [processLines, e1]
    exact e2
  · rw [hs, List.length_append, paramSubs_length]
  · intro j raw hj
    rw [hs, paramSubs_at env _ _ params j raw hj]
    exact ⟨_, rfl, rfl, rfl⟩

/-- The body definition of `calc`, with two parameters and a documentation
block of two `param` tags, after a prototype of `calc` with one parameter. -/
theorem reused_prototype_keeps_subitems_witness :
    ((partsOf sampleEnv "DCL-PROC calc;".toList)[0]? = some "DCL-PROC".toList ∧
      findByName sampleEnv afterPrototypeBlock.heap afterPrototypeBlock.procedures
        (partsOf sampleEnv "DCL-PROC calc;".toList)[1]? = .ok (some 0) ∧
      (∀ q ∈ afterPrototypeBlock.procedures,
        q < afterPrototypeBlock.heap.length ∧
          (deref afterPrototypeBlock.heap q).type = .procedure) ∧
      (partsOf sampleEnv "  DCL-PI *N INT(10);".toList)[0]? = some "DCL-PI".toList ∧
      (∀ raw ∈ ["    *N CHAR(10);".toList, "    b INT(10);".toList],
        IsParameterLine sampleEnv raw) ∧
      (partsOf sampleEnv "  END-PI;".toList)[0]? = some "END-PI".toList ∧
      (∀ raw ∈ ["  return b;".toList], IsBodyLine sampleEnv raw) ∧
      (partsOf sampleEnv "END-PROC;".toList)[0]? = some "END-PROC".toList) ∧
    processLines sampleEnv memberUri.path 0
        ["DCL-PR calc;".toList, "  a CHAR(10);".toList, "END-PR;".toList, "///".toList,
          "// @param first".toList, "// @param second".toList, "///".toList] initState =
      .ok afterPrototypeBlock ∧
    (∃ st1,
      processLines sampleEnv memberUri.path 7
        ("DCL-PROC calc;".toList :: "  DCL-PI *N INT(10);".toList ::
          (["    *N CHAR(10);".toList, "    b INT(10);".toList] ++ "  END-PI;".toList ::
            (["  return b;".toList] ++ ["END-PROC;".toList]))) afterPrototypeBlock = .ok st1 ∧
      (resolveDecl st1 0).subItems =
        (deref afterPrototypeBlock.heap 0).subItems ++
          paramSubs sampleEnv
            (tagsAt afterPrototypeBlock.tagHeap afterPrototypeBlock.currentTags)
            (deref afterPrototypeBlock.heap 0).subItems.length
            ["    *N CHAR(10);".toList, "    b INT(10);".toList] ∧
      (resolveDecl st1 0).subItems.length =
        (deref afterPrototypeBlock.heap 0).subItems.length +
          ["    *N CHAR(10);".toList, "    b INT(10);".toList].length ∧
      ∀ j raw, ["    *N CHAR(10);".toList, "    b INT(10);".toList][j]? = some raw →
        ∃ sub, (resolveDecl st1 0).subItems[
            (deref afterPrototypeBlock.heap 0).subItems.length + j]? = some sub ∧
          sub.name =
            (if (partsOf sampleEnv raw)[0]? = some "*N".toList then
              some ("parm".toList ++
                Nat.toDigits 10 ((deref afterPrototypeBlock.heap 0).subItems.length + j + 1))
            else (partsLowerOf raw)[0]?) ∧
          sub.description =
            paramDescription (tagsAt afterPrototypeBlock.tagHeap afterPrototypeBlock.currentTags)
              ((deref afterPrototypeBlock.heap 0).subItems.length + j)) ∧
    (deref afterPrototypeBlock.heap 0).subItems ++
        paramSubs sampleEnv (tagsAt afterPrototypeBlock.tagHeap afterPrototypeBlock.currentTags)
          (deref afterPrototypeBlock.heap 0).subItems.length
          ["    *N CHAR(10);".toList, "    b INT(10);".toList] =
      [{ name := some "a".toList, keywords := ["CHAR(10)".toList], description := [] },
       { name := some "parm2".toList, keywords := ["CHAR(10)".toList]
         description := "second".toList },
       { name := some "b".toList, keywords := ["INT(10)".toList], description := [] }] :=
  have hparams : ∀ raw ∈ ["    *N CHAR(10);".toList, "    b INT(10);".toList],
      IsParameterLine sampleEnv raw := by
    intro raw hr
    simp only [List.mem_cons, List.mem_singleton, List.not_mem_nil, or_false] at hr
    rcases hr with rfl | rfl
    · exact ⟨⟨"*N".toList, by rfl, by decide⟩, by rfl⟩
    · exact ⟨⟨"B".toList, by rfl, by decide⟩, by rfl⟩
  have hbody : ∀ raw ∈ ["  return b;".toList], IsBodyLine sampleEnv raw := by
    intro raw hr
    simp only [List.mem_singleton] at hr
    subst hr
    exact ⟨by decide, by rfl⟩
  have hwf : ∀ q ∈ afterPrototypeBlock.procedures,
      q < afterPrototypeBlock.heap.length ∧
        (deref afterPrototypeBlock.heap q).type = .procedure := by
    intro q hq
    have : q = 0 := by simpa [afterPrototypeBlock, afterPrototype] using hq
    subst this
    exact ⟨by decide, rfl⟩
  ⟨⟨by rfl, by rfl, hwf, by rfl, hparams, by rfl, hbody, by rfl⟩, by rfl,
    reused_prototype_keeps_subitems sampleEnv memberUri.path 7 afterPrototypeBlock
      "DCL-PROC calc;".toList "  DCL-PI *N INT(10);".toList "  END-PI;".toList
      "END-PROC;".toList ["    *N CHAR(10);".toList, "    b INT(10);".toList]
      ["  return b;".toList] 0 (by rfl) (by rfl) hwf (by rfl) hparams (by rfl) hbody (by rfl),
    by rfl⟩

end RPGLE
